import Mathlib

/-!
# Hierarchical region partition (binary partition tree) of `imageplus`

Shallow embedding of `HierarchicalRegionPartition` (the forest of regions built
over a labelled pixel raster), of the region iterator that walks the leaf
coordinates of a subtree, and of the compact partition reader.

Conventions of the embedding.

* Every `Region` object allocated with `new` lives in a heap, a list of cells
  indexed by address.  A pointer is an address, `NULL` is `none`, and `delete`
  empties the cell.  The arena `_regions` is a vector of such pointers.
* A pixel coordinate is represented by its displacement in the raster buffer
  (what `SignalContainer::value_at_coord` computes), so raster order is the
  order of the displacements `0, 1, 2, ...`.
* A computation yields `Except Fault`: `undefined_behaviour` stands for what
  C++ leaves undefined (dereferencing a null or deleted pointer, indexing a
  vector or a buffer out of range), `out_of_fuel` for a loop of the source
  that was cut off by the step bound of the embedding, and `terminate` for a
  `throw;` executed while no exception is being handled.
* A file is the list of its bytes; multi-byte integers are little-endian.
-/

namespace imageplus

/-! ## Definitions -/

/-- Ways in which a computation of the embedding stops without a value. -/
inductive Fault where
  | region_index_not_found
  | undefined_behaviour
  | out_of_fuel
  | terminate
  deriving DecidableEq, Repr

/-- Result of a computation that may throw, be undefined, or be cut off. -/
abbrev Result (α : Type) := Except Fault α

/-- Pixel raster `segmentation::Partition`: the per-dimension sizes and the
label buffer in memory order (first dimension fastest). -/
structure Partition where
  sizes : List Nat
  data : List Nat
  deriving DecidableEq, Repr

/-- Modelled from the spec: `HierarchicalRegion` (`hierarchical_region.hpp` is
not among the sources).  A node of the merge tree: the `Region` members of
`region.hpp` (`_label`, `_coordinates`, `_neighbors`) together with the parent
back-reference and the children references of spec section 3.  The neighbor
container holds references to regions, in iteration order. -/
structure HierarchicalRegion where
  label : Nat
  coordinates : List Nat
  parent : Option Nat
  children : List Nat
  neighbors : List Nat
  deriving DecidableEq, Repr

/-- Modelled from the spec: the constructor `HierarchicalRegion(label)` used by
`init` builds a region with that label, no coordinates, no neighbors, no
parent and no children. -/
def HierarchicalRegion.leaf (label : Nat) : HierarchicalRegion :=
  { label := label, coordinates := [], parent := none, children := [], neighbors := [] }

/-- Modelled from the spec: the constructor
`HierarchicalRegion(label, region1, region2)` used by `merge_regions` builds an
internal region whose children are `region1` and `region2`, in that order,
with no coordinates, no neighbors and no parent. -/
def HierarchicalRegion.internal (label region1 region2 : Nat) : HierarchicalRegion :=
  { label := label, coordinates := [], parent := none, children := [region1, region2],
    neighbors := [] }

/-- Modelled from the spec: `RegionNeighborContainer::neighbors_insert`
(`region_neighbor_container.hpp` is not among the sources), as far as the set
of the region that owns the container goes.  Spec section 4.1: an ordered set
keyed by region identity; inserting an existing member is a no-op, and
iteration is ascending.  The container is built with its owner
(`_neighbors(this)` in `region.hpp`) and spec section 4.2 speaks of a
symmetric link: whether the insert also enters the owner into the set of the
other region cannot be read from the sources; this model leaves the other
set as it is. -/
def neighbors_insert (r : Nat) (ns : List Nat) : List Nat :=
  if r ∈ ns then ns else List.orderedInsert (fun a b => a ≤ b) r ns

/-- Region `is_neighbor` of `region.hpp`: `neighbors_find(r) != neighbors_end()`. -/
def is_neighbor (ns : List Nat) (r : Nat) : Bool :=
  decide (r ∈ ns)

/-- Heap of region objects; a cell is `none` once the object is deleted. -/
abbrev Heap := List (Option HierarchicalRegion)

/-- Dereference of a region pointer. -/
def deref (h : Heap) (a : Nat) : Result HierarchicalRegion :=
  match h[a]? with
  | some (some r) => .ok r
  | _ => .error .undefined_behaviour

/-- Write through a region pointer: apply `g` to the object at address `a`. -/
def modify (h : Heap) (a : Nat) (g : HierarchicalRegion → HierarchicalRegion) : Result Heap :=
  match h[a]? with
  | some (some r) => .ok (h.set a (some (g r)))
  | _ => .error .undefined_behaviour

/-- The forest `HierarchicalRegionPartition`: its data members, and the heap in
which the regions it points to live. -/
structure HierarchicalRegionPartition where
  heap : Heap
  _regions : List (Option Nat)
  _curr_max_label : Nat
  _num_mergings : Nat
  _leaves_partition : Partition
  _roots_partition : Partition
  _update_partition : Bool
  _correspondences : List (Nat × Nat)
  deriving DecidableEq, Repr

/-- A freshly constructed forest (default constructor): no regions, no
correspondences, empty rasters.  The constructor leaves `_update_partition`
and `_curr_max_label` unset, so they are parameters. -/
def HierarchicalRegionPartition.fresh (update_partition : Bool) (curr_max_label : Nat) :
    HierarchicalRegionPartition :=
  { heap := [], _regions := [], _curr_max_label := curr_max_label, _num_mergings := 0,
    _leaves_partition := ⟨[], []⟩, _roots_partition := ⟨[], []⟩,
    _update_partition := update_partition, _correspondences := [] }

/-- `set_update_partition`. -/
def set_update_partition (f : HierarchicalRegionPartition) (b : Bool) :
    HierarchicalRegionPartition :=
  { f with _update_partition := b }

/-- `_clear_regions`: delete every region the arena points to, then clear the
arena (`delete` of a null pointer does nothing). -/
def _clear_regions (f : HierarchicalRegionPartition) : HierarchicalRegionPartition :=
  { f with
    heap := f._regions.foldl (fun h slot => match slot with
      | some a => h.set a none
      | none => h) f.heap
    _regions := [] }

/-- Relabeling loop of `init`: scan the labels in raster order, give each label
not yet in `_correspondences` the next value of `current_label`, and rewrite
the pixel.  Returns the map, the counter and the rewritten buffer. -/
def relabel (corr : List (Nat × Nat)) (current_label : Nat) :
    List Nat → List (Nat × Nat) × Nat × List Nat
  | [] => (corr, current_label, [])
  | label :: rest =>
    match corr.lookup label with
    | none =>
      let r := relabel ((label, current_label) :: corr) (current_label + 1) rest
      (r.1, r.2.1, current_label :: r.2.2)
    | some v =>
      let r := relabel corr current_label rest
      (r.1, r.2.1, v :: r.2.2)

/-- Leaf creation loop of `init`: `_regions[i] = new RegionType(i)` for
`i = from, from+1, ...` (`count` iterations). -/
def create_leaves : Nat → Nat → Heap → List (Option Nat) → Result (Heap × List (Option Nat))
  | 0, _, h, regs => .ok (h, regs)
  | count + 1, i, h, regs =>
    if i < regs.length then
      create_leaves count (i + 1) (h ++ [some (HierarchicalRegion.leaf i)])
        (regs.set i (some h.length))
    else .error .undefined_behaviour

/-- Pointer stored in arena slot `label`, `*_regions[label]` being about to be
dereferenced: indexing out of range or a null pointer is undefined. -/
def slot_pointer (regs : List (Option Nat)) (label : Nat) : Result Nat :=
  match regs[label]? with
  | some (some a) => .ok a
  | _ => .error .undefined_behaviour

/-- Coordinate scan of `init`: each pixel, in raster order from position `pos`,
is appended to the coordinate list of the region of its label. -/
def add_coordinates (regs : List (Option Nat)) : Nat → List Nat → Heap → Result Heap
  | _, [], h => .ok h
  | pos, label :: rest, h => do
    let a ← slot_pointer regs label
    let h' ← modify h a (fun r => { r with coordinates := r.coordinates ++ [pos] })
    add_coordinates regs (pos + 1) rest h'

/-- Inner loop of the neighbor scan of `init`, for one pixel of label `label`:
every adjacent position whose label differs adds that label's region to the
neighbors of the pixel's region. -/
def add_pixel_neighbors (regs : List (Option Nat)) (data : List Nat) (label : Nat) :
    List Nat → Heap → Result Heap
  | [], h => .ok h
  | q :: rest, h =>
    match data[q]? with
    | none => .error .undefined_behaviour
    | some label_adj =>
      if label = label_adj then add_pixel_neighbors regs data label rest h
      else do
        let a ← slot_pointer regs label
        let b ← slot_pointer regs label_adj
        let h' ← modify h a (fun r => { r with neighbors := neighbors_insert b r.neighbors })
        add_pixel_neighbors regs data label rest h'

/-- Neighbor scan of `init` over the pixels from position `pos` on.  `adj pos`
lists the positions the adjacency iterator of the configured connectivity
yields at `pos` (the in-grid neighbors, in table order). -/
def add_neighbors (adj : Nat → List Nat) (regs : List (Option Nat)) (data : List Nat) :
    Nat → List Nat → Heap → Result Heap
  | _, [], h => .ok h
  | pos, label :: rest, h => do
    let h' ← add_pixel_neighbors regs data label (adj pos) h
    add_neighbors adj regs data (pos + 1) rest h'

/-- `init`: reset the forest, relabel the raster densely in first-seen order,
size the arena to `2 * _curr_max_label + 1` slots (64-bit unsigned
arithmetic), create one leaf per label, and scan coordinates and neighbors. -/
def init (adj : Nat → List Nat) (f : HierarchicalRegionPartition)
    (initial_partition : Partition) : Result HierarchicalRegionPartition := do
  let f0 := _clear_regions f
  let r := relabel f._correspondences 0 initial_partition.data
  let current_label := r.2.1
  let leaves : Partition := { initial_partition with data := r.2.2 }
  let curr_max_label := (current_label + (2 ^ 64 - 1)) % 2 ^ 64
  let regs0 : List (Option Nat) := List.replicate ((2 * curr_max_label + 1) % 2 ^ 64) none
  let (h1, regs) ← create_leaves current_label 0 f0.heap regs0
  let h2 ← add_coordinates regs 0 leaves.data h1
  let h3 ← add_neighbors adj regs leaves.data 0 leaves.data h2
  return { heap := h3, _regions := regs, _curr_max_label := curr_max_label, _num_mergings := 0,
           _leaves_partition := leaves, _roots_partition := initial_partition,
           _update_partition := f._update_partition, _correspondences := r.1 }

/-- Write of one label into a raster at a coordinate (`partition(c)(0) = v`);
a displacement outside the buffer is undefined. -/
def Partition.write (p : Partition) (c : Nat) (v : Nat) : Result Partition :=
  if c < p.data.length then .ok { p with data := p.data.set c v }
  else .error .undefined_behaviour

/-- Position of a `RegionIteratorBase`: the region it was started on, the
region whose coordinate container it is in, the end flag and the index in that
container. -/
structure RegionIteratorBase where
  _start_reg : Nat
  _current_reg : Nat
  _end : Bool
  _coord : Nat
  deriving DecidableEq, Repr

/-- Descent loop of the iterator:
`while (_current_reg->coordinates().size() == 0) _current_reg = _current_reg->child(0)`.
The first argument bounds the number of iterations. -/
def descend (h : Heap) : Nat → Nat → Result Nat
  | 0, _ => .error .out_of_fuel
  | fuel + 1, cur => do
    let r ← deref h cur
    if r.coordinates.length = 0 then
      match r.children[0]? with
      | some c => descend h fuel c
      | none => .error .undefined_behaviour
    else .ok cur

/-- Constructor `RegionIteratorBase(reg, pos_end)`.  For the end position only
`_start_reg` and `_end` are set; the other two members are never read. -/
def RegionIteratorBase.make (h : Heap) (fuel : Nat) (reg : Nat) (pos_end : Bool) :
    Result RegionIteratorBase :=
  if pos_end then .ok ⟨reg, reg, true, 0⟩
  else do
    let cur ← descend h fuel reg
    .ok ⟨reg, cur, false, 0⟩

/-- Climbing loop of `operator++` (`while (!_end) ...`), entered with `_end`
false: returns the new `_current_reg` and the new `_end`.  The first argument
bounds the number of iterations. -/
def climb (h : Heap) (start : Nat) : Nat → Nat → Result (Nat × Bool)
  | 0, _ => .error .out_of_fuel
  | fuel + 1, cur => do
    let r ← deref h cur
    if r.parent.isNone && r.coordinates.length ≠ 0 then .ok (cur, true)
    else
      match r.parent with
      | none => .error .undefined_behaviour
      | some p => do
        let pr ← deref h p
        match pr.children[0]? with
        | none => .error .undefined_behaviour
        | some c0 =>
          if c0 = cur then
            match pr.children[1]? with
            | some c1 => .ok (c1, false)
            | none => .error .undefined_behaviour
          else if p = start then .ok (p, true)
          else climb h start fuel p

/-- Iterator `operator++`. -/
def RegionIteratorBase.increment (h : Heap) (fuel : Nat) (it : RegionIteratorBase) :
    Result RegionIteratorBase :=
  if it._end then .ok it
  else do
    let r ← deref h it._current_reg
    let coord := it._coord + 1
    if coord = r.coordinates.length then
      if it._current_reg = it._start_reg then .ok { it with _coord := coord, _end := true }
      else do
        let (cur, e) ← climb h it._start_reg fuel it._current_reg
        if e then .ok ⟨it._start_reg, cur, true, coord⟩
        else do
          let lf ← descend h fuel cur
          .ok ⟨it._start_reg, lf, false, 0⟩
    else .ok { it with _coord := coord }

/-- Iterator `operator*`: the coordinate at the current index of the current
region. -/
def RegionIteratorBase.get (h : Heap) (it : RegionIteratorBase) : Result Nat := do
  let r ← deref h it._current_reg
  match r.coordinates[it._coord]? with
  | some c => .ok c
  | none => .error .undefined_behaviour

/-- Loop of `_update_roots_partition`: `for (c = reg.begin(); c != reg.end(); ++c)`
writes `label` at every coordinate the iterator yields.  `fuel` bounds the
inner loops of the iterator, the second argument the iterations of this loop. -/
def update_roots_loop (h : Heap) (label : Nat) (fuel : Nat) :
    Nat → RegionIteratorBase → Partition → Result Partition
  | 0, _, _ => .error .out_of_fuel
  | n + 1, it, roots =>
    if it._end then .ok roots
    else do
      let c ← it.get h
      let roots' ← roots.write c label
      let it' ← it.increment h fuel
      update_roots_loop h label fuel n it' roots'

/-- `_update_roots_partition(reg)`: relabel in the roots raster every pixel the
region iterator of `reg` yields. -/
def _update_roots_partition (fuel : Nat) (f : HierarchicalRegionPartition) (reg : Nat) :
    Result HierarchicalRegionPartition := do
  let r ← deref f.heap reg
  let it ← RegionIteratorBase.make f.heap fuel reg false
  let roots ← update_roots_loop f.heap r.label fuel fuel it f._roots_partition
  .ok { f with _roots_partition := roots }

/-- First loop of the neighbor update of `merge_regions`: every neighbor of
`region1` other than `region2` is added to the parent. -/
def merge_neighbors_first (region2 : Nat) (ns1 : List Nat) (parent_ns : List Nat) : List Nat :=
  ns1.foldl (fun acc n => if n ≠ region2 then neighbors_insert n acc else acc) parent_ns

/-- Second loop of the neighbor update of `merge_regions`: every neighbor of
`region2` other than `region1` that the parent does not have yet is added. -/
def merge_neighbors_second (region1 : Nat) (ns2 : List Nat) (parent_ns : List Nat) : List Nat :=
  ns2.foldl (fun acc n =>
    if n ≠ region1 then (if !is_neighbor acc n then neighbors_insert n acc else acc) else acc)
    parent_ns

/-- `merge_regions(RegionType& region1, RegionType& region2, father_label)`;
the regions are given by address, and the address of the new parent is
returned with the new forest.  The test `father_label != _regions.size()-1`
only builds an `ImagePlusError` object that is never thrown, so it has no
effect.  Storing into `_regions[father_label]` is undefined outside the arena. -/
def merge_regions (fuel : Nat) (f : HierarchicalRegionPartition) (region1 region2 : Nat)
    (father_label : Nat) : Result (HierarchicalRegionPartition × Nat) := do
  let _ ← deref f.heap region1
  let _ ← deref f.heap region2
  let curr_max_label := max f._curr_max_label father_label
  let father_pointer := f.heap.length
  let h0 : Heap := f.heap ++ [some (HierarchicalRegion.internal father_label region1 region2)]
  if father_label < f._regions.length then
    let regs := f._regions.set father_label (some father_pointer)
    let h1 ← modify h0 region1 (fun r => { r with parent := some father_pointer })
    let h2 ← modify h1 region2 (fun r => { r with parent := some father_pointer })
    let r1 ← deref h2 region1
    let r2 ← deref h2 region2
    let ns := merge_neighbors_second region1 r2.neighbors
      (merge_neighbors_first region2 r1.neighbors [])
    let h3 ← modify h2 father_pointer (fun r => { r with neighbors := ns })
    let h4 ← modify h3 region1 (fun r => { r with neighbors := [] })
    let h5 ← modify h4 region2 (fun r => { r with neighbors := [] })
    let f1 : HierarchicalRegionPartition :=
      { f with heap := h5, _regions := regs, _curr_max_label := curr_max_label,
               _num_mergings := f._num_mergings + 1 }
    if f._update_partition then do
      let f2 ← _update_roots_partition fuel f1 father_pointer
      .ok (f2, father_pointer)
    else .ok (f1, father_pointer)
  else .error .undefined_behaviour

/-- `merge_regions(label1, label2, father)`: the regions are taken from the
arena slots of the two labels.  The four `ASSERT` lines are not evaluated (the
macro is not defined in the sources, and its arguments do not type-check as
C++ expressions, so the function only compiles with assertions compiled out). -/
def merge_regions_by_label (fuel : Nat) (f : HierarchicalRegionPartition)
    (label1 label2 father : Nat) : Result (HierarchicalRegionPartition × Nat) := do
  let a1 ← slot_pointer f._regions label1
  let a2 ← slot_pointer f._regions label2
  merge_regions fuel f a1 a2 father

/-- `_region_by_label`, and `operator()`, which forwards to it: throws for a
label outside the arena, otherwise dereferences the pointer of the slot
without testing it. -/
def _region_by_label (f : HierarchicalRegionPartition) (label : Nat) :
    Result HierarchicalRegion :=
  if label ≥ f._regions.length then .error .region_index_not_found
  else do
    let a ← slot_pointer f._regions label
    deref f.heap a

/-- Conditional iterator over the arena, from `begin()` to `end()`: null
slots are skipped and the other pointers are dereferenced to evaluate the
condition; yields the regions that satisfy it, in slot order. -/
def conditional_view (cond : HierarchicalRegion → Bool) (h : Heap) :
    List (Option Nat) → Result (List HierarchicalRegion)
  | [] => .ok []
  | none :: rest => conditional_view cond h rest
  | some a :: rest => do
    let r ← deref h a
    let tl ← conditional_view cond h rest
    .ok (if cond r then r :: tl else tl)

/-- Condition functor `global`. -/
def global (_r : HierarchicalRegion) : Bool := true

/-- Condition functor `leaves`. -/
def leaves (r : HierarchicalRegion) : Bool := r.children.length == 0

/-- Condition functor `non_leaves`. -/
def non_leaves (r : HierarchicalRegion) : Bool := decide (r.children.length > 0)

/-- Condition functor `roots`. -/
def roots (r : HierarchicalRegion) : Bool := r.parent.isNone

/-- Condition functor `non_roots`. -/
def non_roots (r : HierarchicalRegion) : Bool := r.parent.isSome

/-- Coordinate reconstruction loop of `prune`:
`for (it = region.begin(); it != region.end(); ++it)` appends `*it` to the
coordinates of `region` and writes the label of `region` in the leaves raster.
The iterator reads the heap as the loop body leaves it. -/
def prune_fill (region : Nat) (label : Nat) (fuel : Nat) :
    Nat → RegionIteratorBase → Heap → Partition → Result (Heap × Partition)
  | 0, _, _, _ => .error .out_of_fuel
  | n + 1, it, h, lp =>
    if it._end then .ok (h, lp)
    else do
      let c ← it.get h
      let h' ← modify h region (fun r => { r with coordinates := r.coordinates ++ [c] })
      let lp' ← lp.write c label
      let it' ← it.increment h' fuel
      prune_fill region label fuel n it' h' lp'

/-- Labels of the children of a region: `child(ii)->label()` for every `ii`. -/
def children_labels (h : Heap) (r : HierarchicalRegion) : Result (List Nat) :=
  r.children.mapM (fun c => do let cr ← deref h c; .ok cr.label)

/-- Breadth-first loop of `prune` (`while (head != tail)`): the queue `to_look`
of labels grows by the children of each region looked up, `head` being its
size.  The first argument bounds the number of iterations. -/
def prune_scan (h : Heap) (regs : List (Option Nat)) :
    Nat → List Nat → Nat → Result (List Nat)
  | 0, _, _ => .error .out_of_fuel
  | fuel + 1, to_look, tail =>
    if to_look.length = tail then .ok to_look
    else
      match to_look[tail]? with
      | none => .error .undefined_behaviour
      | some curr => do
        let a ← slot_pointer regs curr
        let r ← deref h a
        let ls ← children_labels h r
        prune_scan h regs fuel (to_look ++ ls) (tail + 1)

/-- Erase loop of `prune`: `delete _regions[l]; _regions[l] = NULL` for every
label of the queue.  Deleting a null pointer does nothing; indexing outside
the arena and deleting a pointer twice are undefined. -/
def prune_erase : List Nat → Heap → List (Option Nat) → Result (Heap × List (Option Nat))
  | [], h, regs => .ok (h, regs)
  | l :: rest, h, regs =>
    match regs[l]? with
    | none => .error .undefined_behaviour
    | some none => prune_erase rest h (regs.set l none)
    | some (some a) =>
      match h[a]? with
      | some (some _) => prune_erase rest (h.set a none) (regs.set l none)
      | _ => .error .undefined_behaviour

/-- `prune(RegionType& region)`, the region given by address. -/
def prune (fuel : Nat) (f : HierarchicalRegionPartition) (region : Nat) :
    Result HierarchicalRegionPartition := do
  let r ← deref f.heap region
  if r.children.length > 0 then do
    let (h1, lp) ←
      if r.coordinates.length = 0 then do
        let it ← RegionIteratorBase.make f.heap fuel region false
        prune_fill region r.label fuel fuel it f.heap f._leaves_partition
      else .ok (f.heap, f._leaves_partition)
    let r1 ← deref h1 region
    let to_look ← children_labels h1 r1
    let h2 ← modify h1 region (fun x => { x with children := [] })
    let to_look' ← prune_scan h2 f._regions fuel to_look 0
    let (h3, regs) ← prune_erase to_look' h2 f._regions
    .ok { f with heap := h3, _regions := regs, _leaves_partition := lp }
  else .ok f

/-- `prune(label)`: `prune(*_regions[label])`. -/
def prune_by_label (fuel : Nat) (f : HierarchicalRegionPartition) (label : Nat) :
    Result HierarchicalRegionPartition := do
  let a ← slot_pointer f._regions label
  prune fuel f a

/-- `Region::add_neighbor(r)` (`region.hpp`), called on the region at address
`a`: `_neighbors.neighbors_insert(r)`. -/
def add_neighbor (h : Heap) (a : Nat) (r : Nat) : Result Heap :=
  modify h a (fun x => { x with neighbors := neighbors_insert r x.neighbors })

/-- `Region::clear_neighbors()` (`region.hpp`), called on the region at address
`a`. -/
def clear_neighbors (h : Heap) (a : Nat) : Result Heap :=
  modify h a (fun x => { x with neighbors := [] })

/-- Adjacency iterator `general_adjacency_iterator_type` on a two-dimensional
grid of `size_x * size_y` pixels, from `begin` to `end` at the position of
displacement `pos`: the positions `pos + offset`, in the order of the offset
table `neighborhood`, that lie between the lower point `(0, 0)` and the upper
point `(size_x - 1, size_y - 1)` (`_find_inside_neighbor`), as displacements.
The offset table of a connectivity (`space_neighbors.hpp`) is not among the
sources and is a parameter. -/
def grid_adjacency (size_x size_y : Nat) (neighborhood : List (Int × Int)) (pos : Nat) :
    List Nat :=
  let x : Int := ((pos % size_x : Nat) : Int)
  let y : Int := ((pos / size_x : Nat) : Int)
  neighborhood.filterMap (fun d =>
    let nx := x + d.1
    let ny := y + d.2
    if 0 ≤ nx ∧ 0 ≤ ny ∧ 0 ≤ (size_x : Int) - 1 - nx ∧ 0 ≤ (size_y : Int) - 1 - ny
    then some (nx + ny * (size_x : Int)).toNat else none)

/-- Offsets of the forward half of the 4-connected neighborhood of a 2-D grid
(right and down), each adjacency being met once in a raster scan. -/
def forward_connectivity4 : List (Int × Int) := [(1, 0), (0, 1)]

/-- Offsets of the full 4-connected neighborhood of a 2-D grid. -/
def connectivity4 : List (Int × Int) := [(-1, 0), (1, 0), (0, -1), (0, 1)]

/-- Part of a region that the coordinate and neighbor scans never change. -/
def skeleton (r : HierarchicalRegion) : Nat × Option Nat × List Nat :=
  (r.label, r.parent, r.children)

/-- Skeletons of all the cells of a heap. -/
def heap_skeleton (h : Heap) : List (Option (Nat × Option Nat × List Nat)) :=
  h.map (Option.map skeleton)

/-- The arena maps every label below `L` to a live region of the skeleton. -/
def ArenaCovers (S : List (Option (Nat × Option Nat × List Nat))) (regs : List (Option Nat))
    (L : Nat) : Prop :=
  ∀ l, l < L → ∃ a s, regs[l]? = some (some a) ∧ S[a]? = some (some s)

/-- The 4x4 raster of the concrete scenario: label 1 on the two left columns,
label 2 on the two right columns. -/
def raster4x4 : Partition :=
  ⟨[4, 4], [1, 1, 2, 2, 1, 1, 2, 2, 1, 1, 2, 2, 1, 1, 2, 2]⟩

/-- Cell at address `x` of the heap that `merge_regions` leaves: the new parent
at the first free address, the two merged regions with their parent set and
their neighbors cleared, every other cell as before. -/
def merged_cell (h : Heap) (region1 region2 father_label : Nat) (x : Nat) :
    Option (Option HierarchicalRegion) :=
  if x = h.length then
    match h[region1]?, h[region2]? with
    | some (some r1), some (some r2) =>
      some (some { HierarchicalRegion.internal father_label region1 region2 with
        neighbors := merge_neighbors_second region1 r2.neighbors
          (merge_neighbors_first region2 r1.neighbors []) })
    | _, _ => none
  else if x = region1 ∨ x = region2 then
    (h[x]?).map (Option.map (fun r => { r with parent := some h.length, neighbors := [] }))
  else h[x]?

/-- Forest that `init` builds on a freshly constructed forest with roots
updating enabled (the fresh forest itself if `init` does not return). -/
def forest_of (adj : Nat → List Nat) (p : Partition) : HierarchicalRegionPartition :=
  match init adj (HierarchicalRegionPartition.fresh true 0) p with
  | .ok f => f
  | .error _ => HierarchicalRegionPartition.fresh true 0

/-- Forest after `merge_regions` on two regions given by address (the forest
itself if the call does not return). -/
def merged (fuel : Nat) (f : HierarchicalRegionPartition) (region1 region2 father_label : Nat) :
    HierarchicalRegionPartition :=
  match merge_regions fuel f region1 region2 father_label with
  | .ok r => r.1
  | .error _ => f

/-- Forest after `prune` of the region at an address (the forest itself if the
call does not return). -/
def pruned (fuel : Nat) (f : HierarchicalRegionPartition) (region : Nat) :
    HierarchicalRegionPartition :=
  match prune fuel f region with
  | .ok r => r
  | .error _ => f

/-- The 4x4 two-region scenario: `init` under the 4-connectivity. -/
def scenario4x4 : HierarchicalRegionPartition :=
  forest_of (grid_adjacency 4 4 connectivity4) raster4x4

/-- A 3x1 raster with three labels. -/
def raster3x1 : Partition := ⟨[3, 1], [7, 8, 9]⟩

/-- Forest of the 3x1 raster under the 4-connectivity: three leaves in a row. -/
def scenario3x1 : HierarchicalRegionPartition :=
  forest_of (grid_adjacency 3 1 connectivity4) raster3x1

/-- A 2x1 raster with two labels. -/
def raster2x1 : Partition := ⟨[2, 1], [7, 9]⟩

/-- Forest of the 2x1 raster under the 4-connectivity in which region 0 was
also given itself as a neighbor through the public `add_neighbor`. -/
def scenario_self_loop : HierarchicalRegionPartition :=
  let f := forest_of (grid_adjacency 2 1 connectivity4) raster2x1
  match add_neighbor f.heap 0 0 with
  | .ok h => { f with heap := h }
  | .error _ => f

/-- Neighbor set of the region at address `a` (empty if there is no region). -/
def nbrs_of (h : Heap) (a : Nat) : List Nat :=
  match h[a]? with
  | some (some r) => r.neighbors
  | _ => []

/-- `Under h top x`: following parent pointers from the region at address `x`
leads to the region at address `top` (in zero or more steps), that is, `x` is
`top` or was merged into it. -/
inductive Under (h : Heap) (top : Nat) : Nat → Prop where
  | refl : Under h top top
  | step (x p : Nat) (r : HierarchicalRegion) :
      h[x]? = some (some r) → r.parent = some p → Under h top p → Under h top x

/-- Forest states reached from `init` (on a freshly constructed forest, for the
raster `p` and the adjacency `adj`) by any sequence of `merge_regions` calls,
each on two distinct regions that have no parent. -/
inductive MergeReachable (adj : Nat → List Nat) (p : Partition) :
    HierarchicalRegionPartition → Prop where
  | init (u : Bool) (m : Nat) (f : HierarchicalRegionPartition) :
      imageplus.init adj (HierarchicalRegionPartition.fresh u m) p = .ok f →
      MergeReachable adj p f
  | merge (fuel : Nat) (f f' : HierarchicalRegionPartition) (A B label P : Nat)
      (rA rB : HierarchicalRegion) :
      MergeReachable adj p f → A ≠ B →
      f.heap[A]? = some (some rA) → rA.parent = none →
      f.heap[B]? = some (some rB) → rB.parent = none →
      merge_regions fuel f A B label = .ok (f', P) →
      MergeReachable adj p f'

/-- Invariant of the forest states reached by merges of parent-less regions:
parents and neighbors are addresses of the heap, and the neighbor relation of
the parent-less regions is symmetric up to merges. -/
structure MergeInv (f : HierarchicalRegionPartition) : Prop where
  parent_lt : ∀ (a p : Nat) (r : HierarchicalRegion),
    f.heap[a]? = some (some r) → r.parent = some p → p < f.heap.length
  nbrs_lt : ∀ (a x : Nat) (r : HierarchicalRegion),
    f.heap[a]? = some (some r) → x ∈ r.neighbors → x < f.heap.length
  sym : ∀ (A B : Nat) (rA rB : HierarchicalRegion), A ≠ B →
    f.heap[A]? = some (some rA) → f.heap[B]? = some (some rB) →
    rA.parent = none → rB.parent = none →
    (∃ x ∈ rA.neighbors, Under f.heap B x) → ∃ y ∈ rB.neighbors, Under f.heap A y

/-- Facts about the heap after a merge of the regions `A`, `B` of the heap `h`
into a new parent at address `h.length`. -/
structure MergedHeap (h h' : Heap) (A B : Nat) (rA rB : HierarchicalRegion) (ns : List Nat) :
    Prop where
  aliveA : h[A]? = some (some rA)
  aliveB : h[B]? = some (some rB)
  rootA : rA.parent = none
  rootB : rB.parent = none
  length : h'.length = h.length + 1
  other : ∀ x, x ≠ A → x ≠ B → x ≠ h.length → h'[x]? = h[x]?
  cellA : h'[A]? = some (some { rA with parent := some h.length, neighbors := [] })
  cellB : h'[B]? = some (some { rB with parent := some h.length, neighbors := [] })
  cellP : ∃ rP, h'[h.length]? = some (some rP) ∧ rP.parent = none ∧ rP.neighbors = ns
  mem_ns : ∀ x, x ∈ ns ↔ (x ∈ rA.neighbors ∧ x ≠ B) ∨ (x ∈ rB.neighbors ∧ x ≠ A)

/-- Shape of a finite binary tree of regions: the address of every node. -/
inductive BTree where
  | leaf (a : Nat) : BTree
  | node (a : Nat) (l r : BTree) : BTree
  deriving DecidableEq, Repr

/-- Address of the root of a tree. -/
def BTree.addr : BTree → Nat
  | .leaf a => a
  | .node a _ _ => a

/-- Addresses of all the nodes of a tree, root first. -/
def BTree.nodes : BTree → List Nat
  | .leaf a => [a]
  | .node a l r => a :: (l.nodes ++ r.nodes)

/-- Addresses of the leaves of a tree, left to right (child 0 before child 1). -/
def BTree.leaf_addrs : BTree → List Nat
  | .leaf a => [a]
  | .node _ l r => l.leaf_addrs ++ r.leaf_addrs

/-- Leftmost leaf. -/
def BTree.first_leaf : BTree → Nat
  | .leaf a => a
  | .node _ l _ => l.first_leaf

/-- Rightmost leaf. -/
def BTree.last_leaf : BTree → Nat
  | .leaf a => a
  | .node _ _ r => r.last_leaf

/-- Length of the leftmost branch. -/
def BTree.ldepth : BTree → Nat
  | .leaf _ => 0
  | .node _ l _ => l.ldepth + 1

/-- Length of the rightmost branch. -/
def BTree.rdepth : BTree → Nat
  | .leaf _ => 0
  | .node _ _ r => r.rdepth + 1

/-- Height of a tree. -/
def BTree.height : BTree → Nat
  | .leaf _ => 0
  | .node _ l r => max l.height r.height + 1

/-- Coordinate list of the region at address `a` (empty if there is none). -/
def coords_of (h : Heap) (a : Nat) : List Nat :=
  match h[a]? with
  | some (some r) => r.coordinates
  | _ => []

/-- Concatenation of the coordinate lists of the leaves of a tree, left to right. -/
def BTree.coords (h : Heap) (t : BTree) : List Nat :=
  (t.leaf_addrs.map (coords_of h)).flatten

/-- The region at address `c` has the region at address `a` as its parent. -/
def ParentIs (h : Heap) (c a : Nat) : Prop :=
  ∃ rc, h[c]? = some (some rc) ∧ rc.parent = some a

/-- The heap holds the tree `t`: a leaf is a region without children and with
a non-empty coordinate list; an internal node is a region with an empty
coordinate list whose children are the roots of the two subtrees, two
different regions that both have it as their parent. -/
def TreeAt (h : Heap) : BTree → Prop
  | .leaf a => ∃ r, h[a]? = some (some r) ∧ r.children = [] ∧ r.coordinates ≠ []
  | .node a l r => ∃ reg, h[a]? = some (some reg) ∧ reg.children = [l.addr, r.addr]
      ∧ reg.coordinates = [] ∧ l.addr ≠ r.addr ∧ ParentIs h l.addr a ∧ ParentIs h r.addr a
      ∧ TreeAt h l ∧ TreeAt h r

/-- Chain of the leaves that the region iterator started on `start` visits:
every leaf has coordinates; from a leaf that is not the last one `operator++`
climbs (without reaching the end) and descends to the next leaf; at the last
leaf it reaches the end. -/
def Chain (h : Heap) (start fuel : Nat) : List Nat → Prop
  | [] => True
  | l :: rest =>
    coords_of h l ≠ []
    ∧ (match rest with
       | [] => l = start ∨ ∃ c, climb h start fuel l = .ok (c, true)
       | l' :: _ => l ≠ start
          ∧ ∃ c, climb h start fuel l = .ok (c, false) ∧ descend h fuel c = .ok l')
    ∧ Chain h start fuel rest

/-- What follows the last leaf of a subtree: the outcome `K` of climbing from
the root of the subtree leads to the end, or to the first leaf of the rest. -/
def RestOK (h : Heap) (start fuel : Nat) (K : Nat × Bool) : List Nat → Prop
  | [] => K.2 = true
  | l' :: rest => K.2 = false ∧ descend h fuel K.1 = .ok l' ∧ Chain h start fuel (l' :: rest)

/-- Writes of one label at a list of coordinates, in order. -/
def write_all (p : Partition) (cs : List Nat) (v : Nat) : Result Partition :=
  cs.foldlM (fun q c => q.write c v) p

/-- Heap in which the coordinate list of the region at address `a` was
extended by `cs`. -/
def append_coords (h : Heap) (a : Nat) (cs : List Nat) : Heap :=
  match h[a]? with
  | some (some r) => h.set a (some { r with coordinates := r.coordinates ++ cs })
  | _ => h

/-- Number of nodes of a tree. -/
def BTree.size : BTree → Nat
  | .leaf _ => 1
  | .node _ l r => l.size + r.size + 1

/-- Subtrees of the root of a tree. -/
def BTree.subtrees : BTree → List BTree
  | .leaf _ => []
  | .node _ l r => [l, r]

/-- Breadth-first order of the node addresses of a queue of trees (at most
`n` nodes are listed). -/
def bfs_order : Nat → List BTree → List Nat
  | 0, _ => []
  | _ + 1, [] => []
  | n + 1, t :: ts => t.addr :: bfs_order n (ts ++ t.subtrees)

/-- Label of the region at address `a` (0 if there is none). -/
def label_of (h : Heap) (a : Nat) : Nat :=
  match h[a]? with
  | some (some r) => r.label
  | _ => 0

/-- The arena holds every node of the tree in the slot of its label. -/
def ArenaHolds (h : Heap) (regs : List (Option Nat)) (t : BTree) : Prop :=
  ∀ d ∈ t.nodes, ∃ rd, h[d]? = some (some rd) ∧ regs[rd.label]? = some (some d)

/-- State of the erase loop of `prune` over the nodes `D` of the heap `h0`
registered in the arena `regs0`: a node is either untouched and still in the
slot of its label, or deleted with its slot emptied; nothing else changed. -/
structure EraseInv (h0 : Heap) (regs0 : List (Option Nat)) (D : List Nat) (h : Heap)
    (regs : List (Option Nat)) : Prop where
  heap_length : h.length = h0.length
  regs_length : regs.length = regs0.length
  other : ∀ x, x ∉ D → h[x]? = h0[x]?
  node : ∀ d ∈ D, (h[d]? = h0[d]? ∧ regs[label_of h0 d]? = some (some d))
    ∨ (h[d]? = some none ∧ regs[label_of h0 d]? = some none)
  slot : ∀ i, (∀ d ∈ D, label_of h0 d ≠ i) → regs[i]? = regs0[i]?

/-- The region `reg` at address `region` of the forest `f` is internal and
its subtree is a finite binary tree of the forest: its two children are the
roots of the trees `l` and `r`, all the nodes are different regions, every
node below `region` has its parent link on the node above it, is stored in
the arena slot of its label, has no coordinates if it is internal and a
non-empty coordinate list if it is a leaf, and the leaf coordinates are
pixels of the raster. -/
structure BinarySubtree (f : HierarchicalRegionPartition) (region : Nat)
    (reg : HierarchicalRegion) (l r : BTree) : Prop where
  alive : f.heap[region]? = some (some reg)
  children : reg.children = [l.addr, r.addr]
  distinct : (region :: (l.nodes ++ r.nodes)).Nodup
  parent_left : ParentIs f.heap l.addr region
  parent_right : ParentIs f.heap r.addr region
  left : TreeAt f.heap l
  right : TreeAt f.heap r
  arena_left : ArenaHolds f.heap f._regions l
  arena_right : ArenaHolds f.heap f._regions r
  in_raster : ∀ c ∈ l.coords f.heap ++ r.coords f.heap, c < f._leaves_partition.data.length

/-- Forest of the 3x1 raster after `merge_regions(0, 1, 3)` and
`merge_regions(3, 2, 4)`: the root at address 4 has the children 3 and 2, and
region 3 has the leaves 0 and 1 as children. -/
def scenario_tree : HierarchicalRegionPartition :=
  merged 20 (merged 20 scenario3x1 0 1 3) 3 2 4

/-- Content of the partition file of the raw format: the number of
dimensions, the size of each dimension, and the label buffer. -/
structure PartitionFile where
  dimensions : Nat
  sizes : List Nat
  data : List Nat
  deriving DecidableEq, Repr

/-- Content of the mergings file of the raw format: the count, and the array
`a` of 64-bit words that follows it. -/
structure MergingsFile where
  num_mergings : Nat
  a : List Nat
  deriving DecidableEq, Repr

/-- Loop of `save_to_files` over the non-leaf regions: for each of them the
words `child(0)->label()`, `child(1)->label()` and `label()`. -/
def merging_words (h : Heap) : List HierarchicalRegion → Result (List Nat)
  | [] => .ok []
  | r :: rest =>
    match r.children[0]?, r.children[1]? with
    | some c0, some c1 => do
      let r0 ← deref h c0
      let r1 ← deref h c1
      let tl ← merging_words h rest
      .ok (r0.label :: r1.label :: r.label :: tl)
    | _, _ => .error .undefined_behaviour

/-- `save_to_files`: the partition file holds the sizes and the
`sizes.prod()` labels of `_leaves_partition`; the mergings file holds
`_num_mergings` and the array `a` of `3 * _num_mergings` words filled by the
loop over the non-leaf regions.  Reading the label buffer past its end,
writing `a` past its end and writing out words of `a` that were never set
are undefined. -/
def save_to_files (f : HierarchicalRegionPartition) : Result (PartitionFile × MergingsFile) :=
  if f._leaves_partition.sizes.prod ≤ f._leaves_partition.data.length then do
    let nl ← conditional_view non_leaves f.heap f._regions
    let a ← merging_words f.heap nl
    if a.length = 3 * f._num_mergings then
      .ok (⟨f._leaves_partition.sizes.length, f._leaves_partition.sizes,
            f._leaves_partition.data.take f._leaves_partition.sizes.prod⟩,
           ⟨f._num_mergings, a⟩)
    else .error .undefined_behaviour
  else .error .undefined_behaviour

/-- Replay loop of `load_from_files`: `n` more triples `(son1, son2, father)`
are taken from the array `a` at index `k` on and merged by label.  Reading `a`
past the words that the file provided is undefined. -/
def load_merge_loop (fuel : Nat) (a : List Nat) :
    Nat → Nat → HierarchicalRegionPartition → Result HierarchicalRegionPartition
  | 0, _, f => .ok f
  | n + 1, k, f =>
    match a[k]?, a[k + 1]?, a[k + 2]? with
    | some son1, some son2, some father => do
      let (f', _) ← merge_regions_by_label fuel f son1 son2 father
      load_merge_loop fuel a n (k + 3) f'
    | _, _, _ => .error .undefined_behaviour

/-- Last loop of `load_from_files`, over the roots view of the arena:
`_update_roots_partition(*r)` for every region without parent, in slot order. -/
def update_all_roots (fuel : Nat) :
    List (Option Nat) → HierarchicalRegionPartition → Result HierarchicalRegionPartition
  | [], f => .ok f
  | none :: rest, f => update_all_roots fuel rest f
  | some a :: rest, f => do
    let r ← deref f.heap a
    if roots r then do
      let f' ← _update_roots_partition fuel f a
      update_all_roots fuel rest f'
    else update_all_roots fuel rest f

/-- `load_from_files` into the forest `f`: the raster of the sizes of the file
is filled with the labels of the file (a raster is created zero-filled),
`init` is run on it, roots updating is switched off, `_num_mergings` is read,
the triples are replayed, and the roots raster is updated for every root. -/
def load_from_files (fuel : Nat) (adj : Nat → List Nat) (f : HierarchicalRegionPartition)
    (pf : PartitionFile) (mf : MergingsFile) : Result HierarchicalRegionPartition := do
  let l := pf.sizes.prod
  let p : Partition := ⟨pf.sizes, (pf.data ++ List.replicate l 0).take l⟩
  let f1 ← init adj f p
  let f2 : HierarchicalRegionPartition :=
    { f1 with _update_partition := false, _num_mergings := mf.num_mergings }
  let f3 ← load_merge_loop fuel mf.a mf.num_mergings 0 f2
  update_all_roots fuel f3._regions f3

/-- Labels in first-seen order from `n` on: every element is a label below the
counter, or it is the counter itself, which then advances. -/
def FirstSeen : Nat → List Nat → Prop
  | _, [] => True
  | n, x :: rest => (x < n ∧ FirstSeen n rest) ∨ (x = n ∧ FirstSeen (n + 1) rest)

/-- The heap holds a region at address `a`. -/
def Alive (h : Heap) (a : Nat) : Prop := ∃ r, h[a]? = some (some r)

/-- The words of a merge sequence `(son1, son2, father)`, in order. -/
def merging_array : List (Nat × Nat × Nat) → List Nat
  | [] => []
  | (son1, son2, father) :: rest => son1 :: son2 :: father :: merging_array rest

/-- Forest `f` is built from the raster `R` with merge sequence `S`: `init` on
a freshly constructed forest with roots updating enabled, followed by the
by-label merges of `S`, each of which joins two different regions that have
no parent into the next free slot of the arena (`L`, `L + 1`, ... for `L`
leaves). -/
inductive Built (adj : Nat → List Nat) (R : Partition) :
    HierarchicalRegionPartition → List (Nat × Nat × Nat) → Prop
  | init (m : Nat) (f : HierarchicalRegionPartition) :
      imageplus.init adj (HierarchicalRegionPartition.fresh true m) R = .ok f → Built adj R f []
  | merge (fuel : Nat) (f f' : HierarchicalRegionPartition) (S : List (Nat × Nat × Nat))
      (a b P : Nat) (ra rb : HierarchicalRegion) :
      Built adj R f S → a ≠ b →
      _region_by_label f a = .ok ra → ra.parent = none →
      _region_by_label f b = .ok rb → rb.parent = none →
      merge_regions_by_label fuel f a b ((relabel [] 0 R.data).2.1 + S.length) = .ok (f', P) →
      Built adj R f' (S ++ [(a, b, (relabel [] 0 R.data).2.1 + S.length)])

/-- The region at address `x` keeps its children and coordinates from heap `h`
to heap `h'`, and its parent if it has one. -/
def SameShape (h h' : Heap) (x : Nat) : Prop :=
  ∀ r, h[x]? = some (some r) → ∃ r', h'[x]? = some (some r') ∧ r'.children = r.children
    ∧ r'.coordinates = r.coordinates ∧ r'.label = r.label
    ∧ (r.parent ≠ none → r'.parent = r.parent)

/-- What holds of a forest `f` built from the raster `R` with merge sequence
`S`, for the list `ts` of the trees of its parent-less regions: addresses,
labels and arena slots coincide; every region is a node of exactly one tree;
the coordinate lists are those of the relabelled raster, none longer than the
raster; the roots raster
holds the label of the root over every merged tree and the label of `R` over
every leaf that was not merged; and region `L + i` has the two sons of the
`i`-th merge as children. -/
structure BuiltInv (R : Partition) (f : HierarchicalRegionPartition)
    (S : List (Nat × Nat × Nat)) (ts : List BTree) : Prop where
  len : f.heap.length = (relabel [] 0 R.data).2.1 + S.length
  reg_id : ∀ (l a : Nat), f._regions[l]? = some (some a) → a = l ∧ l < f.heap.length
  reg_get : ∀ (l : Nat), l < f.heap.length → f._regions[l]? = some (some l)
  cell : ∀ (a : Nat), a < f.heap.length → ∃ r, f.heap[a]? = some (some r) ∧ r.label = a
  covered : ∀ (x : Nat), x < f.heap.length → ∃ t ∈ ts, x ∈ t.nodes
  nodup : ∀ t ∈ ts, t.nodes.Nodup ∧ ∀ x ∈ t.nodes, x < f.heap.length
  disjoint : ∀ t ∈ ts, ∀ t' ∈ ts, ∀ (x : Nat), x ∈ t.nodes → x ∈ t'.nodes → t = t'
  tree : ∀ t ∈ ts, TreeAt f.heap t ∧ ∃ r, f.heap[t.addr]? = some (some r) ∧ r.parent = none
  coords : ∀ (a c : Nat), c ∈ coords_of f.heap a ↔ (relabel [] 0 R.data).2.2[c]? = some a
  coords_len : ∀ (a : Nat), (coords_of f.heap a).length ≤ R.data.length
  leaves : f._leaves_partition = { R with data := (relabel [] 0 R.data).2.2 }
  roots_sizes : f._roots_partition.sizes = R.sizes
  roots_len : f._roots_partition.data.length = R.data.length
  roots_leaf : ∀ (a : Nat), BTree.leaf a ∈ ts → ∀ c ∈ coords_of f.heap a,
    f._roots_partition.data[c]? = R.data[c]?
  roots_node : ∀ (a : Nat) (l r : BTree), BTree.node a l r ∈ ts →
    ∀ c ∈ (BTree.node a l r).coords f.heap, f._roots_partition.data[c]? = some a
  num : f._num_mergings = S.length
  upd : f._update_partition = true
  hist : ∀ (i a b c : Nat), S[i]? = some (a, b, c) →
    c = (relabel [] 0 R.data).2.1 + i ∧ a < f.heap.length ∧ b < f.heap.length
      ∧ ∃ reg, f.heap[(relabel [] 0 R.data).2.1 + i]? = some (some reg) ∧ reg.children = [a, b]
  leafcell : ∀ (a : Nat) (r : HierarchicalRegion), a < (relabel [] 0 R.data).2.1 →
    f.heap[a]? = some (some r) → r.children = []

/-- The 3x1 forest after the by-label merge of regions 0 and 1 into region 3
(the forest itself if the call does not return). -/
def scenario_one_merge : HierarchicalRegionPartition :=
  match merge_regions_by_label 20 scenario3x1 0 1 3 with
  | .ok r => r.1
  | .error _ => scenario3x1

/-- The 3x1 forest after the by-label merge of regions 0 and 1 into slot 4,
then of regions 4 and 2 into slot 3: the parents are not in slot order. -/
def scenario_out_of_order : HierarchicalRegionPartition :=
  match merge_regions_by_label 20 scenario3x1 0 1 4 with
  | .ok r =>
    (match merge_regions_by_label 20 r.1 4 2 3 with
     | .ok r' => r'.1
     | .error _ => r.1)
  | .error _ => scenario3x1

/-- State of a `ReadBitStream` on an open file: the bytes of the file, the get
position of `_fp`, the members `_buffer` and `_bits_left`, and whether `_fp`
is in the fail state (after a read at the end of the file). -/
structure ReadBitStream where
  file : List Nat
  pos : Nat
  _buffer : Nat
  _bits_left : Nat
  fail : Bool
  deriving DecidableEq, Repr

/-- Constructor `ReadBitStream(filename)`. -/
def ReadBitStream.open (file : List Nat) : ReadBitStream :=
  { file := file, pos := 0, _buffer := 0, _bits_left := 0, fail := false }

/-- Statement `_fp.read((char*)&_buffer, 1)`: at the end of the file, or on a
stream that has failed, nothing is extracted, `_buffer` keeps its value and
the stream is in the fail state. -/
def ReadBitStream.fetch (s : ReadBitStream) : ReadBitStream :=
  if s.fail then s
  else
    match s.file[s.pos]? with
    | some b => { s with _buffer := b, pos := s.pos + 1 }
    | none => { s with fail := true }

/-- Loop `while (still_to_read > _bits_left)` of `read`, on the stream, on
`still_to_read` and on `to_return`.  The first argument bounds the number of
iterations.  The count of the shift `(uint64)_buffer << (still_to_read -
_bits_left)` reaches 64 only for a request of 64 bits with no bit left in
`_buffer`, and `_buffer` is 0 whenever `_bits_left` is 0 (the constructor,
`seekg` and the mask at the end of `read` clear it): the operand of the shift
is then 0, the term is 0 whether the target masks the count or shifts every
bit out, and the loop goes on.  Only a shift of a non-zero value by 64 or more
is kept as undefined. -/
def ReadBitStream.read_loop :
    Nat → ReadBitStream → Nat → Nat → Result (ReadBitStream × Nat × Nat)
  | 0, _, _, _ => .error .out_of_fuel
  | fuel + 1, s, still_to_read, to_return =>
    if still_to_read > s._bits_left then
      if still_to_read - s._bits_left < 64 ∨ s._buffer = 0 then
        ReadBitStream.read_loop fuel { s.fetch with _bits_left := 8 }
          (still_to_read - s._bits_left)
          ((to_return + (s._buffer <<< (still_to_read - s._bits_left))) % 2 ^ 64)
      else .error .undefined_behaviour
    else .ok (s, still_to_read, to_return)

/-- `read(n_bits_to_read)`: the asked bits, most significant first, in the low
part of the result.  More than 64 bits are cut to 64.  The loop runs at most
nine times. -/
def ReadBitStream.read (s : ReadBitStream) (n_bits_to_read : Nat) :
    Result (ReadBitStream × Nat) :=
  let n := if n_bits_to_read > 64 then 64 else n_bits_to_read
  if n ≠ 0 then do
    let (s1, still_to_read, to_return) ← ReadBitStream.read_loop 10 s n 0
    let bits_left := s1._bits_left - still_to_read
    .ok ({ s1 with _bits_left := bits_left,
                   _buffer := s1._buffer &&& (255 >>> (8 - bits_left)) },
         (to_return + (s1._buffer >>> bits_left)) % 2 ^ 64)
  else .ok (s, 0)

/-- `seekg(position)`: move to an absolute position in bits.  `_fp.seekg` does
nothing on a stream that has failed. -/
def ReadBitStream.seekg (s : ReadBitStream) (position : Nat) : Result ReadBitStream :=
  let offset_bits := position % 8
  let s1 : ReadBitStream :=
    { s with pos := if s.fail then s.pos else position >>> 3, _bits_left := 0, _buffer := 0 }
  if offset_bits ≠ 0 then do
    let (s2, _) ← s1.read offset_bits
    .ok s2
  else .ok s1

/-- Predictor "Up" of `_read_file`: `*(pointer - width)`, with `pointer` at
index `ptr` of the buffer `m`. -/
def up_value (m : List Nat) (ptr width : Nat) : Result Nat :=
  if width ≤ ptr then
    match m[ptr - width]? with
    | some v => .ok v
    | none => .error .undefined_behaviour
  else .error .undefined_behaviour

/-- Predictor "Up-one-right" of `_read_file`: from `pointer - width + 1` on,
the first cell whose value differs from `*(pointer - width)`; the scan is not
bounded, so it is undefined when no cell of the buffer differs. -/
def up_one_right (m : List Nat) (ptr width : Nat) : Result Nat := do
  let up ← up_value m ptr width
  match (m.drop (ptr - width + 1)).find? (fun x => x != up) with
  | some v => .ok v
  | none => .error .undefined_behaviour

/-- Label casuistics of `_read_file`: returns the stream, `current_label` and
`max_label` (both 32-bit). -/
def read_label (num_bits width : Nat) (m : List Nat) (ptr max_label : Nat)
    (rbs : ReadBitStream) : Result (ReadBitStream × Nat × Nat) := do
  let (rbs, read_bits) ← rbs.read 1
  if read_bits = 0 then do
    let v ← up_value m ptr width
    .ok (rbs, v, max_label)
  else do
    let (rbs, read_bits) ← rbs.read 1
    if read_bits = 0 then do
      let v ← up_one_right m ptr width
      .ok (rbs, v, max_label)
    else do
      let (rbs, read_bits) ← rbs.read 1
      if read_bits = 0 then
        .ok (rbs, (max_label + 1) % 2 ^ 32, (max_label + 1) % 2 ^ 32)
      else do
        let (rbs, read_bits) ← rbs.read num_bits
        let current_label := read_bits % 2 ^ 32
        .ok (rbs, current_label, if current_label > max_label then current_label else max_label)

/-- Length casuistics of `_read_file`: returns the stream and `current_length`. -/
def read_length (rbs : ReadBitStream) : Result (ReadBitStream × Nat) := do
  let (rbs, read_bits) ← rbs.read 1
  if read_bits = 1 then do
    let (rbs, read_bits) ← rbs.read 8
    .ok (rbs, read_bits % 256)
  else do
    let (rbs, read_bits) ← rbs.read 2
    .ok (rbs, read_bits % 256 + 1)

/-- Loop `for (ii = 0; ii < current_length; ii++) *pointer++ = current_label`;
writing past the end of the buffer is undefined. -/
def fill_run : Nat → List Nat → Nat → Nat → Result (List Nat)
  | 0, m, _, _ => .ok m
  | len + 1, m, ptr, label =>
    if ptr < m.length then fill_run len (m.set ptr label) (ptr + 1) label
    else .error .undefined_behaviour

/-- Loop `while (num_read_elem < total_elem)` of `_read_file`; `pointer` is at
index `num_read_elem` of the buffer throughout.  The first argument bounds the
number of iterations. -/
def read_runs (num_bits width total_elem : Nat) :
    Nat → ReadBitStream → List Nat → Nat → Nat → Result (List Nat)
  | 0, _, _, _, _ => .error .out_of_fuel
  | fuel + 1, rbs, m, num_read_elem, max_label =>
    if num_read_elem < total_elem then do
      let (rbs, current_label, max_label) ← read_label num_bits width m num_read_elem max_label rbs
      let (rbs, current_length) ← read_length rbs
      let m ← fill_run current_length m num_read_elem current_label
      read_runs num_bits width total_elem fuel rbs m (num_read_elem + current_length) max_label
    else .ok m

/-- `_read_file(partition, fp, filename)`: `fp` is at byte `fp_pos` of the file
and the partition has the sizes `size_x`, `size_y`.  The byte `num_bits` is
read from `fp`, the file is reopened as a bit stream, the header is skipped
with `seekg(112 + 64 * 2)`, and the runs are decoded into a zero-filled buffer
that is then copied into the partition. -/
def _read_file (fuel : Nat) (file : List Nat) (fp_pos size_x size_y : Nat) : Result Partition :=
  match file[fp_pos]? with
  | none => .error .undefined_behaviour
  | some num_bits => do
    let rbs ← (ReadBitStream.open file).seekg (112 + 64 * 2)
    let m ← read_runs num_bits size_x ((size_x * size_y) % 2 ^ 64) fuel rbs
      (List.replicate (size_x * size_y) 0) 0 0
    .ok ⟨[size_x, size_y], m⟩

/-- Value of a little-endian integer. -/
def le_value : List Nat → Nat
  | [] => 0
  | b :: rest => b + 256 * le_value rest

/-- Statement `fp.read((char*)&x, n)` at byte `pos`: the `n` bytes, or nothing
when the file is too short. -/
def read_bytes (file : List Nat) (pos n : Nat) : Option (List Nat) :=
  if pos + n ≤ file.length then some ((file.drop pos).take n) else none

/-- Loop of `_read` over the dimension sizes: `d` integers of 64 bits from byte
`pos` on. -/
def read_dims (file : List Nat) : Nat → Nat → Result (List Nat)
  | 0, _ => .ok []
  | d + 1, pos =>
    match read_bytes file pos 8 with
    | none => .error .undefined_behaviour
    | some bs => do
      let rest ← read_dims file d (pos + 8)
      .ok (le_value bs :: rest)

/-- `_read(path)` on the bytes of the file: magic number (16 bits, 255), file
type (8 bits, 1), compression flag and data type (8 bits each, not used),
number of dimensions and sizes (64 bits each), then `_read_file` on a
partition of the first two sizes.  A wrong magic number or file type runs
`throw;` outside a handler.  Using a value that a failed read left unset is
undefined. -/
def _read (fuel : Nat) (file : List Nat) : Result Partition :=
  match read_bytes file 0 2 with
  | none => .error .undefined_behaviour
  | some mn =>
    if le_value mn ≠ 255 then .error .terminate
    else
      match read_bytes file 2 1 with
      | none => .error .undefined_behaviour
      | some ft =>
        if le_value ft ≠ 1 then .error .terminate
        else
          match read_bytes file 5 8 with
          | none => .error .undefined_behaviour
          | some d => do
            let dims ← read_dims file (le_value d) 13
            match dims[0]?, dims[1]? with
            | some size_x, some size_y => _read_file fuel file (13 + 8 * le_value d) size_x size_y
            | _, _ => .error .undefined_behaviour

/-- Bits of `v` as a field of `n` bits, most significant first. -/
def bits_of : Nat → Nat → List Bool
  | 0, _ => []
  | n + 1, v => (v / 2 ^ n % 2 == 1) :: bits_of n v

/-- Value of a list of bits, most significant first. -/
def bits_value (bs : List Bool) : Nat :=
  bs.foldl (fun a b => 2 * a + b.toNat) 0

/-- The first `n` bytes of `v`, least significant first (the layout in which
`_read` takes the integers of the header). -/
def le_bytes : Nat → Nat → List Nat
  | 0, _ => []
  | n + 1, v => v % 256 :: le_bytes n (v / 256)

/-- The bytes of `k` groups of eight bits. -/
def pack_bytes : Nat → List Bool → List Nat
  | 0, _ => []
  | k + 1, bs => bits_value (bs.take 8) :: pack_bytes k (bs.drop 8)

/-- Modelled from the spec: the bit writer of `PRLWriter` (`writebitstream.hpp`
is not among the sources).  A bit string as bytes: eight bits a byte, most
significant first, which is the order in which `ReadBitStream::read` delivers
them, and the last byte completed with zero bits. -/
def pack_bits (bs : List Bool) : List Nat :=
  pack_bytes ((bs.length + 7) / 8) (bs ++ List.replicate ((bs.length + 7) / 8 * 8 - bs.length) false)

/-- Modelled from the spec: the run splitting of the writer `PRLWriter`
(`partition2d_write.hpp` is not among the sources).  Spec section 4.6: a run
fills consecutive raster cells, in row-major order, with one label, and the
encoder is the inverse of the decoder.  The decoder takes the long form of the
length as `static_cast<uint8>` of a field of 8 bits, so a record holds 255
cells at most: the cells are scanned in raster order and a run is closed when
the label changes, when it has 255 cells, or when it has `max_run` cells, a
lower limit that the writer may set for itself (255 gives the longest runs, 1
gives one run per cell); `label` and `len` are the label and the number of
cells of the open run. -/
def split_from (max_run : Nat) : Nat → Nat → List Nat → List (Nat × Nat)
  | label, len, [] => [(label, len)]
  | label, len, x :: rest =>
    if x = label ∧ len < max_run ∧ len < 255 then split_from max_run label (len + 1) rest
    else (label, len) :: split_from max_run x 1 rest

/-- Modelled from the spec: the runs `(label, length)` of a label buffer, in
raster order (see `split_from`). -/
def split_runs (max_run : Nat) : List Nat → List (Nat × Nat)
  | [] => []
  | x :: rest => split_from max_run x 1 rest

/-- The decoder's predictor `r` returns, and gives `label`. -/
def predicts (r : Result Nat) (label : Nat) : Bool :=
  match r with
  | .ok v => decide (v = label)
  | .error _ => false

/-- Modelled from the spec: the label prefix of a run record of `PRLWriter`.
Spec section 4.6: "Encoding must choose, for every run, the cheapest predictor
that yields a correct decode", replicating "the same Up / Up-one-right
lookahead the decoder performs": in priority order prefix `0` when the
decoder's "Up" gives the label, `10` when its "Up-one-right" does, `110` when
the label is the decoder's `max_label_seen + 1`, and `111` followed by the
label otherwise, in the field that the decoder reads for it: `num_bits` bits,
64 bits for a wider field (`ReadBitStream::read` takes 64 bits at most).  `m`
is the buffer as the decoder has it when it reads the record.  Returns the
bits and the new `max_label_seen`. -/
def encode_label (num_bits width : Nat) (m : List Nat) (ptr max_label label : Nat) :
    List Bool × Nat :=
  if predicts (up_value m ptr width) label then ([false], max_label)
  else if predicts (up_one_right m ptr width) label then ([true, false], max_label)
  else if (max_label + 1) % 2 ^ 32 = label then ([true, true, false], label)
  else ([true, true, true] ++ bits_of (min num_bits 64) label,
        if label > max_label then label else max_label)

/-- Modelled from the spec: the length of a run record of `PRLWriter`, for the
runs of 1 to 255 cells that `split_runs` makes.  Spec section 4.6: flag `0`
and `length - 1` in 2 bits for the runs of 1 to 4 cells, flag `1` and the
length in 8 bits for the runs of 5 to 255 cells. -/
def encode_length (len : Nat) : List Bool :=
  if 1 ≤ len ∧ len ≤ 4 then false :: bits_of 2 (len - 1)
  else true :: bits_of 8 len

/-- Modelled from the spec: the body of the compact file, the records of the
runs in order.  When the decoder reads the record of the run that starts at
cell `ptr` its buffer holds the cells before `ptr` and zeros from `ptr` on. -/
def encode_runs (num_bits width : Nat) (data : List Nat) :
    List (Nat × Nat) → Nat → Nat → List Bool
  | [], _, _ => []
  | (label, len) :: rest, ptr, max_label =>
    let r := encode_label num_bits width
      (data.take ptr ++ List.replicate (data.length - ptr) 0) ptr max_label label
    r.1 ++ encode_length len ++ encode_runs num_bits width data rest (ptr + len) r.2

/-- Bits that a stream has still to deliver: the bits left in `_buffer`, then
the bytes of the file from the get position on. -/
def ReadBitStream.bits (s : ReadBitStream) : List Bool :=
  bits_of s._bits_left s._buffer ++ ((s.file.drop s.pos).map (bits_of 8)).flatten

/-- State of a stream between two calls of `read`: at most eight bits are left
in `_buffer`, the bits already delivered are masked out, the file holds
bytes, and the stream has not failed. -/
def ReadBitStream.Good (s : ReadBitStream) : Prop :=
  s._bits_left ≤ 8 ∧ s._buffer < 2 ^ s._bits_left ∧ (∀ b ∈ s.file, b < 256) ∧ s.fail = false

/-- Cells that a list of runs `(label, length)` fills, in order. -/
def expand_runs : List (Nat × Nat) → List Nat
  | [] => []
  | (label, len) :: rest => List.replicate len label ++ expand_runs rest

/-- The 30 bytes that `encode` writes before the bit stream for a 2-D raster
of sizes `size_x`, `size_y`. -/
def prl_header (num_bits compress datatype size_x size_y : Nat) : List Nat :=
  le_bytes 2 255 ++ [1, compress % 256, datatype % 256] ++ le_bytes 8 2
    ++ le_bytes 8 size_x ++ le_bytes 8 size_y ++ [num_bits % 256]

/-- A 3x1 raster whose first label is the number of its labels. -/
def raster3x1_clash : Partition := ⟨[3, 1], [3, 8, 9]⟩

/-- Forest of the 3x1 raster `[3, 8, 9]` under the 4-connectivity after the
merge of the regions 1 and 2 into region 3 (the forest of `init` if the merge
does not return). -/
def scenario_clash : HierarchicalRegionPartition :=
  match merge_regions_by_label 20 (forest_of (grid_adjacency 3 1 connectivity4) raster3x1_clash)
      1 2 3 with
  | .ok (f, _) => f
  | .error _ => forest_of (grid_adjacency 3 1 connectivity4) raster3x1_clash

/-- Members of a `conditional_iterator` over the arena vector: `_map_it` and
`_map_end`, as indices into `_regions` (`_regions.end()` is the length). -/
structure conditional_iterator where
  _map_it : Nat
  _map_end : Nat
  deriving DecidableEq, Repr

/-- Loop `while(_map_it!=_map_end)` of the constructors, of `operator=` and of
`operator++`: a null slot is stepped over, any other pointer is dereferenced to
evaluate the condition.  The first argument bounds the number of iterations;
reading the vector outside its range is undefined. -/
def conditional_iterator.seek (cond : HierarchicalRegion → Bool) (h : Heap)
    (regs : List (Option Nat)) : Nat → conditional_iterator → Result conditional_iterator
  | 0, _ => .error .out_of_fuel
  | fuel + 1, it =>
    if it._map_it ≠ it._map_end then
      match regs[it._map_it]? with
      | none => .error .undefined_behaviour
      | some none => conditional_iterator.seek cond h regs fuel { it with _map_it := it._map_it + 1 }
      | some (some a) => do
        let r ← deref h a
        if cond r then .ok it
        else conditional_iterator.seek cond h regs fuel { it with _map_it := it._map_it + 1 }
    else .ok it

/-- Constructor `conditional_iterator(map_it, map_it_end, cond)`. -/
def conditional_iterator.construct (cond : HierarchicalRegion → Bool) (h : Heap)
    (regs : List (Option Nat)) (fuel : Nat) (map_it map_it_end : Nat) :
    Result conditional_iterator :=
  conditional_iterator.seek cond h regs fuel { _map_it := map_it, _map_end := map_it_end }

/-- Converting constructor and `operator=` from an iterator of another
condition: the members are copied and the loop is run with the condition of
the target. -/
def conditional_iterator.convert (cond : HierarchicalRegion → Bool) (h : Heap)
    (regs : List (Option Nat)) (fuel : Nat) (copy : conditional_iterator) :
    Result conditional_iterator :=
  conditional_iterator.seek cond h regs fuel { _map_it := copy._map_it, _map_end := copy._map_end }

/-- `operator++`. -/
def conditional_iterator.increment (cond : HierarchicalRegion → Bool) (h : Heap)
    (regs : List (Option Nat)) (fuel : Nat) (it : conditional_iterator) :
    Result conditional_iterator :=
  conditional_iterator.seek cond h regs fuel { it with _map_it := it._map_it + 1 }

/-- `operator*`: `*(*_map_it)`, with no test of the slot. -/
def conditional_iterator.star (h : Heap) (regs : List (Option Nat)) (it : conditional_iterator) :
    Result HierarchicalRegion := do
  let a ← slot_pointer regs it._map_it
  deref h a

/-- `begin()`: `global_iterator(_regions.begin(), _regions.end())`. -/
def begin_iterator (h : Heap) (regs : List (Option Nat)) (fuel : Nat) :
    Result conditional_iterator :=
  conditional_iterator.construct global h regs fuel 0 regs.length

/-- `end()`: `global_iterator(_regions.end(), _regions.end())`. -/
def end_iterator (h : Heap) (regs : List (Option Nat)) (fuel : Nat) :
    Result conditional_iterator :=
  conditional_iterator.construct global h regs fuel regs.length regs.length

/-- Loop `for (; it != end(); ++it)` over a view: the slot index and the region
`*it` of every visit, in the order of the visits.  `fuel` bounds the loops of
the iterator, the next argument the number of visits. -/
def traverse (cond : HierarchicalRegion → Bool) (h : Heap) (regs : List (Option Nat))
    (fuel : Nat) : Nat → conditional_iterator → Result (List (Nat × HierarchicalRegion))
  | 0, _ => .error .out_of_fuel
  | n + 1, it => do
    let e ← end_iterator h regs fuel
    if it._map_it ≠ e._map_it then do
      let r ← it.star h regs
      let it1 ← it.increment cond h regs fuel
      let rest ← traverse cond h regs fuel n it1
      .ok ((it._map_it, r) :: rest)
    else .ok []

/-- A view iterated from `begin()` to `end()`:
`for (view_iterator it = begin(); it != end(); ++it)`. -/
def iterate_view (cond : HierarchicalRegion → Bool) (h : Heap) (regs : List (Option Nat))
    (fuel : Nat) : Result (List (Nat × HierarchicalRegion)) := do
  let b ← begin_iterator h regs fuel
  let it ← conditional_iterator.convert cond h regs fuel b
  traverse cond h regs fuel fuel it

/-- Region that arena slot `i` points to, if the slot is not empty. -/
def slot_region (h : Heap) (regs : List (Option Nat)) (i : Nat) : Option HierarchicalRegion :=
  match regs[i]? with
  | some (some a) =>
    match h[a]? with
    | some (some r) => some r
    | _ => none
  | _ => none

/-- Slot `i` is not empty and its region satisfies the condition. -/
def slot_satisfies (cond : HierarchicalRegion → Bool) (h : Heap) (regs : List (Option Nat))
    (i : Nat) : Bool :=
  match slot_region h regs i with
  | some r => cond r
  | none => false

/-- Every non-empty slot of the arena points to a region of the heap. -/
def SlotsAlive (h : Heap) (regs : List (Option Nat)) : Prop :=
  ∀ (i a : Nat), regs[i]? = some (some a) → ∃ r : HierarchicalRegion, h[a]? = some (some r)

/-- Visits expected from slot `i` on. -/
def visits_from (cond : HierarchicalRegion → Bool) (h : Heap) (regs : List (Option Nat))
    (i : Nat) : List (Nat × HierarchicalRegion) :=
  (List.range' i (regs.length - i)).filterMap (fun k =>
    match slot_region h regs k with
    | some r => if cond r then some (k, r) else none
    | none => none)

/-- The loop `while (num_read_elem < total_elem)` of `_read_file`, as
`read_runs`, returning besides the buffer the final value of `num_read_elem`
and the label and the length of every run that was decoded, in order. -/
def read_runs_trace (num_bits width total_elem : Nat) :
    Nat → ReadBitStream → List Nat → Nat → Nat → Result (List Nat × Nat × List (Nat × Nat))
  | 0, _, _, _, _ => .error .out_of_fuel
  | fuel + 1, rbs, m, num_read_elem, max_label =>
    if num_read_elem < total_elem then do
      let (rbs, current_label, max_label) ← read_label num_bits width m num_read_elem max_label rbs
      let (rbs, current_length) ← read_length rbs
      let m ← fill_run current_length m num_read_elem current_label
      let (m, n, runs) ← read_runs_trace num_bits width total_elem fuel rbs m
        (num_read_elem + current_length) max_label
      .ok (m, n, (current_label, current_length) :: runs)
    else .ok (m, num_read_elem, [])

/-- A compact file of a 1x1 raster whose only run record has the length 2:
the header (magic number 255, file type 1, two dimensions of size 1),
`num_bits = 8`, and the byte `0xC4` (prefix `110`, flag `0`, field
`01`). -/
def file1x1_long_run : List Nat :=
  le_bytes 2 255 ++ [1, 0, 0] ++ le_bytes 8 2 ++ le_bytes 8 1 ++ le_bytes 8 1 ++ [8, 0xC4]

/-- A value of type `container_pointer`: the null pointer, the address of the
header `_avl_header`, or a node that was handed to `put`. -/
inductive container_pointer (α : Type) where
  | null : container_pointer α
  | header : container_pointer α
  | node (x : α) : container_pointer α
  deriving DecidableEq, Repr

/-- State of a `BST`: the nodes linked under `_avl_header`, in the order in
which `next_node` goes through them.  `boost::intrusive::avltree_algorithms` is
not among the sources; its documented contract is taken, and the shape of the
tree and the balance factors are not represented. -/
structure BST (α : Type) where
  nodes : List α
  deriving DecidableEq, Repr

/-- Constructor `BST()`: `init_header`, the empty tree. -/
def BST.init {α : Type} : BST α := ⟨[]⟩

/-- Position taken by `insert_equal_lower_bound`: before the lower bound of the
new node, the first node that does not compare less than it. -/
def lower_bound_insert {α : Type} (compare_function : α → α → Bool) (data : α) : List α → List α
  | [] => [data]
  | y :: rest =>
    if compare_function y data then y :: lower_bound_insert compare_function data rest
    else data :: y :: rest

/-- `put(data)`: `insert_equal_lower_bound(&_avl_header, data, _compare_function)`. -/
def BST.put {α : Type} (compare_function : α → α → Bool) (t : BST α) (data : α) : BST α :=
  ⟨lower_bound_insert compare_function data t.nodes⟩

/-- `get_first()`: `_avl_header.left_`, the leftmost node, which is the header
itself in the empty tree (compare `is_empty`). -/
def BST.get_first {α : Type} (t : BST α) : container_pointer α :=
  match t.nodes with
  | [] => .header
  | x :: _ => .node x

/-- `is_empty()`: `_avl_header.left_ == &_avl_header`. -/
def BST.is_empty {α : Type} (t : BST α) : Bool :=
  match t.get_first with
  | .header => true
  | _ => false

/-- `size()`. -/
def BST.size {α : Type} (t : BST α) : Nat := t.nodes.length

/-- `next_node(key)` for a node of the tree, with the header mapped to `0x0` as
in `next`: the node after `key`, or null after the last one.  `next_node` on a
node that is not linked in the tree is undefined. -/
def successor {α : Type} [DecidableEq α] (key : α) : List α → Result (container_pointer α)
  | [] => .error .undefined_behaviour
  | x :: rest =>
    if x = key then
      match rest with
      | [] => .ok .null
      | y :: _ => .ok (.node y)
    else successor key rest

/-- `next(key)`.  `next_node` requires a node of the tree other than the
header, so the call is undefined on the header and on the null pointer. -/
def BST.next {α : Type} [DecidableEq α] (t : BST α) (key : container_pointer α) :
    Result (container_pointer α) :=
  match key with
  | .node x => successor x t.nodes
  | _ => .error .undefined_behaviour

/-- Loop `for (p = start; p != 0x0; p = next(p))`: the pointers visited, in
order.  The first argument bounds the number of visits. -/
def BST.iterate_from {α : Type} [DecidableEq α] (t : BST α) :
    Nat → container_pointer α → Result (List (container_pointer α))
  | 0, _ => .error .out_of_fuel
  | fuel + 1, p =>
    match p with
    | .null => .ok []
    | p => do
      let q ← t.next p
      let rest ← BST.iterate_from t fuel q
      .ok (p :: rest)

/-- Iteration over the whole tree, `for (p = get_first(); p != 0x0; p = next(p))`:
from `get_first()` with `next()` until it returns null. -/
def BST.iterate {α : Type} [DecidableEq α] (t : BST α) (fuel : Nat) :
    Result (List (container_pointer α)) :=
  t.iterate_from fuel t.get_first

/-- The tree after `put` of the elements of a list, in the order of the list,
into an empty tree. -/
def BST.of_list {α : Type} (compare_function : α → α → Bool) (xs : List α) : BST α :=
  xs.foldl (BST.put compare_function) BST.init

/-- Comparison of two nodes `(key, id)` by their key alone. -/
def compare_key (a b : Nat × Nat) : Bool := decide (a.1 < b.1)

/-- Comparison of two numbers, `a < b`. -/
def compare_nat (a b : Nat) : Bool := decide (a < b)

/-- `tellg()`: `throw;` when `_fp.tellg()` is negative, which it is on a stream
that has failed; otherwise `(uint64)(_fp.tellg()*8 - _bits_left)`. -/
def ReadBitStream.tellg (s : ReadBitStream) : Result Nat :=
  if s.fail then .error .terminate
  else .ok ((s.pos * 8 + 2 ^ 64 - s._bits_left) % 2 ^ 64)

/-- Statement `_fp.seekg(0, std::ios::end)`: nothing on a stream that has
failed. -/
def ReadBitStream.seek_end (s : ReadBitStream) : ReadBitStream :=
  if s.fail then s else { s with pos := s.file.length }

/-- `remaining_size()`: returns the stream and `end_pos - curr_pos` (64-bit
unsigned). -/
def ReadBitStream.remaining_size (s : ReadBitStream) : Result (ReadBitStream × Nat) := do
  let curr_pos ← s.tellg
  let s1 := s.seek_end
  let end_pos ← s1.tellg
  let s2 ← s1.seekg curr_pos
  .ok (s2, (end_pos + 2 ^ 64 - curr_pos) % 2 ^ 64)

/-- `read_ahead(n_bits_to_read)`: `tellg`, `read`, then `seekg` back. -/
def ReadBitStream.read_ahead (s : ReadBitStream) (n_bits_to_read : Nat) :
    Result (ReadBitStream × Nat) := do
  let curr_pos ← s.tellg
  let (s1, to_return) ← s.read n_bits_to_read
  let s2 ← s1.seekg curr_pos
  .ok (s2, to_return)

/-- State of a stream on a file of bytes after `open`, `seekg` inside the file
and reads of bits that the file has: the stream has not failed, the get
position is inside the file, at most seven bits are left in `_buffer`, and they
are the low bits of the byte before the get position. -/
def ReadBitStream.Sync (s : ReadBitStream) : Prop :=
  s.fail = false ∧ s.pos ≤ s.file.length ∧ s._bits_left ≤ 7 ∧ (∀ b ∈ s.file, b < 256)
    ∧ s.file.length * 8 < 2 ^ 64
    ∧ ((s._bits_left = 0 ∧ s._buffer = 0)
      ∨ (0 < s._bits_left ∧ 0 < s.pos
          ∧ ∃ b, s.file[s.pos - 1]? = some b ∧ s._buffer = b % 2 ^ s._bits_left))

/-- Bits of a file, byte by byte, the most significant bit of a byte first. -/
def file_bits (file : List Nat) : List Bool := (file.map (bits_of 8)).flatten

/-- Sum of two coordinate vectors. -/
def coord_add (a b : List Int) : List Int := List.zipWith (fun x y => x + y) a b

/-- Difference of two coordinate vectors. -/
def coord_sub (a b : List Int) : List Int := List.zipWith (fun x y => x - y) a b

/-- `minCoeff()` of a vector: its smallest coefficient. -/
def minCoeff : List Int → Int
  | [] => 0
  | x :: rest => rest.foldl min x

/-- `isZero()` of an integer vector: every coefficient is zero. -/
def isZero (a : List Int) : Bool := a.all (fun x => decide (x = 0))

/-- Members of a `general_adjacency_iterator_type`, without the signal it
points to: `_pos`, `_neighbor_coords`, `_end_neighbor`, `_current_coord`. -/
structure general_adjacency_iterator_type where
  _pos : List Int
  _neighbor_coords : List Int
  _end_neighbor : Nat
  _current_coord : Nat
  deriving DecidableEq, Repr

/-- `_find_inside_neighbor()`: from `_current_coord` on, stop at the first
entry of the offset table `neighbors` for which `_pos + offset` lies between
the lower and the upper point of the signal.  The first argument bounds the
number of turns of the loop; coordinates are 64-bit integers, taken without
overflow. -/
def _find_inside_neighbor (neighbors : List (List Int)) (lower upper : List Int) :
    Nat → general_adjacency_iterator_type → Result general_adjacency_iterator_type
  | 0, _ => .error .out_of_fuel
  | fuel + 1, it =>
    if it._current_coord ≥ it._end_neighbor then .ok it
    else
      match neighbors[it._current_coord]? with
      | none => .error .undefined_behaviour
      | some offset =>
        let neighbor_coords := coord_add it._pos offset
        let a := coord_sub neighbor_coords lower
        let b := coord_sub upper neighbor_coords
        if minCoeff a ≥ 0 ∧ minCoeff b ≥ 0 then .ok { it with _neighbor_coords := neighbor_coords }
        else _find_inside_neighbor neighbors lower upper fuel
          { it with _neighbor_coords := neighbor_coords, _current_coord := it._current_coord + 1 }

/-- Constructor `general_adjacency_iterator_type(signal, pos, end)`, with
`is_end` for the argument `end`.  The
member `_neighbor_coords` is not initialised; it is read only after
`_find_inside_neighbor` has assigned it. -/
def general_adjacency_iterator_type.construct (neighbors : List (List Int))
    (lower upper : List Int) (fuel : Nat) (pos : List Int) (is_end : Bool) :
    Result general_adjacency_iterator_type :=
  let it : general_adjacency_iterator_type :=
    { _pos := pos, _neighbor_coords := [], _end_neighbor := neighbors.length, _current_coord := 0 }
  if is_end then .ok { it with _current_coord := it._end_neighbor }
  else _find_inside_neighbor neighbors lower upper fuel it

/-- `operator++`. -/
def general_adjacency_iterator_type.increment (neighbors : List (List Int))
    (lower upper : List Int) (fuel : Nat) (it : general_adjacency_iterator_type) :
    Result general_adjacency_iterator_type :=
  if it._current_coord ≥ it._end_neighbor then .ok it
  else _find_inside_neighbor neighbors lower upper fuel
    { it with _current_coord := it._current_coord + 1 }

/-- `operator!=`: two iterators at the end are equal, an iterator at the end
differs from one that is not, and otherwise the value of
`(_neighbor_coords - a._neighbor_coords).isZero() != 0` is returned. -/
def general_adjacency_iterator_type.ne (it a : general_adjacency_iterator_type) : Bool :=
  if it._current_coord ≥ it._end_neighbor ∧ a._current_coord ≥ a._end_neighbor then false
  else if it._current_coord ≥ it._end_neighbor ∨ a._current_coord ≥ a._end_neighbor then true
  else isZero (coord_sub it._neighbor_coords a._neighbor_coords)

/-- Loop `for (; neigh_it != neigh_it_end; ++neigh_it)`: the positions
`neigh_it.pos()` of the visits, in order.  `fuel` bounds the loops of the
iterator, the next argument the number of visits. -/
def adjacency_loop (neighbors : List (List Int)) (lower upper : List Int) (fuel : Nat)
    (neigh_it_end : general_adjacency_iterator_type) :
    Nat → general_adjacency_iterator_type → Result (List (List Int))
  | 0, _ => .error .out_of_fuel
  | n + 1, neigh_it =>
    if neigh_it.ne neigh_it_end then do
      let next ← neigh_it.increment neighbors lower upper fuel
      let rest ← adjacency_loop neighbors lower upper fuel neigh_it_end n next
      .ok (neigh_it._neighbor_coords :: rest)
    else .ok []

/-- The adjacency iterator of a position, iterated from
`general_adjacency_begin(pos)` to `general_adjacency_end(pos)` on a signal with
the given lower and upper points, for the offset table `neighbors`. -/
def adjacency_positions (neighbors : List (List Int)) (lower upper pos : List Int)
    (fuel : Nat) : Result (List (List Int)) := do
  let neigh_it ← general_adjacency_iterator_type.construct neighbors lower upper fuel pos false
  let neigh_it_end ← general_adjacency_iterator_type.construct neighbors lower upper fuel pos true
  adjacency_loop neighbors lower upper fuel neigh_it_end fuel neigh_it

/-- The test of `_find_inside_neighbor` on a position. -/
def inside_signal (lower upper c : List Int) : Bool :=
  decide (minCoeff (coord_sub c lower) ≥ 0 ∧ minCoeff (coord_sub upper c) ≥ 0)

/-- Positions expected from entry `i` of the table on. -/
def inside_from (neighbors : List (List Int)) (lower upper pos : List Int) (i : Nat) :
    List (List Int) :=
  ((neighbors.drop i).map (coord_add pos)).filter (inside_signal lower upper)

/-- Displacement in a 2-D grid of width `size_x` of a position `[x, y]`. -/
def displacement2d (size_x : Nat) (v : List Int) : Nat :=
  match v with
  | [nx, ny] => (nx + ny * (size_x : Int)).toNat
  | _ => 0

/-- Positions of a buffer, in raster order, that hold the label `a`. -/
def positions_of (data : List Nat) (a : Nat) : List Nat :=
  (List.range data.length).filter (fun c => decide (data[c]? = some a))

/-- `correspondence(init_partition_label)`: `_correspondences[label]`.  The
index operator of the map returns the value stored for the key and, for a key
that is absent, inserts it with the value 0 and returns 0. -/
def correspondence (f : HierarchicalRegionPartition) (init_partition_label : Nat) :
    Nat × HierarchicalRegionPartition :=
  match f._correspondences.lookup init_partition_label with
  | some v => (v, f)
  | none => (0, { f with _correspondences := (init_partition_label, 0) :: f._correspondences })

/-- Number of distinct labels of `data` whose first occurrence, in raster
order, comes before the first occurrence of `x`. -/
def first_seen_rank (data : List Nat) (x : Nat) : Nat :=
  (data.dedup.filter (fun y => decide (data.indexOf y < data.indexOf x))).length

/-- A 2x1 raster with the labels 8 and 7. -/
def raster2x1_second : Partition := ⟨[2, 1], [8, 7]⟩

/-- What C30 compares of a forest that `init` returned on a raster with the
labels 7 and 8: the labels of the leaves raster, the size of the arena, and
the correspondences of the two input labels. -/
def init_outcome (r : Result HierarchicalRegionPartition) :
    Result (List Nat × Nat × Nat × Nat) :=
  r.map (fun f => (f._leaves_partition.data, f._regions.length, (correspondence f 8).1,
    (correspondence f 7).1))

/-- Loop over the neighbors of `t` in `set_flatzone_labels`
(`for (; neigh_it != neigh_it_end; ++neigh_it)`): a neighbor whose label is
zero and whose image value `v2` has `(v1 - v2).isZero()`, `v1` being the value
at `t`, receives the label `curr_value` and is pushed on the back of the queue
`to_scan`.  Positions are raster indices; the rows of `img` are the values of
the image, one coefficient per channel. -/
def flatzone_visit (img : List (List Int)) (t curr_value : Nat) :
    List Nat → List Nat → List Nat → Result (List Nat × List Nat)
  | [], data, to_scan => .ok (data, to_scan)
  | q :: rest, data, to_scan =>
    match data[q]? with
    | none => .error .undefined_behaviour
    | some label =>
      if label = 0 then
        match img[t]?, img[q]? with
        | some v1, some v2 =>
          if isZero (coord_sub v1 v2) then
            flatzone_visit img t curr_value rest (data.set q curr_value) (to_scan ++ [q])
          else flatzone_visit img t curr_value rest data to_scan
        | _, _ => .error .undefined_behaviour
      else flatzone_visit img t curr_value rest data to_scan

/-- Loop `while (!to_scan.empty())` of `set_flatzone_labels`: the front `t` of
the queue receives the label `curr_value`, its neighbors are visited, and the
front is popped.  `adj t` lists the positions that the adjacency iterator of
the connectivity yields at `t`; the first argument bounds the number of
turns. -/
def flatzone_fill (adj : Nat → List Nat) (img : List (List Int)) (curr_value : Nat) :
    Nat → List Nat → List Nat → Result (List Nat)
  | 0, _, _ => .error .out_of_fuel
  | fuel + 1, data, to_scan =>
    match to_scan with
    | [] => .ok data
    | t :: _ =>
      if t < data.length then do
        let (data', to_scan') ←
          flatzone_visit img t curr_value (adj t) (data.set t curr_value) to_scan
        flatzone_fill adj img curr_value fuel data' to_scan'.tail
      else .error .undefined_behaviour

/-- Raster scan of `set_flatzone_labels` over the positions given: a position
whose label is zero starts a fill with the label `curr_value`, which is then
incremented (a 64-bit counter, taken without overflow). -/
def flatzone_scan (adj : Nat → List Nat) (img : List (List Int)) (fuel : Nat) :
    List Nat → Nat → List Nat → Result (Nat × List Nat)
  | [], curr_value, data => .ok (curr_value, data)
  | pos :: rest, curr_value, data =>
    match data[pos]? with
    | none => .error .undefined_behaviour
    | some label =>
      if label = 0 then do
        let data' ← flatzone_fill adj img curr_value fuel data [pos]
        flatzone_scan adj img fuel rest (curr_value + 1) data'
      else flatzone_scan adj img fuel rest curr_value data

/-- `Partition::set_flatzone_labels(img)`: the labelled partition and the
value of `_max_label`, which is `curr_value - 1` after the scan. -/
def set_flatzone_labels (adj : Nat → List Nat) (fuel : Nat) (p : Partition)
    (img : List (List Int)) : Result (Partition × Nat) := do
  let (curr_value, data) ← flatzone_scan adj img fuel (List.range p.data.length) 1 p.data
  .ok ({ p with data := data }, curr_value - 1)

/-- Two pixels of a grid of `N` pixels are adjacent under the connectivity and
carry the same image value. -/
def flat_adjacent (adj : Nat → List Nat) (img : List (List Int)) (N : Nat) (a b : Nat) : Prop :=
  a < N ∧ b < N ∧ b ∈ adj a ∧ img[a]? = img[b]?

/-- Number of labels of a buffer that differ from `v`. -/
def pending (v : Nat) (data : List Nat) : Nat := data.countP (fun x => decide (x ≠ v))

/-- Two pixels are joined by a path of pixels, each adjacent to the next under
the connectivity, that all carry the same image value. -/
def flat_joined (adj : Nat → List Nat) (img : List (List Int)) (N : Nat) (a b : Nat) : Prop :=
  Relation.ReflTransGen (flat_adjacent adj img N) a b

/-- State of the fill of the zone of the seed `s` with the label `curr`, `Z0`
being the labels before the fill. -/
structure FillInv (adj : Nat → List Nat) (img : List (List Int)) (N s curr : Nat)
    (Z0 data queue : List Nat) : Prop where
  len : data.length = N
  labelled : ∀ j : Nat, (data[j]? = some curr ∧ flat_joined adj img N s j) ∨ data[j]? = Z0[j]?
  queue_joined : ∀ q ∈ queue, q < N ∧ flat_joined adj img N s q
  closed : ∀ a : Nat, data[a]? = some curr → a ∉ queue →
    ∀ b, flat_adjacent adj img N a b → data[b]? = some curr
  seed : data[s]? = some curr ∨ queue.head? = some s

/-- State of the raster scan of `set_flatzone_labels` before position `p`, the
next label being `curr`. -/
structure ScanInv (adj : Nat → List Nat) (img : List (List Int)) (N p curr : Nat)
    (data : List Nat) : Prop where
  len : data.length = N
  pos : 1 ≤ curr
  below : ∀ (j x : Nat), data[j]? = some x → x < curr
  done : ∀ i : Nat, i < p → data[i]? ≠ some 0
  zones : ∀ (i j x : Nat), x ≠ 0 → data[i]? = some x →
    (data[j]? = some x ↔ flat_joined adj img N i j)
  order : ∀ (j x k : Nat), data[j]? = some x → 1 ≤ k → k < x →
    ∃ i : Nat, i < j ∧ data[i]? = some k
  used : ∀ k : Nat, 1 ≤ k → k < curr → ∃ i : Nat, i < p ∧ data[i]? = some k

/-- A 3x2 partition whose labels are all zero. -/
def blank3x2 : Partition := ⟨[3, 2], List.replicate 6 0⟩

/-- A 3x2 image with one channel: two pixels of value 5 and a pixel of value 7
on the first row, a pixel of value 7, one of value 5 and one of value 7 on the
second. -/
def image3x2 : List (List Int) := [[5], [5], [7], [7], [5], [7]]

/-- What C35 compares of a forest: `_num_mergings`, and the number of non-leaf
regions of the arena. -/
def merge_count_and_internals (f : HierarchicalRegionPartition) : Result (Nat × Nat) :=
  (conditional_view non_leaves f.heap f._regions).map (fun v => (f._num_mergings, v.length))

/-- Loop of `to_partition` over the pixels of the image, in raster order: the
colour identifier `c_id` of a pixel is
`segmented(pos)(0)*255*255 + segmented(pos)(1)*255 + segmented(pos)(2)`
(64-bit), a colour identifier not yet in `id_map` receives the next value of
`current_label`, and the pixel receives the label of its colour identifier.
Returns the map, the counter and the labels.  A pixel with fewer than three
channels is read out of range. -/
def to_partition_loop (id_map : List (Nat × Nat)) (current_label : Nat) :
    List (List Nat) → Result (List (Nat × Nat) × Nat × List Nat)
  | [] => .ok (id_map, current_label, [])
  | px :: rest =>
    match px[0]?, px[1]?, px[2]? with
    | some c0, some c1, some c2 =>
      let c_id := (c0 * 255 * 255 + c1 * 255 + c2) % 2 ^ 64
      match id_map.lookup c_id with
      | none => do
        let r ← to_partition_loop ((c_id, current_label) :: id_map) (current_label + 1) rest
        .ok (r.1, r.2.1, current_label :: r.2.2)
      | some v => do
        let r ← to_partition_loop id_map current_label rest
        .ok (r.1, r.2.1, v :: r.2.2)
    | _, _, _ => .error .undefined_behaviour

/-- `to_partition(segmented)` on an image of the given sizes whose pixels, in
raster order, are `segmented`: the partition, and the value given to
`set_max_label`, which is `current_label - 1` in 64-bit arithmetic. -/
def to_partition (sizes : List Nat) (segmented : List (List Nat)) : Result (Partition × Nat) := do
  let r ← to_partition_loop [] 0 segmented
  .ok (⟨sizes, r.2.2⟩, (r.2.1 + (2 ^ 64 - 1)) % 2 ^ 64)

/-- The value `1e10` that `bfs` and `dfs` store in `dist` for "not reached". -/
def dist_inf : Nat := 10 ^ 10

/-- Inner loop of `bfs` over the edges `v = G[u][i]` of the vertex `u`: when
`dist[match[v]] == 1e10`, `dist[match[v]]` becomes `dist[u] + 1` and `match[v]`
is pushed on the queue.  The vector `match` of the source is `mtch`. -/
def bfs_edges (mtch : List Nat) (u : Nat) :
    List Nat → List Nat → List Nat → Result (List Nat × List Nat)
  | [], dist, Q => .ok (dist, Q)
  | v :: rest, dist, Q =>
    match mtch[v]? with
    | none => .error .undefined_behaviour
    | some mv =>
      match dist[mv]?, dist[u]? with
      | some dmv, some du =>
        if dmv = dist_inf then bfs_edges mtch u rest (dist.set mv (du + 1)) (Q ++ [mv])
        else bfs_edges mtch u rest dist Q
      | _, _ => .error .undefined_behaviour

/-- Loop `while (!Q.empty())` of `bfs`; the first argument bounds the number of
turns. -/
def bfs_loop (G : List (List Nat)) (mtch : List Nat) :
    Nat → List Nat → List Nat → Result (List Nat)
  | 0, _, _ => .error .out_of_fuel
  | fuel + 1, dist, Q =>
    match Q with
    | [] => .ok dist
    | u :: Q' =>
      if u ≠ 0 then
        match G[u]? with
        | none => .error .undefined_behaviour
        | some edges => do
          let (dist', Q'') ← bfs_edges mtch u edges dist Q'
          bfs_loop G mtch fuel dist' Q''
      else bfs_loop G mtch fuel dist Q'

/-- First loop of `bfs`, over the vertices `i = 0, 1, ...`: an unmatched vertex
(`match[i] == 0`) gets the distance 0 and is pushed on the queue, a matched one
gets the distance `1e10`. -/
def bfs_init (mtch : List Nat) : List Nat → List Nat → List Nat → Result (List Nat × List Nat)
  | [], dist, Q => .ok (dist, Q)
  | i :: rest, dist, Q =>
    match mtch[i]? with
    | none => .error .undefined_behaviour
    | some mi =>
      if i < dist.length then
        if mi = 0 then bfs_init mtch rest (dist.set i 0) (Q ++ [i])
        else bfs_init mtch rest (dist.set i dist_inf) Q
      else .error .undefined_behaviour

/-- `bfs()`: returns `dist[0] != 1e10` and the new `dist`.  Writing `dist[0]`
in an empty vector is undefined. -/
def bfs (fuel : Nat) (G : List (List Nat)) (mtch dist : List Nat) : Result (Bool × List Nat) := do
  let (dist1, Q) ← bfs_init mtch (List.range G.length) dist []
  if 0 < dist1.length then do
    let dist2 ← bfs_loop G mtch fuel (dist1.set 0 dist_inf) Q
    match dist2[0]? with
    | some d0 => .ok (decide (d0 ≠ dist_inf), dist2)
    | none => .error .undefined_behaviour
  else .error .undefined_behaviour

/-- Loop of `dfs(u)` over the edges `v = G[u][i]`, `call` being `dfs` itself:
when `dist[match[v]] == dist[u] + 1` and `dfs(match[v])` returns true, `v` and
`u` are matched and true is returned; after the loop `dist[u]` becomes `1e10`
and false is returned. -/
def dfs_edges (call : Nat → List Nat → List Nat → Result (Bool × List Nat × List Nat))
    (u : Nat) : List Nat → List Nat → List Nat → Result (Bool × List Nat × List Nat)
  | [], mtch, dist =>
    if u < dist.length then .ok (false, mtch, dist.set u dist_inf)
    else .error .undefined_behaviour
  | v :: rest, mtch, dist =>
    match mtch[v]? with
    | none => .error .undefined_behaviour
    | some mv =>
      match dist[mv]?, dist[u]? with
      | some dmv, some du =>
        if dmv = du + 1 then do
          let (b, mtch', dist') ← call mv mtch dist
          if b then
            if v < mtch'.length ∧ u < mtch'.length then
              .ok (true, (mtch'.set v u).set u v, dist')
            else .error .undefined_behaviour
          else dfs_edges call u rest mtch' dist'
        else dfs_edges call u rest mtch dist
      | _, _ => .error .undefined_behaviour

/-- `dfs(u)`: the result and the new `match` and `dist`.  The first argument
bounds the depth of the recursion. -/
def dfs (G : List (List Nat)) :
    Nat → Nat → List Nat → List Nat → Result (Bool × List Nat × List Nat)
  | 0, _, _, _ => .error .out_of_fuel
  | fuel + 1, u, mtch, dist =>
    if u ≠ 0 then
      match G[u]? with
      | none => .error .undefined_behaviour
      | some edges => dfs_edges (dfs G fuel) u edges mtch dist
    else .ok (true, mtch, dist)

/-- Loop `for (i = 0; i < N1+N2; i++) if (match[i]==0 && dfs(i)) matching++`
of `hopcroft_karp`. -/
def augment_all (fuel : Nat) (G : List (List Nat)) :
    List Nat → List Nat → List Nat → Nat → Result (List Nat × List Nat × Nat)
  | [], mtch, dist, matching => .ok (mtch, dist, matching)
  | i :: rest, mtch, dist, matching =>
    match mtch[i]? with
    | none => .error .undefined_behaviour
    | some mi =>
      if mi = 0 then do
        let (b, mtch', dist') ← dfs G fuel i mtch dist
        augment_all fuel G rest mtch' dist' (if b then matching + 1 else matching)
      else augment_all fuel G rest mtch dist matching

/-- Loop `while (bfs())` of `hopcroft_karp`; the second argument bounds the
number of phases, the first the loops of `bfs` and `dfs`. -/
def phases (fuel : Nat) (G : List (List Nat)) (n : Nat) :
    Nat → List Nat → List Nat → Nat → Result (List Nat × Nat)
  | 0, _, _, _ => .error .out_of_fuel
  | k + 1, mtch, dist, matching => do
    let (found, dist1) ← bfs fuel G mtch dist
    if found then do
      let (mtch', dist', matching') ← augment_all fuel G (List.range n) mtch dist1 matching
      phases fuel G n k mtch' dist' matching'
    else .ok (mtch, matching)

/-- `G[j].push_back(x)`. -/
def push_edge (G : List (List Nat)) (j x : Nat) : List (List Nat) :=
  match G[j]? with
  | some l => G.set j (l ++ [x])
  | none => G

/-- Construction of the adjacency lists of `hopcroft_karp`: for every `i < N1`
and `k < N2`, in this order, with `matching_cost(a[i], b[k], R) < 1e100` (the
value `near i k`; the cost is a floating-point computation on the coordinates
of the two points), `N1 + k` is pushed on `G[i]` and `i` on `G[N1 + k]`. -/
def build_graph (N1 N2 : Nat) (near : Nat → Nat → Bool) : List (List Nat) :=
  (List.range N1).foldl (fun G i =>
    (List.range N2).foldl (fun G k =>
      if near i k then push_edge (push_edge G i (N1 + k)) (N1 + k) i else G) G)
    (List.replicate (N1 + N2) [])

/-- `inconsistent(a, b)` on the label pairs of two contour points. -/
def inconsistent (a b : Int × Int) : Bool :=
  decide (a.1 ≠ b.1) || decide (a.2 ≠ b.2)

/-- Counting loop of `hopcroft_karp` over the points `a[i]`, from `tp` and
`ip`: a matched point (`match[i] != 0`) counts as a true positive when it is
consistent with `b[match[i] - N1]` and as an inconsistent one otherwise (the
index is a 64-bit difference). -/
def count_matches (a b : List (Int × Int)) (mtch : List Nat) :
    List Nat → Nat → Nat → Result (Nat × Nat)
  | [], tp, ip => .ok (tp, ip)
  | i :: rest, tp, ip =>
    match mtch[i]?, a[i]? with
    | some mi, some ai =>
      if mi ≠ 0 then
        match b[(mi + 2 ^ 64 - a.length % 2 ^ 64) % 2 ^ 64]? with
        | some bk =>
          if !inconsistent ai bk then count_matches a b mtch rest (tp + 1) ip
          else count_matches a b mtch rest tp (ip + 1)
        | none => .error .undefined_behaviour
      else count_matches a b mtch rest tp ip
    | _, _ => .error .undefined_behaviour

/-- `hopcroft_karp(a, b, R)` on the label pairs of the contour points of `a`
and `b`: the pair `(tp, ip)`.  The counters `tp` and `ip` start at 1.  The
matching costs that the function also stores in the points are not part of
the result. -/
def hopcroft_karp (fuel : Nat) (a b : List (Int × Int)) (near : Nat → Nat → Bool) :
    Result (Nat × Nat) := do
  let N1 := a.length
  let N2 := b.length
  let G := build_graph N1 N2 near
  let (mtch, _) ← phases fuel G (N1 + N2) fuel (List.replicate (N1 + N2) 0)
    (List.replicate (N1 + N2) 0) 0
  count_matches a b mtch (List.range N1) 1 1

/-- Precisions that `match_contours` reports from the pair `(tp, ip)` of
`hopcroft_karp` and the number of result contour points: `1` and `0` when
there is no result contour point, `tp / contours.size()` and
`ip / contours.size()` otherwise (the floating-point quotients, taken
exactly). -/
def precisions (p : Nat × Nat) (contours_size : Nat) : ℚ × ℚ :=
  if contours_size = 0 then (1, 0)
  else ((p.1 : ℚ) / (contours_size : ℚ), (p.2 : ℚ) / (contours_size : ℚ))

/-- A compact file whose header declares three dimensions, of the sizes 1, 1
and `0xF800`: magic number 255, file type 1, the three sizes, `num_bits = 2` at
byte 37, and the body byte `0xE8` (an explicit-label run of the label 1) at
byte 38.  Byte 30, inside the third size, is `0xF8`. -/
def file_three_dims : List Nat :=
  le_bytes 2 255 ++ [1, 0, 0] ++ le_bytes 8 3 ++ le_bytes 8 1 ++ le_bytes 8 1
    ++ le_bytes 8 (0xF8 * 256) ++ [2, 0xE8]

/-- A 2x2 raster with labels of at most 3 bits. -/
def raster2x2 : Partition := ⟨[2, 2], [5, 5, 0, 7]⟩

/-- Entries of the neighbor set of the region at `a` that are not a region of
the heap.  The neighbor container holds pointers to regions; a link to the
border of the grid would be an entry that points to no region. -/
def border_links (h : Heap) (a : Nat) : List Nat :=
  (nbrs_of h a).filter (fun x =>
    match h[x]? with
    | some (some _) => false
    | _ => true)

/-- State of `_read_file` at the head of its loop
`while (num_read_elem < total_elem)`. -/
structure DecoderState where
  rbs : ReadBitStream
  m : List Nat
  num_read_elem : Nat
  max_label : Nat

/-- The prefix reads of the label casuistics of `_read_file`, which select the
predictor of the run: 0 for "Up", 1 for "Up-one-right", 2 for "Max+1" and 3
for a label given in `num_bits` bits. -/
def label_predictor (rbs : ReadBitStream) : Result Nat := do
  let (rbs, read_bits) ← rbs.read 1
  if read_bits = 0 then .ok 0
  else do
    let (rbs, read_bits) ← rbs.read 1
    if read_bits = 0 then .ok 1
    else do
      let (_, read_bits) ← rbs.read 1
      if read_bits = 0 then .ok 2 else .ok 3

/-- The loop `while (num_read_elem < total_elem)` of `_read_file`, as
`read_runs`, returning the states at the head of the loop, in order: the state
before each run, and at last the state in which the loop is left. -/
def read_runs_states (num_bits width total_elem : Nat) :
    Nat → ReadBitStream → List Nat → Nat → Nat → Result (List DecoderState)
  | 0, _, _, _, _ => .error .out_of_fuel
  | fuel + 1, rbs, m, num_read_elem, max_label =>
    if num_read_elem < total_elem then do
      let (rbs', current_label, max_label') ←
        read_label num_bits width m num_read_elem max_label rbs
      let (rbs'', current_length) ← read_length rbs'
      let m' ← fill_run current_length m num_read_elem current_label
      let rest ← read_runs_states num_bits width total_elem fuel rbs'' m'
        (num_read_elem + current_length) max_label'
      .ok (⟨rbs, m, num_read_elem, max_label⟩ :: rest)
    else .ok [⟨rbs, m, num_read_elem, max_label⟩]

/-- Bits of a body of three runs of one cell with labels of 32 bits: the label
0 given in full, the label `2^32 - 1` given in full, and a "Max+1" run. -/
def wrap_body_bits : List Bool :=
  [true, true, true] ++ bits_of 32 0 ++ [false, false, false]
    ++ [true, true, true] ++ bits_of 32 (2 ^ 32 - 1) ++ [false, false, false]
    ++ [true, true, false, false, false, false]

/-- States at the head of the loop when the body `0xE8, 0xC2, 0x00` is decoded
into a 2x2 raster with labels of 2 bits: four runs of one cell, the label 1
given in full, a "Max+1" run, an "Up-one-right" run and an "Up" run. -/
def four_predictor_states : List DecoderState :=
  [⟨⟨[0xE8, 0xC2, 0x00], 0, 0, 0, false⟩, [0, 0, 0, 0], 0, 0⟩,
   ⟨⟨[0xE8, 0xC2, 0x00], 1, 0, 0, false⟩, [1, 0, 0, 0], 1, 1⟩,
   ⟨⟨[0xE8, 0xC2, 0x00], 2, 2, 2, false⟩, [1, 2, 0, 0], 2, 2⟩,
   ⟨⟨[0xE8, 0xC2, 0x00], 3, 0, 5, false⟩, [1, 2, 2, 0], 3, 2⟩,
   ⟨⟨[0xE8, 0xC2, 0x00], 3, 0, 1, false⟩, [1, 2, 2, 2], 4, 2⟩]

/-- Labels of the cells of a heap. -/
def heap_labels (h : Heap) : List (Option (Option Nat)) :=
  h.map (fun c => some (c.map (fun r => r.label)))

/-- Every non-empty slot `i` of the arena points to a region of the heap whose
label is `i`. -/
def ArenaLabelled (regs : List (Option Nat)) (h : Heap) : Prop :=
  ∀ (i a : Nat), regs[i]? = some (some a) → ∃ r, h[a]? = some (some r) ∧ r.label = i

/-- A region that is in the heap `h` and in the heap `h'` has the same label in
both. -/
def LabelsKept (h h' : Heap) : Prop :=
  ∀ (a : Nat) (r r' : HierarchicalRegion),
    h[a]? = some (some r) → h'[a]? = some (some r') → r'.label = r.label

/-- Forest states reached by `init` (on any forest), `merge_regions` (on any
two regions, with any label) and `prune` (of any region), each call having
returned. -/
inductive Reachable (adj : Nat → List Nat) : HierarchicalRegionPartition → Prop where
  | init (f0 f : HierarchicalRegionPartition) (p : Partition) :
      imageplus.init adj f0 p = .ok f → Reachable adj f
  | merge (fuel : Nat) (f f' : HierarchicalRegionPartition) (region1 region2 label P : Nat) :
      Reachable adj f → merge_regions fuel f region1 region2 label = .ok (f', P) →
      Reachable adj f'
  | prune (fuel : Nat) (f f' : HierarchicalRegionPartition) (region : Nat) :
      Reachable adj f → imageplus.prune fuel f region = .ok f' → Reachable adj f'

/-- Children of the region at address `a` (none if there is no region). -/
def children_of (h : Heap) (a : Nat) : List Nat :=
  match h[a]? with
  | some (some r) => r.children
  | _ => []

/-- Parent of the region at address `a` (none if there is no region). -/
def parent_of (h : Heap) (a : Nat) : Option Nat :=
  match h[a]? with
  | some (some r) => r.parent
  | _ => none

/-- Addresses of the regions of the arena, in slot order. -/
def arena_addrs (regs : List (Option Nat)) : List Nat := regs.filterMap id

/-- Value of a condition functor on the region at address `a`. -/
def holds (cond : HierarchicalRegion → Bool) (h : Heap) (a : Nat) : Bool :=
  match h[a]? with
  | some (some r) => cond r
  | _ => false

/-- Local shape of the forest: every non-empty slot of the arena holds a
region with the label of the slot; a region of the arena has no children, or
two different children that are regions of the arena and have it as parent;
the parent of a region of the arena is a region of the arena and has it among
its children. -/
structure ForestInv (regs : List (Option Nat)) (h : Heap) : Prop where
  labelled : ArenaLabelled regs h
  children : ∀ a : Nat, some a ∈ regs →
    children_of h a = [] ∨ ∃ c1 c2, children_of h a = [c1, c2] ∧ c1 ≠ c2
      ∧ some c1 ∈ regs ∧ parent_of h c1 = some a ∧ some c2 ∈ regs ∧ parent_of h c2 = some a
  parent : ∀ a p : Nat, some a ∈ regs → parent_of h a = some p →
    some p ∈ regs ∧ a ∈ children_of h p

/-- Forest states reached from `init` (on any forest) by merges of two distinct
parent-less regions of the arena into an empty slot of the arena and by prunes
of regions of the arena, each call having returned. -/
inductive Reached (adj : Nat → List Nat) : HierarchicalRegionPartition → Prop where
  | init (f0 f : HierarchicalRegionPartition) (p : Partition) :
      imageplus.init adj f0 p = .ok f → Reached adj f
  | merge (fuel : Nat) (f f' : HierarchicalRegionPartition) (region1 region2 label P : Nat) :
      Reached adj f → some region1 ∈ f._regions → some region2 ∈ f._regions →
      region1 ≠ region2 → parent_of f.heap region1 = none → parent_of f.heap region2 = none →
      f._regions[label]? = some none →
      merge_regions fuel f region1 region2 label = .ok (f', P) → Reached adj f'
  | prune (fuel : Nat) (f f' : HierarchicalRegionPartition) (region : Nat) :
      Reached adj f → some region ∈ f._regions →
      imageplus.prune fuel f region = .ok f' → Reached adj f'

/-- Forest of the 3x1 raster after the merges `(0, 1) -> 3` and `(3, 2) -> 4`
and the prune of region 3. -/
def scenario_pruned_inner : HierarchicalRegionPartition :=
  pruned 20 scenario_tree 3

/-! ## Theorems -/

theorem relabel_length (data : List Nat) : ∀ (corr : List (Nat × Nat)) (n : Nat),
    (relabel corr n data).2.2.length = data.length := by
  induction data with
  | nil => intro corr n; rfl
  | cons label rest ih =>
    intro corr n
    unfold relabel
    split
    · simp [ih]
    · simp [ih]

theorem relabel_mono (data : List Nat) : ∀ (corr : List (Nat × Nat)) (n : Nat),
    n ≤ (relabel corr n data).2.1 := by
  induction data with
  | nil => intro corr n; exact le_refl _
  | cons label rest ih =>
    intro corr n
    unfold relabel
    split
    · exact le_trans (Nat.le_succ n) (ih _ _)
    · exact ih _ _

theorem relabel_values (data : List Nat) : ∀ (corr : List (Nat × Nat)) (n : Nat),
    (∀ k v, corr.lookup k = some v → v < n) →
    ∀ x ∈ (relabel corr n data).2.2, x < (relabel corr n data).2.1 := by
  induction data with
  | nil => intro corr n _ x hx; simp [relabel] at hx
  | cons label rest ih =>
    intro corr n hcorr x hx
    unfold relabel at hx ⊢
    split at hx
    · rename_i hl
      simp only [hl]
      have hcorr' : ∀ k v, ((label, n) :: corr).lookup k = some v → v < n + 1 := by
        intro k v hkv
        rw [List.lookup_cons] at hkv
        split at hkv
        · simp at hkv; omega
        · exact Nat.lt_succ_of_lt (hcorr k v hkv)
      simp only [List.mem_cons] at hx
      rcases hx with hx | hx
      · subst hx
        exact lt_of_lt_of_le (Nat.lt_succ_self _) (relabel_mono rest _ _)
      · exact ih _ _ hcorr' x hx
    · rename_i v hl
      simp only [hl]
      simp only [List.mem_cons] at hx
      rcases hx with hx | hx
      · subst hx
        exact lt_of_lt_of_le (hcorr _ _ hl) (relabel_mono rest _ _)
      · exact ih _ _ hcorr x hx

theorem relabel_count (data : List Nat) : ∀ (corr : List (Nat × Nat)) (n : Nat),
    (relabel corr n data).2.1
      = n + ((data.filter (fun l => (corr.lookup l).isNone)).toFinset).card := by
  induction data with
  | nil => intro corr n; simp [relabel]
  | cons label rest ih =>
    intro corr n
    unfold relabel
    split
    · rename_i hl
      simp only [ih]
      have hmem : label ∉ (rest.filter
          (fun l => (((label, n) :: corr).lookup l).isNone)).toFinset := by
        simp [List.lookup_cons]
      have hset : ((label :: rest).filter (fun l => (corr.lookup l).isNone)).toFinset
          = insert label (rest.filter
              (fun l => (((label, n) :: corr).lookup l).isNone)).toFinset := by
        ext x
        simp only [List.mem_toFinset, List.mem_filter, List.mem_cons, Finset.mem_insert,
          List.lookup_cons]
        by_cases hx : x = label
        · subst hx; simp [hl]
        · have : (x == label) = false := by simpa using hx
          simp [hx, this]
      rw [hset, Finset.card_insert_of_not_mem hmem]
      omega
    · rename_i v hl
      simp only [ih]
      congr 2
      simp [List.filter_cons, hl]

theorem relabel_fresh_count (data : List Nat) :
    (relabel [] 0 data).2.1 = data.dedup.length := by
  rw [relabel_count, ← List.card_toFinset]
  simp

theorem deref_eq_ok {h : Heap} {a : Nat} {r : HierarchicalRegion} :
    deref h a = .ok r ↔ h[a]? = some (some r) := by
  unfold deref
  split
  · rename_i r' heq
    simp [heq]
  · rename_i hne
    constructor
    · intro hc; cases hc
    · intro hc; exact absurd hc (hne r)

theorem modify_eq_ok {h : Heap} {a : Nat} {r : HierarchicalRegion}
    (g : HierarchicalRegion → HierarchicalRegion) (hr : h[a]? = some (some r)) :
    modify h a g = .ok (h.set a (some (g r))) := by
  unfold modify
  simp [hr]

theorem modify_ok_inv {h h' : Heap} {a : Nat} {g : HierarchicalRegion → HierarchicalRegion}
    (hm : modify h a g = .ok h') :
    ∃ r, h[a]? = some (some r) ∧ h' = h.set a (some (g r)) := by
  unfold modify at hm
  split at hm
  · rename_i r heq
    refine ⟨r, heq, ?_⟩
    cases hm
    rfl
  · cases hm

theorem slot_pointer_eq_ok {regs : List (Option Nat)} {l a : Nat} :
    slot_pointer regs l = .ok a ↔ regs[l]? = some (some a) := by
  unfold slot_pointer
  split
  · rename_i a' heq
    simp [heq]
  · rename_i hne
    constructor
    · intro hc; cases hc
    · intro hc; exact absurd hc (hne a)

theorem heap_skeleton_set {h : Heap} {a : Nat} {r r' : HierarchicalRegion}
    (hr : h[a]? = some (some r)) (hs : skeleton r' = skeleton r) :
    heap_skeleton (h.set a (some r')) = heap_skeleton h := by
  unfold heap_skeleton
  apply List.ext_getElem?
  intro j
  simp only [List.getElem?_map, List.getElem?_set]
  by_cases hj : a = j
  · subst hj
    have hlt : a < h.length := by
      by_contra hc
      rw [List.getElem?_eq_none (by omega)] at hr
      cases hr
    simp [hlt, hr, hs]
  · simp [hj]

theorem heap_skeleton_alive {h : Heap} {a : Nat} {s : Nat × Option Nat × List Nat}
    (hs : (heap_skeleton h)[a]? = some (some s)) :
    ∃ r, h[a]? = some (some r) ∧ skeleton r = s := by
  unfold heap_skeleton at hs
  rw [List.getElem?_map] at hs
  cases hh : h[a]? with
  | none => rw [hh] at hs; cases hs
  | some o =>
    cases o with
    | none => rw [hh] at hs; cases hs
    | some r =>
      rw [hh] at hs
      simp only [Option.map_some', Option.some.injEq] at hs
      exact ⟨r, rfl, hs⟩

theorem modify_skeleton {h : Heap} {a : Nat} {s : Nat × Option Nat × List Nat}
    (g : HierarchicalRegion → HierarchicalRegion) (hg : ∀ r, skeleton (g r) = skeleton r)
    (hs : (heap_skeleton h)[a]? = some (some s)) :
    ∃ h', modify h a g = .ok h' ∧ heap_skeleton h' = heap_skeleton h := by
  obtain ⟨r, hr, _⟩ := heap_skeleton_alive hs
  exact ⟨_, modify_eq_ok g hr, heap_skeleton_set hr (hg r)⟩

theorem create_leaves_spec : ∀ (count i : Nat) (h : Heap) (regs : List (Option Nat)),
    i + count ≤ regs.length →
    ∃ regs', create_leaves count i h regs
        = .ok (h ++ (List.range' i count).map (fun k => some (HierarchicalRegion.leaf k)), regs')
      ∧ regs'.length = regs.length
      ∧ ∀ j, regs'[j]? = if i ≤ j ∧ j < i + count then some (some (h.length + (j - i)))
                          else regs[j]? := by
  intro count
  induction count with
  | zero =>
    intro i h regs _
    refine ⟨regs, by simp [create_leaves], rfl, ?_⟩
    intro j
    have : ¬ (i ≤ j ∧ j < i) := by omega
    simp [this]
  | succ n ih =>
    intro i h regs hle
    have hi : i < regs.length := by omega
    obtain ⟨regs', he, hlen, hget⟩ := ih (i + 1) (h ++ [some (HierarchicalRegion.leaf i)])
      (regs.set i (some h.length)) (by simp; omega)
    refine ⟨regs', ?_, by simpa using hlen, ?_⟩
    · unfold create_leaves
      simp only [hi, if_true, he]
      simp [List.range'_succ]
    · intro j
      rw [hget j]
      simp only [List.length_append, List.length_singleton, List.getElem?_set]
      by_cases h1 : i + 1 ≤ j ∧ j < i + 1 + n
      · have h2 : i ≤ j ∧ j < i + (n + 1) := by omega
        simp only [h1, h2, and_self, if_true]
        congr 2
        omega
      · by_cases h3 : i = j
        · subst h3
          have h2 : i ≤ i ∧ i < i + (n + 1) := by omega
          simp [h1, h2, hi]
        · have h2 : ¬ (i ≤ j ∧ j < i + (n + 1)) := by omega
          simp [h1, h2, h3]

theorem add_coordinates_spec {S : List (Option (Nat × Option Nat × List Nat))}
    {regs : List (Option Nat)} {L : Nat} (hcov : ArenaCovers S regs L) :
    ∀ (data : List Nat) (pos : Nat) (h : Heap), (∀ x ∈ data, x < L) → heap_skeleton h = S →
    ∃ h', add_coordinates regs pos data h = .ok h' ∧ heap_skeleton h' = S := by
  intro data
  induction data with
  | nil => intro pos h _ hS; exact ⟨h, rfl, hS⟩
  | cons label rest ih =>
    intro pos h hdata hS
    obtain ⟨a, s, ha, hs⟩ := hcov label (hdata label (List.mem_cons_self _ _))
    rw [← hS] at hs
    obtain ⟨h1, hm, hsk⟩ := modify_skeleton
      (fun r => { r with coordinates := r.coordinates ++ [pos] }) (fun _ => rfl) hs
    obtain ⟨h2, he, hsk2⟩ := ih (pos + 1) h1
      (fun x hx => hdata x (List.mem_cons_of_mem _ hx)) (hsk.trans hS)
    refine ⟨h2, ?_, hsk2⟩
    unfold add_coordinates
    rw [slot_pointer_eq_ok.mpr ha]
    simp only [bind, Except.bind, hm, he]

theorem add_pixel_neighbors_spec {S : List (Option (Nat × Option Nat × List Nat))}
    {regs : List (Option Nat)} {L : Nat} (hcov : ArenaCovers S regs L)
    (data : List Nat) (hdata : ∀ x ∈ data, x < L) (label : Nat) (hlabel : label < L) :
    ∀ (qs : List Nat) (h : Heap), (∀ q ∈ qs, q < data.length) → heap_skeleton h = S →
    ∃ h', add_pixel_neighbors regs data label qs h = .ok h' ∧ heap_skeleton h' = S := by
  intro qs
  induction qs with
  | nil => intro h _ hS; exact ⟨h, rfl, hS⟩
  | cons q rest ih =>
    intro h hqs hS
    have hq : q < data.length := hqs q (List.mem_cons_self _ _)
    have hrest : ∀ q ∈ rest, q < data.length := fun x hx => hqs x (List.mem_cons_of_mem _ hx)
    unfold add_pixel_neighbors
    rw [List.getElem?_eq_getElem hq]
    simp only
    by_cases hl : label = data[q]
    · simp only [hl, if_true]
      rw [← hl]
      exact ih h hrest hS
    · simp only [hl, if_false]
      obtain ⟨a, s, ha, hs⟩ := hcov label hlabel
      obtain ⟨b, _, hb, _⟩ := hcov data[q] (hdata _ (List.getElem_mem _))
      rw [← hS] at hs
      obtain ⟨h1, hm, hsk⟩ := modify_skeleton
        (fun r => { r with neighbors := neighbors_insert b r.neighbors }) (fun _ => rfl) hs
      obtain ⟨h2, he, hsk2⟩ := ih h1 hrest (hsk.trans hS)
      refine ⟨h2, ?_, hsk2⟩
      rw [slot_pointer_eq_ok.mpr ha, slot_pointer_eq_ok.mpr hb]
      simp only [bind, Except.bind, hm, he]

theorem add_neighbors_spec {S : List (Option (Nat × Option Nat × List Nat))}
    {regs : List (Option Nat)} {L : Nat} (hcov : ArenaCovers S regs L)
    (adj : Nat → List Nat) (data : List Nat) (hdata : ∀ x ∈ data, x < L)
    (hadj : ∀ i, i < data.length → ∀ j ∈ adj i, j < data.length) :
    ∀ (rest : List Nat) (pos : Nat) (h : Heap), (∀ x ∈ rest, x < L) →
    pos + rest.length = data.length → heap_skeleton h = S →
    ∃ h', add_neighbors adj regs data pos rest h = .ok h' ∧ heap_skeleton h' = S := by
  intro rest
  induction rest with
  | nil => intro pos h _ _ hS; exact ⟨h, rfl, hS⟩
  | cons label tl ih =>
    intro pos h hrest hlen hS
    simp only [List.length_cons] at hlen
    obtain ⟨h1, hm, hsk⟩ := add_pixel_neighbors_spec hcov data hdata label
      (hrest label (List.mem_cons_self _ _)) (adj pos) h (hadj pos (by omega)) hS
    obtain ⟨h2, he, hsk2⟩ := ih (pos + 1) h1
      (fun x hx => hrest x (List.mem_cons_of_mem _ hx)) (by omega) hsk
    refine ⟨h2, ?_, hsk2⟩
    unfold add_neighbors
    simp only [bind, Except.bind, hm, he]

theorem conditional_view_append (cond : HierarchicalRegion → Bool) (h : Heap) :
    ∀ (xs ys : List (Option Nat)) (as bs : List HierarchicalRegion),
    conditional_view cond h xs = .ok as → conditional_view cond h ys = .ok bs →
    conditional_view cond h (xs ++ ys) = .ok (as ++ bs) := by
  intro xs
  induction xs with
  | nil =>
    intro ys as bs hx hy
    simp only [conditional_view] at hx
    cases hx
    simpa using hy
  | cons x rest ih =>
    intro ys as bs hx hy
    cases x with
    | none =>
      simp only [conditional_view, List.cons_append] at hx ⊢
      exact ih ys as bs hx hy
    | some a =>
      simp only [conditional_view, List.cons_append] at hx ⊢
      cases hd : deref h a with
      | error e => rw [hd] at hx; cases hx
      | ok r =>
        rw [hd] at hx
        simp only [bind, Except.bind] at hx ⊢
        cases hv : conditional_view cond h rest with
        | error e => rw [hv] at hx; cases hx
        | ok tl =>
          rw [hv] at hx
          simp only at hx
          rw [show rest.append ys = rest ++ ys from rfl, ih ys tl bs hv hy]
          simp only
          cases hx
          by_cases hc : cond r = true
          · simp [hc]
          · simp [hc]

theorem conditional_view_replicate_none (cond : HierarchicalRegion → Bool) (h : Heap) :
    ∀ n, conditional_view cond h (List.replicate n none) = .ok [] := by
  intro n
  induction n with
  | zero => rfl
  | succ n ih => simpa [List.replicate_succ, conditional_view] using ih

theorem conditional_view_leaves_labels (h : Heap) :
    ∀ (as : List Nat),
    (∀ a ∈ as, ∃ r, h[a]? = some (some r) ∧ r.label = a ∧ r.children = []) →
    ∃ rs, conditional_view leaves h (as.map some) = .ok rs ∧ rs.map (fun r => r.label) = as := by
  intro as
  induction as with
  | nil => intro _; exact ⟨[], rfl, rfl⟩
  | cons a rest ih =>
    intro hall
    obtain ⟨r, hr, hl, hc⟩ := hall a (List.mem_cons_self _ _)
    obtain ⟨rs, hv, hm⟩ := ih (fun x hx => hall x (List.mem_cons_of_mem _ hx))
    refine ⟨r :: rs, ?_, by simp [hl, hm]⟩
    simp only [List.map_cons, conditional_view, deref_eq_ok.mpr hr, bind, Except.bind, hv]
    simp [leaves, hc]

theorem clear_regions_fresh (u : Bool) (m : Nat) :
    (_clear_regions (HierarchicalRegionPartition.fresh u m)).heap = [] := rfl

theorem leaf_heap_get (L a : Nat) (ha : a < L) :
    (([] : Heap) ++ (List.range' 0 L).map (fun k => some (HierarchicalRegion.leaf k)))[a]?
      = some (some (HierarchicalRegion.leaf a)) := by
  simp [List.getElem?_map, List.getElem?_range', ha]

/-- Result of `init` on a freshly constructed forest, in terms of the number
`L` of distinct labels of the raster. -/
theorem init_fresh_spec (adj : Nat → List Nat) (u : Bool) (m : Nat) (p : Partition)
    (hadj : ∀ i, i < p.data.length → ∀ j ∈ adj i, j < p.data.length)
    (hL : 1 ≤ p.data.dedup.length) (hsize : p.data.length < 2 ^ 63) :
    ∃ f, init adj (HierarchicalRegionPartition.fresh u m) p = .ok f
      ∧ heap_skeleton f.heap
          = (List.range' 0 p.data.dedup.length).map (fun k => some (k, none, []))
      ∧ f._regions = (List.range p.data.dedup.length).map some
          ++ List.replicate (p.data.dedup.length - 1) none
      ∧ f._leaves_partition = { p with data := (relabel [] 0 p.data).2.2 }
      ∧ f._roots_partition = p ∧ f._num_mergings = 0 ∧ f._update_partition = u
      ∧ f._curr_max_label = p.data.dedup.length - 1 := by
  have hLle : p.data.dedup.length ≤ p.data.length := (List.dedup_sublist _).length_le
  set L := p.data.dedup.length with hLdef
  have hcur : (relabel [] 0 p.data).2.1 = L := relabel_fresh_count p.data
  have hmax : (L + (2 ^ 64 - 1)) % 2 ^ 64 = L - 1 := by omega
  have hsz : (2 * (L - 1) + 1) % 2 ^ 64 = 2 * L - 1 := by omega
  obtain ⟨regs, hcl, hlen, hget⟩ := create_leaves_spec L 0 []
    (List.replicate (2 * L - 1) none) (by simp; omega)
  have hregs : regs = (List.range L).map some ++ List.replicate (L - 1) none := by
    apply List.ext_getElem?
    intro j
    rw [hget j]
    simp only [List.length_nil, Nat.zero_le, true_and, Nat.zero_add, Nat.sub_zero,
      List.getElem?_append, List.length_map, List.length_range, List.getElem?_map,
      List.getElem?_replicate]
    by_cases hj : j < L
    · simp [hj, List.getElem?_range hj]
    · have : (j - L < L - 1) ↔ j < 2 * L - 1 := by omega
      simp [hj, this]
  set h1 : Heap := ([] : Heap) ++ (List.range' 0 L).map (fun k => some (HierarchicalRegion.leaf k))
    with hh1
  set S := heap_skeleton h1 with hS
  have hSeq : S = (List.range' 0 L).map (fun k => some (k, none, [])) := by
    simp [hS, hh1, heap_skeleton, skeleton, HierarchicalRegion.leaf, Function.comp_def]
  have hcov : ArenaCovers S regs L := by
    intro l hl
    refine ⟨l, (l, none, []), ?_, ?_⟩
    · rw [hget l]; simp [hl]
    · rw [hSeq]; simp [List.getElem?_map, List.getElem?_range', hl]
  have hvals : ∀ x ∈ (relabel [] 0 p.data).2.2, x < L := by
    intro x hx
    have := relabel_values p.data [] 0 (by intro k v hkv; simp at hkv) x hx
    rwa [hcur] at this
  have hlen2 : (relabel [] 0 p.data).2.2.length = p.data.length := relabel_length _ _ _
  obtain ⟨h2, hac, hsk2⟩ := add_coordinates_spec hcov (relabel [] 0 p.data).2.2 0 h1 hvals rfl
  obtain ⟨h3, han, hsk3⟩ := add_neighbors_spec hcov adj (relabel [] 0 p.data).2.2 hvals
    (by rw [hlen2]; exact hadj) (relabel [] 0 p.data).2.2 0 h2 hvals (by simp) hsk2
  refine ⟨{ heap := h3, _regions := regs, _curr_max_label := L - 1, _num_mergings := 0,
            _leaves_partition := { p with data := (relabel [] 0 p.data).2.2 },
            _roots_partition := p, _update_partition := u,
            _correspondences := (relabel [] 0 p.data).1 }, ?_, ?_, hregs, rfl, rfl, rfl, rfl, rfl⟩
  · unfold init
    simp only [HierarchicalRegionPartition.fresh, _clear_regions, List.foldl, hcur, hmax, hsz,
      hcl, bind, Except.bind, pure, Except.pure, hac, han]
  · simp only [hsk3, hSeq]

/-- C1. For every raster with `L ≥ 1` distinct labels (and fewer than `2^63`
pixels, so that the 64-bit arena size `2L-1` does not wrap), `init` on a
freshly constructed forest returns a forest whose arena has exactly `2L-1`
slots; each slot `i < L` points to a leaf region (no children, no parent) of
label `i`, the slots `L..2L-2` are null, and the leaves view yields the labels
`0, 1, ..., L-1`. -/
theorem init_label_density (adj : Nat → List Nat) (u : Bool) (m : Nat) (p : Partition)
    (hadj : ∀ i, i < p.data.length → ∀ j ∈ adj i, j < p.data.length)
    (hL : 1 ≤ p.data.dedup.length) (hsize : p.data.length < 2 ^ 63) :
    ∃ f, init adj (HierarchicalRegionPartition.fresh u m) p = .ok f
      ∧ f._regions.length = 2 * p.data.dedup.length - 1
      ∧ (∀ i, i < p.data.dedup.length → ∃ a r, f._regions[i]? = some (some a)
          ∧ f.heap[a]? = some (some r) ∧ r.label = i ∧ r.children = [] ∧ r.parent = none)
      ∧ (∀ i, p.data.dedup.length ≤ i → i < 2 * p.data.dedup.length - 1 →
          f._regions[i]? = some none)
      ∧ ∃ rs, conditional_view leaves f.heap f._regions = .ok rs
          ∧ rs.map (fun r => r.label) = List.range p.data.dedup.length := by
  obtain ⟨f, hf, hsk, hregs, -⟩ := init_fresh_spec adj u m p hadj hL hsize
  have hcell : ∀ i, i < p.data.dedup.length →
      ∃ r, f.heap[i]? = some (some r) ∧ r.label = i ∧ r.children = [] ∧ r.parent = none := by
    intro i hi
    have hs : (heap_skeleton f.heap)[i]? = some (some (i, none, [])) := by
      rw [hsk]; simp [List.getElem?_map, List.getElem?_range', hi]
    obtain ⟨r, hr, hsr⟩ := heap_skeleton_alive hs
    simp only [skeleton, Prod.mk.injEq] at hsr
    exact ⟨r, hr, hsr.1, hsr.2.2, hsr.2.1⟩
  refine ⟨f, hf, ?_, ?_, ?_, ?_⟩
  · rw [hregs]; simp; omega
  · intro i hi
    obtain ⟨r, hr, h1, h2, h3⟩ := hcell i hi
    refine ⟨i, r, ?_, hr, h1, h2, h3⟩
    rw [hregs, List.getElem?_append]
    simp [hi, List.getElem?_map, List.getElem?_range hi]
  · intro i h1 h2
    rw [hregs, List.getElem?_append]
    have : ¬ i < p.data.dedup.length := by omega
    simp only [List.length_map, List.length_range, this, if_false, List.getElem?_replicate]
    have : i - p.data.dedup.length < p.data.dedup.length - 1 := by omega
    simp [this]
  · obtain ⟨rs, hv, hm⟩ := conditional_view_leaves_labels f.heap (List.range p.data.dedup.length)
      (by
        intro a ha
        obtain ⟨r, hr, h1, h2, _⟩ := hcell a (List.mem_range.mp ha)
        exact ⟨r, hr, h1, h2⟩)
    refine ⟨rs ++ [], ?_, by simpa using hm⟩
    rw [hregs]
    exact conditional_view_append leaves f.heap _ _ rs [] hv
      (conditional_view_replicate_none leaves f.heap _)

/-- Witness of C1: the 4x4 two-label raster, scanned with the forward
4-connectivity. -/
theorem init_label_density_witness :
    (∀ i, i < raster4x4.data.length →
        ∀ j ∈ grid_adjacency 4 4 forward_connectivity4 i, j < raster4x4.data.length)
    ∧ 1 ≤ raster4x4.data.dedup.length ∧ raster4x4.data.length < 2 ^ 63
    ∧ ∃ f, init (grid_adjacency 4 4 forward_connectivity4)
          (HierarchicalRegionPartition.fresh true 0) raster4x4 = .ok f
      ∧ f._regions.length = 2 * raster4x4.data.dedup.length - 1
      ∧ (∀ i, i < raster4x4.data.dedup.length → ∃ a r, f._regions[i]? = some (some a)
          ∧ f.heap[a]? = some (some r) ∧ r.label = i ∧ r.children = [] ∧ r.parent = none)
      ∧ (∀ i, raster4x4.data.dedup.length ≤ i → i < 2 * raster4x4.data.dedup.length - 1 →
          f._regions[i]? = some none)
      ∧ ∃ rs, conditional_view leaves f.heap f._regions = .ok rs
          ∧ rs.map (fun r => r.label) = List.range raster4x4.data.dedup.length :=
  ⟨by decide, by decide, by decide,
   init_label_density (grid_adjacency 4 4 forward_connectivity4) true 0 raster4x4
     (by decide) (by decide) (by decide)⟩

theorem mem_neighbors_insert {r x : Nat} {ns : List Nat} :
    x ∈ neighbors_insert r ns ↔ x = r ∨ x ∈ ns := by
  unfold neighbors_insert
  by_cases h : r ∈ ns
  · simp only [h, if_true]
    constructor
    · intro hx; exact Or.inr hx
    · rintro (hx | hx)
      · subst hx; exact h
      · exact hx
  · simp only [h, if_false, List.mem_orderedInsert]

theorem nodup_neighbors_insert {r : Nat} {ns : List Nat} (hn : ns.Nodup) :
    (neighbors_insert r ns).Nodup := by
  unfold neighbors_insert
  by_cases h : r ∈ ns
  · simpa [h] using hn
  · simp only [h, if_false]
    exact (List.perm_orderedInsert _ r ns).nodup_iff.mpr (List.nodup_cons.mpr ⟨h, hn⟩)

theorem mem_merge_neighbors_first (region2 : Nat) (x : Nat) :
    ∀ (ns1 acc : List Nat),
    x ∈ merge_neighbors_first region2 ns1 acc ↔ x ∈ acc ∨ (x ∈ ns1 ∧ x ≠ region2) := by
  intro ns1
  induction ns1 with
  | nil => intro acc; simp [merge_neighbors_first]
  | cons n rest ih =>
    intro acc
    unfold merge_neighbors_first at ih ⊢
    simp only [List.foldl_cons]
    rw [ih]
    by_cases hn : n = region2
    · subst hn
      simp only [ne_eq, not_true_eq_false, if_false, List.mem_cons]
      constructor
      · rintro (h | ⟨h1, h2⟩)
        · exact Or.inl h
        · exact Or.inr ⟨Or.inr h1, h2⟩
      · rintro (h | ⟨h1 | h1, h2⟩)
        · exact Or.inl h
        · exact absurd h1 h2
        · exact Or.inr ⟨h1, h2⟩
    · simp only [ne_eq, hn, not_false_eq_true, if_true, mem_neighbors_insert, List.mem_cons]
      constructor
      · rintro ((h | h) | ⟨h1, h2⟩)
        · subst h; exact Or.inr ⟨Or.inl rfl, hn⟩
        · exact Or.inl h
        · exact Or.inr ⟨Or.inr h1, h2⟩
      · rintro (h | ⟨h1 | h1, h2⟩)
        · exact Or.inl (Or.inr h)
        · exact Or.inl (Or.inl h1)
        · exact Or.inr ⟨h1, h2⟩

theorem nodup_merge_neighbors_first (region2 : Nat) :
    ∀ (ns1 acc : List Nat), acc.Nodup → (merge_neighbors_first region2 ns1 acc).Nodup := by
  intro ns1
  induction ns1 with
  | nil => intro acc h; simpa [merge_neighbors_first] using h
  | cons n rest ih =>
    intro acc h
    unfold merge_neighbors_first at ih ⊢
    simp only [List.foldl_cons]
    apply ih
    by_cases hn : n = region2
    · simpa [hn] using h
    · simpa [hn] using nodup_neighbors_insert h

theorem mem_merge_neighbors_second (region1 : Nat) (x : Nat) :
    ∀ (ns2 acc : List Nat),
    x ∈ merge_neighbors_second region1 ns2 acc ↔ x ∈ acc ∨ (x ∈ ns2 ∧ x ≠ region1) := by
  intro ns2
  induction ns2 with
  | nil => intro acc; simp [merge_neighbors_second]
  | cons n rest ih =>
    intro acc
    unfold merge_neighbors_second at ih ⊢
    simp only [List.foldl_cons]
    rw [ih]
    by_cases hn : n = region1
    · subst hn
      simp only [ne_eq, not_true_eq_false, if_false, List.mem_cons]
      constructor
      · rintro (h | ⟨h1, h2⟩)
        · exact Or.inl h
        · exact Or.inr ⟨Or.inr h1, h2⟩
      · rintro (h | ⟨h1 | h1, h2⟩)
        · exact Or.inl h
        · exact absurd h1 h2
        · exact Or.inr ⟨h1, h2⟩
    · by_cases hmem : n ∈ acc
      · simp only [ne_eq, hn, not_false_eq_true, if_true, is_neighbor, hmem, decide_True,
          Bool.not_true, Bool.false_eq_true, if_false, List.mem_cons]
        constructor
        · rintro (h | ⟨h1, h2⟩)
          · exact Or.inl h
          · exact Or.inr ⟨Or.inr h1, h2⟩
        · rintro (h | ⟨h1 | h1, h2⟩)
          · exact Or.inl h
          · subst h1; exact Or.inl hmem
          · exact Or.inr ⟨h1, h2⟩
      · simp only [ne_eq, hn, not_false_eq_true, if_true, is_neighbor, hmem, decide_False,
          Bool.not_false, mem_neighbors_insert, List.mem_cons]
        constructor
        · rintro ((h | h) | ⟨h1, h2⟩)
          · subst h; exact Or.inr ⟨Or.inl rfl, hn⟩
          · exact Or.inl h
          · exact Or.inr ⟨Or.inr h1, h2⟩
        · rintro (h | ⟨h1 | h1, h2⟩)
          · exact Or.inl (Or.inr h)
          · exact Or.inl (Or.inl h1)
          · exact Or.inr ⟨h1, h2⟩

theorem nodup_merge_neighbors_second (region1 : Nat) :
    ∀ (ns2 acc : List Nat), acc.Nodup → (merge_neighbors_second region1 ns2 acc).Nodup := by
  intro ns2
  induction ns2 with
  | nil => intro acc h; simpa [merge_neighbors_second] using h
  | cons n rest ih =>
    intro acc h
    unfold merge_neighbors_second at ih ⊢
    simp only [List.foldl_cons]
    apply ih
    by_cases hn : n = region1
    · simpa [hn] using h
    · by_cases hmem : n ∈ acc
      · simpa [hn, is_neighbor, hmem] using h
      · simpa [hn, is_neighbor, hmem] using nodup_neighbors_insert h

theorem update_roots_partition_inv {fuel : Nat} {f f' : HierarchicalRegionPartition} {reg : Nat}
    (hu : _update_roots_partition fuel f reg = .ok f') :
    ∃ roots, f' = { f with _roots_partition := roots } := by
  unfold _update_roots_partition at hu
  cases h1 : deref f.heap reg with
  | error e => rw [h1] at hu; cases hu
  | ok r =>
    rw [h1] at hu
    simp only [bind, Except.bind] at hu
    cases h2 : RegionIteratorBase.make f.heap fuel reg false with
    | error e => rw [h2] at hu; cases hu
    | ok it =>
      rw [h2] at hu
      simp only at hu
      cases h3 : update_roots_loop f.heap r.label fuel fuel it f._roots_partition with
      | error e => rw [h3] at hu; cases hu
      | ok roots =>
        rw [h3] at hu
        simp only at hu
        cases hu
        exact ⟨roots, rfl⟩

theorem getElem?_lt_of_some {α : Type} {l : List α} {i : Nat} {v : α} (h : l[i]? = some v) :
    i < l.length := by
  by_contra hc
  rw [List.getElem?_eq_none (by omega)] at h
  cases h

theorem merge_regions_inv {fuel : Nat} {f f' : HierarchicalRegionPartition}
    {region1 region2 father_label P : Nat}
    (hm : merge_regions fuel f region1 region2 father_label = .ok (f', P)) :
    ∃ r1 r2, f.heap[region1]? = some (some r1) ∧ f.heap[region2]? = some (some r2)
      ∧ father_label < f._regions.length ∧ P = f.heap.length
      ∧ f'._regions = f._regions.set father_label (some P)
      ∧ f'._num_mergings = f._num_mergings + 1
      ∧ f'._leaves_partition = f._leaves_partition
      ∧ f'._curr_max_label = max f._curr_max_label father_label
      ∧ f'._update_partition = f._update_partition
      ∧ f'._correspondences = f._correspondences
      ∧ (f._update_partition = false → f'._roots_partition = f._roots_partition)
      ∧ f'.heap.length = f.heap.length + 1
      ∧ ∀ x, f'.heap[x]? = merged_cell f.heap region1 region2 father_label x := by
  unfold merge_regions at hm
  cases hd1 : deref f.heap region1 with
  | error e => rw [hd1] at hm; cases hm
  | ok r1 =>
  cases hd2 : deref f.heap region2 with
  | error e => rw [hd1, hd2] at hm; cases hm
  | ok r2 =>
  rw [hd1, hd2] at hm
  simp only [bind, Except.bind] at hm
  have hr1 := deref_eq_ok.mp hd1
  have hr2 := deref_eq_ok.mp hd2
  have hlt1 : region1 < f.heap.length := getElem?_lt_of_some hr1
  have hlt2 : region2 < f.heap.length := getElem?_lt_of_some hr2
  by_cases hlbl : father_label < f._regions.length
  swap
  · simp only [hlbl, if_false] at hm; cases hm
  simp only [hlbl, if_true] at hm
  set P0 := f.heap.length with hP0
  set h0 : Heap := f.heap ++ [some (HierarchicalRegion.internal father_label region1 region2)]
    with hh0
  have h0get : ∀ x, h0[x]? = if x = P0 then
      some (some (HierarchicalRegion.internal father_label region1 region2)) else f.heap[x]? := by
    intro x
    rw [hh0, List.getElem?_append]
    by_cases hx : x < f.heap.length
    · have : x ≠ P0 := by omega
      simp [hx, this]
    · by_cases hx2 : x = P0
      · subst hx2; simp
      · have : f.heap.length ≤ x := by omega
        simp [hx, hx2, List.getElem?_eq_none this]
        omega
  have e1 : h0[region1]? = some (some r1) := by
    rw [h0get]; simp [Nat.ne_of_lt hlt1, hr1]
  rw [modify_eq_ok _ e1] at hm
  simp only at hm
  set h1 := h0.set region1 (some { r1 with parent := some P0 }) with hh1
  have h1get : ∀ x, h1[x]? = if x = region1 then some (some { r1 with parent := some P0 })
      else h0[x]? := by
    intro x
    rw [hh1, List.getElem?_set]
    by_cases hx : region1 = x
    · subst hx
      have : region1 < h0.length := getElem?_lt_of_some e1
      simp [this]
    · have : ¬ x = region1 := fun h => hx h.symm
      simp [hx, this]
  obtain ⟨r2', e2, hr2'⟩ : ∃ r2', h1[region2]? = some (some r2')
      ∧ r2'.neighbors = r2.neighbors
      ∧ { r2' with parent := some P0, neighbors := [] }
          = ({ r2 with parent := some P0, neighbors := [] } : HierarchicalRegion) := by
    by_cases h12 : region2 = region1
    · refine ⟨{ r1 with parent := some P0 }, ?_, ?_, ?_⟩
      · rw [h1get]; simp [h12]
      · have : r1 = r2 := by
          rw [h12] at hr2; rw [hr1] at hr2; simpa using hr2
        simp [this]
      · have : r1 = r2 := by
          rw [h12] at hr2; rw [hr1] at hr2; simpa using hr2
        simp [this]
    · refine ⟨r2, ?_, rfl, rfl⟩
      rw [h1get, h0get]; simp [h12, Nat.ne_of_lt hlt2, hr2]
  rw [modify_eq_ok _ e2] at hm
  simp only at hm
  set h2 := h1.set region2 (some { r2' with parent := some P0 }) with hh2
  have h2get : ∀ x, h2[x]? = if x = region2 then some (some { r2' with parent := some P0 })
      else h1[x]? := by
    intro x
    rw [hh2, List.getElem?_set]
    by_cases hx : region2 = x
    · subst hx
      have : region2 < h1.length := getElem?_lt_of_some e2
      simp [this]
    · have : ¬ x = region2 := fun h => hx h.symm
      simp [hx, this]
  obtain ⟨q1, e3, hq1⟩ : ∃ q1, h2[region1]? = some (some q1) ∧ q1.neighbors = r1.neighbors
      ∧ { q1 with neighbors := [] }
          = ({ r1 with parent := some P0, neighbors := [] } : HierarchicalRegion) := by
    by_cases h12 : region1 = region2
    · refine ⟨{ r2' with parent := some P0 }, ?_, ?_, ?_⟩
      · rw [h2get]; simp [h12]
      · have : r1 = r2 := by
          rw [← h12] at hr2; rw [hr1] at hr2; simpa using hr2
        simp [hr2'.1, this]
      · have : r1 = r2 := by
          rw [← h12] at hr2; rw [hr1] at hr2; simpa using hr2
        rw [this]
        have := hr2'.2
        simpa using this
    · refine ⟨{ r1 with parent := some P0 }, ?_, rfl, rfl⟩
      rw [h2get, h1get]; simp [h12]
  have e4 : h2[region2]? = some (some { r2' with parent := some P0 }) := by
    rw [h2get]; simp
  rw [deref_eq_ok.mpr e3, deref_eq_ok.mpr e4] at hm
  simp only [hq1.1, hr2'.1] at hm
  set ns := merge_neighbors_second region1 r2.neighbors
    (merge_neighbors_first region2 r1.neighbors []) with hns
  have e5 : h2[P0]? = some (some (HierarchicalRegion.internal father_label region1 region2)) := by
    rw [h2get, h1get, h0get]
    simp [Nat.ne_of_gt hlt1, Nat.ne_of_gt hlt2]
  rw [modify_eq_ok _ e5] at hm
  simp only at hm
  set h3 := h2.set P0
    (some { HierarchicalRegion.internal father_label region1 region2 with neighbors := ns })
    with hh3
  have h3get : ∀ x, h3[x]? = if x = P0 then
      some (some { HierarchicalRegion.internal father_label region1 region2 with neighbors := ns })
      else h2[x]? := by
    intro x
    rw [hh3, List.getElem?_set]
    by_cases hx : P0 = x
    · subst hx
      have : P0 < h2.length := getElem?_lt_of_some e5
      simp [this]
    · have : ¬ x = P0 := fun h => hx h.symm
      simp [hx, this]
  have e6 : h3[region1]? = some (some q1) := by
    rw [h3get]; simp [Nat.ne_of_lt hlt1, e3]
  rw [modify_eq_ok _ e6] at hm
  simp only at hm
  set h4 := h3.set region1 (some { q1 with neighbors := [] }) with hh4
  have h4get : ∀ x, h4[x]? = if x = region1 then some (some { q1 with neighbors := [] })
      else h3[x]? := by
    intro x
    rw [hh4, List.getElem?_set]
    by_cases hx : region1 = x
    · subst hx
      have : region1 < h3.length := getElem?_lt_of_some e6
      simp [this]
    · have : ¬ x = region1 := fun h => hx h.symm
      simp [hx, this]
  obtain ⟨q2, e7, hq2⟩ : ∃ q2, h4[region2]? = some (some q2)
      ∧ { q2 with neighbors := [] }
          = ({ r2 with parent := some P0, neighbors := [] } : HierarchicalRegion) := by
    by_cases h12 : region2 = region1
    · refine ⟨{ q1 with neighbors := [] }, ?_, ?_⟩
      · rw [h4get]; simp [h12]
      · have : r1 = r2 := by
          rw [h12] at hr2; rw [hr1] at hr2; simpa using hr2
        rw [← this]
        have := hq1.2
        simpa using this
    · refine ⟨{ r2' with parent := some P0 }, ?_, ?_⟩
      · rw [h4get, h3get]; simp [h12, Nat.ne_of_lt hlt2, e4]
      · have := hr2'.2
        simpa using this
  rw [modify_eq_ok _ e7] at hm
  simp only at hm
  set h5 := h4.set region2 (some { q2 with neighbors := [] }) with hh5
  have h5get : ∀ x, h5[x]? = if x = region2 then some (some { q2 with neighbors := [] })
      else h4[x]? := by
    intro x
    rw [hh5, List.getElem?_set]
    by_cases hx : region2 = x
    · subst hx
      have : region2 < h4.length := getElem?_lt_of_some e7
      simp [this]
    · have : ¬ x = region2 := fun h => hx h.symm
      simp [hx, this]
  have h5len : h5.length = f.heap.length + 1 := by
    simp [hh5, hh4, hh3, hh2, hh1, hh0]
  have hcell : ∀ x, h5[x]? = merged_cell f.heap region1 region2 father_label x := by
    intro x
    unfold merged_cell
    rw [h5get, h4get, h3get, h2get, h1get, h0get, hr1, hr2]
    by_cases hxP : x = P0
    · have hx1 : x ≠ region1 := by omega
      have hx2 : x ≠ region2 := by omega
      simp [hxP, hx1, hx2, Nat.ne_of_gt hlt1, Nat.ne_of_gt hlt2, ← hP0]
    · by_cases hx2 : x = region2
      · subst hx2
        simp [← hP0, hxP, hr2, hq2]
      · by_cases hx1 : x = region1
        · subst hx1
          simp [← hP0, hxP, hx2, hr1, hq1.2]
        · simp [← hP0, hxP, hx2, hx1]
  by_cases hup : f._update_partition = true
  · simp only [hup, if_true] at hm
    split at hm
    · cases hm
    · rename_i f2 hu
      obtain ⟨roots, hf2⟩ := update_roots_partition_inv hu
      simp only [Except.ok.injEq, Prod.mk.injEq] at hm
      obtain ⟨hf, hP⟩ := hm
      subst hf
      subst hf2
      refine ⟨r1, r2, hr1, hr2, hlbl, hP.symm, ?_, rfl, rfl, rfl, hup.symm, rfl, ?_, h5len,
        hcell⟩
      · rw [← hP]
      · intro hc; rw [hup] at hc; cases hc
  · have hup' : f._update_partition = false := by simpa using hup
    simp only [hup', Bool.false_eq_true, if_false, Except.ok.injEq, Prod.mk.injEq] at hm
    obtain ⟨hf, hP⟩ := hm
    subst hf
    refine ⟨r1, r2, hr1, hr2, hlbl, hP.symm, ?_, rfl, rfl, rfl, hup'.symm, rfl, fun _ => rfl,
      h5len, hcell⟩
    rw [← hP]

/-- C3 as amended. For every `merge_regions(A, B, label)` that returns, of two
distinct regions whose neighbor sets are duplicate-free and contain neither
the region itself, the neighbor set of the new parent `P` has exactly the
members of (neighbors of `A` before the call, united with the neighbors of `B`
before the call) minus `{A, B}`, each once, and afterwards the neighbor sets
of `A` and of `B` are empty. -/
theorem merge_regions_neighbor_closure (fuel : Nat) (f f' : HierarchicalRegionPartition)
    (A B label P : Nat) (rA rB : HierarchicalRegion)
    (hm : merge_regions fuel f A B label = .ok (f', P))
    (hA : f.heap[A]? = some (some rA)) (hB : f.heap[B]? = some (some rB))
    (hAB : A ≠ B) (_hdupA : rA.neighbors.Nodup) (_hdupB : rB.neighbors.Nodup)
    (hselfA : A ∉ rA.neighbors) (hselfB : B ∉ rB.neighbors) :
    ∃ rP rA' rB', f'.heap[P]? = some (some rP) ∧ f'.heap[A]? = some (some rA')
      ∧ f'.heap[B]? = some (some rB')
      ∧ (∀ x, x ∈ rP.neighbors ↔ ((x ∈ rA.neighbors ∨ x ∈ rB.neighbors) ∧ x ≠ A ∧ x ≠ B))
      ∧ rP.neighbors.Nodup ∧ rA'.neighbors = [] ∧ rB'.neighbors = [] := by
  obtain ⟨r1, r2, h1, h2, _, hP, _, _, _, _, _, _, _, _, hcell⟩ := merge_regions_inv hm
  rw [hA] at h1
  rw [hB] at h2
  simp only [Option.some.injEq] at h1 h2
  subst h1
  subst h2
  have hltA : A < f.heap.length := getElem?_lt_of_some hA
  have hltB : B < f.heap.length := getElem?_lt_of_some hB
  refine ⟨{ HierarchicalRegion.internal label A B with
      neighbors := merge_neighbors_second A rB.neighbors
        (merge_neighbors_first B rA.neighbors []) },
    { rA with parent := some f.heap.length, neighbors := [] },
    { rB with parent := some f.heap.length, neighbors := [] }, ?_, ?_, ?_, ?_, ?_, ?_, ?_⟩
  · rw [hcell P]
    unfold merged_cell
    simp only [hP, if_true, hA, hB]
  · rw [hcell A]
    unfold merged_cell
    simp only [Nat.ne_of_lt hltA, if_false, true_or, if_true, hA, Option.map_some']
  · rw [hcell B]
    unfold merged_cell
    simp only [Nat.ne_of_lt hltB, if_false, or_true, if_true, hB, Option.map_some']
  · intro x
    simp only [mem_merge_neighbors_second, mem_merge_neighbors_first, List.not_mem_nil,
      false_or]
    constructor
    · rintro (⟨hx, hxB⟩ | ⟨hx, hxA⟩)
      · refine ⟨Or.inl hx, ?_, hxB⟩
        intro hc; subst hc; exact hselfA hx
      · refine ⟨Or.inr hx, hxA, ?_⟩
        intro hc; subst hc; exact hselfB hx
    · rintro ⟨hx | hx, hxA, hxB⟩
      · exact Or.inl ⟨hx, hxB⟩
      · exact Or.inr ⟨hx, hxA⟩
  · exact nodup_merge_neighbors_second _ _ _ (nodup_merge_neighbors_first _ _ _ List.nodup_nil)
  · rfl
  · rfl

/-- Witness of C3 as amended: merging the first two leaves of the 3x1 raster
into slot 3. -/
theorem merge_regions_neighbor_closure_witness :
    merge_regions 20 scenario3x1 0 1 3 = .ok (merged 20 scenario3x1 0 1 3, 3)
    ∧ ∃ rP rA' rB', (merged 20 scenario3x1 0 1 3).heap[3]? = some (some rP)
      ∧ (merged 20 scenario3x1 0 1 3).heap[0]? = some (some rA')
      ∧ (merged 20 scenario3x1 0 1 3).heap[1]? = some (some rB')
      ∧ (∀ x, x ∈ rP.neighbors ↔ ((x ∈ [1] ∨ x ∈ [0, 2]) ∧ x ≠ 0 ∧ x ≠ 1))
      ∧ rP.neighbors.Nodup ∧ rA'.neighbors = [] ∧ rB'.neighbors = [] :=
  ⟨rfl, merge_regions_neighbor_closure 20 scenario3x1 (merged 20 scenario3x1 0 1 3) 0 1 3 3
    ⟨0, [0], none, [], [1]⟩ ⟨1, [1], none, [], [0, 2]⟩ rfl rfl rfl (by decide) (by decide)
    (by decide) (by decide) (by decide)⟩

/-- Counterexample to C3 as stated: regions 0 and 1 are distinct and their
neighbor sets `[0, 1]` and `[0]` are duplicate-free, yet after
`merge_regions(0, 1, 2)` the parent lists region 0, one of the two merged
regions, as a neighbor. -/
theorem merge_regions_neighbor_closure_counterexample :
    scenario_self_loop.heap[0]? = some (some ⟨0, [0], none, [], [0, 1]⟩)
    ∧ scenario_self_loop.heap[1]? = some (some ⟨1, [1], none, [], [0]⟩)
    ∧ (0 : Nat) ≠ 1 ∧ ([0, 1] : List Nat).Nodup ∧ ([0] : List Nat).Nodup
    ∧ merge_regions 20 scenario_self_loop 0 1 2 = .ok (merged 20 scenario_self_loop 0 1 2, 2)
    ∧ (merged 20 scenario_self_loop 0 1 2).heap[2]? = some (some ⟨2, [], none, [0, 1], [0]⟩)
    ∧ ¬ (∀ x, x ∈ ([0] : List Nat) ↔
          ((x ∈ ([0, 1] : List Nat) ∨ x ∈ ([0] : List Nat)) ∧ x ≠ 0 ∧ x ≠ 1)) := by
  refine ⟨rfl, rfl, by decide, by decide, by decide, rfl, rfl, ?_⟩
  intro h
  have := (h 0).mp (by simp)
  exact this.2.1 rfl

/-- C4 as amended. A `merge_regions(A, B, new_label)` call that succeeds has
`new_label` below the arena size `regions.size()`; it stores the new region,
which carries the label `new_label`, in slot `new_label` and leaves the arena
size unchanged. -/
theorem merge_regions_label_in_arena (fuel : Nat) (f f' : HierarchicalRegionPartition)
    (A B new_label P : Nat) (hm : merge_regions fuel f A B new_label = .ok (f', P)) :
    new_label < f._regions.length ∧ f'._regions.length = f._regions.length
      ∧ f'._regions[new_label]? = some (some P)
      ∧ ∃ rP, f'.heap[P]? = some (some rP) ∧ rP.label = new_label := by
  obtain ⟨r1, r2, h1, h2, hlt, hP, hregs, _, _, _, _, _, _, _, hcell⟩ := merge_regions_inv hm
  refine ⟨hlt, by rw [hregs]; simp, ?_, ?_⟩
  · rw [hregs, List.getElem?_set]; simp [hlt]
  · refine ⟨{ HierarchicalRegion.internal new_label A B with
      neighbors := merge_neighbors_second A r2.neighbors
        (merge_neighbors_first B r1.neighbors []) }, ?_, rfl⟩
    rw [hcell P]
    unfold merged_cell
    simp only [hP, if_true, h1, h2]

/-- Witness of C4 as amended: the merge of the 4x4 scenario. -/
theorem merge_regions_label_in_arena_witness :
    merge_regions 20 scenario4x4 0 1 2 = .ok (merged 20 scenario4x4 0 1 2, 2)
    ∧ 2 < scenario4x4._regions.length
    ∧ (merged 20 scenario4x4 0 1 2)._regions.length = scenario4x4._regions.length
    ∧ (merged 20 scenario4x4 0 1 2)._regions[2]? = some (some 2)
    ∧ ∃ rP, (merged 20 scenario4x4 0 1 2).heap[2]? = some (some rP) ∧ rP.label = 2 :=
  ⟨rfl, merge_regions_label_in_arena 20 scenario4x4 (merged 20 scenario4x4 0 1 2) 0 1 2 2 rfl⟩

/-- Counterexample to C4 as stated: in the 4x4 scenario the arena has 3 slots,
and `merge_regions` with `new_label = 2`, which is not the arena size,
succeeds and creates the region of label 2. -/
theorem merge_regions_label_counterexample :
    scenario4x4._regions.length = 3
    ∧ merge_regions 20 scenario4x4 0 1 2 = .ok (merged 20 scenario4x4 0 1 2, 2)
    ∧ (merged 20 scenario4x4 0 1 2)._regions[2]? = some (some 2)
    ∧ (merged 20 scenario4x4 0 1 2).heap[2]? = some (some ⟨2, [], none, [0, 1], []⟩)
    ∧ (2 : Nat) ≠ scenario4x4._regions.length :=
  ⟨rfl, rfl, rfl, rfl, by decide⟩

/-- C5, the code at the failing input. In the forest of the 3x1 raster, after
`merge_regions(0, 1, 3)` region 0 has the parent at address 3; a second call
`merge_regions(0, 2, 4)` on that region, by reference or by label, returns
normally and overwrites its parent with the region at address 4. -/
theorem merge_regions_overwrites_parent :
    merge_regions 20 scenario3x1 0 1 3 = .ok (merged 20 scenario3x1 0 1 3, 3)
    ∧ (merged 20 scenario3x1 0 1 3).heap[0]? = some (some ⟨0, [0], some 3, [], []⟩)
    ∧ merge_regions 20 (merged 20 scenario3x1 0 1 3) 0 2 4
        = .ok (merged 20 (merged 20 scenario3x1 0 1 3) 0 2 4, 4)
    ∧ merge_regions_by_label 20 (merged 20 scenario3x1 0 1 3) 0 2 4
        = .ok (merged 20 (merged 20 scenario3x1 0 1 3) 0 2 4, 4)
    ∧ (merged 20 (merged 20 scenario3x1 0 1 3) 0 2 4).heap[0]?
        = some (some ⟨0, [0], some 4, [], []⟩) :=
  ⟨rfl, rfl, rfl, rfl, rfl⟩

/-- C10, the code at the failing input. In the 4x4 scenario slot 2 of the
3-slot arena is empty: looking label 2 up dereferences the null pointer, which
is undefined and not the `region index not found` error, whereas label 3,
outside the arena, raises that error.  After merging the three leaves of the
3x1 raster and pruning the root, the labels 0..3 of its former descendants
have empty slots and their lookup is undefined in the same way. -/
theorem region_by_label_empty_slot :
    scenario4x4._regions[2]? = some none
    ∧ _region_by_label scenario4x4 2 = .error .undefined_behaviour
    ∧ _region_by_label scenario4x4 3 = .error .region_index_not_found
    ∧ prune 20 (merged 20 (merged 20 scenario3x1 0 1 3) 3 2 4) 4
        = .ok (pruned 20 (merged 20 (merged 20 scenario3x1 0 1 3) 3 2 4) 4)
    ∧ (pruned 20 (merged 20 (merged 20 scenario3x1 0 1 3) 3 2 4) 4)._regions
        = [none, none, none, none, some 4]
    ∧ ∀ l, l < 4 →
        _region_by_label (pruned 20 (merged 20 (merged 20 scenario3x1 0 1 3) 3 2 4) 4) l
          = .error .undefined_behaviour := by
  refine ⟨rfl, rfl, rfl, rfl, rfl, ?_⟩
  intro l hl
  interval_cases l <;> rfl

/-- C6. A successful `merge_regions(A, B, label)` returns a new region `P` (at
an address that was free before), stores it in slot `label`, gives it that
label and the children `(A, B)` in that order, makes it the parent of `A` and
of `B`, and increases `merge_count` by exactly one; every other arena slot is
unchanged, every region other than `A`, `B` and `P` is unchanged, `A` and `B`
keep their label, coordinates and children, and `leaves_partition` is
unchanged.  In the 4x4 two-region scenario `merge(region1, region2, 2)` leaves
exactly one root, whose neighbor set is empty, and `merge_count == 1`. -/
theorem merge_regions_effect (fuel : Nat) (f f' : HierarchicalRegionPartition)
    (A B label P : Nat) (hm : merge_regions fuel f A B label = .ok (f', P)) :
    (f.heap[P]? = none
      ∧ f'._regions[label]? = some (some P)
      ∧ (∃ rP, f'.heap[P]? = some (some rP) ∧ rP.label = label ∧ rP.children = [A, B])
      ∧ (∃ rA', f'.heap[A]? = some (some rA') ∧ rA'.parent = some P)
      ∧ (∃ rB', f'.heap[B]? = some (some rB') ∧ rB'.parent = some P)
      ∧ f'._num_mergings = f._num_mergings + 1
      ∧ f'._regions.length = f._regions.length
      ∧ (∀ i, i ≠ label → f'._regions[i]? = f._regions[i]?)
      ∧ (∀ x, x ≠ A → x ≠ B → x ≠ P → f'.heap[x]? = f.heap[x]?)
      ∧ (∀ x r, (x = A ∨ x = B) → f.heap[x]? = some (some r) →
          ∃ r', f'.heap[x]? = some (some r') ∧ r'.label = r.label
            ∧ r'.coordinates = r.coordinates ∧ r'.children = r.children)
      ∧ f'._leaves_partition = f._leaves_partition)
    ∧ (merge_regions 20 scenario4x4 0 1 2 = .ok (merged 20 scenario4x4 0 1 2, 2)
      ∧ conditional_view roots (merged 20 scenario4x4 0 1 2).heap
          (merged 20 scenario4x4 0 1 2)._regions = .ok [⟨2, [], none, [0, 1], []⟩]
      ∧ (merged 20 scenario4x4 0 1 2)._num_mergings = 1) := by
  refine ⟨?_, rfl, rfl, rfl⟩
  obtain ⟨r1, r2, h1, h2, hlt, hP, hregs, hnum, hleaves, _, _, _, _, _, hcell⟩ :=
    merge_regions_inv hm
  have hltA : A < f.heap.length := getElem?_lt_of_some h1
  have hltB : B < f.heap.length := getElem?_lt_of_some h2
  refine ⟨?_, ?_, ?_, ?_, ?_, hnum, ?_, ?_, ?_, ?_, hleaves⟩
  · rw [hP]; exact List.getElem?_eq_none (le_refl _)
  · rw [hregs, List.getElem?_set]; simp [hlt]
  · refine ⟨{ HierarchicalRegion.internal label A B with
        neighbors := merge_neighbors_second A r2.neighbors
          (merge_neighbors_first B r1.neighbors []) }, ?_, rfl, rfl⟩
    rw [hcell P]
    unfold merged_cell
    simp only [hP, if_true, h1, h2]
  · refine ⟨{ r1 with parent := some f.heap.length, neighbors := [] }, ?_, by rw [hP]⟩
    rw [hcell A]
    unfold merged_cell
    simp only [Nat.ne_of_lt hltA, if_false, true_or, if_true, h1, Option.map_some']
  · refine ⟨{ r2 with parent := some f.heap.length, neighbors := [] }, ?_, by rw [hP]⟩
    rw [hcell B]
    unfold merged_cell
    simp only [Nat.ne_of_lt hltB, if_false, or_true, if_true, h2, Option.map_some']
  · rw [hregs]; simp
  · intro i hi
    rw [hregs, List.getElem?_set]
    simp [Ne.symm hi]
  · intro x hxA hxB hxP
    rw [hcell x]
    unfold merged_cell
    rw [hP] at hxP
    simp [hxA, hxB, hxP]
  · intro x r hx hr
    have hltx : x < f.heap.length := getElem?_lt_of_some hr
    refine ⟨{ r with parent := some f.heap.length, neighbors := [] }, ?_, rfl, rfl, rfl⟩
    rw [hcell x]
    unfold merged_cell
    simp only [Nat.ne_of_lt hltx, if_false, hx, if_true, hr, Option.map_some']

/-- Witness of C6: the merge of the 4x4 scenario. -/
theorem merge_regions_effect_witness :
    merge_regions 20 scenario4x4 0 1 2 = .ok (merged 20 scenario4x4 0 1 2, 2)
    ∧ (scenario4x4.heap[2]? = none
      ∧ (merged 20 scenario4x4 0 1 2)._regions[2]? = some (some 2)
      ∧ (∃ rP, (merged 20 scenario4x4 0 1 2).heap[2]? = some (some rP) ∧ rP.label = 2
          ∧ rP.children = [0, 1])
      ∧ (∃ rA', (merged 20 scenario4x4 0 1 2).heap[0]? = some (some rA') ∧ rA'.parent = some 2)
      ∧ (∃ rB', (merged 20 scenario4x4 0 1 2).heap[1]? = some (some rB') ∧ rB'.parent = some 2)
      ∧ (merged 20 scenario4x4 0 1 2)._num_mergings = scenario4x4._num_mergings + 1
      ∧ (merged 20 scenario4x4 0 1 2)._regions.length = scenario4x4._regions.length
      ∧ (∀ i, i ≠ 2 → (merged 20 scenario4x4 0 1 2)._regions[i]? = scenario4x4._regions[i]?)
      ∧ (∀ x, x ≠ 0 → x ≠ 1 → x ≠ 2 →
          (merged 20 scenario4x4 0 1 2).heap[x]? = scenario4x4.heap[x]?)
      ∧ (∀ x r, (x = 0 ∨ x = 1) → scenario4x4.heap[x]? = some (some r) →
          ∃ r', (merged 20 scenario4x4 0 1 2).heap[x]? = some (some r') ∧ r'.label = r.label
            ∧ r'.coordinates = r.coordinates ∧ r'.children = r.children)
      ∧ (merged 20 scenario4x4 0 1 2)._leaves_partition = scenario4x4._leaves_partition) :=
  ⟨rfl, (merge_regions_effect 20 scenario4x4 (merged 20 scenario4x4 0 1 2) 0 1 2 2 rfl).1⟩

theorem nbrs_of_eq {h : Heap} {a : Nat} {r : HierarchicalRegion} (hr : h[a]? = some (some r)) :
    nbrs_of h a = r.neighbors := by
  unfold nbrs_of
  rw [hr]

theorem getElem?_set_alive {h : Heap} {a x : Nat} {r r' : HierarchicalRegion}
    (hr : h[a]? = some (some r)) :
    (h.set a (some r'))[x]? = if x = a then some (some r') else h[x]? := by
  rw [List.getElem?_set]
  by_cases hx : a = x
  · subst hx
    simp [getElem?_lt_of_some hr]
  · have : ¬ x = a := fun e => hx e.symm
    simp [hx, this]

theorem nbrs_of_modify_keep {h h' : Heap} {a : Nat} {g : HierarchicalRegion → HierarchicalRegion}
    (hg : ∀ r, (g r).neighbors = r.neighbors) (hm : modify h a g = .ok h') (x : Nat) :
    nbrs_of h' x = nbrs_of h x := by
  obtain ⟨r, hr, rfl⟩ := modify_ok_inv hm
  unfold nbrs_of
  rw [getElem?_set_alive hr]
  by_cases hx : x = a
  · subst hx; simp [hr, hg]
  · simp [hx]

theorem nbrs_of_modify_insert {h h' : Heap} {a b : Nat}
    (hm : modify h a (fun r => { r with neighbors := neighbors_insert b r.neighbors }) = .ok h')
    (x : Nat) :
    nbrs_of h' x = if x = a then neighbors_insert b (nbrs_of h a) else nbrs_of h x := by
  obtain ⟨r, hr, rfl⟩ := modify_ok_inv hm
  unfold nbrs_of
  rw [getElem?_set_alive hr]
  by_cases hx : x = a
  · subst hx; simp [hr]
  · simp [hx]

theorem add_coordinates_nbrs (regs : List (Option Nat)) :
    ∀ (data : List Nat) (pos : Nat) (h h' : Heap),
    add_coordinates regs pos data h = .ok h' → ∀ x, nbrs_of h' x = nbrs_of h x := by
  intro data
  induction data with
  | nil =>
    intro pos h h' he x
    simp only [add_coordinates] at he
    cases he; rfl
  | cons label rest ih =>
    intro pos h h' he x
    unfold add_coordinates at he
    cases hs : slot_pointer regs label with
    | error e => rw [hs] at he; cases he
    | ok a =>
      rw [hs] at he
      simp only [bind, Except.bind] at he
      split at he
      · cases he
      · rename_i h1 hm
        rw [ih _ _ _ he x]
        exact nbrs_of_modify_keep (g := fun r => { r with coordinates := r.coordinates ++ [pos] })
          (fun _ => rfl) hm x

theorem add_pixel_neighbors_nbrs (regs : List (Option Nat)) (data : List Nat) (label : Nat)
    (hid : ∀ (l a : Nat), regs[l]? = some (some a) → a = l) :
    ∀ (qs : List Nat) (h h' : Heap),
    add_pixel_neighbors regs data label qs h = .ok h' →
    ∀ a x, x ∈ nbrs_of h' a ↔
      x ∈ nbrs_of h a ∨ (a = label ∧ ∃ q ∈ qs, data[q]? = some x ∧ x ≠ label) := by
  intro qs
  induction qs with
  | nil =>
    intro h h' he a x
    simp only [add_pixel_neighbors] at he
    cases he
    simp
  | cons q rest ih =>
    intro h h' he a x
    unfold add_pixel_neighbors at he
    cases hq : data[q]? with
    | none => rw [hq] at he; cases he
    | some label_adj =>
      rw [hq] at he
      simp only at he
      by_cases hl : label = label_adj
      · simp only [hl, if_true] at he
        rw [← hl] at he
        rw [ih h h' he a x]
        constructor
        · rintro (hx | ⟨ha, q', hq', hd, hne⟩)
          · exact Or.inl hx
          · exact Or.inr ⟨ha, q', List.mem_cons_of_mem _ hq', hd, hne⟩
        · rintro (hx | ⟨ha, q', hq', hd, hne⟩)
          · exact Or.inl hx
          · rcases List.mem_cons.mp hq' with hqq | hqq
            · subst hqq
              rw [hq] at hd
              simp only [Option.some.injEq] at hd
              exact absurd (hl.trans hd).symm hne
            · exact Or.inr ⟨ha, q', hqq, hd, hne⟩
      · simp only [hl, if_false] at he
        cases hs1 : slot_pointer regs label with
        | error e => rw [hs1] at he; cases he
        | ok a1 =>
          cases hs2 : slot_pointer regs label_adj with
          | error e => rw [hs1, hs2] at he; cases he
          | ok a2 =>
            rw [hs1, hs2] at he
            simp only [bind, Except.bind] at he
            have e1 : a1 = label := hid _ _ (slot_pointer_eq_ok.mp hs1)
            have e2 : a2 = label_adj := hid _ _ (slot_pointer_eq_ok.mp hs2)
            subst e1
            subst e2
            split at he
            · cases he
            · rename_i h1 hm
              rw [ih h1 h' he a x, nbrs_of_modify_insert hm a]
              by_cases ha : a = a1
              · subst ha
                simp only [if_true, mem_neighbors_insert, true_and]
                constructor
                · rintro ((hx | hx) | ⟨q', hq', hd, hne⟩)
                  · subst hx
                    exact Or.inr ⟨q, List.mem_cons_self _ _, hq, fun e => hl e.symm⟩
                  · exact Or.inl hx
                  · exact Or.inr ⟨q', List.mem_cons_of_mem _ hq', hd, hne⟩
                · rintro (hx | ⟨q', hq', hd, hne⟩)
                  · exact Or.inl (Or.inr hx)
                  · rcases List.mem_cons.mp hq' with hqq | hqq
                    · subst hqq
                      rw [hq] at hd
                      simp only [Option.some.injEq] at hd
                      exact Or.inl (Or.inl hd.symm)
                    · exact Or.inr ⟨q', hqq, hd, hne⟩
              · simp [ha]

theorem add_neighbors_nbrs (adj : Nat → List Nat) (regs : List (Option Nat)) (data : List Nat)
    (hid : ∀ (l a : Nat), regs[l]? = some (some a) → a = l) :
    ∀ (rest : List Nat) (pos : Nat) (h h' : Heap),
    add_neighbors adj regs data pos rest h = .ok h' →
    ∀ a x, x ∈ nbrs_of h' a ↔
      x ∈ nbrs_of h a ∨
        ∃ k, rest[k]? = some a ∧ ∃ q ∈ adj (pos + k), data[q]? = some x ∧ x ≠ a := by
  intro rest
  induction rest with
  | nil =>
    intro pos h h' he a x
    simp only [add_neighbors] at he
    cases he
    simp
  | cons label tl ih =>
    intro pos h h' he a x
    unfold add_neighbors at he
    simp only [bind, Except.bind] at he
    split at he
    · cases he
    · rename_i h1 hp
      rw [ih (pos + 1) h1 h' he a x, add_pixel_neighbors_nbrs regs data label hid _ _ _ hp a x]
      constructor
      · rintro ((hx | ⟨ha, q, hq, hd, hne⟩) | ⟨k, hk, q, hq, hd, hne⟩)
        · exact Or.inl hx
        · subst ha
          exact Or.inr ⟨0, by simp, q, by simpa using hq, hd, hne⟩
        · refine Or.inr ⟨k + 1, by simpa using hk, q, ?_, hd, hne⟩
          have : pos + (k + 1) = pos + 1 + k := by omega
          rw [this]; exact hq
      · rintro (hx | ⟨k, hk, q, hq, hd, hne⟩)
        · exact Or.inl (Or.inl hx)
        · cases k with
          | zero =>
            simp only [List.getElem?_cons_zero, Option.some.injEq] at hk
            subst hk
            exact Or.inl (Or.inr ⟨rfl, q, by simpa using hq, hd, hne⟩)
          | succ k =>
            refine Or.inr ⟨k, by simpa using hk, q, ?_, hd, hne⟩
            have : pos + (k + 1) = pos + 1 + k := by omega
            rw [← this]; exact hq

theorem create_leaves_ok_bound : ∀ (count i : Nat) (h : Heap) (regs : List (Option Nat))
    (r : Heap × List (Option Nat)),
    create_leaves count i h regs = .ok r → i + count ≤ regs.length ∨ count = 0 := by
  intro count
  induction count with
  | zero => intro i h regs r _; exact Or.inr rfl
  | succ n ih =>
    intro i h regs r he
    unfold create_leaves at he
    by_cases hi : i < regs.length
    · simp only [hi, if_true] at he
      rcases ih _ _ _ _ he with hb | hb
      · simp only [List.length_set] at hb
        exact Or.inl (by omega)
      · exact Or.inl (by omega)
    · simp only [hi, if_false] at he
      cases he

theorem add_coordinates_skeleton (regs : List (Option Nat)) :
    ∀ (data : List Nat) (pos : Nat) (h h' : Heap),
    add_coordinates regs pos data h = .ok h' → heap_skeleton h' = heap_skeleton h := by
  intro data
  induction data with
  | nil =>
    intro pos h h' he
    simp only [add_coordinates] at he
    cases he; rfl
  | cons label rest ih =>
    intro pos h h' he
    unfold add_coordinates at he
    cases hs : slot_pointer regs label with
    | error e => rw [hs] at he; cases he
    | ok a =>
      rw [hs] at he
      simp only [bind, Except.bind] at he
      split at he
      · cases he
      · rename_i h1 hm
        rw [ih _ _ _ he]
        obtain ⟨r, hr, rfl⟩ := modify_ok_inv hm
        exact heap_skeleton_set hr rfl

theorem add_pixel_neighbors_skeleton (regs : List (Option Nat)) (data : List Nat) (label : Nat) :
    ∀ (qs : List Nat) (h h' : Heap),
    add_pixel_neighbors regs data label qs h = .ok h' → heap_skeleton h' = heap_skeleton h := by
  intro qs
  induction qs with
  | nil =>
    intro h h' he
    simp only [add_pixel_neighbors] at he
    cases he; rfl
  | cons q rest ih =>
    intro h h' he
    unfold add_pixel_neighbors at he
    cases hq : data[q]? with
    | none => rw [hq] at he; cases he
    | some label_adj =>
      rw [hq] at he
      simp only at he
      by_cases hl : label = label_adj
      · simp only [hl, if_true] at he
        rw [← hl] at he
        exact ih h h' he
      · simp only [hl, if_false] at he
        cases hs1 : slot_pointer regs label with
        | error e => rw [hs1] at he; cases he
        | ok a1 =>
          cases hs2 : slot_pointer regs label_adj with
          | error e => rw [hs1, hs2] at he; cases he
          | ok a2 =>
            rw [hs1, hs2] at he
            simp only [bind, Except.bind] at he
            split at he
            · cases he
            · rename_i h1 hm
              rw [ih h1 h' he]
              obtain ⟨r, hr, rfl⟩ := modify_ok_inv hm
              exact heap_skeleton_set hr rfl

theorem add_neighbors_skeleton (adj : Nat → List Nat) (regs : List (Option Nat))
    (data : List Nat) :
    ∀ (rest : List Nat) (pos : Nat) (h h' : Heap),
    add_neighbors adj regs data pos rest h = .ok h' → heap_skeleton h' = heap_skeleton h := by
  intro rest
  induction rest with
  | nil =>
    intro pos h h' he
    simp only [add_neighbors] at he
    cases he; rfl
  | cons label tl ih =>
    intro pos h h' he
    unfold add_neighbors at he
    simp only [bind, Except.bind] at he
    split at he
    · cases he
    · rename_i h1 hp
      rw [ih _ _ _ he]
      exact add_pixel_neighbors_skeleton regs data label _ _ _ hp

/-- What a successful `init` on a freshly constructed forest has built: the
heap holds one parent-less, child-less region per label, at the address equal
to the label, and region `a` has `x` among its neighbors exactly when some
pixel of label `a` has an adjacent position of label `x ≠ a`. -/
theorem init_fresh_inv (adj : Nat → List Nat) (u : Bool) (m : Nat) (p : Partition)
    (f : HierarchicalRegionPartition)
    (hi : init adj (HierarchicalRegionPartition.fresh u m) p = .ok f) :
    heap_skeleton f.heap
        = (List.range' 0 (relabel [] 0 p.data).2.1).map (fun k => some (k, none, []))
      ∧ f._leaves_partition = { p with data := (relabel [] 0 p.data).2.2 }
      ∧ f._roots_partition = p
      ∧ f._num_mergings = 0
      ∧ (∀ (l a : Nat), f._regions[l]? = some (some a) → a = l ∧ l < (relabel [] 0 p.data).2.1)
      ∧ (∀ l, l < (relabel [] 0 p.data).2.1 → f._regions[l]? = some (some l))
      ∧ ∀ a x, x ∈ nbrs_of f.heap a ↔
          ∃ k, (relabel [] 0 p.data).2.2[k]? = some a
            ∧ ∃ q ∈ adj k, (relabel [] 0 p.data).2.2[q]? = some x ∧ x ≠ a := by
  unfold init at hi
  simp only [HierarchicalRegionPartition.fresh, _clear_regions, List.foldl, bind, Except.bind,
    pure, Except.pure] at hi
  set L := (relabel [] 0 p.data).2.1 with hL
  set D := (relabel [] 0 p.data).2.2 with hD
  split at hi
  · cases hi
  · rename_i v hcl
    obtain ⟨h1, regs⟩ := v
    simp only at hi
    split at hi
    · cases hi
    · rename_i h2 hac
      split at hi
      · cases hi
      · rename_i h3 han
        simp only [Except.ok.injEq] at hi
        subst hi
        have hb : 0 + L ≤ (List.replicate
            ((2 * ((L + (2 ^ 64 - 1)) % 2 ^ 64) + 1) % 2 ^ 64) (none : Option Nat)).length := by
          rcases create_leaves_ok_bound _ _ _ _ _ hcl with hb | hb
          · exact hb
          · rw [hb]; exact Nat.zero_le _
        obtain ⟨regs', hcl', hlen, hget⟩ := create_leaves_spec L 0 [] _ hb
        rw [hcl] at hcl'
        simp only [Except.ok.injEq, Prod.mk.injEq] at hcl'
        obtain ⟨hh1, hregs⟩ := hcl'
        subst hregs
        have hid : ∀ (l a : Nat), regs[l]? = some (some a) → a = l ∧ l < L := by
          intro l a hla
          rw [hget l] at hla
          simp only [Nat.zero_le, true_and, Nat.zero_add, List.length_nil, Nat.sub_zero] at hla
          by_cases hl : l < L
          · simp only [hl, if_true, Option.some.injEq] at hla
            exact ⟨hla.symm, hl⟩
          · simp only [hl, if_false, List.getElem?_replicate] at hla
            split at hla <;> simp at hla
        have hsk1 : heap_skeleton h1 = (List.range' 0 L).map (fun k => some (k, none, [])) := by
          rw [hh1]
          simp [heap_skeleton, skeleton, HierarchicalRegion.leaf, Function.comp_def]
        have hn1 : ∀ a, nbrs_of h1 a = [] := by
          intro a
          unfold nbrs_of
          rw [hh1]
          simp only [List.nil_append, List.getElem?_map]
          cases hr : (List.range' 0 L)[a]? with
          | none => simp
          | some k => simp [HierarchicalRegion.leaf]
        refine ⟨?_, rfl, rfl, rfl, hid, ?_, ?_⟩
        · show heap_skeleton h3 = _
          rw [add_neighbors_skeleton _ _ _ _ _ _ _ han, add_coordinates_skeleton _ _ _ _ _ hac,
            hsk1]
        · intro l hl
          show regs[l]? = _
          rw [hget l]
          simp [hl]
        · intro a x
          show x ∈ nbrs_of h3 a ↔ _
          rw [add_neighbors_nbrs adj regs D (fun l a h => (hid l a h).1) D 0 h2 h3 han a x,
            add_coordinates_nbrs regs D 0 h1 h2 hac a, hn1 a]
          simp

theorem under_root {h : Heap} {top x : Nat} {r : HierarchicalRegion}
    (hu : Under h top x) (hr : h[x]? = some (some r)) (hp : r.parent = none) : x = top := by
  cases hu with
  | refl => rfl
  | step _ p r' hr' hp' _ =>
    rw [hr] at hr'
    simp only [Option.some.injEq] at hr'
    subst hr'
    rw [hp] at hp'
    cases hp'

theorem under_trans {h : Heap} {top mid x : Nat}
    (h1 : Under h mid x) (h2 : Under h top mid) : Under h top x := by
  induction h1 with
  | refl => exact h2
  | step x p r hr hp _ ih => exact Under.step x p r hr hp ih

theorem heap_skeleton_get {h : Heap} {a : Nat} {r : HierarchicalRegion}
    (hr : h[a]? = some (some r)) : (heap_skeleton h)[a]? = some (some (skeleton r)) := by
  unfold heap_skeleton
  rw [List.getElem?_map, hr]
  rfl

theorem init_fresh_cells (adj : Nat → List Nat) (u : Bool) (m : Nat) (p : Partition)
    (f : HierarchicalRegionPartition)
    (hi : init adj (HierarchicalRegionPartition.fresh u m) p = .ok f) :
    f.heap.length = (relabel [] 0 p.data).2.1
      ∧ ∀ (a : Nat) (r : HierarchicalRegion), f.heap[a]? = some (some r) →
          r.label = a ∧ r.parent = none ∧ r.children = [] := by
  obtain ⟨hsk, -⟩ := init_fresh_inv adj u m p f hi
  constructor
  · have := congrArg List.length hsk
    simpa [heap_skeleton] using this
  · intro a r hr
    have h1 := heap_skeleton_get hr
    rw [hsk, List.getElem?_map] at h1
    cases hk : (List.range' 0 (relabel [] 0 p.data).2.1)[a]? with
    | none => rw [hk] at h1; cases h1
    | some k =>
      rw [hk] at h1
      have hka : k = a := by
        by_cases hlt : a < (relabel [] 0 p.data).2.1
        · rw [List.getElem?_range' _ _ hlt] at hk
          simp only [Nat.zero_add, Nat.one_mul, Option.some.injEq] at hk
          exact hk.symm
        · rw [List.getElem?_eq_none (by simpa using hlt)] at hk
          cases hk
      subst hka
      simp only [Option.map_some', Option.some.injEq, skeleton, Prod.mk.injEq] at h1
      exact ⟨h1.1.symm, h1.2.1.symm, h1.2.2.symm⟩

theorem merge_inv_init (adj : Nat → List Nat) (u : Bool) (m : Nat) (p : Partition)
    (f : HierarchicalRegionPartition)
    (hsym : ∀ i, i < p.data.length → ∀ j, j < p.data.length → j ∈ adj i → i ∈ adj j)
    (hi : init adj (HierarchicalRegionPartition.fresh u m) p = .ok f) : MergeInv f := by
  obtain ⟨hlen, hcells⟩ := init_fresh_cells adj u m p f hi
  obtain ⟨_, _, _, _, _, _, hn⟩ := init_fresh_inv adj u m p f hi
  have hDlen : (relabel [] 0 p.data).2.2.length = p.data.length := relabel_length _ _ _
  have hvals := relabel_values p.data [] 0 (by intro k v hkv; simp at hkv)
  refine ⟨?_, ?_, ?_⟩
  · intro a q r hr hp
    rw [(hcells a r hr).2.1] at hp
    cases hp
  · intro a x r hr hx
    rw [← nbrs_of_eq hr, hn] at hx
    obtain ⟨k, _, q, _, hq, _⟩ := hx
    rw [hlen]
    exact hvals x (List.getElem?_mem hq)
  · intro A B rA rB hAB hA hB hpA hpB
    rintro ⟨x, hx, hu⟩
    have hxa : x < f.heap.length := by
      rw [← nbrs_of_eq hA, hn] at hx
      obtain ⟨k, _, q, _, hq, _⟩ := hx
      rw [hlen]
      exact hvals x (List.getElem?_mem hq)
    have hxB : x = B := by
      cases hu with
      | refl => rfl
      | step _ q r hr hp _ =>
        rw [(hcells x r hr).2.1] at hp
        cases hp
    subst hxB
    rw [← nbrs_of_eq hA, hn] at hx
    obtain ⟨k, hk, q, hq, hdq, hne⟩ := hx
    refine ⟨A, ?_, Under.refl⟩
    rw [← nbrs_of_eq hB, hn]
    have hk' : k < p.data.length := by
      rw [← hDlen]; exact getElem?_lt_of_some hk
    have hq' : q < p.data.length := by
      rw [← hDlen]; exact getElem?_lt_of_some hdq
    exact ⟨q, hdq, k, hsym k hk' q hq' hq, hk, fun e => hne e.symm⟩

theorem merged_heap_of_merge {fuel : Nat} {f f' : HierarchicalRegionPartition}
    {A B label P : Nat} {rA rB : HierarchicalRegion}
    (hA : f.heap[A]? = some (some rA)) (hpA : rA.parent = none)
    (hB : f.heap[B]? = some (some rB)) (hpB : rB.parent = none)
    (hm : merge_regions fuel f A B label = .ok (f', P)) :
    P = f.heap.length ∧ MergedHeap f.heap f'.heap A B rA rB
      (merge_neighbors_second A rB.neighbors (merge_neighbors_first B rA.neighbors [])) := by
  obtain ⟨r1, r2, h1, h2, _, hP, _, _, _, _, _, _, _, hlen, hcell⟩ := merge_regions_inv hm
  rw [hA] at h1
  rw [hB] at h2
  simp only [Option.some.injEq] at h1 h2
  subst h1
  subst h2
  have hltA : A < f.heap.length := getElem?_lt_of_some hA
  have hltB : B < f.heap.length := getElem?_lt_of_some hB
  refine ⟨hP, hA, hB, hpA, hpB, hlen, ?_, ?_, ?_, ?_, ?_⟩
  · intro x hxA hxB hxP
    rw [hcell x]
    unfold merged_cell
    simp [hxA, hxB, hxP]
  · rw [hcell A]
    unfold merged_cell
    simp only [Nat.ne_of_lt hltA, if_false, true_or, if_true, hA, Option.map_some']
  · rw [hcell B]
    unfold merged_cell
    simp only [Nat.ne_of_lt hltB, if_false, or_true, if_true, hB, Option.map_some']
  · refine ⟨{ HierarchicalRegion.internal label A B with
        neighbors := merge_neighbors_second A rB.neighbors
          (merge_neighbors_first B rA.neighbors []) }, ?_, rfl, rfl⟩
    rw [hcell f.heap.length]
    unfold merged_cell
    simp only [if_true, hA, hB]
  · intro x
    simp only [mem_merge_neighbors_second, mem_merge_neighbors_first, List.not_mem_nil,
      false_or]

theorem MergedHeap.under_new_of_old {h h' : Heap} {A B : Nat} {rA rB : HierarchicalRegion}
    {ns : List Nat} (hm : MergedHeap h h' A B rA rB ns) {top x : Nat}
    (hu : Under h top x) : Under h' top x := by
  induction hu with
  | refl => exact Under.refl
  | step x p r hr hp _ ih =>
    have hxA : x ≠ A := by
      intro e; subst e
      rw [hm.aliveA] at hr
      simp only [Option.some.injEq] at hr
      subst hr
      rw [hm.rootA] at hp; cases hp
    have hxB : x ≠ B := by
      intro e; subst e
      rw [hm.aliveB] at hr
      simp only [Option.some.injEq] at hr
      subst hr
      rw [hm.rootB] at hp; cases hp
    have hxP : x ≠ h.length := Nat.ne_of_lt (getElem?_lt_of_some hr)
    exact Under.step x p r ((hm.other x hxA hxB hxP).trans hr) hp ih

theorem MergedHeap.under_parent_top {h h' : Heap} {A B : Nat} {rA rB : HierarchicalRegion}
    {ns : List Nat} (hm : MergedHeap h h' A B rA rB ns) {top : Nat}
    (hu : Under h' top h.length) : top = h.length := by
  obtain ⟨rP, hP, hpP, _⟩ := hm.cellP
  exact (under_root hu hP hpP).symm

theorem MergedHeap.under_old_of_new {h h' : Heap} {A B : Nat} {rA rB : HierarchicalRegion}
    {ns : List Nat} (hm : MergedHeap h h' A B rA rB ns) {top x : Nat}
    (htA : top ≠ A) (htB : top ≠ B) (htP : top ≠ h.length)
    (hu : Under h' top x) : Under h top x := by
  induction hu with
  | refl => exact Under.refl
  | step x p r hr hp hup ih =>
    by_cases hxA : x = A
    · subst hxA
      rw [hm.cellA] at hr
      simp only [Option.some.injEq] at hr
      subst hr
      simp only [Option.some.injEq] at hp
      subst hp
      exact absurd (hm.under_parent_top hup) htP
    · by_cases hxB : x = B
      · subst hxB
        rw [hm.cellB] at hr
        simp only [Option.some.injEq] at hr
        subst hr
        simp only [Option.some.injEq] at hp
        subst hp
        exact absurd (hm.under_parent_top hup) htP
      · by_cases hxP : x = h.length
        · subst hxP
          obtain ⟨rP, hP, hpP, _⟩ := hm.cellP
          rw [hP] at hr
          simp only [Option.some.injEq] at hr
          subst hr
          rw [hpP] at hp; cases hp
        · exact Under.step x p r ((hm.other x hxA hxB hxP).symm.trans hr) hp ih

theorem MergedHeap.under_parent_cases {h h' : Heap} {A B : Nat} {rA rB : HierarchicalRegion}
    {ns : List Nat} (hm : MergedHeap h h' A B rA rB ns)
    (hplt : ∀ (a p : Nat) (r : HierarchicalRegion),
      h[a]? = some (some r) → r.parent = some p → p < h.length)
    {x : Nat} (hu : Under h' h.length x) :
    x = h.length ∨ Under h A x ∨ Under h B x := by
  generalize htop : h.length = top at hu
  induction hu with
  | refl => exact Or.inl rfl
  | step x p r hr hp _ ih =>
    by_cases hxA : x = A
    · subst hxA; exact Or.inr (Or.inl Under.refl)
    · by_cases hxB : x = B
      · subst hxB; exact Or.inr (Or.inr Under.refl)
      · by_cases hxP : x = h.length
        · exact Or.inl (hxP.trans htop)
        · have hr' : h[x]? = some (some r) := (hm.other x hxA hxB hxP).symm.trans hr
          rcases ih with e | e | e
          · have := hplt x p r hr' hp
            omega
          · exact Or.inr (Or.inl (Under.step x p r hr' hp e))
          · exact Or.inr (Or.inr (Under.step x p r hr' hp e))

theorem MergedHeap.under_parent_of_A {h h' : Heap} {A B : Nat} {rA rB : HierarchicalRegion}
    {ns : List Nat} (hm : MergedHeap h h' A B rA rB ns) {x : Nat}
    (hu : Under h A x) : Under h' h.length x :=
  under_trans (hm.under_new_of_old hu)
    (Under.step A h.length _ hm.cellA rfl Under.refl)

theorem MergedHeap.under_parent_of_B {h h' : Heap} {A B : Nat} {rA rB : HierarchicalRegion}
    {ns : List Nat} (hm : MergedHeap h h' A B rA rB ns) {x : Nat}
    (hu : Under h B x) : Under h' h.length x :=
  under_trans (hm.under_new_of_old hu)
    (Under.step B h.length _ hm.cellB rfl Under.refl)

theorem merge_inv_merge {fuel : Nat} {f f' : HierarchicalRegionPartition}
    {A B label P : Nat} {rA rB : HierarchicalRegion} (hinv : MergeInv f) (hAB : A ≠ B)
    (hA : f.heap[A]? = some (some rA)) (hpA : rA.parent = none)
    (hB : f.heap[B]? = some (some rB)) (hpB : rB.parent = none)
    (hm : merge_regions fuel f A B label = .ok (f', P)) : MergeInv f' := by
  obtain ⟨_, hmh⟩ := merged_heap_of_merge hA hpA hB hpB hm
  obtain ⟨rP, hP, hpP, hnP⟩ := hmh.cellP
  have hltA : A < f.heap.length := getElem?_lt_of_some hA
  have hltB : B < f.heap.length := getElem?_lt_of_some hB
  -- every cell of the new heap
  have hcases : ∀ (x : Nat) (r : HierarchicalRegion), f'.heap[x]? = some (some r) →
      (x = A ∧ r = { rA with parent := some f.heap.length, neighbors := [] })
      ∨ (x = B ∧ r = { rB with parent := some f.heap.length, neighbors := [] })
      ∨ (x = f.heap.length ∧ r = rP)
      ∨ (x ≠ A ∧ x ≠ B ∧ x ≠ f.heap.length ∧ f.heap[x]? = some (some r)) := by
    intro x r hr
    by_cases hxA : x = A
    · subst hxA
      rw [hmh.cellA] at hr
      simp only [Option.some.injEq] at hr
      exact Or.inl ⟨rfl, hr.symm⟩
    · by_cases hxB : x = B
      · subst hxB
        rw [hmh.cellB] at hr
        simp only [Option.some.injEq] at hr
        exact Or.inr (Or.inl ⟨rfl, hr.symm⟩)
      · by_cases hxP : x = f.heap.length
        · subst hxP
          rw [hP] at hr
          simp only [Option.some.injEq] at hr
          exact Or.inr (Or.inr (Or.inl ⟨rfl, hr.symm⟩))
        · exact Or.inr (Or.inr (Or.inr ⟨hxA, hxB, hxP, (hmh.other x hxA hxB hxP).symm.trans hr⟩))
  have hns_lt : ∀ x, x ∈ rP.neighbors → x < f.heap.length := by
    intro x hx
    rw [hnP, hmh.mem_ns] at hx
    rcases hx with ⟨hx, _⟩ | ⟨hx, _⟩
    · exact hinv.nbrs_lt A x rA hA hx
    · exact hinv.nbrs_lt B x rB hB hx
  refine ⟨?_, ?_, ?_⟩
  · intro a p r hr hp
    rw [hmh.length]
    rcases hcases a r hr with ⟨_, e⟩ | ⟨_, e⟩ | ⟨_, e⟩ | ⟨_, _, _, e⟩
    · subst e
      simp only [Option.some.injEq] at hp
      omega
    · subst e
      simp only [Option.some.injEq] at hp
      omega
    · subst e
      rw [hpP] at hp; cases hp
    · have := hinv.parent_lt a p r e hp
      omega
  · intro a x r hr hx
    rw [hmh.length]
    rcases hcases a r hr with ⟨_, e⟩ | ⟨_, e⟩ | ⟨_, e⟩ | ⟨_, _, _, e⟩
    · subst e; simp at hx
    · subst e; simp at hx
    · subst e
      have := hns_lt x hx
      omega
    · have := hinv.nbrs_lt a x r e hx
      omega
  · intro C D rC rD hCD hC hD hpC hpD
    rintro ⟨x, hx, hu⟩
    rcases hcases C rC hC with ⟨_, e⟩ | ⟨_, e⟩ | ⟨eC, e⟩ | ⟨hCA, hCB, hCP, eC⟩
    · subst e; simp at hpC
    · subst e; simp at hpC
    · -- C is the new parent
      subst e
      rcases hcases D rD hD with ⟨_, e⟩ | ⟨_, e⟩ | ⟨eD, _⟩ | ⟨hDA, hDB, hDP, eD⟩
      · subst e; simp at hpD
      · subst e; simp at hpD
      · exact absurd (eC.trans eD.symm) hCD
      · have hu' : Under f.heap D x := hmh.under_old_of_new hDA hDB hDP hu
        rw [hnP, hmh.mem_ns] at hx
        rcases hx with ⟨hx, _⟩ | ⟨hx, _⟩
        · obtain ⟨y, hy, hyu⟩ := hinv.sym A D rA rD (Ne.symm hDA) hA eD hpA hpD ⟨x, hx, hu'⟩
          refine ⟨y, hy, ?_⟩
          rw [eC]
          exact hmh.under_parent_of_A hyu
        · obtain ⟨y, hy, hyu⟩ := hinv.sym B D rB rD (Ne.symm hDB) hB eD hpB hpD ⟨x, hx, hu'⟩
          refine ⟨y, hy, ?_⟩
          rw [eC]
          exact hmh.under_parent_of_B hyu
    · rcases hcases D rD hD with ⟨_, e⟩ | ⟨_, e⟩ | ⟨eD, e⟩ | ⟨hDA, hDB, hDP, eD⟩
      · subst e; simp at hpD
      · subst e; simp at hpD
      · -- D is the new parent
        subst e
        rw [eD] at hu
        have hxlt : x < f.heap.length := hinv.nbrs_lt C x rC eC hx
        rcases hmh.under_parent_cases hinv.parent_lt hu with e | e | e
        · omega
        · obtain ⟨y, hy, hyu⟩ := hinv.sym C A rC rA hCA eC hA hpC hpA ⟨x, hx, e⟩
          have hyB : y ≠ B := by
            intro e'
            subst e'
            exact hCB (under_root hyu hB hpB).symm
          refine ⟨y, ?_, hmh.under_new_of_old hyu⟩
          rw [hnP, hmh.mem_ns]
          exact Or.inl ⟨hy, hyB⟩
        · obtain ⟨y, hy, hyu⟩ := hinv.sym C B rC rB hCB eC hB hpC hpB ⟨x, hx, e⟩
          have hyA : y ≠ A := by
            intro e'
            subst e'
            exact hCA (under_root hyu hA hpA).symm
          refine ⟨y, ?_, hmh.under_new_of_old hyu⟩
          rw [hnP, hmh.mem_ns]
          exact Or.inr ⟨hy, hyA⟩
      · have hu' : Under f.heap D x := hmh.under_old_of_new hDA hDB hDP hu
        obtain ⟨y, hy, hyu⟩ := hinv.sym C D rC rD hCD eC eD hpC hpD ⟨x, hx, hu'⟩
        exact ⟨y, hy, hmh.under_new_of_old hyu⟩

theorem merge_reachable_inv (adj : Nat → List Nat) (p : Partition)
    (hsym : ∀ i, i < p.data.length → ∀ j, j < p.data.length → j ∈ adj i → i ∈ adj j)
    (f : HierarchicalRegionPartition) (hr : MergeReachable adj p f) : MergeInv f := by
  induction hr with
  | init u m f hi => exact merge_inv_init adj u m p f hsym hi
  | merge fuel f f' A B label P rA rB _ hAB hA hpA hB hpB hm ih =>
    exact merge_inv_merge ih hAB hA hpA hB hpB hm

theorem BTree.addr_mem_nodes (t : BTree) : t.addr ∈ t.nodes := by
  cases t <;> simp [BTree.addr, BTree.nodes]

theorem BTree.first_leaf_mem_nodes (t : BTree) : t.first_leaf ∈ t.nodes := by
  induction t with
  | leaf a => simp [BTree.first_leaf, BTree.nodes]
  | node a l r ihl _ =>
    simp only [BTree.first_leaf, BTree.nodes, List.mem_cons, List.mem_append]
    exact Or.inr (Or.inl ihl)

theorem BTree.leaf_addrs_eq_cons (t : BTree) : ∃ tl, t.leaf_addrs = t.first_leaf :: tl := by
  induction t with
  | leaf a => exact ⟨[], rfl⟩
  | node a l r ihl _ =>
    obtain ⟨tl, htl⟩ := ihl
    exact ⟨tl ++ r.leaf_addrs, by simp [BTree.leaf_addrs, BTree.first_leaf, htl]⟩

theorem BTree.leaf_addrs_subset_nodes (t : BTree) : ∀ x ∈ t.leaf_addrs, x ∈ t.nodes := by
  induction t with
  | leaf a => intro x hx; simpa [BTree.leaf_addrs, BTree.nodes] using hx
  | node a l r ihl ihr =>
    intro x hx
    simp only [BTree.leaf_addrs, List.mem_append] at hx
    simp only [BTree.nodes, List.mem_cons, List.mem_append]
    rcases hx with hx | hx
    · exact Or.inr (Or.inl (ihl x hx))
    · exact Or.inr (Or.inr (ihr x hx))

theorem tree_at_congr {h h' : Heap} : ∀ (t : BTree), (∀ x ∈ t.nodes, h'[x]? = h[x]?) →
    TreeAt h t → TreeAt h' t := by
  intro t
  induction t with
  | leaf a =>
    intro hag ht
    obtain ⟨r, hr, hc, hco⟩ := ht
    exact ⟨r, (hag a (by simp [BTree.nodes])).trans hr, hc, hco⟩
  | node a l r ihl ihr =>
    intro hag ht
    obtain ⟨reg, hreg, hch, hco, hne, ⟨rl, hrl, hpl⟩, ⟨rr, hrr, hpr⟩, htl, htr⟩ := ht
    have hl : ∀ x ∈ l.nodes, h'[x]? = h[x]? := fun x hx =>
      hag x (by simp [BTree.nodes, hx])
    have hr : ∀ x ∈ r.nodes, h'[x]? = h[x]? := fun x hx =>
      hag x (by simp [BTree.nodes, hx])
    refine ⟨reg, (hag a (by simp [BTree.nodes])).trans hreg, hch, hco, hne,
      ⟨rl, (hl _ l.addr_mem_nodes).trans hrl, hpl⟩,
      ⟨rr, (hr _ r.addr_mem_nodes).trans hrr, hpr⟩, ihl hl htl, ihr hr htr⟩

theorem coords_of_eq {h : Heap} {a : Nat} {r : HierarchicalRegion} (hr : h[a]? = some (some r)) :
    coords_of h a = r.coordinates := by
  unfold coords_of
  rw [hr]

theorem TreeAt.leaf_coords_ne_nil {h : Heap} : ∀ (t : BTree), TreeAt h t →
    ∀ x ∈ t.leaf_addrs, coords_of h x ≠ [] := by
  intro t
  induction t with
  | leaf a =>
    intro ht x hx
    obtain ⟨r, hr, _, hco⟩ := ht
    simp only [BTree.leaf_addrs, List.mem_singleton] at hx
    subst hx
    rw [coords_of_eq hr]
    exact hco
  | node a l r ihl ihr =>
    intro ht x hx
    obtain ⟨_, _, _, _, _, _, _, htl, htr⟩ := ht
    simp only [BTree.leaf_addrs, List.mem_append] at hx
    rcases hx with hx | hx
    · exact ihl htl x hx
    · exact ihr htr x hx

theorem descend_mono (h : Heap) : ∀ (f k a x : Nat), descend h f a = .ok x →
    descend h (f + k) a = .ok x := by
  intro f
  induction f with
  | zero => intro k a x he; simp [descend] at he
  | succ f ih =>
    intro k a x he
    have : f + 1 + k = (f + k) + 1 := by omega
    rw [this]
    unfold descend at he ⊢
    cases hd : deref h a with
    | error e => rw [hd] at he; cases he
    | ok r =>
      rw [hd] at he
      simp only [bind, Except.bind] at he ⊢
      by_cases hc : r.coordinates.length = 0
      · simp only [hc, if_true] at he ⊢
        cases hch : r.children[0]? with
        | none => rw [hch] at he; cases he
        | some c =>
          rw [hch] at he
          simp only at he ⊢
          exact ih k c x he
      · simp only [hc, if_false] at he ⊢
        exact he

theorem climb_mono (h : Heap) (start : Nat) : ∀ (f k a : Nat) (x : Nat × Bool),
    climb h start f a = .ok x → climb h start (f + k) a = .ok x := by
  intro f
  induction f with
  | zero => intro k a x he; simp [climb] at he
  | succ f ih =>
    intro k a x he
    have : f + 1 + k = (f + k) + 1 := by omega
    rw [this]
    unfold climb at he ⊢
    cases hd : deref h a with
    | error e => rw [hd] at he; cases he
    | ok r =>
      rw [hd] at he
      simp only [bind, Except.bind] at he ⊢
      split
      · rename_i hc
        simp only [hc, if_true] at he
        exact he
      · rename_i hc
        simp only [hc, if_false] at he
        cases hp : r.parent with
        | none => rw [hp] at he; cases he
        | some p =>
          rw [hp] at he
          simp only at he ⊢
          cases hdp : deref h p with
          | error e => rw [hdp] at he; cases he
          | ok pr =>
            rw [hdp] at he
            simp only at he ⊢
            cases hc0 : pr.children[0]? with
            | none => rw [hc0] at he; cases he
            | some c0 =>
              rw [hc0] at he
              simp only at he ⊢
              by_cases h0 : c0 = a
              · simp only [h0, if_true] at he ⊢
                exact he
              · simp only [h0, if_false] at he ⊢
                by_cases hs : p = start
                · simp only [hs, if_true] at he ⊢
                  exact he
                · simp only [hs, if_false] at he ⊢
                  exact ih k p x he

theorem descend_first {h : Heap} : ∀ (s : BTree), TreeAt h s →
    descend h (s.ldepth + 1) s.addr = .ok s.first_leaf := by
  intro s
  induction s with
  | leaf a =>
    intro ht
    obtain ⟨r, hr, _, hco⟩ := ht
    have hlen : ¬ r.coordinates.length = 0 := by
      intro e; exact hco (List.length_eq_zero.mp e)
    simp [descend, BTree.addr, BTree.first_leaf, BTree.ldepth, deref_eq_ok.mpr hr, bind,
      Except.bind, hlen]
  | node a l r ihl _ =>
    intro ht
    obtain ⟨reg, hreg, hch, hco, _, _, _, htl, _⟩ := ht
    have := ihl htl
    unfold descend
    simp only [BTree.addr, BTree.first_leaf, deref_eq_ok.mpr hreg, bind, Except.bind, hco,
      List.length_nil, if_true, hch, List.getElem?_cons_zero]
    exact this

theorem BTree.ldepth_le_height (s : BTree) : s.ldepth ≤ s.height := by
  induction s with
  | leaf a => simp [BTree.ldepth, BTree.height]
  | node a l r ihl _ => simp only [BTree.ldepth, BTree.height]; omega

theorem descend_first_fuel {h : Heap} (s : BTree) (ht : TreeAt h s) (fuel : Nat)
    (hf : s.height + 1 ≤ fuel) : descend h fuel s.addr = .ok s.first_leaf := by
  have h1 := descend_mono h (s.ldepth + 1) (fuel - (s.ldepth + 1)) _ _ (descend_first s ht)
  have h2 := s.ldepth_le_height
  have : s.ldepth + 1 + (fuel - (s.ldepth + 1)) = fuel := by omega
  rwa [this] at h1

theorem climb_left {h : Heap} {start c c' a : Nat} {reg : HierarchicalRegion} (f : Nat)
    (hp : ParentIs h c a) (hreg : h[a]? = some (some reg)) (hch : reg.children = [c, c']) :
    climb h start (f + 1) c = .ok (c', false) := by
  obtain ⟨rc, hrc, hpc⟩ := hp
  unfold climb
  simp [deref_eq_ok.mpr hrc, bind, Except.bind, hpc, deref_eq_ok.mpr hreg, hch]

theorem climb_right {h : Heap} {start c c' a : Nat} {reg : HierarchicalRegion} (f : Nat)
    (hp : ParentIs h c' a) (hreg : h[a]? = some (some reg)) (hch : reg.children = [c, c'])
    (hne : c ≠ c') :
    climb h start (f + 1) c' = if a = start then .ok (a, true) else climb h start f a := by
  obtain ⟨rc, hrc, hpc⟩ := hp
  conv_lhs => unfold climb
  simp [deref_eq_ok.mpr hrc, bind, Except.bind, hpc, deref_eq_ok.mpr hreg, hch, hne]

theorem chain_of_tree {h : Heap} {start fuel : Nat} : ∀ (s : BTree), TreeAt h s →
    start ∉ s.nodes → ∀ (F : Nat) (K : Nat × Bool) (rest : List Nat),
    climb h start F s.addr = .ok K → 1 ≤ F → F + s.height ≤ fuel →
    RestOK h start fuel K rest → Chain h start fuel (s.leaf_addrs ++ rest) := by
  intro s
  induction s with
  | leaf a =>
    intro ht hns F K rest hK _ hF hrest
    have hk : climb h start fuel a = .ok K := by
      have := climb_mono h start F (fuel - F) a K hK
      have e : F + (fuel - F) = fuel := by simp only [BTree.height] at hF; omega
      rwa [e] at this
    have hco : coords_of h a ≠ [] := ht.leaf_coords_ne_nil _ a (by simp [BTree.leaf_addrs])
    have hane : a ≠ start := by
      intro e; apply hns; simp [BTree.nodes, e]
    cases rest with
    | nil =>
      simp only [RestOK] at hrest
      refine ⟨hco, Or.inr ⟨K.1, ?_⟩, trivial⟩
      rw [hk, ← hrest]
    | cons l' tl =>
      obtain ⟨hK2, hd, hch⟩ := hrest
      refine ⟨hco, ⟨hane, K.1, ?_, hd⟩, hch⟩
      rw [hk, ← hK2]
  | node a l r ihl ihr =>
    intro ht hns F K rest hK hF1 hF hrest
    obtain ⟨reg, hreg, hch, hco, hne, hpl, hpr, htl, htr⟩ := ht
    simp only [BTree.nodes, List.mem_cons, List.mem_append, not_or] at hns
    obtain ⟨hsa, hsl, hsr⟩ := hns
    simp only [BTree.height] at hF
    simp only [BTree.addr] at hK
    -- the right subtree, followed by the rest
    have hKr : climb h start (F + 1) r.addr = .ok K := by
      rw [climb_right F hpr hreg hch hne]
      simp only [Ne.symm hsa, if_false]
      exact hK
    have hcr : Chain h start fuel (r.leaf_addrs ++ rest) :=
      ihr htr hsr (F + 1) K rest hKr (by omega) (by omega) hrest
    -- the left subtree, followed by the right one
    have hKl : climb h start 1 l.addr = .ok (r.addr, false) := climb_left 0 hpl hreg hch
    obtain ⟨tl, htl'⟩ := r.leaf_addrs_eq_cons
    have hrestl : RestOK h start fuel (r.addr, false) (r.leaf_addrs ++ rest) := by
      rw [htl'] at hcr ⊢
      exact ⟨rfl, descend_first_fuel r htr fuel (by omega), hcr⟩
    have := ihl htl hsl 1 (r.addr, false) (r.leaf_addrs ++ rest) hKl (le_refl _) (by omega) hrestl
    simpa [BTree.leaf_addrs, List.append_assoc] using this

/-- Chain of the leaves of a whole tree, for the iterator started on its root. -/
theorem chain_of_root {h : Heap} {fuel : Nat} (t : BTree) (ht : TreeAt h t)
    (hnd : t.nodes.Nodup) (hf : t.height + 1 ≤ fuel) :
    Chain h t.addr fuel t.leaf_addrs ∧ descend h fuel t.addr = .ok t.first_leaf := by
  refine ⟨?_, descend_first_fuel t ht fuel hf⟩
  cases t with
  | leaf a =>
    have hco : coords_of h a ≠ [] := ht.leaf_coords_ne_nil _ a (by simp [BTree.leaf_addrs])
    exact ⟨hco, Or.inl rfl, trivial⟩
  | node a l r =>
    obtain ⟨reg, hreg, hch, hco, hne, hpl, hpr, htl, htr⟩ := ht
    simp only [BTree.nodes, List.nodup_cons, List.mem_append, not_or, List.nodup_append] at hnd
    obtain ⟨⟨hal, har⟩, _, _, _⟩ := hnd
    simp only [BTree.height] at hf
    simp only [BTree.addr]
    have hKr : climb h a 1 r.addr = .ok (a, true) := by
      rw [climb_right 0 hpr hreg hch hne]
      simp
    have hcr : Chain h a fuel (r.leaf_addrs ++ []) :=
      chain_of_tree r htr har 1 (a, true) [] hKr (le_refl _) (by omega) rfl
    have hKl : climb h a 1 l.addr = .ok (r.addr, false) := climb_left 0 hpl hreg hch
    obtain ⟨tl, htl'⟩ := r.leaf_addrs_eq_cons
    have hrestl : RestOK h a fuel (r.addr, false) (r.leaf_addrs ++ []) := by
      rw [htl'] at hcr ⊢
      exact ⟨rfl, descend_first_fuel r htr fuel (by omega), hcr⟩
    have := chain_of_tree l htl hal 1 (r.addr, false) (r.leaf_addrs ++ []) hKl (le_refl _)
      (by omega) hrestl
    simpa [BTree.leaf_addrs] using this

theorem coords_of_alive {h : Heap} {a : Nat} (hc : coords_of h a ≠ []) :
    ∃ r, h[a]? = some (some r) ∧ r.coordinates = coords_of h a := by
  unfold coords_of at hc ⊢
  cases hh : h[a]? with
  | none => rw [hh] at hc; exact absurd rfl hc
  | some o =>
    cases o with
    | none => rw [hh] at hc; exact absurd rfl hc
    | some r => exact ⟨r, rfl, rfl⟩

theorem iterator_get {h : Heap} {start l i : Nat} (hi : i < (coords_of h l).length) :
    RegionIteratorBase.get h ⟨start, l, false, i⟩ = .ok ((coords_of h l)[i]) := by
  have hc : coords_of h l ≠ [] := by
    intro e; rw [e] at hi; simp at hi
  obtain ⟨r, hr, hrc⟩ := coords_of_alive hc
  unfold RegionIteratorBase.get
  simp only [deref_eq_ok.mpr hr, bind, Except.bind, hrc]
  rw [List.getElem?_eq_getElem hi]

theorem iterator_increment_inside {h : Heap} {fuel start l i : Nat}
    (hi : i + 1 < (coords_of h l).length) :
    RegionIteratorBase.increment h fuel ⟨start, l, false, i⟩ = .ok ⟨start, l, false, i + 1⟩ := by
  have hc : coords_of h l ≠ [] := by
    intro e; rw [e] at hi; simp at hi
  obtain ⟨r, hr, hrc⟩ := coords_of_alive hc
  unfold RegionIteratorBase.increment
  have : ¬ i + 1 = r.coordinates.length := by rw [hrc]; omega
  simp [deref_eq_ok.mpr hr, bind, Except.bind, this]

theorem iterator_increment_next {h : Heap} {fuel start l l' i : Nat} {rest : List Nat}
    (hch : Chain h start fuel (l :: l' :: rest)) (hi : i + 1 = (coords_of h l).length) :
    RegionIteratorBase.increment h fuel ⟨start, l, false, i⟩ = .ok ⟨start, l', false, 0⟩ := by
  obtain ⟨hc, ⟨hne, c, hcl, hde⟩, _⟩ := hch
  obtain ⟨r, hr, hrc⟩ := coords_of_alive hc
  unfold RegionIteratorBase.increment
  have : i + 1 = r.coordinates.length := by rw [hrc]; exact hi
  simp [deref_eq_ok.mpr hr, bind, Except.bind, this, hne, hcl, hde]

theorem iterator_increment_end {h : Heap} {fuel start l i : Nat}
    (hch : Chain h start fuel [l]) (hi : i + 1 = (coords_of h l).length) :
    ∃ it', RegionIteratorBase.increment h fuel ⟨start, l, false, i⟩ = .ok it'
      ∧ it'._end = true := by
  obtain ⟨hc, hlast, _⟩ := hch
  obtain ⟨r, hr, hrc⟩ := coords_of_alive hc
  unfold RegionIteratorBase.increment
  have hlen : i + 1 = r.coordinates.length := by rw [hrc]; exact hi
  by_cases hs : l = start
  · subst hs
    exact ⟨⟨l, l, true, i + 1⟩, by simp [deref_eq_ok.mpr hr, bind, Except.bind, hlen], rfl⟩
  · rcases hlast with e | ⟨c, hcl⟩
    · exact absurd e hs
    · exact ⟨⟨start, c, true, i + 1⟩,
        by simp [deref_eq_ok.mpr hr, bind, Except.bind, hlen, hs, hcl], rfl⟩

theorem update_roots_loop_end (h : Heap) (label fuel n : Nat) (it : RegionIteratorBase)
    (roots : Partition) (he : it._end = true) :
    update_roots_loop h label fuel (n + 1) it roots = .ok roots := by
  unfold update_roots_loop
  simp [he]

theorem update_roots_loop_chain (h : Heap) (label fuel start : Nat) :
    ∀ (rest : List Nat) (l : Nat), Chain h start fuel (l :: rest) →
    ∀ (k i : Nat), i + k = (coords_of h l).length → 1 ≤ k →
    ∀ (n : Nat) (roots : Partition), k + ((rest.map (coords_of h)).flatten).length + 1 ≤ n →
    update_roots_loop h label fuel n ⟨start, l, false, i⟩ roots
      = write_all roots ((coords_of h l).drop i ++ (rest.map (coords_of h)).flatten) label := by
  intro rest
  induction rest with
  | nil =>
    intro l hch k
    induction k with
    | zero => intro i _ hk; omega
    | succ k ihk =>
      intro i hik _ n roots hn
      obtain ⟨n', rfl⟩ : ∃ n', n = n' + 1 := ⟨n - 1, by omega⟩
      have hi : i < (coords_of h l).length := by omega
      rw [List.drop_eq_getElem_cons hi]
      unfold update_roots_loop
      simp only [Bool.false_eq_true, if_false, iterator_get hi, bind, Except.bind, write_all,
        List.map_nil, List.flatten_nil, List.append_nil, List.foldlM_cons]
      cases hw : roots.write (coords_of h l)[i] label with
      | error e => rfl
      | ok roots' =>
        simp only
        by_cases hk0 : k = 0
        · subst hk0
          obtain ⟨it', hinc, hend⟩ := iterator_increment_end (i := i) hch (by omega)
          rw [hinc]
          simp only
          obtain ⟨n'', rfl⟩ : ∃ n'', n' = n'' + 1 := ⟨n' - 1, by
            simp only [List.map_nil, List.flatten_nil, List.length_nil] at hn; omega⟩
          rw [update_roots_loop_end _ _ _ _ _ _ hend]
          have : List.drop (i + 1) (coords_of h l) = [] := by
            apply List.drop_eq_nil_of_le; omega
          rw [this]
          rfl
        · rw [iterator_increment_inside (by omega)]
          simp only
          have := ihk (i + 1) (by omega) (by omega) n' roots' (by
            simp only [List.map_nil, List.flatten_nil, List.length_nil] at hn ⊢; omega)
          simpa [write_all] using this
  | cons l' tl ih =>
    intro l hch k
    induction k with
    | zero => intro i _ hk; omega
    | succ k ihk =>
      intro i hik _ n roots hn
      obtain ⟨n', rfl⟩ : ∃ n', n = n' + 1 := ⟨n - 1, by omega⟩
      have hi : i < (coords_of h l).length := by omega
      rw [List.drop_eq_getElem_cons hi]
      unfold update_roots_loop
      simp only [Bool.false_eq_true, if_false, iterator_get hi, bind, Except.bind, write_all,
        List.cons_append, List.foldlM_cons]
      cases hw : roots.write (coords_of h l)[i] label with
      | error e => rfl
      | ok roots' =>
        simp only
        by_cases hk0 : k = 0
        · subst hk0
          rw [iterator_increment_next hch (by omega)]
          simp only
          have hch' : Chain h start fuel (l' :: tl) := hch.2.2
          have hl' : 1 ≤ (coords_of h l').length := by
            have := hch'.1
            cases hc : coords_of h l' with
            | nil => exact absurd hc this
            | cons _ _ => simp
          have hlen : ((List.map (coords_of h) (l' :: tl)).flatten).length
              = (coords_of h l').length + ((tl.map (coords_of h)).flatten).length := by
            simp
          have := ih l' hch' (coords_of h l').length 0 (by omega) hl' n' roots' (by omega)
          rw [this]
          have hd : List.drop (i + 1) (coords_of h l) = [] := by
            apply List.drop_eq_nil_of_le; omega
          simp [write_all, hd]
        · rw [iterator_increment_inside (by omega)]
          simp only
          have := ihk (i + 1) (by omega) (by omega) n' roots' (by omega)
          simpa [write_all] using this

theorem append_coords_get_other {h : Heap} {a x : Nat} (cs : List Nat) (hx : x ≠ a) :
    (append_coords h a cs)[x]? = h[x]? := by
  unfold append_coords
  split
  · rw [List.getElem?_set]
    simp [Ne.symm hx]
  · rfl

theorem append_coords_get_self {h : Heap} {a : Nat} {r : HierarchicalRegion} (cs : List Nat)
    (hr : h[a]? = some (some r)) :
    (append_coords h a cs)[a]? = some (some { r with coordinates := r.coordinates ++ cs }) := by
  unfold append_coords
  rw [hr]
  simp only
  rw [getElem?_set_alive hr]
  simp

theorem coords_of_append_coords {h : Heap} {a x : Nat} (cs : List Nat) (hx : x ≠ a) :
    coords_of (append_coords h a cs) x = coords_of h x := by
  unfold coords_of
  rw [append_coords_get_other cs hx]

theorem modify_append_coords {h : Heap} {a : Nat} {r : HierarchicalRegion} (done : List Nat)
    (c : Nat) (hr : h[a]? = some (some r)) :
    modify (append_coords h a done) a (fun x => { x with coordinates := x.coordinates ++ [c] })
      = .ok (append_coords h a (done ++ [c])) := by
  rw [modify_eq_ok _ (append_coords_get_self done hr)]
  congr 1
  unfold append_coords
  rw [hr]
  simp only
  apply List.ext_getElem?
  intro j
  rw [getElem?_set_alive (r := { r with coordinates := r.coordinates ++ done })
    (by rw [getElem?_set_alive hr]; simp), getElem?_set_alive hr, getElem?_set_alive hr]
  by_cases hj : j = a
  · simp [hj, List.append_assoc]
  · simp [hj]

theorem prune_fill_end (region label fuel n : Nat) (it : RegionIteratorBase) (h : Heap)
    (lp : Partition) (he : it._end = true) :
    prune_fill region label fuel (n + 1) it h lp = .ok (h, lp) := by
  unfold prune_fill
  simp [he]

theorem prune_fill_chain (h0 : Heap) (label fuel start : Nat) (r0 : HierarchicalRegion)
    (hr0 : h0[start]? = some (some r0)) :
    ∀ (rest : List Nat) (l : Nat),
    (∀ cs, Chain (append_coords h0 start cs) start fuel (l :: rest)) →
    (∀ x ∈ l :: rest, x ≠ start) →
    ∀ (k i : Nat), i + k = (coords_of h0 l).length → 1 ≤ k →
    ∀ (n : Nat) (done : List Nat) (lp : Partition),
    k + ((rest.map (coords_of h0)).flatten).length + 1 ≤ n →
    prune_fill start label fuel n ⟨start, l, false, i⟩ (append_coords h0 start done) lp
      = (match write_all lp ((coords_of h0 l).drop i ++ (rest.map (coords_of h0)).flatten)
            label with
         | .ok lp' => .ok (append_coords h0 start
              (done ++ ((coords_of h0 l).drop i ++ (rest.map (coords_of h0)).flatten)), lp')
         | .error e => .error e) := by
  intro rest
  induction rest with
  | nil =>
    intro l hch hne k
    have hls : l ≠ start := hne l (List.mem_cons_self _ _)
    induction k with
    | zero => intro i _ hk; omega
    | succ k ihk =>
      intro i hik _ n done lp hn
      obtain ⟨n', rfl⟩ : ∃ n', n = n' + 1 := ⟨n - 1, by omega⟩
      have hi : i < (coords_of h0 l).length := by omega
      have hi' : i < (coords_of (append_coords h0 start done) l).length := by
        rw [coords_of_append_coords done hls]; exact hi
      have hget : (coords_of (append_coords h0 start done) l)[i] = (coords_of h0 l)[i] := by
        simp only [coords_of_append_coords done hls]
      rw [List.drop_eq_getElem_cons hi]
      unfold prune_fill
      simp only [Bool.false_eq_true, if_false, iterator_get hi', hget, bind, Except.bind,
        write_all, List.map_nil, List.flatten_nil, List.append_nil, List.foldlM_cons,
        modify_append_coords done _ hr0]
      cases hw : lp.write (coords_of h0 l)[i] label with
      | error e => rfl
      | ok lp' =>
        simp only
        have hlen' : (coords_of (append_coords h0 start (done ++ [(coords_of h0 l)[i]])) l).length
            = (coords_of h0 l).length := by
          rw [coords_of_append_coords _ hls]
        by_cases hk0 : k = 0
        · subst hk0
          obtain ⟨it', hinc, hend⟩ := iterator_increment_end (i := i)
            (hch (done ++ [(coords_of h0 l)[i]])) (by omega)
          rw [hinc]
          simp only
          obtain ⟨n'', rfl⟩ : ∃ n'', n' = n'' + 1 := ⟨n' - 1, by
            simp only [List.map_nil, List.flatten_nil, List.length_nil] at hn; omega⟩
          rw [prune_fill_end _ _ _ _ _ _ _ hend]
          have : List.drop (i + 1) (coords_of h0 l) = [] := by
            apply List.drop_eq_nil_of_le; omega
          rw [this]
          rfl
        · rw [iterator_increment_inside (by omega)]
          simp only
          have := ihk (i + 1) (by omega) (by omega) n' (done ++ [(coords_of h0 l)[i]]) lp' (by
            simp only [List.map_nil, List.flatten_nil, List.length_nil] at hn ⊢; omega)
          simpa [write_all, List.append_assoc] using this
  | cons l' tl ih =>
    intro l hch hne k
    have hls : l ≠ start := hne l (List.mem_cons_self _ _)
    have hne' : ∀ x ∈ l' :: tl, x ≠ start := fun x hx => hne x (List.mem_cons_of_mem _ hx)
    induction k with
    | zero => intro i _ hk; omega
    | succ k ihk =>
      intro i hik _ n done lp hn
      obtain ⟨n', rfl⟩ : ∃ n', n = n' + 1 := ⟨n - 1, by omega⟩
      have hi : i < (coords_of h0 l).length := by omega
      have hi' : i < (coords_of (append_coords h0 start done) l).length := by
        rw [coords_of_append_coords done hls]; exact hi
      have hget : (coords_of (append_coords h0 start done) l)[i] = (coords_of h0 l)[i] := by
        simp only [coords_of_append_coords done hls]
      rw [List.drop_eq_getElem_cons hi]
      unfold prune_fill
      simp only [Bool.false_eq_true, if_false, iterator_get hi', hget, bind, Except.bind,
        write_all, List.cons_append, List.foldlM_cons, modify_append_coords done _ hr0]
      cases hw : lp.write (coords_of h0 l)[i] label with
      | error e => rfl
      | ok lp' =>
        simp only
        have hlen' : (coords_of (append_coords h0 start (done ++ [(coords_of h0 l)[i]])) l).length
            = (coords_of h0 l).length := by
          rw [coords_of_append_coords _ hls]
        by_cases hk0 : k = 0
        · subst hk0
          rw [iterator_increment_next (hch (done ++ [(coords_of h0 l)[i]])) (by omega)]
          simp only
          have hch' : ∀ cs, Chain (append_coords h0 start cs) start fuel (l' :: tl) :=
            fun cs => (hch cs).2.2
          have hl's : l' ≠ start := hne' l' (List.mem_cons_self _ _)
          have hl' : 1 ≤ (coords_of h0 l').length := by
            have := (hch' []).1
            rw [coords_of_append_coords _ hl's] at this
            cases hc : coords_of h0 l' with
            | nil => exact absurd hc this
            | cons _ _ => simp
          have hlen : ((List.map (coords_of h0) (l' :: tl)).flatten).length
              = (coords_of h0 l').length + ((tl.map (coords_of h0)).flatten).length := by
            simp
          have := ih l' hch' hne' (coords_of h0 l').length 0 (by omega) hl' n'
            (done ++ [(coords_of h0 l)[i]]) lp' (by omega)
          rw [this]
          have hd : List.drop (i + 1) (coords_of h0 l) = [] := by
            apply List.drop_eq_nil_of_le; omega
          simp [write_all, hd, List.append_assoc]
        · rw [iterator_increment_inside (by omega)]
          simp only
          have := ihk (i + 1) (by omega) (by omega) n' (done ++ [(coords_of h0 l)[i]]) lp'
            (by omega)
          simpa [write_all, List.append_assoc] using this

/-- Chain of the leaves below a region `start` with the two children `l` and
`r`, whatever the coordinate list of `start` itself holds. -/
theorem chain_of_children {h : Heap} {fuel start : Nat} {reg : HierarchicalRegion} (l r : BTree)
    (hreg : h[start]? = some (some reg)) (hch : reg.children = [l.addr, r.addr])
    (hne : l.addr ≠ r.addr) (hpl : ParentIs h l.addr start) (hpr : ParentIs h r.addr start)
    (htl : TreeAt h l) (htr : TreeAt h r) (hsl : start ∉ l.nodes) (hsr : start ∉ r.nodes)
    (hf : max l.height r.height + 2 ≤ fuel) :
    Chain h start fuel (l.leaf_addrs ++ r.leaf_addrs) := by
  have hKr : climb h start 1 r.addr = .ok (start, true) := by
    rw [climb_right 0 hpr hreg hch hne]
    simp
  have hcr : Chain h start fuel (r.leaf_addrs ++ []) :=
    chain_of_tree r htr hsr 1 (start, true) [] hKr (le_refl _) (by omega) rfl
  have hKl : climb h start 1 l.addr = .ok (r.addr, false) := climb_left 0 hpl hreg hch
  obtain ⟨tl, htl'⟩ := r.leaf_addrs_eq_cons
  have hrestl : RestOK h start fuel (r.addr, false) (r.leaf_addrs ++ []) := by
    rw [htl'] at hcr ⊢
    exact ⟨rfl, descend_first_fuel r htr fuel (by omega), hcr⟩
  have := chain_of_tree l htl hsl 1 (r.addr, false) (r.leaf_addrs ++ []) hKl (le_refl _)
    (by omega) hrestl
  simpa using this

theorem partition_write_ok (p : Partition) (c v : Nat) (hc : c < p.data.length) :
    ∃ p', p.write c v = .ok p' ∧ p'.data.length = p.data.length ∧ p'.sizes = p.sizes := by
  refine ⟨{ p with data := p.data.set c v }, ?_, by simp, rfl⟩
  unfold Partition.write
  simp [hc]

theorem write_all_ok : ∀ (cs : List Nat) (p : Partition) (v : Nat),
    (∀ c ∈ cs, c < p.data.length) →
    ∃ p', write_all p cs v = .ok p' ∧ p'.data.length = p.data.length ∧ p'.sizes = p.sizes := by
  intro cs
  induction cs with
  | nil => intro p v _; exact ⟨p, rfl, rfl, rfl⟩
  | cons c rest ih =>
    intro p v hb
    obtain ⟨p1, hw, hl, hs⟩ := partition_write_ok p c v (hb c (List.mem_cons_self _ _))
    obtain ⟨p2, hw2, hl2, hs2⟩ := ih p1 v (fun x hx => by
      rw [hl]; exact hb x (List.mem_cons_of_mem _ hx))
    refine ⟨p2, ?_, hl2.trans hl, hs2.trans hs⟩
    unfold write_all at hw2 ⊢
    simp only [List.foldlM_cons, bind, Except.bind, hw, hw2]

theorem label_of_eq {h : Heap} {a : Nat} {r : HierarchicalRegion} (hr : h[a]? = some (some r)) :
    label_of h a = r.label := by
  unfold label_of
  rw [hr]

theorem BTree.size_pos (t : BTree) : 1 ≤ t.size := by
  cases t <;> simp [BTree.size]

theorem bfs_order_nil (n : Nat) : bfs_order n [] = [] := by
  cases n <;> rfl

theorem bfs_order_subset : ∀ (n : Nat) (ts : List BTree) (x : Nat), x ∈ bfs_order n ts →
    ∃ t ∈ ts, x ∈ t.nodes := by
  intro n
  induction n with
  | zero => intro ts x hx; simp [bfs_order] at hx
  | succ n ih =>
    intro ts x hx
    cases ts with
    | nil => simp [bfs_order] at hx
    | cons t rest =>
      simp only [bfs_order, List.mem_cons] at hx
      rcases hx with hx | hx
      · exact ⟨t, List.mem_cons_self _ _, hx ▸ t.addr_mem_nodes⟩
      · obtain ⟨t', ht', hxt⟩ := ih _ x hx
        rcases List.mem_append.mp ht' with h1 | h1
        · exact ⟨t', List.mem_cons_of_mem _ h1, hxt⟩
        · refine ⟨t, List.mem_cons_self _ _, ?_⟩
          cases t with
          | leaf a => simp [BTree.subtrees] at h1
          | node a l r =>
            simp only [BTree.subtrees, List.mem_cons, List.mem_singleton, List.not_mem_nil,
              or_false] at h1
            simp only [BTree.nodes, List.mem_cons, List.mem_append]
            rcases h1 with e | e
            · subst e; exact Or.inr (Or.inl hxt)
            · subst e; exact Or.inr (Or.inr hxt)

theorem children_labels_tree {h : Heap} (t : BTree) (ht : TreeAt h t) {reg : HierarchicalRegion}
    (hreg : h[t.addr]? = some (some reg)) :
    children_labels h reg = .ok (t.subtrees.map (fun s => label_of h s.addr))
      ∧ ∀ s ∈ t.subtrees, TreeAt h s := by
  cases t with
  | leaf a =>
    obtain ⟨r, hr, hc, _⟩ := ht
    simp only [BTree.addr] at hreg
    rw [hr] at hreg
    simp only [Option.some.injEq] at hreg
    subst hreg
    refine ⟨?_, by simp [BTree.subtrees]⟩
    simp only [children_labels, hc, List.mapM_nil, BTree.subtrees, List.map_nil]
    rfl
  | node a l r =>
    obtain ⟨reg', hreg', hch, _, _, ⟨rl, hrl, _⟩, ⟨rr, hrr, _⟩, htl, htr⟩ := ht
    simp only [BTree.addr] at hreg
    rw [hreg'] at hreg
    simp only [Option.some.injEq] at hreg
    subst hreg
    refine ⟨?_, ?_⟩
    · simp only [children_labels, hch, List.mapM_cons, List.mapM_nil, BTree.subtrees,
        deref_eq_ok.mpr hrl, deref_eq_ok.mpr hrr, label_of_eq hrl, label_of_eq hrr,
        List.map_cons, List.map_nil]
      rfl
    · intro s hs
      simp only [BTree.subtrees, List.mem_cons, List.mem_singleton, List.not_mem_nil,
        or_false] at hs
      rcases hs with e | e
      · subst e; exact htl
      · subst e; exact htr

theorem arena_holds_subtrees {h : Heap} {regs : List (Option Nat)} {t : BTree}
    (ha : ArenaHolds h regs t) : ∀ s ∈ t.subtrees, ArenaHolds h regs s := by
  intro s hs d hd
  apply ha d
  cases t with
  | leaf a => simp [BTree.subtrees] at hs
  | node a l r =>
    simp only [BTree.subtrees, List.mem_cons, List.mem_singleton, List.not_mem_nil,
      or_false] at hs
    simp only [BTree.nodes, List.mem_cons, List.mem_append]
    rcases hs with e | e
    · subst e; exact Or.inr (Or.inl hd)
    · subst e; exact Or.inr (Or.inr hd)

theorem BTree.subtrees_size (t : BTree) : (t.subtrees.map BTree.size).sum + 1 = t.size := by
  cases t <;> simp [BTree.subtrees, BTree.size]

theorem prune_scan_bfs (h : Heap) (regs : List (Option Nat)) :
    ∀ (n : Nat) (pending : List BTree), (pending.map BTree.size).sum ≤ n →
    (∀ t ∈ pending, TreeAt h t ∧ ArenaHolds h regs t) →
    ∀ (done : List Nat) (fuel : Nat), n + 1 ≤ fuel →
    prune_scan h regs fuel (done ++ pending.map (fun t => label_of h t.addr)) done.length
      = .ok (done ++ (bfs_order n pending).map (label_of h)) := by
  intro n
  induction n with
  | zero =>
    intro pending hsz _ done fuel hf
    have hp : pending = [] := by
      cases pending with
      | nil => rfl
      | cons t ts =>
        simp only [List.map_cons, List.sum_cons] at hsz
        have := t.size_pos
        omega
    subst hp
    obtain ⟨fuel', rfl⟩ : ∃ f', fuel = f' + 1 := ⟨fuel - 1, by omega⟩
    simp [prune_scan, bfs_order]
  | succ n ih =>
    intro pending hsz hall done fuel hf
    obtain ⟨fuel', rfl⟩ : ∃ f', fuel = f' + 1 := ⟨fuel - 1, by omega⟩
    cases pending with
    | nil => simp [prune_scan, bfs_order]
    | cons t ts =>
      obtain ⟨ht, hat⟩ := hall t (List.mem_cons_self _ _)
      obtain ⟨reg, hreg, hslot⟩ := hat t.addr t.addr_mem_nodes
      obtain ⟨hcl, hsub⟩ := children_labels_tree t ht hreg
      unfold prune_scan
      have hlen : ¬ (done ++ List.map (fun t => label_of h t.addr) (t :: ts)).length
          = done.length := by simp
      have hget : (done ++ List.map (fun t => label_of h t.addr) (t :: ts))[done.length]?
          = some reg.label := by
        rw [List.getElem?_append_right (le_refl _)]
        simp [label_of_eq hreg]
      simp only [hlen, if_false, hget, slot_pointer_eq_ok.mpr hslot, deref_eq_ok.mpr hreg, bind,
        Except.bind, hcl]
      have hsz' : ((ts ++ t.subtrees).map BTree.size).sum ≤ n := by
        simp only [List.map_cons, List.sum_cons] at hsz
        simp only [List.map_append, List.sum_append]
        have := t.subtrees_size
        omega
      have hall' : ∀ s ∈ ts ++ t.subtrees, TreeAt h s ∧ ArenaHolds h regs s := by
        intro s hs
        rcases List.mem_append.mp hs with h1 | h1
        · exact hall s (List.mem_cons_of_mem _ h1)
        · exact ⟨hsub s h1, arena_holds_subtrees hat s h1⟩
      have := ih (ts ++ t.subtrees) hsz' hall' (done ++ [reg.label]) fuel' (by omega)
      simp only [List.length_append, List.length_singleton, List.map_append,
        List.append_assoc, List.singleton_append] at this
      simp only [bfs_order, List.map_cons, label_of_eq hreg, List.append_assoc]
      rw [← this]
      simp [label_of_eq hreg]

theorem prune_erase_spec (h0 : Heap) (regs0 : List (Option Nat)) (D : List Nat)
    (hD : ∀ d ∈ D, ∃ rd, h0[d]? = some (some rd) ∧ regs0[rd.label]? = some (some d)) :
    ∀ (ls : List Nat) (h : Heap) (regs : List (Option Nat)),
    (∀ l ∈ ls, ∃ d ∈ D, label_of h0 d = l) → EraseInv h0 regs0 D h regs →
    ∃ h' regs', prune_erase ls h regs = .ok (h', regs') ∧ EraseInv h0 regs0 D h' regs' := by
  have hinj : ∀ d ∈ D, ∀ d' ∈ D, label_of h0 d = label_of h0 d' → d = d' := by
    intro d hd d' hd' e
    obtain ⟨rd, hrd, hs⟩ := hD d hd
    obtain ⟨rd', hrd', hs'⟩ := hD d' hd'
    rw [label_of_eq hrd, label_of_eq hrd'] at e
    rw [e, hs'] at hs
    simp only [Option.some.injEq] at hs
    exact hs.symm
  intro ls
  induction ls with
  | nil => intro h regs _ hinv; exact ⟨h, regs, rfl, hinv⟩
  | cons l rest ih =>
    intro h regs hls hinv
    obtain ⟨d, hd, hdl⟩ := hls l (List.mem_cons_self _ _)
    obtain ⟨rd, hrd, hs0⟩ := hD d hd
    have hrest : ∀ l ∈ rest, ∃ d ∈ D, label_of h0 d = l :=
      fun x hx => hls x (List.mem_cons_of_mem _ hx)
    have hllt : l < regs.length := by
      rw [hinv.regs_length, ← hdl, label_of_eq hrd]
      exact getElem?_lt_of_some hs0
    have hdlt : d < h.length := by
      rw [hinv.heap_length]; exact getElem?_lt_of_some hrd
    rcases hinv.node d hd with ⟨hcell, hslot⟩ | ⟨hcell, hslot⟩
    · -- the region is alive: delete it and empty its slot
      rw [hdl] at hslot
      rw [hrd] at hcell
      have hinv' : EraseInv h0 regs0 D (h.set d none) (regs.set l none) := by
        refine ⟨by simp [hinv.heap_length], by simp [hinv.regs_length], ?_, ?_, ?_⟩
        · intro x hx
          have : d ≠ x := fun e => hx (e ▸ hd)
          rw [List.getElem?_set]
          simp only [this, if_false]
          exact hinv.other x hx
        · intro d' hd'
          by_cases e : d' = d
          · subst e
            right
            rw [hdl]
            simp [List.getElem?_set, hdlt, hllt]
          · have hl' : label_of h0 d' ≠ l := by
              intro e'
              exact e (hinj d' hd' d hd (e'.trans hdl.symm))
            rw [List.getElem?_set, List.getElem?_set]
            simp only [Ne.symm e, if_false, Ne.symm hl']
            exact hinv.node d' hd'
        · intro i hi
          have : l ≠ i := fun e => hi d hd (hdl.trans e)
          rw [List.getElem?_set]
          simp only [this, if_false]
          exact hinv.slot i hi
      obtain ⟨h', regs', he, hinv''⟩ := ih _ _ hrest hinv'
      refine ⟨h', regs', ?_, hinv''⟩
      unfold prune_erase
      simp only [hslot, hcell]
      exact he
    · -- the region was deleted before: only the slot is emptied again
      rw [hdl] at hslot
      have hinv' : EraseInv h0 regs0 D h (regs.set l none) := by
        refine ⟨hinv.heap_length, by simp [hinv.regs_length], hinv.other, ?_, ?_⟩
        · intro d' hd'
          by_cases e : d' = d
          · subst e
            right
            rw [hdl]
            exact ⟨hcell, by simp [List.getElem?_set, hllt]⟩
          · have hl' : label_of h0 d' ≠ l := by
              intro e'
              exact e (hinj d' hd' d hd (e'.trans hdl.symm))
            rw [List.getElem?_set]
            simp only [Ne.symm hl', if_false]
            exact hinv.node d' hd'
        · intro i hi
          have : l ≠ i := fun e => hi d hd (hdl.trans e)
          rw [List.getElem?_set]
          simp only [this, if_false]
          exact hinv.slot i hi
      obtain ⟨h', regs', he, hinv''⟩ := ih _ _ hrest hinv'
      refine ⟨h', regs', ?_, hinv''⟩
      unfold prune_erase
      simp only [hslot]
      exact he

theorem BTree.height_lt_size (t : BTree) : t.height < t.size := by
  induction t with
  | leaf a => simp [BTree.height, BTree.size]
  | node a l r ihl ihr => simp only [BTree.height, BTree.size]; omega

theorem BTree.size_eq_nodes_length (t : BTree) : t.size = t.nodes.length := by
  induction t with
  | leaf a => rfl
  | node a l r ihl ihr => simp only [BTree.size, BTree.nodes, List.length_cons,
      List.length_append, ihl, ihr]

theorem append_coords_nil {h : Heap} {a : Nat} : append_coords h a [] = h := by
  unfold append_coords
  split
  · rename_i r hr
    apply List.ext_getElem?
    intro j
    rw [getElem?_set_alive hr]
    by_cases hj : j = a
    · subst hj; simp [hr]
    · simp [hj]
  · rfl

theorem TreeAt.first_leaf_coords {h : Heap} (t : BTree) (ht : TreeAt h t) :
    coords_of h t.first_leaf ≠ [] := by
  obtain ⟨tl, htl⟩ := t.leaf_addrs_eq_cons
  exact ht.leaf_coords_ne_nil t _ (by rw [htl]; exact List.mem_cons_self _ _)

theorem arena_holds_congr {h h' : Heap} {regs : List (Option Nat)} {t : BTree}
    (hag : ∀ x ∈ t.nodes, h'[x]? = h[x]?) (ha : ArenaHolds h regs t) : ArenaHolds h' regs t := by
  intro d hd
  obtain ⟨rd, hrd, hs⟩ := ha d hd
  exact ⟨rd, (hag d hd).trans hrd, hs⟩

theorem label_of_congr {h h' : Heap} {x : Nat} (hx : h'[x]? = h[x]?) :
    label_of h' x = label_of h x := by
  unfold label_of
  rw [hx]

theorem BTree.coords_congr {h h' : Heap} (t : BTree) (hag : ∀ x ∈ t.nodes, h'[x]? = h[x]?) :
    t.coords h' = t.coords h := by
  unfold BTree.coords
  congr 1
  apply List.map_congr_left
  intro x hx
  unfold coords_of
  rw [hag x (t.leaf_addrs_subset_nodes x hx)]

/-- Coordinate reconstruction of `prune` on an internal region: the heap in
which the region received the leaf coordinates of its subtree, left to right
(none if it already had coordinates), and the leaves raster after the writes
of its label at these coordinates. -/
theorem prune_fill_exact {f : HierarchicalRegionPartition} {region : Nat}
    {reg : HierarchicalRegion} {l r : BTree} (hs : BinarySubtree f region reg l r)
    (fuel : Nat)
    (hfuel : l.size + r.size + (l.coords f.heap ++ r.coords f.heap).length + 2 ≤ fuel) :
    ∃ cs lp, (if reg.coordinates.length = 0 then do
          let it ← RegionIteratorBase.make f.heap fuel region false
          prune_fill region reg.label fuel fuel it f.heap f._leaves_partition
        else .ok (f.heap, f._leaves_partition)) = .ok (append_coords f.heap region cs, lp)
      ∧ reg.coordinates ++ cs ≠ []
      ∧ (reg.coordinates.length = 0 → cs = l.coords f.heap ++ r.coords f.heap
          ∧ write_all f._leaves_partition cs reg.label = .ok lp)
      ∧ (¬ reg.coordinates.length = 0 → cs = [] ∧ lp = f._leaves_partition) := by
  have hnd := hs.distinct
  simp only [List.nodup_cons, List.mem_append, not_or, List.nodup_append] at hnd
  obtain ⟨⟨hsl, hsr⟩, _, _, hdisj⟩ := hnd
  have hne : l.addr ≠ r.addr := fun e =>
    hdisj l.addr_mem_nodes (e ▸ r.addr_mem_nodes)
  by_cases hc : reg.coordinates.length = 0
  · simp only [hc, if_true]
    have hcl : reg.coordinates = [] := List.length_eq_zero.mp hc
    have hhl := l.height_lt_size
    have hhr := r.height_lt_size
    obtain ⟨fuel', rfl⟩ : ∃ f', fuel = f' + 1 := ⟨fuel - 1, by omega⟩
    -- the iterator starts on the first leaf of the left subtree
    have hmake : RegionIteratorBase.make f.heap (fuel' + 1) region false
        = .ok ⟨region, l.first_leaf, false, 0⟩ := by
      unfold RegionIteratorBase.make
      simp only [Bool.false_eq_true, if_false]
      unfold descend
      simp only [deref_eq_ok.mpr hs.alive, bind, Except.bind, hc, if_true, hs.children,
        List.getElem?_cons_zero]
      rw [descend_first_fuel l hs.left fuel' (by omega)]
    rw [hmake]
    simp only [bind, Except.bind]
    -- the chain of leaves, in every heap the loop goes through
    have hchain : ∀ cs, Chain (append_coords f.heap region cs) region (fuel' + 1)
        (l.leaf_addrs ++ r.leaf_addrs) := by
      intro cs
      have hagl : ∀ x ∈ l.nodes, (append_coords f.heap region cs)[x]? = f.heap[x]? :=
        fun x hx => append_coords_get_other cs (fun e => hsl (e ▸ hx))
      have hagr : ∀ x ∈ r.nodes, (append_coords f.heap region cs)[x]? = f.heap[x]? :=
        fun x hx => append_coords_get_other cs (fun e => hsr (e ▸ hx))
      obtain ⟨rl, hrl, hpl⟩ := hs.parent_left
      obtain ⟨rr, hrr, hpr⟩ := hs.parent_right
      exact chain_of_children l r (append_coords_get_self cs hs.alive) hs.children hne
        ⟨rl, (hagl _ l.addr_mem_nodes).trans hrl, hpl⟩
        ⟨rr, (hagr _ r.addr_mem_nodes).trans hrr, hpr⟩
        (tree_at_congr l hagl hs.left) (tree_at_congr r hagr hs.right) hsl hsr (by omega)
    obtain ⟨tl, htl⟩ := l.leaf_addrs_eq_cons
    have hleaves : l.leaf_addrs ++ r.leaf_addrs = l.first_leaf :: (tl ++ r.leaf_addrs) := by
      rw [htl]; rfl
    rw [hleaves] at hchain
    have hnes : ∀ x ∈ l.first_leaf :: (tl ++ r.leaf_addrs), x ≠ region := by
      intro x hx
      rw [← hleaves] at hx
      rcases List.mem_append.mp hx with h1 | h1
      · exact fun e => hsl (e ▸ l.leaf_addrs_subset_nodes x h1)
      · exact fun e => hsr (e ▸ r.leaf_addrs_subset_nodes x h1)
    have hcoords : coords_of f.heap l.first_leaf
          ++ ((tl ++ r.leaf_addrs).map (coords_of f.heap)).flatten
        = l.coords f.heap ++ r.coords f.heap := by
      simp [BTree.coords, htl]
    have hfirst : coords_of f.heap l.first_leaf ≠ [] := hs.left.first_leaf_coords l
    have hk : 1 ≤ (coords_of f.heap l.first_leaf).length := by
      cases hcf : coords_of f.heap l.first_leaf with
      | nil => exact absurd hcf hfirst
      | cons _ _ => simp
    have hlen : (coords_of f.heap l.first_leaf).length
          + (((tl ++ r.leaf_addrs).map (coords_of f.heap)).flatten).length
        = (l.coords f.heap ++ r.coords f.heap).length := by
      rw [← hcoords, List.length_append]
    have hloop := prune_fill_chain f.heap reg.label (fuel' + 1) region reg hs.alive
      (tl ++ r.leaf_addrs) l.first_leaf hchain hnes (coords_of f.heap l.first_leaf).length 0
      (by omega) hk (fuel' + 1) [] f._leaves_partition (by omega)
    rw [append_coords_nil] at hloop
    rw [hloop]
    simp only [List.drop_zero, List.nil_append, hcoords]
    obtain ⟨lp', hw, _, _⟩ := write_all_ok (l.coords f.heap ++ r.coords f.heap)
      f._leaves_partition reg.label hs.in_raster
    rw [hw]
    refine ⟨l.coords f.heap ++ r.coords f.heap, lp', rfl, ?_, fun _ => ⟨rfl, hw⟩,
      fun h => absurd trivial h⟩
    rw [hcl, List.nil_append, ← hcoords]
    intro e
    exact hfirst (List.append_eq_nil.mp e).1
  · simp only [hc, if_false]
    refine ⟨[], f._leaves_partition, by rw [append_coords_nil], ?_, fun h => h.elim,
      fun _ => ⟨rfl, rfl⟩⟩
    rw [List.append_nil]
    intro e
    exact hc (by rw [e]; rfl)

/-- Coordinate reconstruction of `prune` on an internal region: the heap in
which the region received the leaf coordinates of its subtree (none if it
already had coordinates), and the leaves raster after it. -/
theorem prune_fill_spec {f : HierarchicalRegionPartition} {region : Nat}
    {reg : HierarchicalRegion} {l r : BTree} (hs : BinarySubtree f region reg l r)
    (fuel : Nat)
    (hfuel : l.size + r.size + (l.coords f.heap ++ r.coords f.heap).length + 2 ≤ fuel) :
    ∃ cs lp, (if reg.coordinates.length = 0 then do
          let it ← RegionIteratorBase.make f.heap fuel region false
          prune_fill region reg.label fuel fuel it f.heap f._leaves_partition
        else .ok (f.heap, f._leaves_partition)) = .ok (append_coords f.heap region cs, lp)
      ∧ reg.coordinates ++ cs ≠ [] := by
  obtain ⟨cs, lp, h1, h2, -⟩ := prune_fill_exact hs fuel hfuel
  exact ⟨cs, lp, h1, h2⟩

theorem BTree.nodes_eq_subtrees (t : BTree) :
    t.nodes = t.addr :: (t.subtrees.map BTree.nodes).flatten := by
  cases t <;> simp [BTree.nodes, BTree.addr, BTree.subtrees]

/-- The breadth-first order lists every node of the queued trees. -/
theorem bfs_order_mem : ∀ (n : Nat) (ts : List BTree), (ts.map BTree.size).sum ≤ n →
    ∀ t ∈ ts, ∀ x ∈ t.nodes, x ∈ bfs_order n ts := by
  intro n
  induction n with
  | zero =>
    intro ts hsz t ht
    cases ts with
    | nil => simp at ht
    | cons t0 rest =>
      simp only [List.map_cons, List.sum_cons] at hsz
      have := t0.size_pos
      omega
  | succ n ih =>
    intro ts hsz t ht x hx
    cases ts with
    | nil => simp at ht
    | cons t0 rest =>
      simp only [List.map_cons, List.sum_cons] at hsz
      have hsub := t0.subtrees_size
      have hsz' : ((rest ++ t0.subtrees).map BTree.size).sum ≤ n := by
        rw [List.map_append, List.sum_append]
        omega
      simp only [bfs_order, List.mem_cons]
      rcases List.mem_cons.mp ht with e | hrest
      · subst e
        rw [t.nodes_eq_subtrees] at hx
        rcases List.mem_cons.mp hx with e | hx'
        · exact Or.inl e
        · right
          rw [List.mem_flatten] at hx'
          obtain ⟨ns, hns, hxn⟩ := hx'
          rw [List.mem_map] at hns
          obtain ⟨s, hs, rfl⟩ := hns
          exact ih _ hsz' s (List.mem_append_right _ hs) x hxn
      · right
        exact ih _ hsz' t (List.mem_append_left _ hrest) x hx

/-- The erase loop returns, keeps its invariant, and leaves deleted every node
whose label is in the queue, and every node that was deleted before. -/
theorem prune_erase_all (h0 : Heap) (regs0 : List (Option Nat)) (D : List Nat)
    (hD : ∀ d ∈ D, ∃ rd, h0[d]? = some (some rd) ∧ regs0[rd.label]? = some (some d)) :
    ∀ (ls : List Nat) (h : Heap) (regs : List (Option Nat)),
    (∀ l ∈ ls, ∃ d ∈ D, label_of h0 d = l) → EraseInv h0 regs0 D h regs →
    ∃ h' regs', prune_erase ls h regs = .ok (h', regs') ∧ EraseInv h0 regs0 D h' regs'
      ∧ ∀ d ∈ D, ((h[d]? = some none ∧ regs[label_of h0 d]? = some none)
            ∨ label_of h0 d ∈ ls) →
          (h'[d]? = some none ∧ regs'[label_of h0 d]? = some none) := by
  have hinj : ∀ d ∈ D, ∀ d' ∈ D, label_of h0 d = label_of h0 d' → d = d' := by
    intro d hd d' hd' e
    obtain ⟨rd, hrd, hs⟩ := hD d hd
    obtain ⟨rd', hrd', hs'⟩ := hD d' hd'
    rw [label_of_eq hrd, label_of_eq hrd'] at e
    rw [e, hs'] at hs
    simp only [Option.some.injEq] at hs
    exact hs.symm
  intro ls
  induction ls with
  | nil =>
    intro h regs _ hinv
    refine ⟨h, regs, rfl, hinv, fun d hd hc => ?_⟩
    rcases hc with hc | hc
    · exact hc
    · simp at hc
  | cons l rest ih =>
    intro h regs hls hinv
    obtain ⟨d, hd, hdl⟩ := hls l (List.mem_cons_self _ _)
    obtain ⟨rd, hrd, hs0⟩ := hD d hd
    have hrest : ∀ l ∈ rest, ∃ d ∈ D, label_of h0 d = l :=
      fun x hx => hls x (List.mem_cons_of_mem _ hx)
    have hllt : l < regs.length := by
      rw [hinv.regs_length, ← hdl, label_of_eq hrd]
      exact getElem?_lt_of_some hs0
    have hdlt : d < h.length := by
      rw [hinv.heap_length]; exact getElem?_lt_of_some hrd
    obtain ⟨h1, regs1, he1, hinv1⟩ := prune_erase_spec h0 regs0 D hD [l] h regs
      (fun x hx => by
        simp only [List.mem_singleton] at hx
        subst hx
        exact ⟨d, hd, hdl⟩) hinv
    -- the state after the first label of the queue
    have hstep : prune_erase (l :: rest) h regs = prune_erase rest h1 regs1
        ∧ (h1[d]? = some none ∧ regs1[l]? = some none)
        ∧ (∀ d' : Nat, h[d']? = some none → h1[d']? = some none)
        ∧ (∀ i : Nat, regs[i]? = some none → regs1[i]? = some none) := by
      rcases hinv.node d hd with ⟨hcell, hslot⟩ | ⟨hcell, hslot⟩
      · rw [hdl] at hslot
        rw [hrd] at hcell
        have e : prune_erase [l] h regs = .ok (h.set d none, regs.set l none) := by
          simp only [prune_erase, hslot, hcell]
        rw [he1] at e
        simp only [Except.ok.injEq, Prod.mk.injEq] at e
        obtain ⟨rfl, rfl⟩ := e
        refine ⟨by rw [prune_erase]; simp only [hslot, hcell],
          ⟨by simp [List.getElem?_set, hdlt], by simp [List.getElem?_set, hllt]⟩, ?_, ?_⟩
        · intro d' hd'
          rw [List.getElem?_set]
          by_cases e : d = d'
          · subst e
            simp [hdlt]
          · simp only [e, if_false]
            exact hd'
        · intro i hi
          rw [List.getElem?_set]
          by_cases e : l = i
          · subst e
            simp [hllt]
          · simp only [e, if_false]
            exact hi
      · rw [hdl] at hslot
        have e : prune_erase [l] h regs = .ok (h, regs.set l none) := by
          simp only [prune_erase, hslot]
        rw [he1] at e
        simp only [Except.ok.injEq, Prod.mk.injEq] at e
        obtain ⟨rfl, rfl⟩ := e
        refine ⟨by rw [prune_erase]; simp only [hslot],
          ⟨hcell, by simp [List.getElem?_set, hllt]⟩, fun d' hd' => hd', ?_⟩
        intro i hi
        rw [List.getElem?_set]
        by_cases e : l = i
        · subst e
          simp [hllt]
        · simp only [e, if_false]
          exact hi
    obtain ⟨hcons, hdone, hkeep1, hkeep2⟩ := hstep
    obtain ⟨h', regs', he, hinv', hall⟩ := ih h1 regs1 hrest hinv1
    refine ⟨h', regs', by rw [hcons]; exact he, hinv', fun d' hd' hc => ?_⟩
    apply hall d' hd'
    rcases hc with ⟨hc1, hc2⟩ | hc
    · exact Or.inl ⟨hkeep1 d' hc1, hkeep2 _ hc2⟩
    · rcases List.mem_cons.mp hc with e | hc'
      · have : d' = d := hinj d' hd' d hd (e.trans hdl.symm)
        subst this
        left
        rw [e]
        exact hdone
      · exact Or.inr hc'

/-- The whole effect of `prune` on an internal region whose subtree is a finite
binary tree of the forest: the call returns; the region keeps its label,
parent and neighbors, has no children, and has received the leaf coordinates
of its subtree, left to right, if it had none; the leaves raster received the
label of the region at these coordinates; every node below the region is
deleted and its arena slot emptied; nothing else changes. -/
theorem prune_effect (fuel : Nat) (f : HierarchicalRegionPartition) (region : Nat)
    (reg : HierarchicalRegion) (l r : BTree) (hs : BinarySubtree f region reg l r)
    (hfuel : l.size + r.size + (l.coords f.heap ++ r.coords f.heap).length + 2 ≤ fuel) :
    ∃ f' cs, prune fuel f region = .ok f'
      ∧ f'.heap[region]?
          = some (some { reg with coordinates := reg.coordinates ++ cs, children := [] })
      ∧ reg.coordinates ++ cs ≠ []
      ∧ (reg.coordinates.length = 0 → cs = l.coords f.heap ++ r.coords f.heap
          ∧ write_all f._leaves_partition cs reg.label = .ok f'._leaves_partition)
      ∧ (¬ reg.coordinates.length = 0 → cs = [] ∧ f'._leaves_partition = f._leaves_partition)
      ∧ (∀ d ∈ l.nodes ++ r.nodes,
          f'.heap[d]? = some none ∧ f'._regions[label_of f.heap d]? = some none)
      ∧ (∀ x, x ≠ region → x ∉ l.nodes ++ r.nodes → f'.heap[x]? = f.heap[x]?)
      ∧ (∀ i, (∀ d ∈ l.nodes ++ r.nodes, label_of f.heap d ≠ i) →
          f'._regions[i]? = f._regions[i]?)
      ∧ f'._regions.length = f._regions.length ∧ f'.heap.length = f.heap.length
      ∧ f' = { f with heap := f'.heap, _regions := f'._regions,
                      _leaves_partition := f'._leaves_partition } := by
  have hnd := hs.distinct
  simp only [List.nodup_cons, List.mem_append, not_or, List.nodup_append] at hnd
  obtain ⟨⟨hsl, hsr⟩, _, _, _⟩ := hnd
  obtain ⟨cs, lp, hfill, hcs, hexact, hkeep⟩ := prune_fill_exact hs fuel hfuel
  set h1 := append_coords f.heap region cs with hh1
  have h1self : h1[region]? = some (some { reg with coordinates := reg.coordinates ++ cs }) :=
    append_coords_get_self cs hs.alive
  have h1other : ∀ x, x ≠ region → h1[x]? = f.heap[x]? :=
    fun x hx => append_coords_get_other cs hx
  set h2 := h1.set region
    (some { reg with coordinates := reg.coordinates ++ cs, children := [] }) with hh2
  have h2self : h2[region]?
      = some (some { reg with coordinates := reg.coordinates ++ cs, children := [] }) := by
    rw [hh2, getElem?_set_alive h1self]; simp
  have h2other : ∀ x, x ≠ region → h2[x]? = f.heap[x]? := by
    intro x hx
    rw [hh2, getElem?_set_alive h1self]
    simp only [hx, if_false]
    exact h1other x hx
  have hagl : ∀ x ∈ l.nodes, h2[x]? = f.heap[x]? :=
    fun x hx => h2other x (fun e => hsl (e ▸ hx))
  have hagr : ∀ x ∈ r.nodes, h2[x]? = f.heap[x]? :=
    fun x hx => h2other x (fun e => hsr (e ▸ hx))
  have hla : l.addr ≠ region := fun e => hsl (e ▸ l.addr_mem_nodes)
  have hra : r.addr ≠ region := fun e => hsr (e ▸ r.addr_mem_nodes)
  obtain ⟨rl, hrl, _⟩ := hs.parent_left
  obtain ⟨rr, hrr, _⟩ := hs.parent_right
  -- the queue of the breadth-first loop starts with the labels of the two children
  have hlabels : children_labels h1 { reg with coordinates := reg.coordinates ++ cs }
      = .ok ([] ++ [l, r].map (fun t => label_of h2 t.addr)) := by
    simp only [children_labels, hs.children, List.mapM_cons, List.mapM_nil,
      deref_eq_ok.mpr ((h1other _ hla).trans hrl), deref_eq_ok.mpr ((h1other _ hra).trans hrr),
      List.map_cons, List.map_nil, List.nil_append,
      label_of_eq ((h2other _ hla).trans hrl), label_of_eq ((h2other _ hra).trans hrr)]
    rfl
  have hscan := prune_scan_bfs h2 f._regions (l.size + r.size) [l, r] (by simp)
    (by
      intro t ht
      simp only [List.mem_cons, List.mem_singleton, List.not_mem_nil, or_false] at ht
      rcases ht with e | e
      · subst e; exact ⟨tree_at_congr _ hagl hs.left, arena_holds_congr hagl hs.arena_left⟩
      · subst e; exact ⟨tree_at_congr _ hagr hs.right, arena_holds_congr hagr hs.arena_right⟩)
    [] fuel (by omega)
  -- the erase loop deletes nodes of the two subtrees only
  have hD : ∀ d ∈ l.nodes ++ r.nodes,
      ∃ rd, h2[d]? = some (some rd) ∧ f._regions[rd.label]? = some (some d) := by
    intro d hd
    rcases List.mem_append.mp hd with h' | h'
    · exact arena_holds_congr hagl hs.arena_left d h'
    · exact arena_holds_congr hagr hs.arena_right d h'
  have hinv0 : EraseInv h2 f._regions (l.nodes ++ r.nodes) h2 f._regions := by
    refine ⟨rfl, rfl, fun _ _ => rfl, ?_, fun _ _ => rfl⟩
    intro d hd
    obtain ⟨rd, hrd, hsl'⟩ := hD d hd
    exact Or.inl ⟨rfl, by rw [label_of_eq hrd]; exact hsl'⟩
  obtain ⟨h3, regs, hers, hinv, hdel⟩ := prune_erase_all h2 f._regions (l.nodes ++ r.nodes) hD
    ([] ++ (bfs_order (l.size + r.size) [l, r]).map (label_of h2)) h2 f._regions
    (by
      intro x hx
      simp only [List.nil_append, List.mem_map] at hx
      obtain ⟨d, hd, hdx⟩ := hx
      obtain ⟨t, ht, hdt⟩ := bfs_order_subset _ _ _ hd
      refine ⟨d, ?_, hdx⟩
      simp only [List.mem_cons, List.mem_singleton, List.not_mem_nil, or_false] at ht
      rcases ht with e | e
      · subst e; exact List.mem_append_left _ hdt
      · subst e; exact List.mem_append_right _ hdt)
    hinv0
  have hregion : region ∉ l.nodes ++ r.nodes := by
    simp only [List.mem_append, not_or]; exact ⟨hsl, hsr⟩
  have hlab : ∀ d ∈ l.nodes ++ r.nodes, label_of h2 d = label_of f.heap d := by
    intro d hd
    apply label_of_congr
    exact h2other d (fun e => hregion (e ▸ hd))
  refine ⟨{ f with heap := h3, _regions := regs, _leaves_partition := lp }, cs, ?_, ?_, hcs,
    hexact, hkeep, ?_, ?_, ?_, hinv.regs_length, ?_, rfl⟩
  rotate_left
  · rw [hinv.other region hregion]
    exact h2self
  · intro d hd
    have hmem : label_of h2 d ∈ [] ++ (bfs_order (l.size + r.size) [l, r]).map (label_of h2) := by
      rw [List.nil_append]
      apply List.mem_map_of_mem
      rcases List.mem_append.mp hd with h' | h'
      · exact bfs_order_mem (l.size + r.size) [l, r] (by simp) l (List.mem_cons_self _ _) d h'
      · exact bfs_order_mem (l.size + r.size) [l, r] (by simp) r
          (List.mem_cons_of_mem _ (List.mem_cons_self _ _)) d h'
    have := hdel d hd (Or.inr hmem)
    rw [hlab d hd] at this
    exact this
  · intro x hx hxn
    show h3[x]? = f.heap[x]?
    rw [hinv.other x hxn]
    exact h2other x hx
  · intro i hi
    show regs[i]? = f._regions[i]?
    exact hinv.slot i (fun d hd => by rw [hlab d hd]; exact hi d hd)
  · show h3.length = f.heap.length
    rw [hinv.heap_length, hh2, List.length_set, hh1]
    unfold append_coords
    split
    · rw [List.length_set]
    · rfl
  · unfold prune
    have hpos : reg.children.length > 0 := by rw [hs.children]; simp
    simp only [List.length_nil] at hscan
    simp only [bind, Except.bind] at hfill
    simp only [deref_eq_ok.mpr hs.alive, bind, Except.bind, hpos, if_true]
    by_cases hc : reg.coordinates.length = 0
    · simp only [hc, if_true] at hfill ⊢
      cases hmk : RegionIteratorBase.make f.heap fuel region false with
      | error e => rw [hmk] at hfill; cases hfill
      | ok it =>
        rw [hmk] at hfill
        simp only at hfill ⊢
        rw [hfill]
        simp only [deref_eq_ok.mpr h1self, hlabels, modify_eq_ok _ h1self]
        rw [← hh2, hscan]
        simp only
        rw [hers]
    · simp only [hc, if_false, Except.ok.injEq, Prod.mk.injEq] at hfill ⊢
      obtain ⟨e1, e2⟩ := hfill
      have h1self' : f.heap[region]?
          = some (some { reg with coordinates := reg.coordinates ++ cs }) := by
        rw [e1]; exact h1self
      have hreg' : reg = { reg with coordinates := reg.coordinates ++ cs } := by
        have := hs.alive
        rw [h1self'] at this
        simp only [Option.some.injEq] at this
        exact this.symm
      rw [hreg', e1, e2]
      simp only [hlabels, modify_eq_ok _ h1self]
      rw [← hh2, hscan]
      simp only
      rw [hers]

/-- C9. For every internal region `r` whose subtree is a finite binary tree of
the forest with non-empty leaf coordinate lists, `prune(r)` returns (given
enough fuel for the loops of the embedding), and afterwards `r` has zero
children and a non-empty coordinate list, and the label and the parent it had
before. -/
theorem prune_makes_leaf (fuel : Nat) (f : HierarchicalRegionPartition) (region : Nat)
    (reg : HierarchicalRegion) (l r : BTree) (hs : BinarySubtree f region reg l r)
    (hfuel : l.size + r.size + (l.coords f.heap ++ r.coords f.heap).length + 2 ≤ fuel) :
    ∃ f' reg', prune fuel f region = .ok f' ∧ f'.heap[region]? = some (some reg')
      ∧ reg'.children = [] ∧ reg'.coordinates ≠ [] ∧ reg'.label = reg.label
      ∧ reg'.parent = reg.parent := by
  obtain ⟨f', cs, hp, hreg, hcs, -⟩ := prune_effect fuel f region reg l r hs hfuel
  exact ⟨f', _, hp, hreg, rfl, hcs, rfl, rfl⟩

/-- Witness of C9: pruning the root of the three-leaf tree built on the 3x1
raster. -/
theorem prune_makes_leaf_witness :
    BinarySubtree scenario_tree 4 ⟨4, [], none, [3, 2], [1]⟩
        (.node 3 (.leaf 0) (.leaf 1)) (.leaf 2)
    ∧ (BTree.node 3 (.leaf 0) (.leaf 1)).size + (BTree.leaf 2).size
        + ((BTree.node 3 (.leaf 0) (.leaf 1)).coords scenario_tree.heap
            ++ (BTree.leaf 2).coords scenario_tree.heap).length + 2 ≤ 20
    ∧ ∃ f' reg', prune 20 scenario_tree 4 = .ok f' ∧ f'.heap[4]? = some (some reg')
      ∧ reg'.children = [] ∧ reg'.coordinates ≠ []
      ∧ reg'.label = (⟨4, [], none, [3, 2], [1]⟩ : HierarchicalRegion).label
      ∧ reg'.parent = (⟨4, [], none, [3, 2], [1]⟩ : HierarchicalRegion).parent :=
  have hsub : BinarySubtree scenario_tree 4 ⟨4, [], none, [3, 2], [1]⟩
      (.node 3 (.leaf 0) (.leaf 1)) (.leaf 2) :=
    { alive := rfl
      children := rfl
      distinct := by decide
      parent_left := ⟨⟨3, [], some 4, [0, 1], []⟩, rfl, rfl⟩
      parent_right := ⟨⟨2, [2], some 4, [], []⟩, rfl, rfl⟩
      left := ⟨⟨3, [], some 4, [0, 1], []⟩, rfl, rfl, rfl, by decide,
        ⟨⟨0, [0], some 3, [], []⟩, rfl, rfl⟩, ⟨⟨1, [1], some 3, [], []⟩, rfl, rfl⟩,
        ⟨⟨0, [0], some 3, [], []⟩, rfl, rfl, by decide⟩,
        ⟨⟨1, [1], some 3, [], []⟩, rfl, rfl, by decide⟩⟩
      right := ⟨⟨2, [2], some 4, [], []⟩, rfl, rfl, by decide⟩
      arena_left := by
        intro d hd
        simp only [BTree.nodes, List.mem_cons, List.mem_append, List.mem_singleton,
          List.not_mem_nil, or_false] at hd
        rcases hd with e | e | e
        · subst e; exact ⟨⟨3, [], some 4, [0, 1], []⟩, rfl, rfl⟩
        · subst e; exact ⟨⟨0, [0], some 3, [], []⟩, rfl, rfl⟩
        · subst e; exact ⟨⟨1, [1], some 3, [], []⟩, rfl, rfl⟩
      arena_right := by
        intro d hd
        simp only [BTree.nodes, List.mem_singleton] at hd
        subst hd
        exact ⟨⟨2, [2], some 4, [], []⟩, rfl, rfl⟩
      in_raster := by decide }
  ⟨hsub, by decide,
    prune_makes_leaf 20 scenario_tree 4 ⟨4, [], none, [3, 2], [1]⟩
      (.node 3 (.leaf 0) (.leaf 1)) (.leaf 2) hsub (by decide)⟩

theorem relabel_first_seen (data : List Nat) : ∀ (corr : List (Nat × Nat)) (n : Nat),
    (∀ k v, corr.lookup k = some v → v < n) →
    FirstSeen n (relabel corr n data).2.2 := by
  induction data with
  | nil => intro corr n _; simp [relabel, FirstSeen]
  | cons label rest ih =>
    intro corr n hcorr
    unfold relabel
    split
    · rename_i hl
      have hcorr' : ∀ k v, ((label, n) :: corr).lookup k = some v → v < n + 1 := by
        intro k v hkv
        rw [List.lookup_cons] at hkv
        split at hkv
        · simp at hkv; omega
        · exact Nat.lt_succ_of_lt (hcorr k v hkv)
      exact Or.inr ⟨rfl, ih _ _ hcorr'⟩
    · rename_i v hl
      exact Or.inl ⟨hcorr _ _ hl, ih _ _ hcorr⟩

theorem relabel_of_first_seen (data : List Nat) : ∀ (corr : List (Nat × Nat)) (n : Nat),
    (∀ l, corr.lookup l = if l < n then some l else none) →
    FirstSeen n data → (relabel corr n data).2.2 = data := by
  induction data with
  | nil => intro corr n _ _; rfl
  | cons x rest ih =>
    intro corr n hcorr hfs
    unfold relabel
    rcases hfs with ⟨hx, hfs⟩ | ⟨hx, hfs⟩
    · have hl : corr.lookup x = some x := by rw [hcorr x]; simp [hx]
      simp only [hl]
      rw [ih corr n hcorr hfs]
    · subst hx
      have hl : corr.lookup x = none := by rw [hcorr x]; simp
      simp only [hl]
      have hcorr' : ∀ l, ((x, x) :: corr).lookup l = if l < x + 1 then some l else none := by
        intro l
        rw [List.lookup_cons]
        by_cases hlx : l = x
        · subst hlx; simp
        · have hb : (l == x) = false := by simpa using hlx
          rw [hb, hcorr l]
          by_cases h1 : l < x
          · have h2 : l < x + 1 := by omega
            simp [h1, h2]
          · have h2 : ¬ l < x + 1 := by omega
            simp [h1, h2]
      rw [ih _ _ hcorr' hfs]

theorem relabel_surj (data : List Nat) : ∀ (corr : List (Nat × Nat)) (n l : Nat),
    n ≤ l → l < (relabel corr n data).2.1 → l ∈ (relabel corr n data).2.2 := by
  induction data with
  | nil => intro corr n l h1 h2; simp only [relabel] at h2; omega
  | cons x rest ih =>
    intro corr n l h1 h2
    unfold relabel at h2 ⊢
    split
    · rename_i hl
      simp only [hl] at h2
      by_cases hln : l = n
      · subst hln; exact List.mem_cons_self _ _
      · exact List.mem_cons_of_mem _ (ih _ _ l (by omega) h2)
    · rename_i v hl
      simp only [hl] at h2
      exact List.mem_cons_of_mem _ (ih _ _ l h1 h2)

/-- The relabelled raster is a fixed point of the relabeling: same labels,
same number of labels. -/
theorem relabel_idem (data : List Nat) :
    (relabel [] 0 (relabel [] 0 data).2.2).2.2 = (relabel [] 0 data).2.2
    ∧ (relabel [] 0 (relabel [] 0 data).2.2).2.1 = (relabel [] 0 data).2.1 := by
  constructor
  · apply relabel_of_first_seen
    · intro l; simp
    · exact relabel_first_seen data [] 0 (by intro k v h; simp at h)
  · rw [relabel_fresh_count, ← List.card_toFinset]
    have hset : (relabel [] 0 data).2.2.toFinset = Finset.range (relabel [] 0 data).2.1 := by
      ext x
      simp only [List.mem_toFinset, Finset.mem_range]
      constructor
      · exact relabel_values data [] 0 (by intro k v h; simp at h) x
      · exact relabel_surj data [] 0 x (Nat.zero_le _)
    rw [hset, Finset.card_range]

/-- Shape of an arena whose first `n` slots point to the addresses `0..n-1`
and whose other slots are empty. -/
theorem arena_shape (regs : List (Option Nat)) (n : Nat)
    (hid : ∀ (l a : Nat), regs[l]? = some (some a) → a = l ∧ l < n)
    (hget : ∀ l, l < n → regs[l]? = some (some l)) :
    regs = (List.range n).map (fun i => some i) ++ List.replicate (regs.length - n) none := by
  have hn : n ≤ regs.length := by
    by_contra hc
    have h1 := hget (n - 1) (by omega)
    have h2 : n - 1 < regs.length := by
      by_contra hc2
      rw [List.getElem?_eq_none (by omega)] at h1
      cases h1
    omega
  apply List.ext_getElem?
  intro i
  by_cases hi : i < n
  · rw [hget i hi, List.getElem?_append_left (by simpa using hi)]
    simp [hi]
  · rw [List.getElem?_append_right (by simpa using hi)]
    simp only [List.length_map, List.length_range, List.getElem?_replicate]
    by_cases hi2 : i < regs.length
    · have h3 : i - n < regs.length - n := by omega
      simp only [h3, if_true]
      cases hr : regs[i]? with
      | none => rw [List.getElem?_eq_none_iff] at hr; omega
      | some s =>
        cases s with
        | none => rfl
        | some a => exact absurd (hid i a hr).2 hi
    · have h3 : ¬ i - n < regs.length - n := by omega
      simp only [h3, if_false]
      exact List.getElem?_eq_none (by omega)

theorem coords_of_modify_keep {h h' : Heap} {a : Nat} {g : HierarchicalRegion → HierarchicalRegion}
    (hg : ∀ r, (g r).coordinates = r.coordinates) (hm : modify h a g = .ok h') (x : Nat) :
    coords_of h' x = coords_of h x := by
  obtain ⟨r, hr, rfl⟩ := modify_ok_inv hm
  unfold coords_of
  rw [getElem?_set_alive hr]
  by_cases hx : x = a
  · subst hx; simp [hr, hg]
  · simp [hx]

theorem add_coordinates_coords (regs : List (Option Nat))
    (hid : ∀ (l a : Nat), regs[l]? = some (some a) → a = l) :
    ∀ (data : List Nat) (pos : Nat) (h h' : Heap),
    add_coordinates regs pos data h = .ok h' →
    ∀ a c, c ∈ coords_of h' a ↔ c ∈ coords_of h a ∨ ∃ k, data[k]? = some a ∧ c = pos + k := by
  intro data
  induction data with
  | nil =>
    intro pos h h' he a c
    simp only [add_coordinates] at he
    cases he
    simp
  | cons label rest ih =>
    intro pos h h' he a c
    unfold add_coordinates at he
    cases hs : slot_pointer regs label with
    | error e => rw [hs] at he; cases he
    | ok b =>
      rw [hs] at he
      simp only [bind, Except.bind] at he
      split at he
      · cases he
      · rename_i h1 hm
        have hb : b = label := hid _ _ (slot_pointer_eq_ok.mp hs)
        subst hb
        rw [ih _ _ _ he a c]
        obtain ⟨r, hr, rfl⟩ := modify_ok_inv hm
        have hco : coords_of (h.set b (some { r with coordinates := r.coordinates ++ [pos] })) a
            = if a = b then coords_of h b ++ [pos] else coords_of h a := by
          unfold coords_of
          rw [getElem?_set_alive hr]
          by_cases hx : a = b
          · subst hx; simp [hr]
          · simp [hx]
        rw [hco]
        constructor
        · rintro (hc | ⟨k, hk, hck⟩)
          · by_cases hx : a = b
            · subst hx
              simp only [if_true, List.mem_append, List.mem_singleton] at hc
              rcases hc with hc | hc
              · exact Or.inl hc
              · exact Or.inr ⟨0, by simp, by omega⟩
            · simp only [hx, if_false] at hc
              exact Or.inl hc
          · exact Or.inr ⟨k + 1, by simpa using hk, by omega⟩
        · rintro (hc | ⟨k, hk, hck⟩)
          · by_cases hx : a = b
            · subst hx; simp [hc]
            · simp [hx, hc]
          · cases k with
            | zero =>
              simp only [List.getElem?_cons_zero, Option.some.injEq] at hk
              subst hk
              simp [hck]
            | succ k =>
              simp only [List.getElem?_cons_succ] at hk
              exact Or.inr ⟨k, hk, by omega⟩

theorem add_coordinates_coords_length (regs : List (Option Nat)) :
    ∀ (data : List Nat) (pos : Nat) (h h' : Heap),
    add_coordinates regs pos data h = .ok h' →
    ∀ a, (coords_of h' a).length ≤ (coords_of h a).length + data.length := by
  intro data
  induction data with
  | nil =>
    intro pos h h' he a
    simp only [add_coordinates] at he
    cases he
    simp
  | cons label rest ih =>
    intro pos h h' he a
    unfold add_coordinates at he
    cases hs : slot_pointer regs label with
    | error e => rw [hs] at he; cases he
    | ok b =>
      rw [hs] at he
      simp only [bind, Except.bind] at he
      split at he
      · cases he
      · rename_i h1 hm
        have h2 := ih _ _ _ he a
        obtain ⟨r, hr, rfl⟩ := modify_ok_inv hm
        have hco : (coords_of (h.set b (some { r with coordinates := r.coordinates ++ [pos] }))
            a).length ≤ (coords_of h a).length + 1 := by
          unfold coords_of
          rw [getElem?_set_alive hr]
          by_cases hx : a = b
          · subst hx; simp [hr]
          · simp [hx]
        simp only [List.length_cons]
        omega

theorem add_pixel_neighbors_coords (regs : List (Option Nat)) (data : List Nat) (label : Nat) :
    ∀ (qs : List Nat) (h h' : Heap),
    add_pixel_neighbors regs data label qs h = .ok h' → ∀ x, coords_of h' x = coords_of h x := by
  intro qs
  induction qs with
  | nil =>
    intro h h' he x
    simp only [add_pixel_neighbors] at he
    cases he; rfl
  | cons q rest ih =>
    intro h h' he x
    unfold add_pixel_neighbors at he
    cases hq : data[q]? with
    | none => rw [hq] at he; cases he
    | some la =>
      rw [hq] at he
      simp only at he
      by_cases hl : label = la
      · simp only [hl, if_true] at he
        exact ih _ _ (by rw [hl]; exact he) x
      · simp only [hl, if_false] at he
        cases hs1 : slot_pointer regs label with
        | error e => rw [hs1] at he; cases he
        | ok a =>
          rw [hs1] at he
          simp only [bind, Except.bind] at he
          cases hs2 : slot_pointer regs la with
          | error e => rw [hs2] at he; cases he
          | ok b =>
            rw [hs2] at he
            simp only at he
            split at he
            · cases he
            · rename_i h1 hm
              rw [ih _ _ he x]
              exact coords_of_modify_keep
                (g := fun r => { r with neighbors := neighbors_insert b r.neighbors })
                (fun _ => rfl) hm x

theorem add_neighbors_coords (adj : Nat → List Nat) (regs : List (Option Nat))
    (data : List Nat) :
    ∀ (rest : List Nat) (pos : Nat) (h h' : Heap),
    add_neighbors adj regs data pos rest h = .ok h' → ∀ x, coords_of h' x = coords_of h x := by
  intro rest
  induction rest with
  | nil =>
    intro pos h h' he x
    simp only [add_neighbors] at he
    cases he; rfl
  | cons label tl ih =>
    intro pos h h' he x
    unfold add_neighbors at he
    simp only [bind, Except.bind] at he
    split at he
    · cases he
    · rename_i h1 hp
      rw [ih _ _ _ he x]
      exact add_pixel_neighbors_coords regs data label _ _ _ hp x

/-- Coordinates after `init` on a freshly constructed forest: pixel `c` is in
the coordinate list of region `a` exactly when the relabelled raster holds `a`
at `c`; the roots updating flag is untouched. -/
theorem init_fresh_coords (adj : Nat → List Nat) (u : Bool) (m : Nat) (p : Partition)
    (f : HierarchicalRegionPartition)
    (hi : init adj (HierarchicalRegionPartition.fresh u m) p = .ok f) :
    (∀ a c, c ∈ coords_of f.heap a ↔ (relabel [] 0 p.data).2.2[c]? = some a)
      ∧ f._update_partition = u := by
  unfold init at hi
  simp only [HierarchicalRegionPartition.fresh, _clear_regions, List.foldl, bind, Except.bind,
    pure, Except.pure] at hi
  set L := (relabel [] 0 p.data).2.1 with hL
  set D := (relabel [] 0 p.data).2.2 with hD
  split at hi
  · cases hi
  · rename_i v hcl
    obtain ⟨h1, regs⟩ := v
    simp only at hi
    split at hi
    · cases hi
    · rename_i h2 hac
      split at hi
      · cases hi
      · rename_i h3 han
        simp only [Except.ok.injEq] at hi
        subst hi
        have hb : 0 + L ≤ (List.replicate
            ((2 * ((L + (2 ^ 64 - 1)) % 2 ^ 64) + 1) % 2 ^ 64) (none : Option Nat)).length := by
          rcases create_leaves_ok_bound _ _ _ _ _ hcl with hb | hb
          · exact hb
          · rw [hb]; exact Nat.zero_le _
        obtain ⟨regs', hcl', hlen, hget⟩ := create_leaves_spec L 0 [] _ hb
        rw [hcl] at hcl'
        simp only [Except.ok.injEq, Prod.mk.injEq] at hcl'
        obtain ⟨hh1, hregs⟩ := hcl'
        subst hregs
        have hid : ∀ (l a : Nat), regs[l]? = some (some a) → a = l := by
          intro l a hla
          rw [hget l] at hla
          simp only [Nat.zero_le, true_and, Nat.zero_add, List.length_nil, Nat.sub_zero] at hla
          by_cases hl : l < L
          · simp only [hl, if_true, Option.some.injEq] at hla
            exact hla.symm
          · simp only [hl, if_false, List.getElem?_replicate] at hla
            split at hla <;> simp at hla
        have hc1 : ∀ a, coords_of h1 a = [] := by
          intro a
          unfold coords_of
          rw [hh1]
          simp only [List.nil_append, List.getElem?_map]
          cases hr : (List.range' 0 L)[a]? with
          | none => simp
          | some k => simp [HierarchicalRegion.leaf]
        refine ⟨?_, rfl⟩
        intro a c
        show c ∈ coords_of h3 a ↔ _
        rw [add_neighbors_coords adj regs D D 0 h2 h3 han a,
          add_coordinates_coords regs hid D 0 h1 h2 hac a c, hc1 a]
        simp

/-- After `init` on a freshly constructed forest no coordinate list is longer
than the raster. -/
theorem init_fresh_coords_length (adj : Nat → List Nat) (u : Bool) (m : Nat) (p : Partition)
    (f : HierarchicalRegionPartition)
    (hi : init adj (HierarchicalRegionPartition.fresh u m) p = .ok f) :
    ∀ a, (coords_of f.heap a).length ≤ p.data.length := by
  unfold init at hi
  simp only [HierarchicalRegionPartition.fresh, _clear_regions, List.foldl, bind, Except.bind,
    pure, Except.pure] at hi
  set L := (relabel [] 0 p.data).2.1 with hL
  set D := (relabel [] 0 p.data).2.2 with hD
  split at hi
  · cases hi
  · rename_i v hcl
    obtain ⟨h1, regs⟩ := v
    simp only at hi
    split at hi
    · cases hi
    · rename_i h2 hac
      split at hi
      · cases hi
      · rename_i h3 han
        simp only [Except.ok.injEq] at hi
        subst hi
        have hb : 0 + L ≤ (List.replicate
            ((2 * ((L + (2 ^ 64 - 1)) % 2 ^ 64) + 1) % 2 ^ 64) (none : Option Nat)).length := by
          rcases create_leaves_ok_bound _ _ _ _ _ hcl with hb | hb
          · exact hb
          · rw [hb]; exact Nat.zero_le _
        obtain ⟨regs', hcl', hlen, hget⟩ := create_leaves_spec L 0 [] _ hb
        rw [hcl] at hcl'
        simp only [Except.ok.injEq, Prod.mk.injEq] at hcl'
        obtain ⟨hh1, hregs⟩ := hcl'
        have hc1 : ∀ a, coords_of h1 a = [] := by
          intro a
          unfold coords_of
          rw [hh1]
          simp only [List.nil_append, List.getElem?_map]
          cases hr : (List.range' 0 L)[a]? with
          | none => simp
          | some k => simp [HierarchicalRegion.leaf]
        intro a
        show (coords_of h3 a).length ≤ _
        rw [add_neighbors_coords adj regs D D 0 h2 h3 han a]
        have := add_coordinates_coords_length regs D 0 h1 h2 hac a
        rw [hc1 a, hD, relabel_length] at this
        simpa using this

/-- Two rasters with the same relabelled buffer and the same label count give,
through `init` on freshly constructed forests, the same heap and arena. -/
theorem init_fresh_congr (adj : Nat → List Nat) (u u' : Bool) (m m' : Nat) (p q : Partition)
    (f : HierarchicalRegionPartition)
    (hL : (relabel [] 0 q.data).2.1 = (relabel [] 0 p.data).2.1)
    (hD : (relabel [] 0 q.data).2.2 = (relabel [] 0 p.data).2.2)
    (hi : init adj (HierarchicalRegionPartition.fresh u m) p = .ok f) :
    init adj (HierarchicalRegionPartition.fresh u' m') q
      = .ok { f with _leaves_partition := { q with data := (relabel [] 0 p.data).2.2 },
                     _roots_partition := q, _update_partition := u',
                     _correspondences := (relabel [] 0 q.data).1 } := by
  unfold init at hi ⊢
  simp only [HierarchicalRegionPartition.fresh, _clear_regions, List.foldl, bind, Except.bind,
    pure, Except.pure] at hi ⊢
  rw [hL, hD]
  split at hi
  · cases hi
  · rename_i v hcl
    obtain ⟨h1, regs⟩ := v
    simp only at hi ⊢
    split at hi
    · cases hi
    · rename_i h2 hac
      split at hi
      · cases hi
      · rename_i h3 han
        simp only [Except.ok.injEq] at hi ⊢
        subst hi
        rfl

theorem modify_ok_of_alive {h : Heap} {a : Nat} (g : HierarchicalRegion → HierarchicalRegion)
    (ha : Alive h a) :
    ∃ h', modify h a g = .ok h' ∧ ∀ x, Alive h x → Alive h' x := by
  obtain ⟨r, hr⟩ := ha
  refine ⟨h.set a (some (g r)), modify_eq_ok g hr, ?_⟩
  rintro x ⟨rx, hrx⟩
  unfold Alive
  rw [getElem?_set_alive hr]
  by_cases hx : x = a
  · simp [hx]
  · simp [hx, hrx]

theorem deref_ok_of_alive {h : Heap} {a : Nat} (ha : Alive h a) : ∃ r, deref h a = .ok r := by
  obtain ⟨r, hr⟩ := ha
  exact ⟨r, deref_eq_ok.mpr hr⟩

/-- With roots updating switched off, `merge_regions` returns whenever the two
regions exist and the label is inside the arena. -/
theorem merge_regions_ok_no_update (fuel : Nat) (f : HierarchicalRegionPartition)
    (region1 region2 father_label : Nat)
    (h1 : Alive f.heap region1) (h2 : Alive f.heap region2)
    (hl : father_label < f._regions.length) (hu : f._update_partition = false) :
    ∃ f', merge_regions fuel f region1 region2 father_label = .ok (f', f.heap.length) := by
  have a0 : ∀ x, Alive f.heap x → Alive (f.heap ++
      [some (HierarchicalRegion.internal father_label region1 region2)]) x := by
    rintro x ⟨r, hr⟩
    exact ⟨r, by rw [List.getElem?_append_left (getElem?_lt_of_some hr)]; exact hr⟩
  have aP : Alive (f.heap ++
      [some (HierarchicalRegion.internal father_label region1 region2)]) f.heap.length :=
    ⟨HierarchicalRegion.internal father_label region1 region2, by simp⟩
  obtain ⟨r1, e1⟩ := deref_ok_of_alive h1
  obtain ⟨r2, e2⟩ := deref_ok_of_alive h2
  obtain ⟨g1, m1, k1⟩ := modify_ok_of_alive
    (fun r => { r with parent := some f.heap.length }) (a0 _ h1)
  obtain ⟨g2, m2, k2⟩ := modify_ok_of_alive
    (fun r => { r with parent := some f.heap.length }) (k1 _ (a0 _ h2))
  obtain ⟨s1, d1⟩ := deref_ok_of_alive (k2 _ (k1 _ (a0 _ h1)))
  obtain ⟨s2, d2⟩ := deref_ok_of_alive (k2 _ (k1 _ (a0 _ h2)))
  obtain ⟨g3, m3, k3⟩ := modify_ok_of_alive
    (fun r => { r with neighbors := (merge_neighbors_second region1 s2.neighbors
      (merge_neighbors_first region2 s1.neighbors [])) }) (k2 _ (k1 _ aP))
  obtain ⟨g4, m4, k4⟩ := modify_ok_of_alive
    (fun r => { r with neighbors := [] }) (k3 _ (k2 _ (k1 _ (a0 _ h1))))
  obtain ⟨g5, m5, _⟩ := modify_ok_of_alive
    (fun r => { r with neighbors := [] }) (k4 _ (k3 _ (k2 _ (k1 _ (a0 _ h2)))))
  unfold merge_regions
  simp only [bind, Except.bind, e1, e2, hl, if_true, m1, m2, d1, d2, m3, m4, m5, hu,
    Bool.false_eq_true, if_false]
  exact ⟨_, rfl⟩

/-- Two heaps with the same cells are the same heap. -/
theorem heap_ext {h h' : Heap} (hc : ∀ (x : Nat), h'[x]? = h[x]?) : h' = h :=
  List.ext_getElem? hc

/-- Replaying a merge on a forest with the same heap and arena and with roots
updating switched off succeeds and builds the same heap and arena. -/
theorem merge_regions_replay {fuel fuel' : Nat} {f f' g : HierarchicalRegionPartition}
    {region1 region2 father_label P : Nat}
    (hm : merge_regions fuel f region1 region2 father_label = .ok (f', P))
    (hh : g.heap = f.heap) (hr : g._regions = f._regions) (hu : g._update_partition = false) :
    ∃ g', merge_regions fuel' g region1 region2 father_label = .ok (g', P)
      ∧ g'.heap = f'.heap ∧ g'._regions = f'._regions
      ∧ g'._update_partition = false ∧ g'._roots_partition = g._roots_partition
      ∧ g'._leaves_partition = g._leaves_partition
      ∧ g'._num_mergings = g._num_mergings + 1 := by
  obtain ⟨r1, r2, hr1, hr2, hlbl, hP, hregs, _, _, _, _, _, _, _, hcell⟩ := merge_regions_inv hm
  obtain ⟨g', hg⟩ := merge_regions_ok_no_update fuel' g region1 region2 father_label
    ⟨r1, by rw [hh]; exact hr1⟩ ⟨r2, by rw [hh]; exact hr2⟩ (by rw [hr]; exact hlbl) hu
  obtain ⟨_, _, _, _, _, _, hregs', hnum, hlv, _, hup, _, hroots, _, hcell'⟩ :=
    merge_regions_inv hg
  refine ⟨g', ?_, ?_, ?_, ?_, hroots hu, hlv, hnum⟩
  · rw [hg, hP, hh]
  · apply heap_ext
    intro x
    rw [hcell' x, hcell x, hh]
  · rw [hregs', hregs, hr, hh, hP]
  · rw [hup, hu]

theorem merge_regions_update_split {fuel : Nat} {f f' : HierarchicalRegionPartition}
    {region1 region2 father_label P : Nat} (hu : f._update_partition = true)
    (hm : merge_regions fuel f region1 region2 father_label = .ok (f', P)) :
    ∃ f1, merge_regions fuel { f with _update_partition := false } region1 region2 father_label
        = .ok (f1, P)
      ∧ _update_roots_partition fuel { f1 with _update_partition := true } P = .ok f' := by
  unfold merge_regions at hm ⊢
  simp only [bind, Except.bind, hu, if_true, Bool.false_eq_true, if_false] at hm ⊢
  split at hm
  · cases hm
  split at hm
  · cases hm
  split at hm
  swap
  · cases hm
  split at hm
  · cases hm
  split at hm
  · cases hm
  split at hm
  · cases hm
  split at hm
  · cases hm
  split at hm
  · cases hm
  split at hm
  · cases hm
  split at hm
  · cases hm
  have hlt : father_label < f._regions.length := by assumption
  simp only [hlt, if_true]
  split at hm
  · cases hm
  rename_i f2 hupd
  simp only [Except.ok.injEq, Prod.mk.injEq] at hm
  obtain ⟨hf, hP⟩ := hm
  subst hf
  rw [hP] at hupd ⊢
  exact ⟨_, rfl, hupd⟩

theorem increment_mono (h : Heap) (fuel k : Nat) (it it' : RegionIteratorBase)
    (he : RegionIteratorBase.increment h fuel it = .ok it') :
    RegionIteratorBase.increment h (fuel + k) it = .ok it' := by
  unfold RegionIteratorBase.increment at he ⊢
  by_cases hend : it._end = true
  · simp only [hend, if_true] at he ⊢
    exact he
  · simp only [hend, Bool.false_eq_true, if_false] at he ⊢
    cases hd : deref h it._current_reg with
    | error e => rw [hd] at he; cases he
    | ok r =>
      rw [hd] at he
      simp only [bind, Except.bind] at he ⊢
      by_cases hc : it._coord + 1 = r.coordinates.length
      · simp only [hc, if_true] at he ⊢
        by_cases hs : it._current_reg = it._start_reg
        · simp only [hs, if_true] at he ⊢
          exact he
        · simp only [hs, if_false] at he ⊢
          cases hcl : climb h it._start_reg fuel it._current_reg with
          | error e => rw [hcl] at he; cases he
          | ok K =>
            rw [hcl] at he
            rw [climb_mono h _ fuel k _ K hcl]
            obtain ⟨cur, e⟩ := K
            simp only at he ⊢
            cases e with
            | true => simpa using he
            | false =>
              simp only [Bool.false_eq_true, if_false] at he ⊢
              cases hde : descend h fuel cur with
              | error e => rw [hde] at he; cases he
              | ok lf =>
                rw [hde] at he
                rw [descend_mono h fuel k cur lf hde]
                exact he
      · simp only [hc, if_false] at he ⊢
        exact he

theorem update_roots_loop_mono (h : Heap) (label fuel k j : Nat) :
    ∀ (n : Nat) (it : RegionIteratorBase) (roots res : Partition),
    update_roots_loop h label fuel n it roots = .ok res →
    update_roots_loop h label (fuel + k) (n + j) it roots = .ok res := by
  intro n
  induction n with
  | zero => intro it roots res he; simp [update_roots_loop] at he
  | succ n ih =>
    intro it roots res he
    have : n + 1 + j = (n + j) + 1 := by omega
    rw [this]
    unfold update_roots_loop at he ⊢
    by_cases hend : it._end = true
    · simp only [hend, if_true] at he ⊢
      exact he
    · simp only [hend, Bool.false_eq_true, if_false] at he ⊢
      cases hg : it.get h with
      | error e => rw [hg] at he; cases he
      | ok c =>
        rw [hg] at he
        simp only [bind, Except.bind] at he ⊢
        cases hw : roots.write c label with
        | error e => rw [hw] at he; cases he
        | ok roots' =>
          rw [hw] at he
          simp only at he ⊢
          cases hi : it.increment h fuel with
          | error e => rw [hi] at he; cases he
          | ok it' =>
            rw [hi] at he
            rw [increment_mono h fuel k it it' hi]
            simp only at he ⊢
            exact ih it' roots' res he

theorem update_roots_partition_mono (fuel k : Nat) (f f' : HierarchicalRegionPartition)
    (reg : Nat) (he : _update_roots_partition fuel f reg = .ok f') :
    _update_roots_partition (fuel + k) f reg = .ok f' := by
  unfold _update_roots_partition at he ⊢
  cases hd : deref f.heap reg with
  | error e => rw [hd] at he; cases he
  | ok r =>
    rw [hd] at he
    simp only [bind, Except.bind] at he ⊢
    unfold RegionIteratorBase.make at he ⊢
    simp only [Bool.false_eq_true, if_false, bind, Except.bind] at he ⊢
    cases hde : descend f.heap fuel reg with
    | error e => rw [hde] at he; cases he
    | ok lf =>
      rw [hde] at he
      rw [descend_mono f.heap fuel k reg lf hde]
      simp only at he ⊢
      cases hl : update_roots_loop f.heap r.label fuel fuel ⟨reg, lf, false, 0⟩ f._roots_partition with
      | error e => rw [hl] at he; cases he
      | ok roots =>
        rw [hl] at he
        rw [update_roots_loop_mono f.heap r.label fuel k k fuel _ _ roots hl]
        exact he

theorem BTree.coords_eq_first {h : Heap} (t : BTree) (tl : List Nat)
    (htl : t.leaf_addrs = t.first_leaf :: tl) :
    t.coords h = coords_of h t.first_leaf ++ (tl.map (coords_of h)).flatten := by
  unfold BTree.coords
  rw [htl]
  simp

/-- `_update_roots_partition` on the root of a tree writes the label of the
root at the coordinates of the leaves of the tree, left to right. -/
theorem update_roots_partition_tree (fuel : Nat) (f : HierarchicalRegionPartition) (t : BTree)
    (r : HierarchicalRegion) (ht : TreeAt f.heap t) (hnd : t.nodes.Nodup)
    (hr : f.heap[t.addr]? = some (some r))
    (hfuel : t.height + (t.coords f.heap).length + 1 ≤ fuel) :
    _update_roots_partition fuel f t.addr
      = (write_all f._roots_partition (t.coords f.heap) r.label).map
          (fun roots => { f with _roots_partition := roots }) := by
  obtain ⟨hch, hde⟩ := @chain_of_root f.heap fuel t ht hnd (by omega)
  obtain ⟨tl, htl⟩ := t.leaf_addrs_eq_cons
  have hco : coords_of f.heap t.first_leaf ≠ [] :=
    ht.leaf_coords_ne_nil _ _ (by rw [htl]; exact List.mem_cons_self _ _)
  have hlen : 1 ≤ (coords_of f.heap t.first_leaf).length := by
    cases hc : coords_of f.heap t.first_leaf with
    | nil => exact absurd hc hco
    | cons _ _ => simp
  have hcs := BTree.coords_eq_first (h := f.heap) t tl htl
  rw [htl] at hch
  have hloop := update_roots_loop_chain f.heap r.label fuel t.addr tl t.first_leaf hch
    (coords_of f.heap t.first_leaf).length 0 (by omega) hlen fuel f._roots_partition (by
      rw [hcs, List.length_append] at hfuel
      omega)
  unfold _update_roots_partition
  simp only [deref_eq_ok.mpr hr, bind, Except.bind, RegionIteratorBase.make, Bool.false_eq_true,
    if_false, hde, hloop, List.drop_zero, ← hcs]
  cases write_all f._roots_partition (t.coords f.heap) r.label <;> rfl

theorem tree_at_same_shape {h h' : Heap} : ∀ (t : BTree),
    (∀ x ∈ t.nodes, SameShape h h' x) → TreeAt h t → TreeAt h' t := by
  intro t
  induction t with
  | leaf a =>
    intro hs ht
    obtain ⟨r, hr, hc, hco⟩ := ht
    obtain ⟨r', hr', hc', hco', -, -⟩ := hs a (by simp [BTree.nodes]) r hr
    exact ⟨r', hr', hc'.trans hc, by rw [hco']; exact hco⟩
  | node a l r ihl ihr =>
    intro hs ht
    obtain ⟨reg, hreg, hch, hco, hne, ⟨rl, hrl, hpl⟩, ⟨rr, hrr, hpr⟩, htl, htr⟩ := ht
    have hl : ∀ x ∈ l.nodes, SameShape h h' x := fun x hx =>
      hs x (by simp [BTree.nodes, hx])
    have hr : ∀ x ∈ r.nodes, SameShape h h' x := fun x hx =>
      hs x (by simp [BTree.nodes, hx])
    obtain ⟨reg', hreg', hch', hco', -, -⟩ := hs a (by simp [BTree.nodes]) reg hreg
    obtain ⟨rl', hrl', -, -, -, hpl'⟩ := hl _ l.addr_mem_nodes rl hrl
    obtain ⟨rr', hrr', -, -, -, hpr'⟩ := hr _ r.addr_mem_nodes rr hrr
    refine ⟨reg', hreg', hch'.trans hch, hco'.trans hco, hne,
      ⟨rl', hrl', ?_⟩, ⟨rr', hrr', ?_⟩, ihl hl htl, ihr hr htr⟩
    · rw [hpl' (by rw [hpl]; simp), hpl]
    · rw [hpr' (by rw [hpr]; simp), hpr]

theorem coords_of_same_shape {h h' : Heap} {x : Nat} (hs : SameShape h h' x)
    (ha : Alive h x) : coords_of h' x = coords_of h x := by
  obtain ⟨r, hr⟩ := ha
  obtain ⟨r', hr', -, hco, -, -⟩ := hs r hr
  rw [coords_of_eq hr, coords_of_eq hr', hco]

theorem TreeAt.alive {h : Heap} : ∀ (t : BTree), TreeAt h t → ∀ x ∈ t.nodes, Alive h x := by
  intro t
  induction t with
  | leaf a =>
    intro ht x hx
    obtain ⟨r, hr, -, -⟩ := ht
    simp only [BTree.nodes, List.mem_singleton] at hx
    subst hx
    exact ⟨r, hr⟩
  | node a l r ihl ihr =>
    intro ht x hx
    obtain ⟨reg, hreg, -, -, -, -, -, htl, htr⟩ := ht
    simp only [BTree.nodes, List.mem_cons, List.mem_append] at hx
    rcases hx with hx | hx | hx
    · subst hx; exact ⟨reg, hreg⟩
    · exact ihl htl x hx
    · exact ihr htr x hx

/-- Below the root of a tree every node has a parent. -/
theorem TreeAt.inner_has_parent {h : Heap} : ∀ (t : BTree), TreeAt h t →
    ∀ x ∈ t.nodes, x ≠ t.addr → ∃ p, ParentIs h x p := by
  intro t
  induction t with
  | leaf a =>
    intro _ x hx hne
    simp only [BTree.nodes, List.mem_singleton] at hx
    exact absurd hx hne
  | node a l r ihl ihr =>
    intro ht x hx hne
    obtain ⟨reg, hreg, -, -, -, hpl, hpr, htl, htr⟩ := ht
    simp only [BTree.nodes, List.mem_cons, List.mem_append] at hx
    simp only [BTree.addr] at hne
    rcases hx with hx | hx | hx
    · exact absurd hx hne
    · by_cases hxl : x = l.addr
      · subst hxl; exact ⟨a, hpl⟩
      · exact ihl htl x hx hxl
    · by_cases hxr : x = r.addr
      · subst hxr; exact ⟨a, hpr⟩
      · exact ihr htr x hx hxr

/-- A node of a tree whose coordinate list is not empty is one of its leaves. -/
theorem TreeAt.mem_leaf_addrs {h : Heap} : ∀ (t : BTree), TreeAt h t →
    ∀ x ∈ t.nodes, coords_of h x ≠ [] → x ∈ t.leaf_addrs := by
  intro t
  induction t with
  | leaf a =>
    intro _ x hx _
    simpa [BTree.nodes, BTree.leaf_addrs] using hx
  | node a l r ihl ihr =>
    intro ht x hx hco
    obtain ⟨reg, hreg, -, hc, -, -, -, htl, htr⟩ := ht
    simp only [BTree.nodes, List.mem_cons, List.mem_append] at hx
    simp only [BTree.leaf_addrs, List.mem_append]
    rcases hx with hx | hx | hx
    · subst hx
      rw [coords_of_eq hreg] at hco
      exact absurd hc hco
    · exact Or.inl (ihl htl x hx hco)
    · exact Or.inr (ihr htr x hx hco)

theorem BTree.mem_coords {h : Heap} (t : BTree) (c : Nat) :
    c ∈ t.coords h ↔ ∃ l ∈ t.leaf_addrs, c ∈ coords_of h l := by
  unfold BTree.coords
  simp only [List.mem_flatten, List.mem_map]
  constructor
  · rintro ⟨cs, ⟨l, hl, rfl⟩, hc⟩
    exact ⟨l, hl, hc⟩
  · rintro ⟨l, hl, hc⟩
    exact ⟨_, ⟨l, hl, rfl⟩, hc⟩

theorem write_all_inv : ∀ (cs : List Nat) (p p' : Partition) (v : Nat),
    write_all p cs v = .ok p' →
    p'.sizes = p.sizes ∧ p'.data.length = p.data.length ∧
      ∀ (c : Nat), p'.data[c]? = if c ∈ cs ∧ c < p.data.length then some v else p.data[c]? := by
  intro cs
  induction cs with
  | nil =>
    intro p p' v he
    simp only [write_all, List.foldlM_nil, pure, Except.pure, Except.ok.injEq] at he
    subst he
    simp
  | cons c0 rest ih =>
    intro p p' v he
    unfold write_all at he
    simp only [List.foldlM_cons, bind, Except.bind] at he
    split at he
    · cases he
    · rename_i p1 hw
      unfold Partition.write at hw
      by_cases hc0 : c0 < p.data.length
      · simp only [hc0, if_true, Except.ok.injEq] at hw
        subst hw
        obtain ⟨hs, hl, hg⟩ := ih _ p' v he
        refine ⟨hs, by simpa using hl, ?_⟩
        intro c
        rw [hg c]
        simp only [List.length_set, List.mem_cons, List.getElem?_set]
        by_cases hcr : c ∈ rest ∧ c < p.data.length
        · simp [hcr]
        · by_cases hcc : c0 = c
          · subst hcc; simp [hc0, hcr]
          · have hcc' : ¬ c = c0 := fun e => hcc e.symm
            simp only [hcr, if_false, hcc, hcc', false_or]
      · simp only [hc0, if_false] at hw
        cases hw

theorem init_fresh_alive (adj : Nat → List Nat) (u : Bool) (m : Nat) (p : Partition)
    (f : HierarchicalRegionPartition)
    (hi : init adj (HierarchicalRegionPartition.fresh u m) p = .ok f) (a : Nat)
    (ha : a < (relabel [] 0 p.data).2.1) :
    ∃ r, f.heap[a]? = some (some r) ∧ r.label = a ∧ r.parent = none ∧ r.children = [] := by
  obtain ⟨hsk, -⟩ := init_fresh_inv adj u m p f hi
  have h1 : (heap_skeleton f.heap)[a]? = some (some (a, none, [])) := by
    rw [hsk, List.getElem?_map, List.getElem?_range' _ _ ha]
    simp
  obtain ⟨r, hr, hs⟩ := heap_skeleton_alive h1
  refine ⟨r, hr, ?_⟩
  exact (init_fresh_cells adj u m p f hi).2 a r hr

/-- The invariant holds right after `init`, for the one-leaf trees. -/
theorem built_inv_init (adj : Nat → List Nat) (m : Nat) (R : Partition)
    (f : HierarchicalRegionPartition)
    (hi : init adj (HierarchicalRegionPartition.fresh true m) R = .ok f) :
    BuiltInv R f [] ((List.range (relabel [] 0 R.data).2.1).map BTree.leaf) := by
  obtain ⟨hsk, hlv, hroots, hnum, hid, hget, -⟩ := init_fresh_inv adj true m R f hi
  obtain ⟨hlen, hcells⟩ := init_fresh_cells adj true m R f hi
  obtain ⟨hco, hupd⟩ := init_fresh_coords adj true m R f hi
  have halive := init_fresh_alive adj true m R f hi
  refine
    { len := by simpa using hlen
      reg_id := fun l a h => by rw [hlen]; exact hid l a h
      reg_get := fun l h => hget l (by rw [← hlen]; exact h)
      cell := fun a ha => by
        obtain ⟨r, hr, hl, -, -⟩ := halive a (by rw [← hlen]; exact ha)
        exact ⟨r, hr, hl⟩
      covered := fun x hx => ⟨BTree.leaf x, by
        simp only [List.mem_map, List.mem_range]
        exact ⟨x, by rw [← hlen]; exact hx, rfl⟩, by simp [BTree.nodes]⟩
      nodup := ?_
      disjoint := ?_
      tree := ?_
      coords := hco
      coords_len := init_fresh_coords_length adj true m R f hi
      leaves := hlv
      roots_sizes := by rw [hroots]
      roots_len := by rw [hroots]
      roots_leaf := fun a _ c _ => by rw [hroots]
      roots_node := ?_
      num := by simpa using hnum
      upd := hupd
      hist := fun i a b c h => by simp at h
      leafcell := fun a r _ hr => (hcells a r hr).2.2 }
  · intro t ht
    simp only [List.mem_map, List.mem_range] at ht
    obtain ⟨x, hx, rfl⟩ := ht
    simp only [BTree.nodes, List.nodup_cons, List.not_mem_nil, not_false_eq_true,
      List.nodup_nil, and_self, List.mem_singleton, forall_eq, true_and]
    rw [hlen]; exact hx
  · intro t ht t' ht' x hx hx'
    simp only [List.mem_map, List.mem_range] at ht ht'
    obtain ⟨y, -, rfl⟩ := ht
    obtain ⟨y', -, rfl⟩ := ht'
    simp only [BTree.nodes, List.mem_singleton] at hx hx'
    rw [← hx, ← hx']
  · intro t ht
    simp only [List.mem_map, List.mem_range] at ht
    obtain ⟨x, hx, rfl⟩ := ht
    obtain ⟨r, hr, -, hp, hc⟩ := halive x hx
    refine ⟨⟨r, hr, hc, ?_⟩, r, hr, hp⟩
    have hmem := relabel_surj R.data [] 0 x (Nat.zero_le _) hx
    obtain ⟨c, hc1, hc2⟩ := List.getElem_of_mem hmem
    have : c ∈ coords_of f.heap x := (hco x c).mpr (by
      rw [List.getElem?_eq_getElem hc1, hc2])
    rw [coords_of_eq hr] at this
    exact List.ne_nil_of_mem this
  · intro a l r h
    simp only [List.mem_map, List.mem_range] at h
    obtain ⟨x, -, hx⟩ := h
    cases hx

theorem region_by_label_inv {f : HierarchicalRegionPartition} {l : Nat} {r : HierarchicalRegion}
    (h : _region_by_label f l = .ok r) :
    ∃ a, f._regions[l]? = some (some a) ∧ f.heap[a]? = some (some r) := by
  unfold _region_by_label at h
  split at h
  · cases h
  · cases hs : slot_pointer f._regions l with
    | error e => rw [hs] at h; cases h
    | ok a =>
      rw [hs] at h
      exact ⟨a, slot_pointer_eq_ok.mp hs, deref_eq_ok.mp h⟩

/-- What a merge with roots updating enabled leaves: the cells of the heap, the
arena, and the forest on which `_update_roots_partition` was run. -/
theorem merge_step_facts {fuel : Nat} {f f' : HierarchicalRegionPartition}
    {a b lbl P : Nat} {ra rb : HierarchicalRegion}
    (hA : f.heap[a]? = some (some ra)) (hB : f.heap[b]? = some (some rb))
    (hu : f._update_partition = true)
    (hm : merge_regions fuel f a b lbl = .ok (f', P)) :
    P = f.heap.length ∧ lbl < f._regions.length
      ∧ f'.heap.length = f.heap.length + 1
      ∧ (∀ (x : Nat), x ≠ a → x ≠ b → x ≠ f.heap.length → f'.heap[x]? = f.heap[x]?)
      ∧ f'.heap[a]? = some (some { ra with parent := some f.heap.length, neighbors := [] })
      ∧ f'.heap[b]? = some (some { rb with parent := some f.heap.length, neighbors := [] })
      ∧ (∃ rP, f'.heap[f.heap.length]? = some (some rP) ∧ rP.label = lbl
          ∧ rP.children = [a, b] ∧ rP.coordinates = [] ∧ rP.parent = none)
      ∧ f'._regions = f._regions.set lbl (some f.heap.length)
      ∧ f'._leaves_partition = f._leaves_partition
      ∧ f'._num_mergings = f._num_mergings + 1
      ∧ f'._update_partition = true
      ∧ ∃ f1, f1.heap = f'.heap ∧ f1._roots_partition = f._roots_partition
          ∧ _update_roots_partition fuel f1 f.heap.length = .ok f' := by
  obtain ⟨f1, hm1, hupd⟩ := merge_regions_update_split hu hm
  obtain ⟨r1, r2, h1, h2, hlbl, hP, hregs, hnum, hlv, -, -, -, hroots, hlen, hcell⟩ :=
    merge_regions_inv hm1
  simp only at h1 h2 hlbl hP hregs hnum hlv hroots hlen hcell
  rw [hA] at h1
  rw [hB] at h2
  simp only [Option.some.injEq] at h1 h2
  subst h1
  subst h2
  obtain ⟨roots', hf'⟩ := update_roots_partition_inv hupd
  have hltA : a < f.heap.length := getElem?_lt_of_some hA
  have hltB : b < f.heap.length := getElem?_lt_of_some hB
  have hheap : f'.heap = f1.heap := by rw [hf']
  refine ⟨hP, hlbl, by rw [hheap]; exact hlen, ?_, ?_, ?_, ?_, ?_, ?_, ?_, ?_, ?_⟩
  · intro x hxA hxB hxP
    rw [hheap, hcell x]
    unfold merged_cell
    simp [hxA, hxB, hxP]
  · rw [hheap, hcell a]
    unfold merged_cell
    simp only [Nat.ne_of_lt hltA, if_false, true_or, if_true, hA, Option.map_some']
  · rw [hheap, hcell b]
    unfold merged_cell
    simp only [Nat.ne_of_lt hltB, if_false, or_true, if_true, hB, Option.map_some']
  · refine ⟨{ HierarchicalRegion.internal lbl a b with
        neighbors := merge_neighbors_second a rb.neighbors
          (merge_neighbors_first b ra.neighbors []) }, ?_, rfl, rfl, rfl, rfl⟩
    rw [hheap, hcell f.heap.length]
    unfold merged_cell
    simp only [if_true, hA, hB]
  · rw [hf']; simp only; rw [hregs, hP]
  · rw [hf']; exact hlv
  · rw [hf']; exact hnum
  · rw [hf']
  · refine ⟨{ f1 with _update_partition := true }, by rw [hf'], ?_, ?_⟩
    · exact hroots trivial
    · rw [← hP]; exact hupd

theorem coords_of_not_alive {h : Heap} {x : Nat} (hx : h.length ≤ x) : coords_of h x = [] := by
  unfold coords_of
  rw [List.getElem?_eq_none hx]

theorem relabel_dense_lt (data : List Nat) (c a : Nat)
    (h : (relabel [] 0 data).2.2[c]? = some a) : a < (relabel [] 0 data).2.1 :=
  relabel_values data [] 0 (by intro k v h; simp at h) a (List.getElem?_mem h)

/-- A merge of two different parent-less regions into the next free slot keeps
the invariant, for the trees of the new parent-less regions. -/
theorem built_inv_merge {R : Partition} {f f' : HierarchicalRegionPartition}
    {S : List (Nat × Nat × Nat)} {ts : List BTree} {fuel a b P : Nat}
    {ra rb : HierarchicalRegion} (hinv : BuiltInv R f S ts) (hab : a ≠ b)
    (ha : _region_by_label f a = .ok ra) (hpa : ra.parent = none)
    (hb : _region_by_label f b = .ok rb) (hpb : rb.parent = none)
    (hm : merge_regions_by_label fuel f a b ((relabel [] 0 R.data).2.1 + S.length)
      = .ok (f', P)) :
    ∃ ts', BuiltInv R f' (S ++ [(a, b, (relabel [] 0 R.data).2.1 + S.length)]) ts' := by
  obtain ⟨a', hsa, hA⟩ := region_by_label_inv ha
  obtain ⟨ea, hltA⟩ := hinv.reg_id a a' hsa
  subst ea
  obtain ⟨b', hsb, hB⟩ := region_by_label_inv hb
  obtain ⟨eb, hltB⟩ := hinv.reg_id b b' hsb
  subst eb
  have hm' : merge_regions fuel f a' b' f.heap.length = .ok (f', P) := by
    unfold merge_regions_by_label at hm
    simp only [slot_pointer_eq_ok.mpr hsa, slot_pointer_eq_ok.mpr hsb, bind,
      Except.bind] at hm
    rw [hinv.len]; exact hm
  obtain ⟨hP, hlbl, hlen', hother, hcA, hcB, ⟨rP, hrP, hPl, hPc, hPco, hPp⟩, hregs, hlv, hnum,
    hupd, f1, hf1h, hf1r, hupdate⟩ := merge_step_facts hA hB hinv.upd hm'
  have hLn : (relabel [] 0 R.data).2.1 ≤ f.heap.length := by rw [hinv.len]; omega
  -- the trees of the two regions
  obtain ⟨ta, hta, hata⟩ := hinv.covered a' hltA
  have haddr_a : ta.addr = a' := by
    by_contra hne
    obtain ⟨p, rc, hrc, hp⟩ := (hinv.tree ta hta).1.inner_has_parent ta a' hata (Ne.symm hne)
    rw [hA] at hrc
    simp only [Option.some.injEq] at hrc
    subst hrc
    rw [hpa] at hp; cases hp
  obtain ⟨tb, htb, hbtb⟩ := hinv.covered b' hltB
  have haddr_b : tb.addr = b' := by
    by_contra hne
    obtain ⟨p, rc, hrc, hp⟩ := (hinv.tree tb htb).1.inner_has_parent tb b' hbtb (Ne.symm hne)
    rw [hB] at hrc
    simp only [Option.some.injEq] at hrc
    subst hrc
    rw [hpb] at hp; cases hp
  have htab : ta ≠ tb := by
    intro e; apply hab; rw [← haddr_a, ← haddr_b, e]
  have hshape : ∀ (x : Nat), x ≠ f.heap.length → SameShape f.heap f'.heap x := by
    intro x hxn r hr
    by_cases hxa : x = a'
    · subst hxa
      rw [hA] at hr
      simp only [Option.some.injEq] at hr
      subst hr
      exact ⟨_, hcA, rfl, rfl, rfl, fun h => absurd hpa h⟩
    · by_cases hxb : x = b'
      · subst hxb
        rw [hB] at hr
        simp only [Option.some.injEq] at hr
        subst hr
        exact ⟨_, hcB, rfl, rfl, rfl, fun h => absurd hpb h⟩
      · exact ⟨r, (hother x hxa hxb hxn).trans hr, rfl, rfl, rfl, fun _ => rfl⟩
  have hlt_nodes : ∀ t ∈ ts, ∀ x ∈ t.nodes, x ≠ f.heap.length := fun t ht x hx =>
    Nat.ne_of_lt ((hinv.nodup t ht).2 x hx)
  have htree_old : ∀ t ∈ ts, TreeAt f'.heap t := fun t ht =>
    tree_at_same_shape t (fun x hx => hshape x (hlt_nodes t ht x hx)) (hinv.tree t ht).1
  have hcoords_old : ∀ (x : Nat), x < f.heap.length →
      coords_of f'.heap x = coords_of f.heap x := fun x hx =>
    coords_of_same_shape (hshape x (Nat.ne_of_lt hx))
      (by obtain ⟨r, hr, -⟩ := hinv.cell x hx; exact ⟨r, hr⟩)
  have hcoordsP : coords_of f'.heap f.heap.length = [] := by rw [coords_of_eq hrP, hPco]
  -- the new tree
  have hT : TreeAt f'.heap (BTree.node f.heap.length ta tb) :=
    ⟨rP, hrP, by rw [hPc, haddr_a, haddr_b], hPco, by rw [haddr_a, haddr_b]; exact hab,
      ⟨_, by rw [haddr_a]; exact hcA, rfl⟩, ⟨_, by rw [haddr_b]; exact hcB, rfl⟩,
      htree_old ta hta, htree_old tb htb⟩
  have hTnd : (BTree.node f.heap.length ta tb).nodes.Nodup := by
    simp only [BTree.nodes, List.nodup_cons, List.mem_append, not_or, List.nodup_append]
    refine ⟨⟨fun h => hlt_nodes ta hta _ h rfl, fun h => hlt_nodes tb htb _ h rfl⟩,
      (hinv.nodup ta hta).1, (hinv.nodup tb htb).1, ?_⟩
    intro x hx hx'
    exact htab (hinv.disjoint ta hta tb htb x hx hx')
  -- coordinates of the new tree
  have hTc : ∀ (c : Nat), c ∈ (BTree.node f.heap.length ta tb).coords f'.heap →
      ∃ l, (l ∈ ta.nodes ∨ l ∈ tb.nodes) ∧ (relabel [] 0 R.data).2.2[c]? = some l := by
    intro c hc
    rw [BTree.mem_coords] at hc
    obtain ⟨l, hl, hcl⟩ := hc
    simp only [BTree.leaf_addrs, List.mem_append] at hl
    have hln : l ∈ ta.nodes ∨ l ∈ tb.nodes := by
      rcases hl with hl | hl
      · exact Or.inl (ta.leaf_addrs_subset_nodes l hl)
      · exact Or.inr (tb.leaf_addrs_subset_nodes l hl)
    have hlt : l < f.heap.length := by
      rcases hln with h | h
      · exact (hinv.nodup ta hta).2 l h
      · exact (hinv.nodup tb htb).2 l h
    rw [hcoords_old l hlt, hinv.coords] at hcl
    exact ⟨l, hln, hcl⟩
  have hTc_lt : ∀ (c : Nat), c ∈ (BTree.node f.heap.length ta tb).coords f'.heap →
      c < f._roots_partition.data.length := by
    intro c hc
    obtain ⟨l, -, hl⟩ := hTc c hc
    have := getElem?_lt_of_some hl
    rw [relabel_length] at this
    rw [hinv.roots_len]; exact this
  have hTc_other : ∀ t ∈ ts, t ≠ ta → t ≠ tb → ∀ (l c : Nat), l ∈ t.nodes →
      (relabel [] 0 R.data).2.2[c]? = some l →
      c ∉ (BTree.node f.heap.length ta tb).coords f'.heap := by
    intro t ht hta' htb' l c hl hcl hc
    obtain ⟨l', hl', hcl'⟩ := hTc c hc
    rw [hcl] at hcl'
    simp only [Option.some.injEq] at hcl'
    subst hcl'
    rcases hl' with h | h
    · exact hta' (hinv.disjoint t ht ta hta l hl h)
    · exact htb' (hinv.disjoint t ht tb htb l hl h)
  -- the roots raster
  have hup2 := update_roots_partition_mono fuel
    ((BTree.node f.heap.length ta tb).height
      + ((BTree.node f.heap.length ta tb).coords f'.heap).length + 1) f1 f' _ hupdate
  have htree_eq := update_roots_partition_tree (fuel
    + ((BTree.node f.heap.length ta tb).height
      + ((BTree.node f.heap.length ta tb).coords f'.heap).length + 1)) f1
    (BTree.node f.heap.length ta tb) rP (by rw [hf1h]; exact hT) hTnd
    (by rw [hf1h]; exact hrP) (by rw [hf1h]; omega)
  rw [show (BTree.node f.heap.length ta tb).addr = f.heap.length from rfl, hup2, hf1h, hf1r]
    at htree_eq
  cases hw : write_all f._roots_partition ((BTree.node f.heap.length ta tb).coords f'.heap)
      rP.label with
  | error e => rw [hw] at htree_eq; cases htree_eq
  | ok roots' =>
  rw [hw] at htree_eq
  simp only [Except.map, Except.ok.injEq] at htree_eq
  have hfr : f'._roots_partition = roots' := by rw [htree_eq]
  obtain ⟨hws, hwl, hwg⟩ := write_all_inv _ _ _ _ hw
  rw [← hfr] at hws hwl hwg
  have hkeep : ∀ (c : Nat), c ∉ (BTree.node f.heap.length ta tb).coords f'.heap →
      f'._roots_partition.data[c]? = f._roots_partition.data[c]? := by
    intro c hc
    rw [hwg c]
    simp [hc]
  have hset : ∀ (c : Nat), c ∈ (BTree.node f.heap.length ta tb).coords f'.heap →
      f'._roots_partition.data[c]? = some f.heap.length := by
    intro c hc
    rw [hwg c]
    simp [hc, hTc_lt c hc, hPl]
  have hmem : ∀ (t : BTree),
      t ∈ BTree.node f.heap.length ta tb :: ts.filter (fun t => decide (t ≠ ta ∧ t ≠ tb))
        ↔ t = BTree.node f.heap.length ta tb ∨ (t ∈ ts ∧ t ≠ ta ∧ t ≠ tb) := by
    intro t
    simp only [List.mem_cons, List.mem_filter, decide_eq_true_eq]
  have hTnotin : BTree.node f.heap.length ta tb ∉ ts := fun h =>
    hlt_nodes _ h f.heap.length (by simp [BTree.nodes]) rfl
  refine ⟨BTree.node f.heap.length ta tb :: ts.filter (fun t => decide (t ≠ ta ∧ t ≠ tb)),
    { len := by rw [hlen', hinv.len, List.length_append]; simp; omega
      reg_id := ?_
      reg_get := ?_
      cell := ?_
      covered := ?_
      nodup := ?_
      disjoint := ?_
      tree := ?_
      coords := ?_
      coords_len := ?_
      leaves := by rw [hlv]; exact hinv.leaves
      roots_sizes := by rw [hws]; exact hinv.roots_sizes
      roots_len := by rw [hwl]; exact hinv.roots_len
      roots_leaf := ?_
      roots_node := ?_
      num := by rw [hnum, hinv.num, List.length_append]; simp
      upd := hupd
      hist := ?_
      leafcell := ?_ }⟩
  · -- reg_id
    intro l x hlx
    rw [hregs, List.getElem?_set] at hlx
    by_cases hl : f.heap.length = l
    · subst hl
      simp only [hlbl, if_true, Option.some.injEq] at hlx
      exact ⟨hlx.symm, by omega⟩
    · simp only [hl, if_false] at hlx
      obtain ⟨h1, h2⟩ := hinv.reg_id l x hlx
      exact ⟨h1, by omega⟩
  · -- reg_get
    intro l hl
    rw [hregs, List.getElem?_set]
    by_cases hln : f.heap.length = l
    · subst hln
      simp [hlbl]
    · simp only [hln, if_false]
      exact hinv.reg_get l (by omega)
  · -- cell
    intro x hx
    by_cases hxn : x = f.heap.length
    · subst hxn
      exact ⟨rP, hrP, hPl⟩
    · obtain ⟨r, hr, hl⟩ := hinv.cell x (by omega)
      obtain ⟨r', hr', -, -, hl', -⟩ := hshape x hxn r hr
      exact ⟨r', hr', hl'.trans hl⟩
  · -- covered
    intro x hx
    by_cases hxn : x = f.heap.length
    · exact ⟨_, (hmem _).mpr (Or.inl rfl), by simp [BTree.nodes, hxn]⟩
    · obtain ⟨t, ht, hxt⟩ := hinv.covered x (by omega)
      by_cases h1 : t = ta
      · subst h1
        exact ⟨_, (hmem _).mpr (Or.inl rfl), by simp [BTree.nodes, hxt]⟩
      · by_cases h2 : t = tb
        · subst h2
          exact ⟨_, (hmem _).mpr (Or.inl rfl), by simp [BTree.nodes, hxt]⟩
        · exact ⟨t, (hmem _).mpr (Or.inr ⟨ht, h1, h2⟩), hxt⟩
  · -- nodup
    intro t ht
    rcases (hmem t).mp ht with rfl | ⟨ht, -, -⟩
    · refine ⟨hTnd, ?_⟩
      intro x hx
      simp only [BTree.nodes, List.mem_cons, List.mem_append] at hx
      rcases hx with hx | hx | hx
      · omega
      · have := (hinv.nodup ta hta).2 x hx; omega
      · have := (hinv.nodup tb htb).2 x hx; omega
    · refine ⟨(hinv.nodup t ht).1, fun x hx => ?_⟩
      have := (hinv.nodup t ht).2 x hx; omega
  · -- disjoint
    have key : ∀ t ∈ ts, t ≠ ta → t ≠ tb → ∀ (x : Nat),
        x ∈ (BTree.node f.heap.length ta tb).nodes → x ∈ t.nodes → False := by
      intro t ht h1 h2 x hx hxt
      simp only [BTree.nodes, List.mem_cons, List.mem_append] at hx
      rcases hx with hx | hx | hx
      · exact hlt_nodes t ht x hxt hx
      · exact h1 (hinv.disjoint t ht ta hta x hxt hx)
      · exact h2 (hinv.disjoint t ht tb htb x hxt hx)
    intro t ht t' ht' x hx hx'
    rcases (hmem t).mp ht with rfl | ⟨ht, h1, h2⟩
    · rcases (hmem t').mp ht' with rfl | ⟨ht', h1', h2'⟩
      · rfl
      · exact (key t' ht' h1' h2' x hx hx').elim
    · rcases (hmem t').mp ht' with rfl | ⟨ht', h1', h2'⟩
      · exact (key t ht h1 h2 x hx' hx).elim
      · exact hinv.disjoint t ht t' ht' x hx hx'
  · -- tree
    intro t ht
    rcases (hmem t).mp ht with rfl | ⟨ht, h1, h2⟩
    · exact ⟨hT, rP, hrP, hPp⟩
    · refine ⟨htree_old t ht, ?_⟩
      obtain ⟨r, hr, hp⟩ := (hinv.tree t ht).2
      refine ⟨r, ?_, hp⟩
      rw [hother t.addr ?_ ?_ (hlt_nodes t ht _ t.addr_mem_nodes)]
      · exact hr
      · intro e
        exact h1 (hinv.disjoint t ht ta hta a' (by rw [← e]; exact t.addr_mem_nodes) hata)
      · intro e
        exact h2 (hinv.disjoint t ht tb htb b' (by rw [← e]; exact t.addr_mem_nodes) hbtb)
  · -- coords
    intro x c
    by_cases hx : x < f.heap.length
    · rw [hcoords_old x hx]
      exact hinv.coords x c
    · have h1 : coords_of f'.heap x = [] := by
        by_cases hxn : x = f.heap.length
        · rw [hxn]; exact hcoordsP
        · exact coords_of_not_alive (by rw [hlen']; omega)
      rw [h1]
      constructor
      · intro h; simp at h
      · intro h
        have := relabel_dense_lt R.data c x h
        omega
  · -- coords_len
    intro x
    by_cases hx : x < f.heap.length
    · rw [hcoords_old x hx]
      exact hinv.coords_len x
    · have h1 : coords_of f'.heap x = [] := by
        by_cases hxn : x = f.heap.length
        · rw [hxn]; exact hcoordsP
        · exact coords_of_not_alive (by rw [hlen']; omega)
      rw [h1]
      exact Nat.zero_le _
  · -- roots_leaf
    intro x hx c hc
    rcases (hmem _).mp hx with h | ⟨ht, h1, h2⟩
    · cases h
    · have hxlt : x < f.heap.length := (hinv.nodup _ ht).2 x (by simp [BTree.nodes])
      rw [hcoords_old x hxlt] at hc
      rw [hkeep c (hTc_other _ ht h1 h2 x c (by simp [BTree.nodes]) ((hinv.coords x c).mp hc))]
      exact hinv.roots_leaf x ht c hc
  · -- roots_node
    intro x l r hx c hc
    rcases (hmem _).mp hx with h | ⟨ht, h1, h2⟩
    · rw [h] at hc
      rw [hset c hc]
      injection h with h _ _
      rw [h]
    · rw [BTree.mem_coords] at hc
      obtain ⟨lf, hlf, hclf⟩ := hc
      have hlfn := (BTree.node x l r).leaf_addrs_subset_nodes lf hlf
      have hlflt : lf < f.heap.length := (hinv.nodup _ ht).2 lf hlfn
      rw [hcoords_old lf hlflt] at hclf
      rw [hkeep c (hTc_other _ ht h1 h2 lf c hlfn ((hinv.coords lf c).mp hclf))]
      exact hinv.roots_node x l r ht c ((BTree.mem_coords _ c).mpr ⟨lf, hlf, hclf⟩)
  · -- hist
    intro i x y z hi
    rw [List.getElem?_append] at hi
    by_cases hil : i < S.length
    · simp only [hil, if_true] at hi
      obtain ⟨h1, h2, h3, reg, hreg, hch⟩ := hinv.hist i x y z hi
      have hne : (relabel [] 0 R.data).2.1 + i ≠ f.heap.length := by rw [hinv.len]; omega
      obtain ⟨reg', hreg', hch', -, -, -⟩ := hshape _ hne reg hreg
      exact ⟨h1, by omega, by omega, reg', hreg', hch'.trans hch⟩
    · simp only [hil, if_false] at hi
      have hi0 : i - S.length = 0 := by
        by_contra hc
        rw [List.getElem?_eq_none (by simp; omega)] at hi
        cases hi
      rw [hi0] at hi
      simp only [List.getElem?_cons_zero, Option.some.injEq, Prod.mk.injEq] at hi
      obtain ⟨rfl, rfl, rfl⟩ := hi
      have hiS : i = S.length := by omega
      subst hiS
      refine ⟨rfl, by omega, by omega, rP, ?_, hPc⟩
      rw [← hinv.len]; exact hrP
  · -- leafcell
    intro x r hx hr
    obtain ⟨r0, hr0, -⟩ := hinv.cell x (by omega)
    obtain ⟨r', hr', hch', -, -, -⟩ := hshape x (by omega) r0 hr0
    rw [hr] at hr'
    simp only [Option.some.injEq] at hr'
    subst hr'
    rw [hch']
    exact hinv.leafcell x r0 hx hr0

/-- Every forest built by `init` and merges in arena order satisfies the
invariant, for some list of trees. -/
theorem built_inv {adj : Nat → List Nat} {R : Partition} {f : HierarchicalRegionPartition}
    {S : List (Nat × Nat × Nat)} (hb : Built adj R f S) : ∃ ts, BuiltInv R f S ts := by
  induction hb with
  | init m f hi => exact ⟨_, built_inv_init adj m R f hi⟩
  | merge fuel f f' S a b P ra rb _ hab ha hpa hb hpb hm ih =>
    obtain ⟨ts, hinv⟩ := ih
    exact built_inv_merge hinv hab ha hpa hb hpb hm

theorem merging_array_append (S : List (Nat × Nat × Nat)) (a b c : Nat) :
    merging_array (S ++ [(a, b, c)]) = merging_array S ++ [a, b, c] := by
  induction S with
  | nil => rfl
  | cons t rest ih =>
    obtain ⟨x, y, z⟩ := t
    show x :: y :: z :: merging_array (rest ++ [(a, b, c)]) = _
    rw [ih]
    rfl

theorem merging_array_length (S : List (Nat × Nat × Nat)) :
    (merging_array S).length = 3 * S.length := by
  induction S with
  | nil => rfl
  | cons t rest ih =>
    obtain ⟨x, y, z⟩ := t
    simp only [merging_array, List.length_cons, ih]
    omega

theorem load_merge_loop_succ (fuel : Nat) (a : List Nat) :
    ∀ (n k : Nat) (f : HierarchicalRegionPartition),
    load_merge_loop fuel a (n + 1) k f
      = (load_merge_loop fuel a n k f).bind (fun g => load_merge_loop fuel a 1 (k + 3 * n) g) := by
  intro n
  induction n with
  | zero => intro k f; simp [load_merge_loop, Except.bind]
  | succ n ih =>
    intro k f
    rw [load_merge_loop]
    conv_rhs => rw [load_merge_loop]
    cases h0 : a[k]? with
    | none => simp [Except.bind]
    | some s1 =>
      cases h1 : a[k + 1]? with
      | none => simp [Except.bind]
      | some s2 =>
        cases h2 : a[k + 2]? with
        | none => simp [Except.bind]
        | some fa =>
          simp only [bind]
          cases hm : merge_regions_by_label fuel f s1 s2 fa with
          | error e => simp [Except.bind]
          | ok v =>
            obtain ⟨f', P⟩ := v
            simp only [Except.bind]
            rw [ih (k + 3) f']
            have : k + 3 + 3 * n = k + 3 * (n + 1) := by omega
            rw [this]
            rfl

/-- Replaying the words of the merge sequence of a built forest on the forest
that `init` builds from the saved raster, with roots updating switched off,
succeeds and builds the same heap and arena; the roots raster stays the saved
raster. -/
theorem built_replay {adj : Nat → List Nat} {R : Partition} {f : HierarchicalRegionPartition}
    {S : List (Nat × Nat × Nat)} (hb : Built adj R f S) :
    ∀ (fuel : Nat) (u : Bool) (m N : Nat) (tail : List Nat),
    ∃ g1 g, init adj (HierarchicalRegionPartition.fresh u m)
          ⟨R.sizes, (relabel [] 0 R.data).2.2⟩ = .ok g1
      ∧ load_merge_loop fuel (merging_array S ++ tail) S.length 0
          { g1 with _update_partition := false, _num_mergings := N } = .ok g
      ∧ g.heap = f.heap ∧ g._regions = f._regions
      ∧ g._roots_partition = ⟨R.sizes, (relabel [] 0 R.data).2.2⟩
      ∧ g._update_partition = false := by
  induction hb with
  | init m0 f hi =>
    intro fuel u m N tail
    obtain ⟨hD, hL⟩ := relabel_idem R.data
    have hc := init_fresh_congr adj true u m0 m R ⟨R.sizes, (relabel [] 0 R.data).2.2⟩ f hL hD hi
    exact ⟨_, _, hc, rfl, rfl, rfl, rfl, rfl⟩
  | merge fuel0 f f' S a b P ra rb _ hab ha hpa hb hpb hm ih =>
    intro fuel u m N tail
    obtain ⟨g1, g, hg1, hloop, hh, hr, hroots, hu⟩ :=
      ih fuel u m N ([a, b, (relabel [] 0 R.data).2.1 + S.length] ++ tail)
    have harr : merging_array (S ++ [(a, b, (relabel [] 0 R.data).2.1 + S.length)]) ++ tail
        = merging_array S ++ ([a, b, (relabel [] 0 R.data).2.1 + S.length] ++ tail) := by
      rw [merging_array_append, List.append_assoc]
    unfold merge_regions_by_label at hm
    cases hs1 : slot_pointer f._regions a with
    | error e => rw [hs1] at hm; cases hm
    | ok a1 =>
    cases hs2 : slot_pointer f._regions b with
    | error e => rw [hs1, hs2] at hm; cases hm
    | ok a2 =>
    rw [hs1, hs2] at hm
    simp only [bind, Except.bind] at hm
    obtain ⟨g', hg', hh', hr', hu', hroots', -, -⟩ :=
      @merge_regions_replay fuel0 fuel f f' g a1 a2 _ P hm hh hr hu
    refine ⟨g1, g', hg1, ?_, hh', hr', hroots'.trans hroots, hu'⟩
    rw [harr, List.length_append, List.length_singleton, load_merge_loop_succ, hloop]
    simp only [Except.bind, Nat.zero_add]
    have hlen := merging_array_length S
    have e0 : (merging_array S ++ ([a, b, (relabel [] 0 R.data).2.1 + S.length] ++ tail))[
        3 * S.length]? = some a := by
      rw [List.getElem?_append_right (by omega)]
      simp [hlen]
    have e1 : (merging_array S ++ ([a, b, (relabel [] 0 R.data).2.1 + S.length] ++ tail))[
        3 * S.length + 1]? = some b := by
      rw [List.getElem?_append_right (by omega)]
      simp [hlen]
    have e2 : (merging_array S ++ ([a, b, (relabel [] 0 R.data).2.1 + S.length] ++ tail))[
        3 * S.length + 2]? = some ((relabel [] 0 R.data).2.1 + S.length) := by
      rw [List.getElem?_append_right (by omega)]
      simp [hlen]
    rw [load_merge_loop]
    simp only [e0, e1, e2]
    unfold merge_regions_by_label
    rw [hr, hs1, hs2]
    simp only [bind, Except.bind, hg']
    rfl

theorem conditional_view_leaf_slots (h : Heap) (L : Nat)
    (hleaf : ∀ (a : Nat), a < L → ∃ r, h[a]? = some (some r) ∧ r.children = []) :
    ∀ (j s : Nat), s + j ≤ L →
    conditional_view non_leaves h ((List.range' s j).map (fun i => some i)) = .ok [] := by
  intro j
  induction j with
  | zero => intro s _; rfl
  | succ j ih =>
    intro s hs
    obtain ⟨r, hr, hc⟩ := hleaf s (by omega)
    simp only [List.range'_succ, List.map_cons, conditional_view, deref_eq_ok.mpr hr, bind,
      Except.bind, ih (s + 1) (by omega), non_leaves, hc]
    rfl

theorem conditional_view_internal_slots (h : Heap) (L : Nat) (S : List (Nat × Nat × Nat))
    (hcell : ∀ (a : Nat), a < L + S.length → ∃ r, h[a]? = some (some r) ∧ r.label = a)
    (hist : ∀ (i a b c : Nat), S[i]? = some (a, b, c) →
      c = L + i ∧ a < L + S.length ∧ b < L + S.length
        ∧ ∃ reg, h[L + i]? = some (some reg) ∧ reg.children = [a, b]) :
    ∀ (j i : Nat), i + j = S.length →
    ∃ v, conditional_view non_leaves h ((List.range' (L + i) j).map (fun i => some i)) = .ok v
      ∧ merging_words h v = .ok (merging_array (S.drop i)) := by
  intro j
  induction j with
  | zero =>
    intro i hi
    refine ⟨[], rfl, ?_⟩
    rw [List.drop_of_length_le (by omega)]
    rfl
  | succ j ih =>
    intro i hi
    obtain ⟨v, hv, hw⟩ := ih (i + 1) (by omega)
    have hlt : i < S.length := by omega
    have hSi : S[i]? = some S[i] := List.getElem?_eq_getElem hlt
    obtain ⟨a, b, c, hSd⟩ : ∃ a b c, S[i] = (a, b, c) := ⟨_, _, _, rfl⟩
    rw [hSd] at hSi
    obtain ⟨hc, ha, hb, reg, hreg, hch⟩ := hist i a b c hSi
    obtain ⟨r0, hr0, hl0⟩ := hcell a ha
    obtain ⟨r1, hr1, hl1⟩ := hcell b hb
    obtain ⟨reg', hreg', hlreg⟩ := hcell (L + i) (by omega)
    rw [hreg] at hreg'
    simp only [Option.some.injEq] at hreg'
    subst hreg'
    refine ⟨reg :: v, ?_, ?_⟩
    · have e : L + i + 1 = L + (i + 1) := by omega
      simp only [List.range'_succ, List.map_cons, conditional_view, deref_eq_ok.mpr hreg, bind,
        Except.bind, e, hv, non_leaves, hch]
      rfl
    · have hdrop : S.drop i = (a, b, c) :: S.drop (i + 1) := by
        rw [← hSd]
        exact List.drop_eq_getElem_cons hlt
      rw [hdrop]
      simp only [merging_words, hch, List.getElem?_cons_zero, List.getElem?_cons_succ,
        deref_eq_ok.mpr hr0, deref_eq_ok.mpr hr1, bind, Except.bind, hw, merging_array, hl0, hl1,
        hlreg, hc]

/-- The files of a built forest: the relabelled raster with the sizes of `R`,
and the words of the merge sequence preceded by their number. -/
theorem built_save {R : Partition} {f : HierarchicalRegionPartition}
    {S : List (Nat × Nat × Nat)} {ts : List BTree} (hinv : BuiltInv R f S ts)
    (hwf : R.data.length = R.sizes.prod) :
    save_to_files f = .ok (⟨R.sizes.length, R.sizes, (relabel [] 0 R.data).2.2⟩,
      ⟨S.length, merging_array S⟩) := by
  have hshape := arena_shape f._regions f.heap.length hinv.reg_id hinv.reg_get
  have hrange : List.range f.heap.length
      = List.range' 0 (relabel [] 0 R.data).2.1
        ++ List.range' ((relabel [] 0 R.data).2.1 + 0) S.length := by
    rw [List.range_eq_range', hinv.len, Nat.add_zero]
    have := List.range'_append_1 0 (relabel [] 0 R.data).2.1 S.length
    rw [Nat.zero_add] at this
    rw [this, Nat.add_comm]
  have hleafv := conditional_view_leaf_slots f.heap (relabel [] 0 R.data).2.1 (by
      intro a ha
      obtain ⟨r, hr, -⟩ := hinv.cell a (by rw [hinv.len]; omega)
      exact ⟨r, hr, hinv.leafcell a r ha hr⟩)
    (relabel [] 0 R.data).2.1 0 (by omega)
  obtain ⟨v, hv, hw⟩ := conditional_view_internal_slots f.heap (relabel [] 0 R.data).2.1 S
    (by rw [← hinv.len]; exact hinv.cell)
    (by
      intro i a b c h
      have := hinv.hist i a b c h
      rw [hinv.len] at this
      exact this)
    S.length 0 (by omega)
  have hview : conditional_view non_leaves f.heap f._regions = .ok v := by
    rw [hshape, hrange, List.map_append]
    have h1 := conditional_view_append non_leaves f.heap _ _ _ _ hleafv hv
    have h2 := conditional_view_append non_leaves f.heap _ _ _ _ h1
      (conditional_view_replicate_none non_leaves f.heap (f._regions.length - f.heap.length))
    simpa using h2
  have hDlen : (relabel [] 0 R.data).2.2.length = R.sizes.prod := by
    rw [relabel_length, hwf]
  unfold save_to_files
  rw [hinv.leaves]
  simp only [hDlen, le_refl, if_true, hview, bind, Except.bind, hw, List.drop_zero,
    merging_array_length, hinv.num]
  rw [← hDlen, List.take_length]

theorem BTree.leaf_addrs_length_le (t : BTree) : t.leaf_addrs.length ≤ t.nodes.length := by
  induction t with
  | leaf a => simp [BTree.leaf_addrs, BTree.nodes]
  | node a l r ihl ihr =>
    simp only [BTree.leaf_addrs, BTree.nodes, List.length_append, List.length_cons]
    omega

theorem flatten_coords_length_le (h : Heap) (N : Nat)
    (hN : ∀ (a : Nat), (coords_of h a).length ≤ N) :
    ∀ (l : List Nat), ((l.map (coords_of h)).flatten).length ≤ l.length * N := by
  intro l
  induction l with
  | nil => simp
  | cons a rest ih =>
    simp only [List.map_cons, List.flatten_cons, List.length_append, List.length_cons]
    have := hN a
    rw [Nat.add_mul]
    omega

theorem nodup_length_le {l : List Nat} {n : Nat} (hnd : l.Nodup) (hlt : ∀ x ∈ l, x < n) :
    l.length ≤ n := by
  have hsub : l ⊆ List.range n := fun x hx => List.mem_range.mpr (hlt x hx)
  have := (hnd.subperm hsub).length_le
  simpa using this

theorem BuiltInv.tree_fuel {R : Partition} {f : HierarchicalRegionPartition}
    {S : List (Nat × Nat × Nat)} {ts : List BTree} (hinv : BuiltInv R f S ts)
    {t : BTree} (ht : t ∈ ts) :
    t.height + (t.coords f.heap).length + 1 ≤ f.heap.length + f.heap.length * R.data.length := by
  obtain ⟨hnd, hlt⟩ := hinv.nodup t ht
  have h1 : t.nodes.length ≤ f.heap.length := nodup_length_le hnd hlt
  have h2 := t.height_lt_size
  rw [t.size_eq_nodes_length] at h2
  have h3 := flatten_coords_length_le f.heap R.data.length hinv.coords_len t.leaf_addrs
  have h4 := t.leaf_addrs_length_le
  have h5 : t.leaf_addrs.length * R.data.length ≤ f.heap.length * R.data.length :=
    Nat.mul_le_mul_right _ (by omega)
  unfold BTree.coords
  omega

theorem BuiltInv.coords_mem {R : Partition} {f : HierarchicalRegionPartition}
    {S : List (Nat × Nat × Nat)} {ts : List BTree} (hinv : BuiltInv R f S ts)
    {t : BTree} {c : Nat} (hc : c ∈ t.coords f.heap) :
    ∃ l ∈ t.nodes, (relabel [] 0 R.data).2.2[c]? = some l := by
  rw [BTree.mem_coords] at hc
  obtain ⟨l, hl, hcl⟩ := hc
  exact ⟨l, t.leaf_addrs_subset_nodes l hl, (hinv.coords l c).mp hcl⟩

theorem BuiltInv.coords_disjoint {R : Partition} {f : HierarchicalRegionPartition}
    {S : List (Nat × Nat × Nat)} {ts : List BTree} (hinv : BuiltInv R f S ts)
    {t t' : BTree} (ht : t ∈ ts) (ht' : t' ∈ ts) {c : Nat}
    (hc : c ∈ t.coords f.heap) (hc' : c ∈ t'.coords f.heap) : t = t' := by
  obtain ⟨l, hl, hcl⟩ := hinv.coords_mem hc
  obtain ⟨l', hl', hcl'⟩ := hinv.coords_mem hc'
  rw [hcl] at hcl'
  simp only [Option.some.injEq] at hcl'
  subst hcl'
  exact hinv.disjoint t ht t' ht' l hl hl'

theorem BuiltInv.coords_lt {R : Partition} {f : HierarchicalRegionPartition}
    {S : List (Nat × Nat × Nat)} {ts : List BTree} (hinv : BuiltInv R f S ts)
    {t : BTree} {c : Nat} (hc : c ∈ t.coords f.heap) : c < R.data.length := by
  obtain ⟨l, -, hcl⟩ := hinv.coords_mem hc
  have := getElem?_lt_of_some hcl
  rwa [relabel_length] at this

theorem BuiltInv.root_tree {R : Partition} {f : HierarchicalRegionPartition}
    {S : List (Nat × Nat × Nat)} {ts : List BTree} (hinv : BuiltInv R f S ts)
    {a : Nat} {r : HierarchicalRegion} (hr : f.heap[a]? = some (some r))
    (hp : r.parent = none) : ∃ t ∈ ts, t.addr = a := by
  obtain ⟨t, ht, hat⟩ := hinv.covered a (getElem?_lt_of_some hr)
  refine ⟨t, ht, ?_⟩
  by_contra hne
  obtain ⟨p, rc, hrc, hpc⟩ := (hinv.tree t ht).1.inner_has_parent t a hat (Ne.symm hne)
  rw [hr] at hrc
  simp only [Option.some.injEq] at hrc
  subst hrc
  rw [hp] at hpc; cases hpc

/-- The loop over the roots view, run on a forest with the heap of a built
forest: it returns, and the roots raster then holds the label of the root at
the coordinates of every tree whose root is in a slot of the list, and is
unchanged elsewhere. -/
theorem update_all_roots_spec {R : Partition} {f : HierarchicalRegionPartition}
    {S : List (Nat × Nat × Nat)} {ts : List BTree} (hinv : BuiltInv R f S ts) (fuel : Nat)
    (hfuel : f.heap.length + f.heap.length * R.data.length + 1 ≤ fuel) :
    ∀ (slots : List (Option Nat)), (∀ (a : Nat), some a ∈ slots → a < f.heap.length) →
    ∀ (g : HierarchicalRegionPartition), g.heap = f.heap →
    g._roots_partition.data.length = R.data.length →
    ∃ g', update_all_roots fuel slots g = .ok g' ∧ g'.heap = f.heap
      ∧ g'._roots_partition.sizes = g._roots_partition.sizes
      ∧ g'._roots_partition.data.length = R.data.length
      ∧ (∀ t ∈ ts, some t.addr ∈ slots → ∀ c ∈ t.coords f.heap,
          g'._roots_partition.data[c]? = some t.addr)
      ∧ (∀ (c : Nat), (∀ t ∈ ts, some t.addr ∈ slots → c ∉ t.coords f.heap) →
          g'._roots_partition.data[c]? = g._roots_partition.data[c]?) := by
  intro slots
  induction slots with
  | nil =>
    intro _ g hh hl
    exact ⟨g, rfl, hh, rfl, hl, fun t _ h => by simp at h, fun c _ => rfl⟩
  | cons s rest ih =>
    intro hs g hh hl
    have hs' : ∀ (a : Nat), some a ∈ rest → a < f.heap.length := fun a ha =>
      hs a (List.mem_cons_of_mem _ ha)
    cases s with
    | none =>
      obtain ⟨g', hg', hh', hsz, hl', h1, h2⟩ := ih hs' g hh hl
      refine ⟨g', by rw [update_all_roots]; exact hg', hh', hsz, hl', ?_, ?_⟩
      · intro t ht hmem c hc
        have : some t.addr ∈ rest := by simpa using hmem
        exact h1 t ht this c hc
      · intro c hc
        exact h2 c (fun t ht hmem => hc t ht (List.mem_cons_of_mem _ hmem))
    | some a =>
      have ha : a < f.heap.length := hs a (List.mem_cons_self _ _)
      obtain ⟨r, hr, hlab⟩ := hinv.cell a ha
      by_cases hroot : r.parent = none
      · obtain ⟨t, ht, hta⟩ := hinv.root_tree hr hroot
        subst hta
        have htree := update_roots_partition_tree fuel g t r (by rw [hh]; exact (hinv.tree t ht).1)
          (hinv.nodup t ht).1 (by rw [hh]; exact hr) (by
            rw [hh]
            have := hinv.tree_fuel ht
            omega)
        have hcg : t.coords g.heap = t.coords f.heap := by rw [hh]
        rw [hcg] at htree
        obtain ⟨roots1, hw, hwl, hws⟩ := write_all_ok (t.coords f.heap) g._roots_partition r.label
          (fun c hc => by rw [hl]; exact hinv.coords_lt hc)
        rw [hw] at htree
        simp only [Except.map] at htree
        obtain ⟨_, _, hwg⟩ := write_all_inv _ _ _ _ hw
        obtain ⟨g', hg', hh', hsz, hl', h1, h2⟩ := ih hs'
          { g with _roots_partition := roots1 } hh (by simp only; rw [hwl, hl])
        simp only at hsz h2
        refine ⟨g', ?_, hh', hsz.trans hws, hl', ?_, ?_⟩
        · rw [update_all_roots]
          have hr' : g.heap[t.addr]? = some (some r) := by rw [hh]; exact hr
          simp only [deref_eq_ok.mpr hr', bind, Except.bind, roots, hroot, Option.isNone_none,
            if_true, htree, hg']
        · intro t' ht' hmem c hc
          by_cases hin : some t'.addr ∈ rest
          · exact h1 t' ht' hin c hc
          · have heq : t'.addr = t.addr := by
              simp only [List.mem_cons, Option.some.injEq] at hmem
              rcases hmem with h | h
              · exact h
              · exact absurd h hin
            have htt : t' = t := hinv.disjoint t' ht' t ht t.addr
              (by rw [← heq]; exact t'.addr_mem_nodes) t.addr_mem_nodes
            subst htt
            rw [h2 c (fun t'' ht'' hmem'' hc'' => by
              have := hinv.coords_disjoint ht'' ht' hc'' hc
              subst this
              exact hin hmem''), hwg c]
            have hclt : c < g._roots_partition.data.length := by
              rw [hl]; exact hinv.coords_lt hc
            simp [hc, hclt, hlab]
        · intro c hc
          rw [h2 c (fun t' ht' hmem => hc t' ht' (List.mem_cons_of_mem _ hmem)), hwg c]
          have : c ∉ t.coords f.heap := hc t ht (List.mem_cons_self _ _)
          simp [this]
      · obtain ⟨g', hg', hh', hsz, hl', h1, h2⟩ := ih hs' g hh hl
        have hroots : roots r = false := by
          unfold roots
          cases hp : r.parent with
          | none => exact absurd hp hroot
          | some p => rfl
        refine ⟨g', ?_, hh', hsz, hl', ?_, ?_⟩
        · rw [update_all_roots]
          have hr' : g.heap[a]? = some (some r) := by rw [hh]; exact hr
          simp only [deref_eq_ok.mpr hr', bind, Except.bind, hroots, Bool.false_eq_true,
            if_false, hg']
        · intro t ht hmem c hc
          have hin : some t.addr ∈ rest := by
            simp only [List.mem_cons, Option.some.injEq] at hmem
            rcases hmem with h | h
            · exfalso
              obtain ⟨r', hr', hp'⟩ := (hinv.tree t ht).2
              rw [h, hr] at hr'
              simp only [Option.some.injEq] at hr'
              subst hr'
              exact hroot hp'
            · exact h
          exact h1 t ht hin c hc
        · intro c hc
          exact h2 c (fun t ht hmem => hc t ht (List.mem_cons_of_mem _ hmem))

theorem partition_eq_of {p q : Partition} (h1 : p.sizes = q.sizes) (h2 : p.data = q.data) :
    p = q := by
  cases p; cases q
  simp only at h1 h2
  rw [h1, h2]

/-- Every pixel lies in the tree of one parent-less region: the one-leaf tree
of its own leaf if that leaf has no parent, a tree with an internal root
otherwise. -/
theorem BuiltInv.pixel_cases {R : Partition} {f : HierarchicalRegionPartition}
    {S : List (Nat × Nat × Nat)} {ts : List BTree} (hinv : BuiltInv R f S ts)
    (c : Nat) (hc : c < R.data.length) :
    ∃ l r t, (relabel [] 0 R.data).2.2[c]? = some l ∧ f.heap[l]? = some (some r)
      ∧ _region_by_label f l = .ok r ∧ t ∈ ts ∧ c ∈ t.coords f.heap
      ∧ ((r.parent = none ∧ t = BTree.leaf l)
          ∨ (r.parent ≠ none ∧ ∃ a lt rt, t = BTree.node a lt rt)) := by
  have hcD : c < (relabel [] 0 R.data).2.2.length := by rw [relabel_length]; exact hc
  have hDc : (relabel [] 0 R.data).2.2[c]? = some ((relabel [] 0 R.data).2.2[c]) :=
    List.getElem?_eq_getElem hcD
  generalize (relabel [] 0 R.data).2.2[c] = l at hDc
  have hlL := relabel_dense_lt R.data c l hDc
  have hln : l < f.heap.length := by rw [hinv.len]; omega
  obtain ⟨r, hr, -⟩ := hinv.cell l hln
  have hcl : c ∈ coords_of f.heap l := (hinv.coords l c).mpr hDc
  obtain ⟨t, ht, hlt⟩ := hinv.covered l hln
  have hlf : l ∈ t.leaf_addrs :=
    (hinv.tree t ht).1.mem_leaf_addrs t l hlt (List.ne_nil_of_mem hcl)
  have hct : c ∈ t.coords f.heap := (BTree.mem_coords t c).mpr ⟨l, hlf, hcl⟩
  have hby : _region_by_label f l = .ok r := by
    unfold _region_by_label
    have hs := hinv.reg_get l hln
    have : ¬ l ≥ f._regions.length := by
      have := getElem?_lt_of_some hs
      omega
    simp only [this, if_false, slot_pointer_eq_ok.mpr hs, bind, Except.bind]
    exact deref_eq_ok.mpr hr
  refine ⟨l, r, t, hDc, hr, hby, ht, hct, ?_⟩
  cases t with
  | leaf a =>
    simp only [BTree.nodes, List.mem_singleton] at hlt
    subst hlt
    obtain ⟨r', hr', hp'⟩ := (hinv.tree _ ht).2
    simp only [BTree.addr] at hr'
    rw [hr] at hr'
    simp only [Option.some.injEq] at hr'
    subst hr'
    exact Or.inl ⟨hp', rfl⟩
  | node a lt rt =>
    refine Or.inr ⟨?_, a, lt, rt, rfl⟩
    have hne : l ≠ a := by
      intro e
      subst e
      obtain ⟨reg, hreg, -, hco, -⟩ := (hinv.tree _ ht).1
      rw [coords_of_eq hreg, hco] at hcl
      simp at hcl
    obtain ⟨p, rc, hrc, hp⟩ := (hinv.tree _ ht).1.inner_has_parent _ l hlt hne
    rw [hr] at hrc
    simp only [Option.some.injEq] at hrc
    subst hrc
    rw [hp]; simp

/-- What `load_from_files` makes of the files that `save_to_files` writes for
a forest built by `init` from a well-formed raster `R` followed by a merge
sequence `S` in which each merge joins, by label, two different parent-less
regions into the next free slot of the arena: both calls return (the second
for every step bound above the stated one), and the roots raster of the loaded
forest has the sizes of the original one, holds the label of the leaf at the
pixels of a leaf that was not merged, and agrees with the roots raster of the
original forest at every pixel whose leaf was merged.  The two rasters are
identical when `R` is already labelled densely in first-seen order. -/
theorem save_load_roots_round_trip (adj : Nat → List Nat) (R : Partition)
    (f : HierarchicalRegionPartition) (S : List (Nat × Nat × Nat))
    (hb : Built adj R f S) (hwf : R.data.length = R.sizes.prod) :
    ∃ pf mf, save_to_files f = .ok (pf, mf) ∧
      ∀ (fuel : Nat) (u : Bool) (m : Nat),
        f.heap.length + f.heap.length * R.data.length + 1 ≤ fuel →
        ∃ g, load_from_files fuel adj (HierarchicalRegionPartition.fresh u m) pf mf = .ok g
          ∧ g._roots_partition.sizes = f._roots_partition.sizes
          ∧ g._roots_partition.data.length = f._roots_partition.data.length
          ∧ (∀ (c : Nat), c < R.data.length →
              ∃ l r, f._leaves_partition.data[c]? = some l ∧ _region_by_label f l = .ok r
                ∧ (r.parent ≠ none →
                    g._roots_partition.data[c]? = f._roots_partition.data[c]?)
                ∧ (r.parent = none → g._roots_partition.data[c]? = some l))
          ∧ ((relabel [] 0 R.data).2.2 = R.data → g._roots_partition = f._roots_partition) := by
  obtain ⟨ts, hinv⟩ := built_inv hb
  refine ⟨_, _, built_save hinv hwf, ?_⟩
  intro fuel u m hfuel
  obtain ⟨g1, g3, hg1, hloop, hh, hr, hroots, hu⟩ := built_replay hb fuel u m S.length []
  rw [List.append_nil] at hloop
  have hDlen : (relabel [] 0 R.data).2.2.length = R.sizes.prod := by
    rw [relabel_length, hwf]
  have hp : ((relabel [] 0 R.data).2.2 ++ List.replicate R.sizes.prod 0).take R.sizes.prod
      = (relabel [] 0 R.data).2.2 := by
    rw [← hDlen, List.take_left']
    rfl
  have hslots : ∀ (a : Nat), some a ∈ g3._regions → a < f.heap.length := by
    intro a ha
    rw [hr] at ha
    obtain ⟨i, hi⟩ := List.getElem?_of_mem ha
    obtain ⟨h1, h2⟩ := hinv.reg_id i a hi
    omega
  obtain ⟨g', hg', hh', hsz, hl', h1, h2⟩ := update_all_roots_spec hinv fuel hfuel g3._regions
    hslots g3 hh (by rw [hroots]; simp only; rw [relabel_length])
  have hin : ∀ t ∈ ts, some t.addr ∈ g3._regions := by
    intro t ht
    rw [hr]
    exact List.getElem?_mem
      (hinv.reg_get t.addr ((hinv.nodup t ht).2 _ t.addr_mem_nodes))
  have hpix : ∀ (c : Nat), c < R.data.length →
      ∃ l r, f._leaves_partition.data[c]? = some l ∧ _region_by_label f l = .ok r
        ∧ (r.parent ≠ none →
            g'._roots_partition.data[c]? = f._roots_partition.data[c]?)
        ∧ (r.parent = none → g'._roots_partition.data[c]? = some l
            ∧ f._roots_partition.data[c]? = R.data[c]?) := by
    intro c hc
    obtain ⟨l, r, t, hDc, hcell, hby, ht, hct, hcase⟩ := hinv.pixel_cases c hc
    have hg : g'._roots_partition.data[c]? = some t.addr := h1 t ht (hin t ht) c hct
    refine ⟨l, r, by rw [hinv.leaves]; exact hDc, hby, ?_, ?_⟩
    · intro hpar
      rcases hcase with ⟨hp, -⟩ | ⟨-, a, lt, rt, rfl⟩
      · exact absurd hp hpar
      · rw [hg, hinv.roots_node a lt rt ht c hct]
        rfl
    · intro hpar
      rcases hcase with ⟨-, rfl⟩ | ⟨hp, -⟩
      · refine ⟨hg, ?_⟩
        exact hinv.roots_leaf l ht c ((hinv.coords l c).mpr hDc)
      · exact absurd hpar hp
  refine ⟨g', ?_, ?_, ?_, ?_, ?_⟩
  · unfold load_from_files
    simp only [hp, hg1, bind, Except.bind, hloop, hg']
  · rw [hsz, hroots, hinv.roots_sizes]
  · rw [hl', hinv.roots_len]
  · intro c hc
    obtain ⟨l, r, h3, h4, h5, h6⟩ := hpix c hc
    exact ⟨l, r, h3, h4, h5, fun hp => (h6 hp).1⟩
  · intro hdense
    apply partition_eq_of
    · rw [hsz, hroots, hinv.roots_sizes]
    · apply List.ext_getElem?
      intro c
      by_cases hc : c < R.data.length
      · obtain ⟨l, r, h3, h4, h5, h6⟩ := hpix c hc
        by_cases hpar : r.parent = none
        · obtain ⟨h7, h8⟩ := h6 hpar
          rw [h7, h8, ← hdense, ← h3, hinv.leaves]
        · exact h5 hpar
      · rw [List.getElem?_eq_none (by rw [hl']; omega),
          List.getElem?_eq_none (by rw [hinv.roots_len]; omega)]

/-- The one-merge forest on the 3x1 raster `[7, 8, 9]` is built by `init` and
the by-label merge of the parent-less regions 0 and 1 into slot 3. -/
theorem built_one_merge :
    Built (grid_adjacency 3 1 connectivity4) raster3x1 scenario_one_merge [(0, 1, 3)] :=
  Built.merge 20 scenario3x1 scenario_one_merge [] 0 1 3 ⟨0, [0], none, [], [1]⟩
    ⟨1, [1], none, [], [0, 2]⟩ (Built.init 0 scenario3x1 rfl) (by decide) rfl rfl rfl rfl rfl

/-- C7 fails on the code.  On the 3x1 raster `[7, 8, 9]`, after `init` and the
merge of the regions 0 and 1 into region 3 with roots updating enabled,
`save_to_files` and `load_from_files` into a fresh forest return, and the
loaded forest has the roots raster `[3, 3, 2]`, the labels of the parent-less
regions 3 and 2, while the roots raster of the original forest is `[3, 3, 9]`:
`init` copies the input raster into `_roots_partition` before it relabels, so
the pixel of the leaf 2, which no merge has rewritten, still holds the input
label 9.  The leaves rasters of the two forests are the same, `[0, 1, 2]`. -/
theorem save_load_roots_differ :
    Built (grid_adjacency 3 1 connectivity4) raster3x1 scenario_one_merge [(0, 1, 3)]
    ∧ scenario_one_merge._update_partition = true
    ∧ scenario_one_merge._leaves_partition = ⟨[3, 1], [0, 1, 2]⟩
    ∧ scenario_one_merge._roots_partition = ⟨[3, 1], [3, 3, 9]⟩
    ∧ save_to_files scenario_one_merge = .ok (⟨2, [3, 1], [0, 1, 2]⟩, ⟨1, [0, 1, 3]⟩)
    ∧ (load_from_files 20 (grid_adjacency 3 1 connectivity4)
        (HierarchicalRegionPartition.fresh true 0) ⟨2, [3, 1], [0, 1, 2]⟩ ⟨1, [0, 1, 3]⟩).map
        (fun g => (g._leaves_partition, g._roots_partition))
        = .ok (⟨[3, 1], [0, 1, 2]⟩, ⟨[3, 1], [3, 3, 2]⟩)
    ∧ (load_from_files 20 (grid_adjacency 3 1 connectivity4)
        (HierarchicalRegionPartition.fresh false 0) ⟨2, [3, 1], [0, 1, 2]⟩ ⟨1, [0, 1, 3]⟩).map
        (fun g => g._roots_partition) = .ok ⟨[3, 1], [3, 3, 2]⟩ :=
  ⟨built_one_merge, rfl, rfl, rfl, rfl, rfl, rfl⟩

theorem bits_of_length : ∀ (n v : Nat), (bits_of n v).length = n := by
  intro n
  induction n with
  | zero => intro v; rfl
  | succ n ih => intro v; simp [bits_of, ih]

theorem bits_foldl_acc : ∀ (l : List Bool) (acc : Nat),
    l.foldl (fun a b => 2 * a + b.toNat) acc = acc * 2 ^ l.length + bits_value l := by
  intro l
  induction l with
  | nil => intro acc; simp [bits_value]
  | cons b rest ih =>
    intro acc
    unfold bits_value
    simp only [List.foldl_cons, List.length_cons]
    rw [ih (2 * acc + b.toNat), ih (2 * 0 + b.toNat)]
    ring

theorem bits_value_cons (b : Bool) (l : List Bool) :
    bits_value (b :: l) = b.toNat * 2 ^ l.length + bits_value l := by
  have := bits_foldl_acc l (2 * 0 + b.toNat)
  unfold bits_value at this ⊢
  simp only [List.foldl_cons]
  rw [this]
  simp

theorem bits_value_append (xs ys : List Bool) :
    bits_value (xs ++ ys) = bits_value xs * 2 ^ ys.length + bits_value ys := by
  have := bits_foldl_acc ys (bits_value xs)
  unfold bits_value at this ⊢
  rw [List.foldl_append, this]

theorem bits_value_lt : ∀ (l : List Bool), bits_value l < 2 ^ l.length := by
  intro l
  induction l with
  | nil => simp [bits_value]
  | cons b rest ih =>
    rw [bits_value_cons, List.length_cons, pow_succ]
    have hb : b.toNat ≤ 1 := by cases b <;> simp
    have : b.toNat * 2 ^ rest.length ≤ 1 * 2 ^ rest.length := Nat.mul_le_mul_right _ hb
    omega

theorem bit_toNat (x : Nat) : (x % 2 == 1).toNat = x % 2 := by
  rcases Nat.mod_two_eq_zero_or_one x with h | h <;> simp [h]

theorem bits_value_bits_of : ∀ (n v : Nat), bits_value (bits_of n v) = v % 2 ^ n := by
  intro n
  induction n with
  | zero => intro v; simp [bits_of, bits_value, Nat.mod_one]
  | succ n ih =>
    intro v
    rw [bits_of, bits_value_cons, bits_of_length, ih, bit_toNat, Nat.mod_pow_succ]
    ring

theorem bits_of_add : ∀ (a b v : Nat), bits_of (a + b) v = bits_of a (v / 2 ^ b) ++ bits_of b v := by
  intro a
  induction a with
  | zero => intro b v; simp [bits_of]
  | succ a ih =>
    intro b v
    have e : a + 1 + b = (a + b) + 1 := by omega
    rw [e, bits_of, bits_of, ih b v, Nat.div_div_eq_div_mul, ← pow_add, Nat.add_comm b a]
    rfl

theorem bits_of_add_mul : ∀ (n k v : Nat), bits_of n (k * 2 ^ n + v) = bits_of n v := by
  intro n
  induction n with
  | zero => intro k v; rfl
  | succ n ih =>
    intro k v
    rw [bits_of, bits_of]
    have e : k * 2 ^ (n + 1) + v = (2 * k) * 2 ^ n + v := by rw [pow_succ]; ring
    rw [e, ih (2 * k) v]
    congr 1
    have h2 : ((2 * k) * 2 ^ n + v) / 2 ^ n = 2 * k + v / 2 ^ n := by
      rw [Nat.add_comm, Nat.add_mul_div_right _ _ (Nat.two_pow_pos n), Nat.add_comm]
    rw [h2]
    congr 1
    omega

theorem bits_of_mod (n v : Nat) : bits_of n (v % 2 ^ n) = bits_of n v := by
  conv_rhs => rw [← Nat.div_add_mod v (2 ^ n)]
  rw [Nat.mul_comm, bits_of_add_mul]

theorem bits_of_bits_value : ∀ (l : List Bool), bits_of l.length (bits_value l) = l := by
  intro l
  induction l with
  | nil => rfl
  | cons b rest ih =>
    rw [List.length_cons, bits_of, bits_value_cons, bits_of_add_mul, ih]
    congr 1
    have h1 := bits_value_lt rest
    have h2 : (b.toNat * 2 ^ rest.length + bits_value rest) / 2 ^ rest.length = b.toNat := by
      rw [Nat.add_comm, Nat.add_mul_div_right _ _ (Nat.two_pow_pos _), Nat.div_eq_of_lt h1]
      simp
    rw [h2]
    cases b <;> simp

theorem bits_of_take (a b v : Nat) : (bits_of (a + b) v).take a = bits_of a (v / 2 ^ b) := by
  rw [bits_of_add, List.take_left' (bits_of_length _ _)]

theorem bits_of_drop (a b v : Nat) : (bits_of (a + b) v).drop a = bits_of b v := by
  rw [bits_of_add, List.drop_left' (bits_of_length _ _)]

theorem mask_shift (k : Nat) (hk : k ≤ 8) : 255 >>> (8 - k) = 2 ^ k - 1 := by
  interval_cases k <;> rfl

theorem read_loop_spec : ∀ (fuel : Nat) (s : ReadBitStream) (still acc : Nat),
    s.Good → 1 ≤ still → still ≤ 64 → still ≤ s.bits.length →
    still + 8 ≤ 8 * fuel + s._bits_left →
    acc + bits_value (s.bits.take still) < 2 ^ 64 →
    ∃ s1 still1 acc1, ReadBitStream.read_loop fuel s still acc = .ok (s1, still1, acc1)
      ∧ s1.Good ∧ 1 ≤ still1 ∧ still1 ≤ s1._bits_left ∧ s1.file = s.file
      ∧ s1.bits.drop still1 = s.bits.drop still
      ∧ acc1 + bits_value (s1.bits.take still1) = acc + bits_value (s.bits.take still) := by
  intro fuel
  induction fuel with
  | zero =>
    intro s still acc hg h1 _ _ hm _
    have := hg.1
    omega
  | succ fuel ih =>
    intro s still acc hg h1 h63 hlen hm hacc
    obtain ⟨hbl, hbuf, hbytes, hfail⟩ := hg
    unfold ReadBitStream.read_loop
    by_cases hgt : still > s._bits_left
    · have hsh : still - s._bits_left < 64 ∨ s._buffer = 0 := by
        by_cases h0 : s._bits_left = 0
        · right
          rw [h0] at hbuf
          omega
        · left; omega
      simp only [hgt, if_true, hsh]
      -- a byte is left in the file
      have hlen' : s.bits.length
          = s._bits_left + ((s.file.drop s.pos).map (bits_of 8)).flatten.length := by
        unfold ReadBitStream.bits
        rw [List.length_append, bits_of_length]
      cases hd : s.file.drop s.pos with
      | nil =>
        rw [hd] at hlen'
        simp at hlen'
        omega
      | cons b rest =>
        have hb : s.file[s.pos]? = some b := by
          have := List.getElem?_drop s.file s.pos 0
          rw [hd] at this
          simpa using this.symm
        have hrest : s.file.drop (s.pos + 1) = rest := by
          have : s.file.drop (s.pos + 1) = (s.file.drop s.pos).drop 1 := by
            rw [List.drop_drop]
          rw [this, hd]
          rfl
        have hblt : b < 256 := hbytes b (List.getElem?_mem hb)
        have hsbits : s.bits = bits_of s._bits_left s._buffer
            ++ (bits_of 8 b ++ (rest.map (bits_of 8)).flatten) := by
          unfold ReadBitStream.bits
          rw [hd]
          simp
        have hfetch : ({ s.fetch with _bits_left := 8 } : ReadBitStream)
            = ⟨s.file, s.pos + 1, b, 8, false⟩ := by
          unfold ReadBitStream.fetch
          simp only [hfail, Bool.false_eq_true, if_false, hb]
        rw [hfetch]
        have hs'bits : (⟨s.file, s.pos + 1, b, 8, false⟩ : ReadBitStream).bits
            = bits_of 8 b ++ (rest.map (bits_of 8)).flatten := by
          unfold ReadBitStream.bits
          simp only [hrest]
        have htake : s.bits.take still = bits_of s._bits_left s._buffer
            ++ (bits_of 8 b ++ (rest.map (bits_of 8)).flatten).take (still - s._bits_left) := by
          rw [hsbits, List.take_append_eq_append_take, bits_of_length,
            List.take_of_length_le (by rw [bits_of_length]; omega)]
        have hval : bits_value (s.bits.take still)
            = s._buffer * 2 ^ (still - s._bits_left)
              + bits_value ((bits_of 8 b ++ (rest.map (bits_of 8)).flatten).take
                  (still - s._bits_left)) := by
          rw [htake, bits_value_append, bits_value_bits_of, Nat.mod_eq_of_lt hbuf,
            List.length_take, Nat.min_eq_left]
          rw [← hs'bits]
          have : s.bits.length = s._bits_left
              + (⟨s.file, s.pos + 1, b, 8, false⟩ : ReadBitStream).bits.length := by
            rw [hsbits, hs'bits, List.length_append, bits_of_length]
          omega
        have hacc' : (acc + s._buffer <<< (still - s._bits_left)) % 2 ^ 64
            = acc + s._buffer * 2 ^ (still - s._bits_left) := by
          rw [Nat.shiftLeft_eq]
          apply Nat.mod_eq_of_lt
          rw [hval] at hacc
          omega
        rw [hacc']
        have hlen2 : s.bits.length = s._bits_left
            + (⟨s.file, s.pos + 1, b, 8, false⟩ : ReadBitStream).bits.length := by
          rw [hsbits, hs'bits, List.length_append, bits_of_length]
        obtain ⟨s1, still1, acc1, hl, hg1, h11, h12, hf1, hd1, ha1⟩ :=
          ih ⟨s.file, s.pos + 1, b, 8, false⟩ (still - s._bits_left)
            (acc + s._buffer * 2 ^ (still - s._bits_left))
            ⟨le_refl _, hblt, hbytes, rfl⟩ (by omega) (by omega) (by omega)
            (by simp only; omega)
            (by rw [hs'bits]; rw [hval] at hacc; omega)
        refine ⟨s1, still1, acc1, hl, hg1, h11, h12, hf1, ?_, ?_⟩
        · rw [hd1, hs'bits, hsbits]
          have : still = s._bits_left + (still - s._bits_left) := by omega
          conv_rhs => rw [this, ← List.drop_drop]
          rw [List.drop_left' (bits_of_length _ _)]
        · rw [ha1, hs'bits, hval]
          omega
    · simp only [hgt, if_false]
      exact ⟨s, still, acc, rfl, ⟨hbl, hbuf, hbytes, hfail⟩, h1, by omega, rfl, rfl, rfl⟩

/-- `read(n)` for at most 64 bits that the stream still has: it returns the
value of the next `n` bits, most significant first, and leaves the stream
after them. -/
theorem read_spec_gen (s : ReadBitStream) (n : Nat) (hg : s.Good) (hn : n ≤ 64)
    (hlen : n ≤ s.bits.length) :
    ∃ s', s.read n = .ok (s', bits_value (s.bits.take n)) ∧ s'.Good
      ∧ s'.bits = s.bits.drop n ∧ s'.file = s.file := by
  unfold ReadBitStream.read
  have h64 : ¬ n > 64 := by omega
  simp only [h64, if_false]
  by_cases h0 : n = 0
  · subst h0
    simp only [ne_eq, not_true_eq_false, if_false]
    exact ⟨s, by simp [bits_value], hg, by simp, rfl⟩
  · simp only [ne_eq, h0, not_false_eq_true, if_true]
    have hlt : bits_value (s.bits.take n) < 2 ^ 64 := by
      have h1 := bits_value_lt (s.bits.take n)
      have h2 : (s.bits.take n).length = n := by
        rw [List.length_take]; omega
      rw [h2] at h1
      have h3 : 2 ^ n ≤ 2 ^ 64 := Nat.pow_le_pow_right (by omega) hn
      omega
    obtain ⟨s1, still1, acc1, hl, hg1, h11, h12, hf1, hd1, ha1⟩ :=
      read_loop_spec 10 s n 0 hg (by omega) hn hlen (by omega) (by omega)
    obtain ⟨hbl, hbuf, hbytes, hfail⟩ := hg1
    have hsplit : s1._bits_left = still1 + (s1._bits_left - still1) := by omega
    have hbits1 : s1.bits = bits_of (still1 + (s1._bits_left - still1)) s1._buffer
        ++ ((s1.file.drop s1.pos).map (bits_of 8)).flatten := by
      unfold ReadBitStream.bits
      rw [← hsplit]
    have htake : s1.bits.take still1
        = bits_of still1 (s1._buffer / 2 ^ (s1._bits_left - still1)) := by
      rw [hbits1, List.take_append_of_le_length (by rw [bits_of_length]; omega), bits_of_take]
    have hdiv : s1._buffer / 2 ^ (s1._bits_left - still1) < 2 ^ still1 := by
      apply Nat.div_lt_of_lt_mul
      rw [← pow_add, Nat.add_comm, ← hsplit]
      exact hbuf
    have hval : bits_value (s1.bits.take still1)
        = s1._buffer / 2 ^ (s1._bits_left - still1) := by
      rw [htake, bits_value_bits_of, Nat.mod_eq_of_lt hdiv]
    rw [hval, Nat.zero_add] at ha1
    have hmask : s1._buffer &&& (255 >>> (8 - (s1._bits_left - still1)))
        = s1._buffer % 2 ^ (s1._bits_left - still1) := by
      rw [mask_shift _ (by omega), Nat.and_pow_two_sub_one_eq_mod]
    have hret : (acc1 + (s1._buffer >>> (s1._bits_left - still1))) % 2 ^ 64
        = bits_value (s.bits.take n) := by
      rw [Nat.shiftRight_eq_div_pow, ha1, Nat.mod_eq_of_lt hlt]
    rw [hl]
    simp only [bind, Except.bind, hmask, hret]
    refine ⟨⟨s1.file, s1.pos, s1._buffer % 2 ^ (s1._bits_left - still1),
      s1._bits_left - still1, s1.fail⟩, rfl, ⟨by simp only; omega, ?_, hbytes, hfail⟩, ?_, hf1⟩
    · exact Nat.mod_lt _ (Nat.two_pow_pos _)
    · rw [← hd1]
      unfold ReadBitStream.bits
      simp only
      rw [bits_of_mod]
      conv_rhs => rw [hsplit]
      rw [List.drop_append_of_le_length (by rw [bits_of_length]; omega), bits_of_drop]

/-- `read(n)` for at most 63 bits that the stream still has: it returns the
value of the next `n` bits, most significant first, and leaves the stream
after them. -/
theorem read_spec (s : ReadBitStream) (n : Nat) (hg : s.Good) (hn : n ≤ 63)
    (hlen : n ≤ s.bits.length) :
    ∃ s', s.read n = .ok (s', bits_value (s.bits.take n)) ∧ s'.Good
      ∧ s'.bits = s.bits.drop n ∧ s'.file = s.file :=
  read_spec_gen s n hg (by omega) hlen

/-- A request for more than 64 bits is cut to 64 bits. -/
theorem read_clamp (s : ReadBitStream) (n : Nat) (hn : 64 < n) : s.read n = s.read 64 := by
  unfold ReadBitStream.read
  have h1 : n > 64 := hn
  have h2 : ¬ (64 : Nat) > 64 := by omega
  simp only [h1, h2, if_true, if_false]

theorem read_bit (s : ReadBitStream) (b : Bool) (tail : List Bool) (hg : s.Good)
    (hb : s.bits = b :: tail) :
    ∃ s', s.read 1 = .ok (s', b.toNat) ∧ s'.Good ∧ s'.bits = tail ∧ s'.file = s.file := by
  obtain ⟨s', hr, hg', hb', hf'⟩ := read_spec s 1 hg (by omega) (by rw [hb]; simp)
  refine ⟨s', ?_, hg', by rw [hb', hb]; rfl, hf'⟩
  rw [hr, hb]
  cases b <;> rfl

theorem read_field (s : ReadBitStream) (n v : Nat) (tail : List Bool) (hg : s.Good)
    (hn : n ≤ 64) (hb : s.bits = bits_of n v ++ tail) :
    ∃ s', s.read n = .ok (s', v % 2 ^ n) ∧ s'.Good ∧ s'.bits = tail ∧ s'.file = s.file := by
  obtain ⟨s', hr, hg', hb', hf'⟩ := read_spec_gen s n hg hn (by
    rw [hb, List.length_append, bits_of_length]; omega)
  refine ⟨s', ?_, hg', ?_, hf'⟩
  · rw [hr, hb, List.take_left' (bits_of_length _ _), bits_value_bits_of]
  · rw [hb', hb, List.drop_left' (bits_of_length _ _)]

theorem predicts_ok {r : Result Nat} {label : Nat} (h : predicts r label = true) :
    r = .ok label := by
  unfold predicts at h
  cases r with
  | error e => simp at h
  | ok v => simp only [decide_eq_true_eq] at h; rw [h]

/-- The decoder reads back the label of a record written by `encode_label`,
and ends with the same `max_label`. -/
theorem read_label_spec (num_bits width : Nat) (m : List Nat) (ptr max_label label : Nat)
    (rbs : ReadBitStream) (tail : List Bool) (hg : rbs.Good)
    (hl : label < 2 ^ num_bits) (hl32 : label < 2 ^ 32)
    (hb : rbs.bits = (encode_label num_bits width m ptr max_label label).1 ++ tail) :
    ∃ rbs', read_label num_bits width m ptr max_label rbs
        = .ok (rbs', label, (encode_label num_bits width m ptr max_label label).2)
      ∧ rbs'.Good ∧ rbs'.bits = tail ∧ rbs'.file = rbs.file := by
  unfold encode_label at hb ⊢
  unfold read_label
  by_cases h1 : predicts (up_value m ptr width) label = true
  · simp only [h1, if_true] at hb ⊢
    have hup := predicts_ok h1
    obtain ⟨s1, hr1, hg1, hb1, hf1⟩ := read_bit rbs false tail hg hb
    refine ⟨s1, ?_, hg1, hb1, hf1⟩
    simp only [hr1, bind, Except.bind, Bool.toNat_false, if_true, hup]
  · simp only [h1, Bool.false_eq_true, if_false] at hb ⊢
    by_cases h2 : predicts (up_one_right m ptr width) label = true
    · simp only [h2, if_true] at hb ⊢
      have hup := predicts_ok h2
      obtain ⟨s1, hr1, hg1, hb1, hf1⟩ := read_bit rbs true (false :: tail) hg hb
      obtain ⟨s2, hr2, hg2, hb2, hf2⟩ := read_bit s1 false tail hg1 hb1
      refine ⟨s2, ?_, hg2, hb2, hf2.trans hf1⟩
      simp only [hr1, hr2, bind, Except.bind, Bool.toNat_true, Bool.toNat_false, if_true,
        one_ne_zero, if_false, hup]
    · simp only [h2, Bool.false_eq_true, if_false] at hb ⊢
      by_cases h3 : (max_label + 1) % 2 ^ 32 = label
      · simp only [h3, if_true] at hb ⊢
        obtain ⟨s1, hr1, hg1, hb1, hf1⟩ := read_bit rbs true (true :: false :: tail) hg hb
        obtain ⟨s2, hr2, hg2, hb2, hf2⟩ := read_bit s1 true (false :: tail) hg1 hb1
        obtain ⟨s3, hr3, hg3, hb3, hf3⟩ := read_bit s2 false tail hg2 hb2
        refine ⟨s3, ?_, hg3, hb3, hf3.trans (hf2.trans hf1)⟩
        simp only [hr1, hr2, hr3, bind, Except.bind, Bool.toNat_true, Bool.toNat_false, if_true,
          one_ne_zero, if_false, h3]
      · simp only [h3, if_false] at hb ⊢
        obtain ⟨s1, hr1, hg1, hb1, hf1⟩ := read_bit rbs true
          (true :: true :: (bits_of (min num_bits 64) label ++ tail)) hg (by rw [hb]; rfl)
        obtain ⟨s2, hr2, hg2, hb2, hf2⟩ := read_bit s1 true
          (true :: (bits_of (min num_bits 64) label ++ tail)) hg1 hb1
        obtain ⟨s3, hr3, hg3, hb3, hf3⟩ := read_bit s2 true
          (bits_of (min num_bits 64) label ++ tail) hg2 hb2
        obtain ⟨s4, hr4, hg4, hb4, hf4⟩ := read_field s3 (min num_bits 64) label tail hg3
          (Nat.min_le_right _ _) hb3
        have hrn : s3.read num_bits = s3.read (min num_bits 64) := by
          by_cases h : 64 < num_bits
          · rw [read_clamp s3 num_bits h, Nat.min_eq_right (by omega)]
          · rw [Nat.min_eq_left (by omega)]
        rw [← hrn] at hr4
        have hlab : label % 2 ^ (min num_bits 64) % 2 ^ 32 = label := by
          have hlm : label < 2 ^ (min num_bits 64) := by
            by_cases h : num_bits ≤ 64
            · rw [Nat.min_eq_left h]; exact hl
            · rw [Nat.min_eq_right (by omega)]
              exact lt_of_lt_of_le hl32 (Nat.pow_le_pow_right (by omega) (by omega))
          rw [Nat.mod_eq_of_lt hlm]
          exact Nat.mod_eq_of_lt hl32
        refine ⟨s4, ?_, hg4, hb4, hf4.trans (hf3.trans (hf2.trans hf1))⟩
        simp only [hr1, hr2, hr3, hr4, bind, Except.bind, Bool.toNat_true, one_ne_zero,
          if_false, hlab]

/-- The decoder reads back the length of a record written by `encode_length`,
up to 255. -/
theorem read_length_spec (len : Nat) (rbs : ReadBitStream) (tail : List Bool) (hg : rbs.Good)
    (hlen : len ≤ 255) (hb : rbs.bits = encode_length len ++ tail) :
    ∃ rbs', read_length rbs = .ok (rbs', len) ∧ rbs'.Good ∧ rbs'.bits = tail
      ∧ rbs'.file = rbs.file := by
  unfold encode_length at hb
  unfold read_length
  by_cases h1 : 1 ≤ len ∧ len ≤ 4
  · simp only [h1, and_self, if_true] at hb
    obtain ⟨s1, hr1, hg1, hb1, hf1⟩ := read_bit rbs false (bits_of 2 (len - 1) ++ tail) hg
      (by rw [hb]; rfl)
    obtain ⟨s2, hr2, hg2, hb2, hf2⟩ := read_field s1 2 (len - 1) tail hg1 (by omega) hb1
    refine ⟨s2, ?_, hg2, hb2, hf2.trans hf1⟩
    have hv : (len - 1) % 2 ^ 2 % 256 + 1 = len := by
      have : (len - 1) % 2 ^ 2 = len - 1 := Nat.mod_eq_of_lt (by norm_num; omega)
      rw [this, Nat.mod_eq_of_lt (by omega)]
      omega
    simp only [hr1, hr2, bind, Except.bind, Bool.toNat_false, zero_ne_one, if_false, hv]
  · simp only [h1, if_false] at hb
    obtain ⟨s1, hr1, hg1, hb1, hf1⟩ := read_bit rbs true (bits_of 8 len ++ tail) hg
      (by rw [hb]; rfl)
    obtain ⟨s2, hr2, hg2, hb2, hf2⟩ := read_field s1 8 len tail hg1 (by omega) hb1
    refine ⟨s2, ?_, hg2, hb2, hf2.trans hf1⟩
    have hv : len % 2 ^ 8 % 256 = len := by
      have : len % 2 ^ 8 = len := Nat.mod_eq_of_lt (by norm_num; omega)
      rw [this, Nat.mod_eq_of_lt (by omega)]
    simp only [hr1, hr2, bind, Except.bind, Bool.toNat_true, if_true, hv]

theorem fill_run_spec : ∀ (len : Nat) (m : List Nat) (ptr label : Nat),
    ptr + len ≤ m.length →
    fill_run len m ptr label
      = .ok (m.take ptr ++ List.replicate len label ++ m.drop (ptr + len)) := by
  intro len
  induction len with
  | zero =>
    intro m ptr label _
    simp [fill_run]
  | succ len ih =>
    intro m ptr label h
    have hp : ptr < m.length := by omega
    unfold fill_run
    simp only [hp, if_true]
    rw [ih (m.set ptr label) (ptr + 1) label (by rw [List.length_set]; omega)]
    congr 1
    have h1 : (m.set ptr label).take (ptr + 1) = m.take ptr ++ [label] := by
      rw [List.set_eq_take_append_cons_drop]
      simp only [hp, if_true]
      rw [List.take_append_eq_append_take, List.length_take, Nat.min_eq_left (by omega)]
      simp
    have h2 : (m.set ptr label).drop (ptr + 1 + len) = m.drop (ptr + (len + 1)) := by
      rw [List.drop_set_of_lt _ _ (by omega)]
      congr 1
      omega
    rw [h1, h2, List.replicate_succ]
    simp

/-- The decoding loop on the records of a list of runs that fills the cells of
`data` from `ptr` on, every run having between 1 and 255 cells and a 32-bit
label of at most `num_bits` bits: the loop returns `data`. -/
theorem read_runs_spec (num_bits width : Nat) (data : List Nat) :
    ∀ (runs : List (Nat × Nat)) (ptr max_label fuel : Nat) (rbs : ReadBitStream)
      (tail : List Bool),
    rbs.Good → rbs.bits = encode_runs num_bits width data runs ptr max_label ++ tail →
    ptr ≤ data.length → expand_runs runs = data.drop ptr →
    (∀ r ∈ runs, 1 ≤ r.2 ∧ r.2 ≤ 255 ∧ r.1 < 2 ^ num_bits ∧ r.1 < 2 ^ 32) →
    runs.length + 1 ≤ fuel →
    read_runs num_bits width data.length fuel rbs
      (data.take ptr ++ List.replicate (data.length - ptr) 0) ptr max_label = .ok data := by
  intro runs
  induction runs with
  | nil =>
    intro ptr max_label fuel rbs tail _ _ hptr hex _ hfuel
    obtain ⟨k, rfl⟩ : ∃ k, fuel = k + 1 := ⟨fuel - 1, by simp at hfuel; omega⟩
    have hlen : data.length ≤ ptr := by
      have := congrArg List.length hex
      simp only [expand_runs, List.length_nil, List.length_drop] at this
      omega
    unfold read_runs
    have : ¬ ptr < data.length := by omega
    simp only [this, if_false]
    have e : ptr = data.length := by omega
    subst e
    simp
  | cons r rest ih =>
    intro ptr max_label fuel rbs tail hg hb hptr hex hruns hfuel
    obtain ⟨label, len⟩ := r
    obtain ⟨k, rfl⟩ : ∃ k, fuel = k + 1 := ⟨fuel - 1, by simp at hfuel; omega⟩
    obtain ⟨hl1, hl255, hlab, hlab32⟩ := hruns (label, len) (List.mem_cons_self _ _)
    simp only at hl1 hl255 hlab hlab32
    simp only [expand_runs] at hex
    have hlens : len + (expand_runs rest).length = data.length - ptr := by
      have := congrArg List.length hex
      simpa using this
    have hlt : ptr < data.length := by omega
    have hfit : ptr + len ≤ data.length := by omega
    -- the cells of the run
    have htake : (data.drop ptr).take len = List.replicate len label := by
      rw [← hex, List.take_left' (by simp)]
    have hrest : expand_runs rest = data.drop (ptr + len) := by
      rw [← List.drop_drop, ← hex, List.drop_left' (by simp)]
    simp only [encode_runs] at hb
    rw [List.append_assoc, List.append_assoc] at hb
    obtain ⟨s1, hr1, hg1, hb1, -⟩ := read_label_spec num_bits width
      (data.take ptr ++ List.replicate (data.length - ptr) 0) ptr max_label label rbs _ hg
      hlab hlab32 hb
    obtain ⟨s2, hr2, hg2, hb2, -⟩ := read_length_spec len s1 _ hg1 hl255 hb1
    have hmlen : (data.take ptr ++ List.replicate (data.length - ptr) 0).length
        = data.length := by
      rw [List.length_append, List.length_take, List.length_replicate]
      omega
    have hfill := fill_run_spec len (data.take ptr ++ List.replicate (data.length - ptr) 0)
      ptr label (by rw [hmlen]; exact hfit)
    have hnew : (data.take ptr ++ List.replicate (data.length - ptr) 0).take ptr
          ++ List.replicate len label
          ++ (data.take ptr ++ List.replicate (data.length - ptr) 0).drop (ptr + len)
        = data.take (ptr + len) ++ List.replicate (data.length - (ptr + len)) 0 := by
      have hl : (data.take ptr).length = ptr := by
        rw [List.length_take]; omega
      rw [List.take_left' hl, List.take_add, htake]
      congr 1
      have : ptr + len = (data.take ptr).length + len := by rw [hl]
      rw [this, List.drop_append, List.drop_replicate]
      congr 1
      rw [hl]
      omega
    rw [hnew] at hfill
    unfold read_runs
    simp only [hlt, if_true, hr1, hr2, hfill, bind, Except.bind]
    exact ih (ptr + len) _ k s2 tail hg2 hb2 hfit hrest
      (fun r hr => hruns r (List.mem_cons_of_mem _ hr))
      (by simp only [List.length_cons] at hfuel; omega)

theorem split_from_expand (max_run : Nat) : ∀ (rest : List Nat) (label len : Nat),
    expand_runs (split_from max_run label len rest) = List.replicate len label ++ rest := by
  intro rest
  induction rest with
  | nil => intro label len; simp [split_from, expand_runs]
  | cons x rest ih =>
    intro label len
    unfold split_from
    by_cases h : x = label ∧ len < max_run ∧ len < 255
    · simp only [h, and_self, if_true]
      rw [ih, List.replicate_succ']
      simp
    · simp only [h, if_false, expand_runs]
      rw [ih]
      simp

theorem split_from_props (max_run : Nat) : ∀ (rest : List Nat) (label len : Nat), 1 ≤ len →
    ∀ r ∈ split_from max_run label len rest,
      1 ≤ r.2 ∧ (r.1 = label ∨ r.1 ∈ rest) ∧ (len ≤ 255 → r.2 ≤ 255) := by
  intro rest
  induction rest with
  | nil =>
    intro label len hlen r hr
    simp only [split_from, List.mem_singleton] at hr
    subst hr
    exact ⟨hlen, Or.inl rfl, fun h => h⟩
  | cons x rest ih =>
    intro label len hlen r hr
    unfold split_from at hr
    by_cases h : x = label ∧ len < max_run ∧ len < 255
    · simp only [h, and_self, if_true] at hr
      obtain ⟨h1, h2, h3⟩ := ih label (len + 1) (by omega) r hr
      refine ⟨h1, ?_, fun _ => h3 (by omega)⟩
      rcases h2 with h2 | h2
      · exact Or.inl h2
      · exact Or.inr (List.mem_cons_of_mem _ h2)
    · simp only [h, if_false, List.mem_cons] at hr
      rcases hr with hr | hr
      · subst hr
        exact ⟨hlen, Or.inl rfl, fun h => h⟩
      · obtain ⟨h1, h2, h3⟩ := ih x 1 (le_refl _) r hr
        refine ⟨h1, ?_, fun _ => h3 (by omega)⟩
        rcases h2 with h2 | h2
        · exact Or.inr (by rw [h2]; exact List.mem_cons_self _ _)
        · exact Or.inr (List.mem_cons_of_mem _ h2)

theorem split_runs_expand (max_run : Nat) (data : List Nat) :
    expand_runs (split_runs max_run data) = data := by
  cases data with
  | nil => rfl
  | cons x rest =>
    unfold split_runs
    rw [split_from_expand]
    rfl

theorem split_runs_props (max_run : Nat) (data : List Nat) :
    ∀ r ∈ split_runs max_run data, 1 ≤ r.2 ∧ r.1 ∈ data ∧ r.2 ≤ 255 := by
  cases data with
  | nil => intro r hr; simp [split_runs] at hr
  | cons x rest =>
    intro r hr
    unfold split_runs at hr
    obtain ⟨h1, h2, h3⟩ := split_from_props max_run rest x 1 (le_refl _) r hr
    refine ⟨h1, ?_, h3 (by omega)⟩
    rcases h2 with h2 | h2
    · rw [h2]; exact List.mem_cons_self _ _
    · exact List.mem_cons_of_mem _ h2

theorem runs_length_le : ∀ (runs : List (Nat × Nat)), (∀ r ∈ runs, 1 ≤ r.2) →
    runs.length ≤ (expand_runs runs).length := by
  intro runs
  induction runs with
  | nil => intro _; simp
  | cons r rest ih =>
    intro h
    obtain ⟨label, len⟩ := r
    have h1 := h (label, len) (List.mem_cons_self _ _)
    have h2 := ih (fun r hr => h r (List.mem_cons_of_mem _ hr))
    simp only [expand_runs, List.length_cons, List.length_append, List.length_replicate]
    simp only at h1
    omega

theorem pack_bytes_bits : ∀ (k : Nat) (bs : List Bool), bs.length = 8 * k →
    ((pack_bytes k bs).map (bits_of 8)).flatten = bs := by
  intro k
  induction k with
  | zero =>
    intro bs h
    have : bs = [] := List.eq_nil_of_length_eq_zero (by omega)
    subst this
    rfl
  | succ k ih =>
    intro bs h
    simp only [pack_bytes, List.map_cons, List.flatten_cons]
    rw [ih (bs.drop 8) (by rw [List.length_drop]; omega)]
    have h8 : (bs.take 8).length = 8 := by rw [List.length_take]; omega
    have := bits_of_bits_value (bs.take 8)
    rw [h8] at this
    rw [this, List.take_append_drop]

theorem pack_bytes_lt : ∀ (k : Nat) (bs : List Bool), ∀ b ∈ pack_bytes k bs, b < 256 := by
  intro k
  induction k with
  | zero => intro bs b hb; simp [pack_bytes] at hb
  | succ k ih =>
    intro bs b hb
    simp only [pack_bytes, List.mem_cons] at hb
    rcases hb with hb | hb
    · subst hb
      have h1 := bits_value_lt (bs.take 8)
      have h2 : (bs.take 8).length ≤ 8 := by rw [List.length_take]; omega
      have h3 : 2 ^ (bs.take 8).length ≤ 2 ^ 8 := Nat.pow_le_pow_right (by omega) h2
      have h4 : (2 : Nat) ^ 8 = 256 := by norm_num
      omega
    · exact ih _ b hb

/-- The bits of the bytes of a packed bit string: the string, then zero bits
up to a whole byte. -/
theorem pack_bits_bits (bs : List Bool) :
    ((pack_bits bs).map (bits_of 8)).flatten
      = bs ++ List.replicate ((bs.length + 7) / 8 * 8 - bs.length) false := by
  unfold pack_bits
  apply pack_bytes_bits
  rw [List.length_append, List.length_replicate]
  omega

theorem le_value_le_bytes : ∀ (n v : Nat), le_value (le_bytes n v) = v % 256 ^ n := by
  intro n
  induction n with
  | zero => intro v; simp [le_bytes, le_value, Nat.mod_one]
  | succ n ih =>
    intro v
    rw [le_bytes, le_value, ih, pow_succ, Nat.mul_comm (256 ^ n) 256, Nat.mod_mul]

theorem le_bytes_length : ∀ (n v : Nat), (le_bytes n v).length = n := by
  intro n
  induction n with
  | zero => intro v; rfl
  | succ n ih => intro v; simp [le_bytes, ih]

theorem le_bytes_lt : ∀ (n v : Nat), ∀ b ∈ le_bytes n v, b < 256 := by
  intro n
  induction n with
  | zero => intro v b hb; simp [le_bytes] at hb
  | succ n ih =>
    intro v b hb
    simp only [le_bytes, List.mem_cons] at hb
    rcases hb with hb | hb
    · subst hb; exact Nat.mod_lt _ (by norm_num)
    · exact ih _ b hb

theorem prl_header_length (num_bits compress datatype size_x size_y : Nat) :
    (prl_header num_bits compress datatype size_x size_y).length = 30 := by
  simp [prl_header, le_bytes_length]

theorem read_bytes_append_left (h body : List Nat) (pos n : Nat) (hp : pos + n ≤ h.length) :
    read_bytes (h ++ body) pos n = some ((h.drop pos).take n) := by
  unfold read_bytes
  have : pos + n ≤ (h ++ body).length := by rw [List.length_append]; omega
  simp only [this, if_true]
  rw [List.drop_append_of_le_length (by omega),
    List.take_append_of_le_length (by rw [List.length_drop]; omega)]

theorem prl_header_num_bits (num_bits compress datatype size_x size_y : Nat) (body : List Nat) :
    (prl_header num_bits compress datatype size_x size_y ++ body)[29]? = some (num_bits % 256) := by
  rw [List.getElem?_append_left (by rw [prl_header_length]; omega)]
  simp [prl_header, le_bytes]

theorem prl_header_lt (num_bits compress datatype size_x size_y : Nat) :
    ∀ b ∈ prl_header num_bits compress datatype size_x size_y, b < 256 := by
  intro b hb
  simp only [prl_header, List.mem_append, List.mem_cons, List.mem_singleton,
    List.not_mem_nil, or_false] at hb
  rcases hb with ((((hb | hb) | hb) | hb) | hb) | hb
  · exact le_bytes_lt _ _ b hb
  · rcases hb with hb | hb | hb
    · omega
    · rw [hb]; exact Nat.mod_lt _ (by norm_num)
    · rw [hb]; exact Nat.mod_lt _ (by norm_num)
  · exact le_bytes_lt _ _ b hb
  · exact le_bytes_lt _ _ b hb
  · exact le_bytes_lt _ _ b hb
  · rw [hb]; exact Nat.mod_lt _ (by norm_num)

/-- `_read` on a 2-D header followed by a body: the header is accepted and the
runs are decoded from the bits of the body. -/
theorem read_header (fuel num_bits compress datatype size_x size_y : Nat) (body : List Nat)
    (hx : size_x < 2 ^ 64) (hy : size_y < 2 ^ 64) (hnb : num_bits < 256) :
    _read fuel (prl_header num_bits compress datatype size_x size_y ++ body)
      = (read_runs num_bits size_x ((size_x * size_y) % 2 ^ 64) fuel
          ⟨prl_header num_bits compress datatype size_x size_y ++ body, 30, 0, 0, false⟩
          (List.replicate (size_x * size_y) 0) 0 0).map (fun m => ⟨[size_x, size_y], m⟩) := by
  have e64 : (256 : Nat) ^ 8 = 2 ^ 64 := by norm_num
  have h1 := read_bytes_append_left (prl_header num_bits compress datatype size_x size_y) body 0 2
    (by rw [prl_header_length]; omega)
  have h2 := read_bytes_append_left (prl_header num_bits compress datatype size_x size_y) body 2 1
    (by rw [prl_header_length]; omega)
  have h3 := read_bytes_append_left (prl_header num_bits compress datatype size_x size_y) body 5 8
    (by rw [prl_header_length]; omega)
  have h4 := read_bytes_append_left (prl_header num_bits compress datatype size_x size_y) body 13 8
    (by rw [prl_header_length]; omega)
  have h5 := read_bytes_append_left (prl_header num_bits compress datatype size_x size_y) body 21 8
    (by rw [prl_header_length]; omega)
  have g1 : ((prl_header num_bits compress datatype size_x size_y).drop 0).take 2
      = [255, 0] := rfl
  have g2 : ((prl_header num_bits compress datatype size_x size_y).drop 2).take 1 = [1] := rfl
  have g3 : ((prl_header num_bits compress datatype size_x size_y).drop 5).take 8
      = le_bytes 8 2 := rfl
  have g4 : ((prl_header num_bits compress datatype size_x size_y).drop 13).take 8
      = le_bytes 8 size_x := rfl
  have g5 : ((prl_header num_bits compress datatype size_x size_y).drop 21).take 8
      = le_bytes 8 size_y := rfl
  rw [g1] at h1
  rw [g2] at h2
  rw [g3] at h3
  rw [g4] at h4
  rw [g5] at h5
  have v3 : le_value (le_bytes 8 2) = 2 := by rw [le_value_le_bytes]; norm_num
  have v4 : le_value (le_bytes 8 size_x) = size_x := by
    rw [le_value_le_bytes, e64, Nat.mod_eq_of_lt hx]
  have v5 : le_value (le_bytes 8 size_y) = size_y := by
    rw [le_value_le_bytes, e64, Nat.mod_eq_of_lt hy]
  have hdims : read_dims (prl_header num_bits compress datatype size_x size_y ++ body) 2 13
      = .ok [size_x, size_y] := by
    simp only [read_dims, h4, h5, v4, v5, bind, Except.bind]
  have hseek : (ReadBitStream.open
      (prl_header num_bits compress datatype size_x size_y ++ body)).seekg (112 + 64 * 2)
      = .ok ⟨prl_header num_bits compress datatype size_x size_y ++ body, 30, 0, 0, false⟩ := by
    unfold ReadBitStream.seekg ReadBitStream.open
    rfl
  unfold _read
  simp only [h1, h2, h3, v3, le_value, hdims, bind, Except.bind]
  simp only [ne_eq, not_true_eq_false, if_false, Nat.mul_zero, Nat.add_zero, Nat.mul_one,
    List.getElem?_cons_zero, List.getElem?_cons_succ]
  unfold _read_file
  rw [show 13 + 8 * 2 = 29 from rfl, prl_header_num_bits, Nat.mod_eq_of_lt hnb]
  simp only [hseek, bind, Except.bind]
  cases read_runs num_bits size_x (size_x * size_y % 2 ^ 64) fuel
    ⟨prl_header num_bits compress datatype size_x size_y ++ body, 30, 0, 0, false⟩
    (List.replicate (size_x * size_y) 0) 0 0 <;> rfl

theorem TreeAt.under {h : Heap} : ∀ (t : BTree), TreeAt h t →
    ∀ x ∈ t.nodes, Under h t.addr x := by
  intro t
  induction t with
  | leaf a =>
    intro _ x hx
    simp only [BTree.nodes, List.mem_singleton] at hx
    subst hx
    exact Under.refl
  | node a l r ihl ihr =>
    intro ht x hx
    obtain ⟨reg, hreg, hch, hco, hne, ⟨rl, hrl, hpl⟩, ⟨rr, hrr, hpr⟩, htl, htr⟩ := ht
    simp only [BTree.nodes, List.mem_cons, List.mem_append] at hx
    rcases hx with rfl | hx | hx
    · exact Under.refl
    · exact under_trans (ihl htl x hx) (Under.step _ _ rl hrl hpl Under.refl)
    · exact under_trans (ihr htr x hx) (Under.step _ _ rr hrr hpr Under.refl)

/-- What the roots raster holds in a forest built by `init` (roots updating
enabled) and merges in arena order: every pixel lies under one parent-less
region; if that region was created by a merge the roots raster holds its label
at the pixel, and if it is the pixel's own leaf the roots raster still holds
the label of the input raster there, which is the label of the leaf when the
input raster is labelled `0, 1, ...` in first-seen order. -/
theorem built_roots_raster (adj : Nat → List Nat) (R : Partition)
    (f : HierarchicalRegionPartition) (S : List (Nat × Nat × Nat)) (hb : Built adj R f S)
    (c : Nat) (hc : c < R.data.length) :
    ∃ l top rt, f._leaves_partition.data[c]? = some l ∧ Under f.heap top l
      ∧ f.heap[top]? = some (some rt) ∧ rt.parent = none ∧ rt.label = top
      ∧ (rt.children ≠ [] → f._roots_partition.data[c]? = some rt.label)
      ∧ (rt.children = [] → top = l ∧ f._roots_partition.data[c]? = R.data[c]?)
      ∧ ((relabel [] 0 R.data).2.2 = R.data → f._roots_partition.data[c]? = some rt.label) := by
  obtain ⟨ts, hinv⟩ := built_inv hb
  obtain ⟨l, r, t, hDc, hr, -, ht, hct, hcase⟩ := hinv.pixel_cases c hc
  obtain ⟨htree, rt, hrt, hpt⟩ := hinv.tree t ht
  obtain ⟨rt', hrt', hlab⟩ := hinv.cell t.addr (getElem?_lt_of_some hrt)
  rw [hrt] at hrt'
  simp only [Option.some.injEq] at hrt'
  subst hrt'
  have hlv : f._leaves_partition.data[c]? = some l := by rw [hinv.leaves]; exact hDc
  have hcl : c ∈ coords_of f.heap l := (hinv.coords l c).mpr hDc
  rcases hcase with ⟨hpn, rfl⟩ | ⟨hpn, a, lt, rtt, rfl⟩
  · simp only [BTree.addr] at hrt hlab
    obtain ⟨r0, hr0, hch0, -⟩ := htree
    rw [hrt] at hr0
    simp only [Option.some.injEq] at hr0
    subst hr0
    have hroot := hinv.roots_leaf l ht c hcl
    refine ⟨l, l, rt, hlv, Under.refl, hrt, hpt, hlab, fun h => absurd hch0 h,
      fun _ => ⟨rfl, hroot⟩, fun hd => ?_⟩
    rw [hroot, ← hd, hDc, hlab]
  · simp only [BTree.addr] at hrt hlab
    have hroot := hinv.roots_node a lt rtt ht c hct
    obtain ⟨l', hl', hcl'⟩ := hinv.coords_mem hct
    rw [hDc] at hcl'
    simp only [Option.some.injEq] at hcl'
    subst hcl'
    have hu := htree.under _ l hl'
    simp only [BTree.addr] at hu
    obtain ⟨reg, hreg, hch, -⟩ := htree
    rw [hrt] at hreg
    simp only [Option.some.injEq] at hreg
    subst hreg
    refine ⟨l, a, rt, hlv, hu, hrt, hpt, hlab, fun _ => by rw [hroot, hlab],
      fun h => ?_, fun _ => by rw [hroot, hlab]⟩
    rw [hch] at h
    cases h

/-- C12, the code at the failing inputs.  `init` copies the input raster into
the roots raster before it relabels, and a merge rewrites only the pixels under
the new parent.  (a) After `init` of the 3x1 raster `[7, 8, 9]` with roots
updating enabled, the regions 0, 1, 2 have no parent and hold the pixels 0, 1,
2, and the roots raster is `[7, 8, 9]`.  (b) After the merge of regions 0 and 1
into region 3 the roots raster is `[3, 3, 9]`, and pixel 2 belongs to the
parent-less region 2.  (c) After `init` of the raster `[3, 8, 9]` and the merge
of regions 1 and 2 into region 3, the roots raster is `[3, 3, 3]`, although
pixel 0 belongs to the parent-less region 0 and the pixels 1 and 2 are under
the parent-less region 3.  (d) `load_from_files`, which updates every root
after `init`, yields `[3, 3, 2]` for the forest of (b). -/
theorem roots_raster_keeps_input_labels :
    (init (grid_adjacency 3 1 connectivity4) (HierarchicalRegionPartition.fresh true 0)
        raster3x1 = .ok scenario3x1
      ∧ scenario3x1._update_partition = true
      ∧ scenario3x1.heap = [some ⟨0, [0], none, [], [1]⟩, some ⟨1, [1], none, [], [0, 2]⟩,
          some ⟨2, [2], none, [], [1]⟩]
      ∧ scenario3x1._roots_partition.data = [7, 8, 9])
    ∧ (merge_regions_by_label 20 scenario3x1 0 1 3 = .ok (scenario_one_merge, 3)
      ∧ scenario_one_merge.heap[2]? = some (some ⟨2, [2], none, [], [1]⟩)
      ∧ scenario_one_merge._roots_partition.data = [3, 3, 9])
    ∧ (init (grid_adjacency 3 1 connectivity4) (HierarchicalRegionPartition.fresh true 0)
        raster3x1_clash = .ok (forest_of (grid_adjacency 3 1 connectivity4) raster3x1_clash)
      ∧ merge_regions_by_label 20 (forest_of (grid_adjacency 3 1 connectivity4) raster3x1_clash)
          1 2 3 = .ok (scenario_clash, 3)
      ∧ scenario_clash.heap = [some ⟨0, [0], none, [], [1]⟩, some ⟨1, [1], some 3, [], []⟩,
          some ⟨2, [2], some 3, [], []⟩, some ⟨3, [], none, [1, 2], [0]⟩]
      ∧ scenario_clash._roots_partition.data = [3, 3, 3])
    ∧ (load_from_files 20 (grid_adjacency 3 1 connectivity4)
        (HierarchicalRegionPartition.fresh false 0) ⟨2, [3, 1], [0, 1, 2]⟩ ⟨1, [0, 1, 3]⟩).map
        (fun g => g._roots_partition.data) = .ok [3, 3, 2] :=
  ⟨⟨rfl, rfl, rfl, rfl⟩, ⟨rfl, rfl, rfl⟩, ⟨rfl, rfl, rfl, rfl⟩, rfl⟩

theorem slot_region_null {h : Heap} {regs : List (Option Nat)} {i : Nat}
    (hn : regs[i]? = some none) : slot_region h regs i = none := by
  unfold slot_region
  rw [hn]

theorem slot_region_some {h : Heap} {regs : List (Option Nat)} {i a : Nat}
    {r : HierarchicalRegion} (hs : regs[i]? = some (some a)) (hr : h[a]? = some (some r)) :
    slot_region h regs i = some r := by
  unfold slot_region
  rw [hs]
  simp only [hr]

theorem slot_region_eq_some {h : Heap} {regs : List (Option Nat)} {i : Nat}
    {r : HierarchicalRegion} (hs : slot_region h regs i = some r) :
    ∃ a, regs[i]? = some (some a) ∧ h[a]? = some (some r) := by
  unfold slot_region at hs
  split at hs
  · rename_i a ha
    split at hs
    · rename_i r' hr'
      simp only [Option.some.injEq] at hs
      subst hs
      exact ⟨a, ha, hr'⟩
    · cases hs
  · cases hs

/-- The loop of the iterator stops at the first slot from `i` on that is not
empty and satisfies the condition, or at the end of the arena. -/
theorem seek_spec (cond : HierarchicalRegion → Bool) (h : Heap) (regs : List (Option Nat))
    (hlive : SlotsAlive h regs) : ∀ (fuel i : Nat), i ≤ regs.length →
    regs.length - i + 1 ≤ fuel →
    ∃ j, conditional_iterator.seek cond h regs fuel ⟨i, regs.length⟩ = .ok ⟨j, regs.length⟩
      ∧ i ≤ j ∧ j ≤ regs.length
      ∧ (∀ k, i ≤ k → k < j → slot_satisfies cond h regs k = false)
      ∧ (j < regs.length → slot_satisfies cond h regs j = true) := by
  intro fuel
  induction fuel with
  | zero => intro i _ hf; omega
  | succ fuel ih =>
    intro i hi hf
    unfold conditional_iterator.seek
    by_cases hend : i = regs.length
    · subst hend
      refine ⟨regs.length, ?_, le_refl _, le_refl _, fun k h1 h2 => by omega, fun h => by omega⟩
      simp
    · have hlt : i < regs.length := by omega
      simp only [ne_eq, hend, not_false_eq_true, if_true]
      have hget : regs[i]? = some (regs[i]) := List.getElem?_eq_getElem hlt
      generalize regs[i] = slot at hget
      rw [hget]
      cases slot with
      | none =>
        simp only
        obtain ⟨j, hj, h1, h2, h3, h4⟩ := ih (i + 1) (by omega) (by omega)
        refine ⟨j, hj, by omega, h2, fun k hk1 hk2 => ?_, h4⟩
        by_cases hki : k = i
        · subst hki
          unfold slot_satisfies
          rw [slot_region_null hget]
        · exact h3 k (by omega) hk2
      | some a =>
        simp only
        obtain ⟨r, hr⟩ := hlive i a hget
        rw [deref_eq_ok.mpr hr]
        simp only [bind, Except.bind]
        have hsat : slot_satisfies cond h regs i = cond r := by
          unfold slot_satisfies
          rw [slot_region_some hget hr]
        by_cases hc : cond r = true
        · simp only [hc, if_true]
          exact ⟨i, rfl, le_refl _, by omega, fun k h1 h2 => by omega, fun _ => by rw [hsat, hc]⟩
        · simp only [hc, if_false]
          obtain ⟨j, hj, h1, h2, h3, h4⟩ := ih (i + 1) (by omega) (by omega)
          refine ⟨j, hj, by omega, h2, fun k hk1 hk2 => ?_, h4⟩
          by_cases hki : k = i
          · subst hki
            rw [hsat]
            simpa using hc
          · exact h3 k (by omega) hk2

theorem end_iterator_eq (h : Heap) (regs : List (Option Nat)) (fuel : Nat) (hf : 1 ≤ fuel) :
    end_iterator h regs fuel = .ok ⟨regs.length, regs.length⟩ := by
  obtain ⟨n, rfl⟩ : ∃ n, fuel = n + 1 := ⟨fuel - 1, by omega⟩
  unfold end_iterator conditional_iterator.construct conditional_iterator.seek
  simp

theorem visits_from_skip (cond : HierarchicalRegion → Bool) (h : Heap) (regs : List (Option Nat))
    (i j : Nat) (hij : i ≤ j) (hj : j ≤ regs.length)
    (hno : ∀ k, i ≤ k → k < j → slot_satisfies cond h regs k = false) :
    visits_from cond h regs i = visits_from cond h regs j := by
  unfold visits_from
  have hsplit : List.range' i (regs.length - i)
      = List.range' i (j - i) ++ List.range' j (regs.length - j) := by
    have h1 : regs.length - i = (regs.length - j) + (j - i) := by omega
    have h2 : i + (j - i) = j := by omega
    rw [h1, ← List.range'_append_1, h2]
  rw [hsplit, List.filterMap_append]
  have hnil : List.filterMap (fun k =>
      match slot_region h regs k with
      | some r => if cond r then some (k, r) else none
      | none => none) (List.range' i (j - i)) = [] := by
    rw [List.filterMap_eq_nil_iff]
    intro k hk
    rw [List.mem_range'_1] at hk
    have := hno k hk.1 (by omega)
    unfold slot_satisfies at this
    split at this
    · rename_i r hr
      simp only [this]
      simp
    · rfl
  rw [hnil, List.nil_append]

theorem visits_from_cons (cond : HierarchicalRegion → Bool) (h : Heap) (regs : List (Option Nat))
    (i : Nat) (r : HierarchicalRegion) (hi : i < regs.length)
    (hr : slot_region h regs i = some r) (hc : cond r = true) :
    visits_from cond h regs i = (i, r) :: visits_from cond h regs (i + 1) := by
  unfold visits_from
  have : regs.length - i = (regs.length - (i + 1)) + 1 := by omega
  rw [this, List.range'_succ, List.filterMap_cons]
  simp only [hr, hc, if_true]

theorem traverse_spec (cond : HierarchicalRegion → Bool) (h : Heap) (regs : List (Option Nat))
    (hlive : SlotsAlive h regs) (fuel : Nat) (hfuel : regs.length + 1 ≤ fuel) :
    ∀ (n i : Nat), i ≤ regs.length → regs.length - i + 1 ≤ n →
    (i < regs.length → slot_satisfies cond h regs i = true) →
    traverse cond h regs fuel n ⟨i, regs.length⟩ = .ok (visits_from cond h regs i) := by
  intro n
  induction n with
  | zero => intro i _ hn; omega
  | succ n ih =>
    intro i hi hn hsat
    unfold traverse
    rw [end_iterator_eq h regs fuel (by omega)]
    simp only [bind, Except.bind]
    by_cases hend : i = regs.length
    · subst hend
      simp [visits_from]
    · have hlt : i < regs.length := by omega
      simp only [ne_eq, hend, not_false_eq_true, if_true]
      have hs := hsat hlt
      unfold slot_satisfies at hs
      split at hs
      · rename_i r hr
        obtain ⟨a, ha, hra⟩ := slot_region_eq_some hr
        have hstar : conditional_iterator.star h regs ⟨i, regs.length⟩ = .ok r := by
          unfold conditional_iterator.star
          simp only [slot_pointer_eq_ok.mpr ha, bind, Except.bind]
          exact deref_eq_ok.mpr hra
        rw [hstar]
        simp only
        obtain ⟨j, hj, h1, h2, h3, h4⟩ := seek_spec cond h regs hlive fuel (i + 1) (by omega)
          (by omega)
        unfold conditional_iterator.increment
        simp only [hj]
        rw [ih j h2 (by omega) h4]
        simp only
        rw [visits_from_cons cond h regs i r hlt hr hs,
          visits_from_skip cond h regs (i + 1) j h1 h2 h3]
      · cases hs

/-- Result of a view iterated from `begin()` to `end()`. -/
theorem iterate_view_eq (cond : HierarchicalRegion → Bool) (h : Heap) (regs : List (Option Nat))
    (hlive : SlotsAlive h regs) (fuel : Nat) (hfuel : regs.length + 1 ≤ fuel) :
    iterate_view cond h regs fuel = .ok (visits_from cond h regs 0) := by
  unfold iterate_view begin_iterator conditional_iterator.construct
  obtain ⟨b, hb, -, hb2, hb3, -⟩ := seek_spec global h regs hlive fuel 0 (Nat.zero_le _) (by omega)
  rw [hb]
  simp only [bind, Except.bind, conditional_iterator.convert]
  obtain ⟨j, hj, hj1, hj2, hj3, hj4⟩ := seek_spec cond h regs hlive fuel b hb2 (by omega)
  rw [hj]
  simp only
  rw [traverse_spec cond h regs hlive fuel hfuel fuel j hj2 (by omega) hj4]
  have hno : ∀ k, 0 ≤ k → k < j → slot_satisfies cond h regs k = false := by
    intro k _ hk
    by_cases hkb : k < b
    · have hg := hb3 k (Nat.zero_le _) hkb
      unfold slot_satisfies at hg ⊢
      split at hg
      · simp [global] at hg
      · rfl
    · exact hj3 k (by omega) hk
  rw [← visits_from_skip cond h regs 0 j (Nat.zero_le _) hj2 hno]

theorem visits_from_fst (cond : HierarchicalRegion → Bool) (h : Heap) (regs : List (Option Nat)) :
    (visits_from cond h regs 0).map Prod.fst
      = (List.range regs.length).filter (slot_satisfies cond h regs) := by
  unfold visits_from
  rw [Nat.sub_zero, ← List.range_eq_range']
  induction List.range regs.length with
  | nil => rfl
  | cons k rest ih =>
    rw [List.filterMap_cons, List.filter_cons]
    unfold slot_satisfies
    cases hk : slot_region h regs k with
    | none => simpa using ih
    | some r =>
      simp only
      by_cases hc : cond r = true
      · simp only [hc, if_true, List.map_cons]
        rw [ih]
        rfl
      · simp only [hc, if_false]
        simpa [slot_satisfies] using ih

theorem visits_from_mem (cond : HierarchicalRegion → Bool) (h : Heap) (regs : List (Option Nat))
    (x : Nat × HierarchicalRegion) :
    x ∈ visits_from cond h regs 0 ↔
      x.1 < regs.length ∧ slot_region h regs x.1 = some x.2 ∧ cond x.2 = true := by
  unfold visits_from
  rw [List.mem_filterMap]
  constructor
  · rintro ⟨k, hk, hx⟩
    rw [List.mem_range'_1] at hk
    split at hx
    · rename_i r hr
      split at hx
      · rename_i hc
        simp only [Option.some.injEq] at hx
        subst hx
        exact ⟨by omega, hr, hc⟩
      · cases hx
    · cases hx
  · rintro ⟨h1, h2, h3⟩
    refine ⟨x.1, ?_, ?_⟩
    · rw [List.mem_range'_1]
      omega
    · simp only [h2, h3, if_true]

theorem visits_from_filter (cond : HierarchicalRegion → Bool) (h : Heap)
    (regs : List (Option Nat)) :
    visits_from cond h regs 0 = (visits_from global h regs 0).filter (fun x => cond x.2) := by
  unfold visits_from
  simp only [global, if_true]
  induction List.range' 0 (regs.length - 0) with
  | nil => rfl
  | cons k rest ih =>
    rw [List.filterMap_cons, List.filterMap_cons]
    cases hk : slot_region h regs k with
    | none => simpa using ih
    | some r =>
      simp only
      rw [List.filter_cons]
      by_cases hc : cond r = true
      · simp only [hc, if_true]
        rw [ih]
      · simp only [hc, if_false]
        simpa using ih

theorem non_leaves_eq_not_leaves (r : HierarchicalRegion) : non_leaves r = !leaves r := by
  unfold non_leaves leaves
  cases r.children <;> simp

theorem non_roots_eq_not_roots (r : HierarchicalRegion) : non_roots r = !roots r := by
  unfold non_roots roots
  cases r.parent <;> simp

/-- A check of `SlotsAlive` that can be evaluated. -/
theorem slots_alive_of_all {h : Heap} {regs : List (Option Nat)}
    (hall : regs.all (fun s =>
      match s with
      | none => true
      | some a => (slot_region h [some a] 0).isSome) = true) : SlotsAlive h regs := by
  intro i a hi
  rw [List.all_eq_true] at hall
  have := hall (some a) (List.getElem?_mem hi)
  simp only at this
  rw [Option.isSome_iff_exists] at this
  obtain ⟨r, hr⟩ := this
  obtain ⟨a', ha', hr'⟩ := slot_region_eq_some hr
  simp only [List.getElem?_cons_zero, Option.some.injEq] at ha'
  subst ha'
  exact ⟨r, hr'⟩

/-- The view as a list of regions, `conditional_view`, holds the regions of the
visits of the iterator. -/
theorem conditional_view_visits (cond : HierarchicalRegion → Bool) (h : Heap)
    (regs : List (Option Nat)) (hlive : SlotsAlive h regs) :
    ∀ (n i : Nat), regs.length - i = n → i ≤ regs.length →
    conditional_view cond h (regs.drop i) = .ok ((visits_from cond h regs i).map Prod.snd) := by
  intro n
  induction n with
  | zero =>
    intro i hn hi
    have : i = regs.length := by omega
    subst this
    simp [visits_from, conditional_view]
  | succ n ih =>
    intro i hn hi
    have hlt : i < regs.length := by omega
    have hd : regs.drop i = regs[i] :: regs.drop (i + 1) := List.drop_eq_getElem_cons hlt
    have hget : regs[i]? = some (regs[i]) := List.getElem?_eq_getElem hlt
    have hr' : List.range' i (regs.length - i) = i :: List.range' (i + 1) (regs.length - (i + 1)) := by
      have : regs.length - i = (regs.length - (i + 1)) + 1 := by omega
      rw [this, List.range'_succ]
    have ih' := ih (i + 1) (by omega) (by omega)
    unfold visits_from at ih' ⊢
    rw [hd, hr', List.filterMap_cons]
    generalize regs[i] = slot at hget
    cases slot with
    | none =>
      rw [slot_region_null hget]
      simp only [conditional_view]
      exact ih'
    | some a =>
      obtain ⟨r, hr⟩ := hlive i a hget
      rw [slot_region_some hget hr]
      simp only [conditional_view, deref_eq_ok.mpr hr, bind, Except.bind, ih']
      by_cases hc : cond r = true
      · simp [hc]
      · simp [hc]

/-- C13. For every arena whose non-empty slots point to regions of the heap,
each view (the five condition functors, and any other condition), iterated
with its iterator from `begin()` to `end()`, returns: the slots visited are
exactly the slots of the arena that are not empty and whose region satisfies
the condition, each once and in ascending order; the region yielded at a visit
is the one the slot points to; and the leaves and the non-leaves, and the roots
and the non-roots, each split the visits of the global view into two disjoint
parts. -/
theorem conditional_iterator_views (h : Heap) (regs : List (Option Nat))
    (hlive : SlotsAlive h regs) (fuel : Nat) (hfuel : regs.length + 1 ≤ fuel) :
    (∀ cond : HierarchicalRegion → Bool, ∃ out, iterate_view cond h regs fuel = .ok out
      ∧ out.map Prod.fst = (List.range regs.length).filter (slot_satisfies cond h regs)
      ∧ (out.map Prod.fst).Pairwise (fun i j => i < j)
      ∧ (∀ x ∈ out, slot_region h regs x.1 = some x.2 ∧ cond x.2 = true)
      ∧ conditional_view cond h regs = .ok (out.map Prod.snd))
    ∧ ∃ og ol onl orr onr, iterate_view global h regs fuel = .ok og
      ∧ iterate_view leaves h regs fuel = .ok ol
      ∧ iterate_view non_leaves h regs fuel = .ok onl
      ∧ iterate_view roots h regs fuel = .ok orr
      ∧ iterate_view non_roots h regs fuel = .ok onr
      ∧ (ol ++ onl).Perm og ∧ (∀ x ∈ ol, x ∉ onl)
      ∧ (orr ++ onr).Perm og ∧ (∀ x ∈ orr, x ∉ onr) := by
  constructor
  · intro cond
    refine ⟨_, iterate_view_eq cond h regs hlive fuel hfuel, visits_from_fst cond h regs, ?_,
      fun x hx => ?_, ?_⟩
    · rw [visits_from_fst]
      exact List.Pairwise.sublist (List.filter_sublist _) (List.pairwise_lt_range _)
    · exact ((visits_from_mem cond h regs x).1 hx).2
    · have := conditional_view_visits cond h regs hlive regs.length 0 rfl (Nat.zero_le _)
      simpa using this
  · refine ⟨_, _, _, _, _, iterate_view_eq global h regs hlive fuel hfuel,
      iterate_view_eq leaves h regs hlive fuel hfuel,
      iterate_view_eq non_leaves h regs hlive fuel hfuel,
      iterate_view_eq roots h regs hlive fuel hfuel,
      iterate_view_eq non_roots h regs hlive fuel hfuel, ?_, ?_, ?_, ?_⟩
    · rw [visits_from_filter leaves, visits_from_filter non_leaves]
      have : (fun x : Nat × HierarchicalRegion => non_leaves x.2)
          = (fun x => !(fun x : Nat × HierarchicalRegion => leaves x.2) x) := by
        funext x
        exact non_leaves_eq_not_leaves x.2
      rw [this]
      exact List.filter_append_perm _ _
    · intro x hx hx'
      have h1 := ((visits_from_mem leaves h regs x).1 hx).2.2
      have h2 := ((visits_from_mem non_leaves h regs x).1 hx').2.2
      rw [non_leaves_eq_not_leaves, h1] at h2
      cases h2
    · rw [visits_from_filter roots, visits_from_filter non_roots]
      have : (fun x : Nat × HierarchicalRegion => non_roots x.2)
          = (fun x => !(fun x : Nat × HierarchicalRegion => roots x.2) x) := by
        funext x
        exact non_roots_eq_not_roots x.2
      rw [this]
      exact List.filter_append_perm _ _
    · intro x hx hx'
      have h1 := ((visits_from_mem roots h regs x).1 hx).2.2
      have h2 := ((visits_from_mem non_roots h regs x).1 hx').2.2
      rw [non_roots_eq_not_roots, h1] at h2
      cases h2

/-- Witness of C13: the 3x1 forest after one merge, whose arena is
`[0, 1, 2, 3, null]`. -/
theorem conditional_iterator_views_witness :
    SlotsAlive scenario_one_merge.heap scenario_one_merge._regions
    ∧ scenario_one_merge._regions.length + 1 ≤ 6
    ∧ scenario_one_merge._regions = [some 0, some 1, some 2, some 3, none]
    ∧ (iterate_view roots scenario_one_merge.heap scenario_one_merge._regions 6).map
        (fun out => out.map Prod.fst) = .ok [2, 3]
    ∧ (iterate_view leaves scenario_one_merge.heap scenario_one_merge._regions 6).map
        (fun out => out.map Prod.fst) = .ok [0, 1, 2]
    ∧ ((∀ cond : HierarchicalRegion → Bool, ∃ out,
          iterate_view cond scenario_one_merge.heap scenario_one_merge._regions 6 = .ok out
        ∧ out.map Prod.fst = (List.range scenario_one_merge._regions.length).filter
            (slot_satisfies cond scenario_one_merge.heap scenario_one_merge._regions)
        ∧ (out.map Prod.fst).Pairwise (fun i j => i < j)
        ∧ (∀ x ∈ out, slot_region scenario_one_merge.heap scenario_one_merge._regions x.1
            = some x.2 ∧ cond x.2 = true)
        ∧ conditional_view cond scenario_one_merge.heap scenario_one_merge._regions
            = .ok (out.map Prod.snd))
      ∧ ∃ og ol onl orr onr,
        iterate_view global scenario_one_merge.heap scenario_one_merge._regions 6 = .ok og
        ∧ iterate_view leaves scenario_one_merge.heap scenario_one_merge._regions 6 = .ok ol
        ∧ iterate_view non_leaves scenario_one_merge.heap scenario_one_merge._regions 6 = .ok onl
        ∧ iterate_view roots scenario_one_merge.heap scenario_one_merge._regions 6 = .ok orr
        ∧ iterate_view non_roots scenario_one_merge.heap scenario_one_merge._regions 6 = .ok onr
        ∧ (ol ++ onl).Perm og ∧ (∀ x ∈ ol, x ∉ onl)
        ∧ (orr ++ onr).Perm og ∧ (∀ x ∈ orr, x ∉ onr)) :=
  ⟨slots_alive_of_all rfl, by decide, rfl, rfl, rfl,
    conditional_iterator_views scenario_one_merge.heap scenario_one_merge._regions
      (slots_alive_of_all rfl) 6 (by decide)⟩

/-- C16, the code at the failing inputs.  On every file of at least two bytes
whose 16-bit magic number is not 255, and on every file of at least three
bytes with magic number 255 whose file-type byte is not 1, `_read` runs the
statement `throw;` while no exception is being handled: the program is
terminated, and no exception object reaches the caller.  For example, on
the file that holds the two bytes `0, 0` followed by any bytes. -/
theorem read_bad_header_terminates :
    (∀ (fuel b0 b1 : Nat) (rest : List Nat),
        b0 + 256 * b1 = 255 ∨ _read fuel (b0 :: b1 :: rest) = .error .terminate)
    ∧ (∀ (fuel ft : Nat) (rest : List Nat),
        ft = 1 ∨ _read fuel (255 :: 0 :: ft :: rest) = .error .terminate)
    ∧ (∀ (fuel : Nat) (rest : List Nat), _read fuel (0 :: 0 :: rest) = .error .terminate)
    ∧ (∀ (fuel : Nat) (rest : List Nat),
        _read fuel (255 :: 0 :: 2 :: rest) = .error .terminate) := by
  have h1 : ∀ (fuel b0 b1 : Nat) (rest : List Nat),
      b0 + 256 * b1 = 255 ∨ _read fuel (b0 :: b1 :: rest) = .error .terminate := by
    intro fuel b0 b1 rest
    by_cases h : b0 + 256 * b1 = 255
    · exact Or.inl h
    · right
      unfold _read read_bytes
      simp only [List.length_cons, show 0 + 2 ≤ rest.length + 1 + 1 by omega, if_true,
        List.drop_zero, List.take_succ_cons, List.take_zero, le_value]
      have : b0 + 256 * (b1 + 256 * 0) ≠ 255 := by omega
      simp only [this, ne_eq, not_false_eq_true, if_true]
  have h2 : ∀ (fuel ft : Nat) (rest : List Nat),
      ft = 1 ∨ _read fuel (255 :: 0 :: ft :: rest) = .error .terminate := by
    intro fuel ft rest
    by_cases h : ft = 1
    · exact Or.inl h
    · right
      unfold _read read_bytes
      simp only [List.length_cons, show 0 + 2 ≤ rest.length + 1 + 1 + 1 by omega,
        show 2 + 1 ≤ rest.length + 1 + 1 + 1 by omega, if_true,
        List.drop_zero, List.take_succ_cons, List.take_zero, le_value, List.drop_succ_cons]
      have : ft + 256 * 0 ≠ 1 := by omega
      simp only [Nat.reduceMul, Nat.add_zero, ne_eq, not_true_eq_false, if_false, this,
        not_false_eq_true, if_true]
      rw [if_pos h]
  refine ⟨h1, h2, fun fuel rest => ?_, fun fuel rest => ?_⟩
  · exact (h1 fuel 0 0 rest).resolve_left (by decide)
  · exact (h2 fuel 2 rest).resolve_left (by decide)

theorem good_open (file : List Nat) (hbytes : ∀ b ∈ file, b < 256) :
    (ReadBitStream.open file).Good :=
  ⟨by simp [ReadBitStream.open], by simp [ReadBitStream.open], hbytes, rfl⟩

/-- C17 (amended): for a run that starts at index `ptr`, the label casuistics
of the decoder return: on the prefix `0`, the label stored at index
`ptr - width` (for a run below the first row), with `max_label` unchanged; on
the prefix `110`, the 32-bit sum `max_label + 1` as the label and as the new
`max_label`, which is `max_label + 1` unless `max_label` is `2^32 - 1`; on the
prefix `111`, the value `v` of the field that follows, most significant bit
first, cut to 32 bits, and the larger of `max_label` and this label as the new
`max_label`; the field has `num_bits` bits (64 for a wider field, `read`
cutting the request), and the label is `v` itself for `num_bits ≤ 32`.  In each
case the stream is left right after the bits named. -/
theorem read_label_prefixes (num_bits width : Nat) (m : List Nat) (ptr max_label : Nat)
    (rbs : ReadBitStream) (tail : List Bool) (hg : rbs.Good) :
    (∀ v, rbs.bits = false :: tail → width ≤ ptr → m[ptr - width]? = some v →
      ∃ rbs', read_label num_bits width m ptr max_label rbs = .ok (rbs', v, max_label)
        ∧ rbs'.Good ∧ rbs'.bits = tail)
    ∧ (rbs.bits = true :: true :: false :: tail →
      ∃ rbs', read_label num_bits width m ptr max_label rbs
          = .ok (rbs', (max_label + 1) % 2 ^ 32, (max_label + 1) % 2 ^ 32)
        ∧ (max_label + 1 < 2 ^ 32 → (max_label + 1) % 2 ^ 32 = max_label + 1)
        ∧ rbs'.Good ∧ rbs'.bits = tail)
    ∧ (∀ field : List Bool, field.length = min num_bits 64 →
      rbs.bits = true :: true :: true :: (field ++ tail) →
      ∃ rbs', read_label num_bits width m ptr max_label rbs
          = .ok (rbs', bits_value field % 2 ^ 32, max max_label (bits_value field % 2 ^ 32))
        ∧ (num_bits ≤ 32 → bits_value field % 2 ^ 32 = bits_value field)
        ∧ rbs'.Good ∧ rbs'.bits = tail) := by
  refine ⟨fun v hb hw hv => ?_, fun hb => ?_, fun field hfl hb => ?_⟩
  · obtain ⟨s1, hr1, hg1, hb1, -⟩ := read_bit rbs false tail hg hb
    refine ⟨s1, ?_, hg1, hb1⟩
    unfold read_label up_value
    simp only [hr1, bind, Except.bind, Bool.toNat_false, if_true, hw, hv]
  · obtain ⟨s1, hr1, hg1, hb1, -⟩ := read_bit rbs true _ hg hb
    obtain ⟨s2, hr2, hg2, hb2, -⟩ := read_bit s1 true _ hg1 hb1
    obtain ⟨s3, hr3, hg3, hb3, -⟩ := read_bit s2 false _ hg2 hb2
    refine ⟨s3, ?_, fun h => Nat.mod_eq_of_lt h, hg3, hb3⟩
    unfold read_label
    simp only [hr1, hr2, hr3, bind, Except.bind, Bool.toNat_true, Bool.toNat_false,
      one_ne_zero, if_false, if_true]
  · obtain ⟨s1, hr1, hg1, hb1, -⟩ := read_bit rbs true _ hg hb
    obtain ⟨s2, hr2, hg2, hb2, -⟩ := read_bit s1 true _ hg1 hb1
    obtain ⟨s3, hr3, hg3, hb3, -⟩ := read_bit s2 true _ hg2 hb2
    obtain ⟨s4, hr4, hg4, hb4, -⟩ := read_spec_gen s3 (min num_bits 64) hg3
      (Nat.min_le_right _ _) (by rw [hb3, List.length_append]; omega)
    rw [hb3, List.take_left' hfl] at hr4
    rw [hb3, List.drop_left' hfl] at hb4
    have hrn : s3.read num_bits = s3.read (min num_bits 64) := by
      by_cases h : 64 < num_bits
      · rw [read_clamp s3 num_bits h, Nat.min_eq_right (by omega)]
      · rw [Nat.min_eq_left (by omega)]
    rw [← hrn] at hr4
    refine ⟨s4, ?_, ?_, hg4, hb4⟩
    · unfold read_label
      simp only [hr1, hr2, hr3, hr4, bind, Except.bind, Bool.toNat_true,
        one_ne_zero, if_false]
      congr 3
      by_cases hc : bits_value field % 2 ^ 32 > max_label
      · simp only [hc, if_true]
        omega
      · simp only [hc, if_false]
        omega
    · intro hnb
      apply Nat.mod_eq_of_lt
      have h1 := bits_value_lt field
      rw [hfl, Nat.min_eq_left (by omega)] at h1
      have h2 : 2 ^ num_bits ≤ 2 ^ 32 := Nat.pow_le_pow_right (by omega) hnb
      omega

/-- Witness of C17 (amended): a stream on the byte `0xD5` (bits `11010101`),
one on the byte `0x15` and one on the byte `0xF5` (bits `111` and the 5-bit
field `10101`), with labels of 5 bits, width 2, the buffer `[7, 8, 0, 0]`, a
run that starts at index 2 and `max_label = 8`. -/
theorem read_label_prefixes_witness :
    (ReadBitStream.open [0x15]).Good ∧ (ReadBitStream.open [0xD5]).Good
    ∧ (ReadBitStream.open [0xF5]).Good
    ∧ (∃ rbs', read_label 5 2 [7, 8, 0, 0] 2 8 (ReadBitStream.open [0x15]) = .ok (rbs', 7, 8)
        ∧ rbs'.Good ∧ rbs'.bits = [false, false, true, false, true, false, true])
    ∧ (∃ rbs', read_label 5 2 [7, 8, 0, 0] 2 8 (ReadBitStream.open [0xD5])
          = .ok (rbs', (8 + 1) % 2 ^ 32, (8 + 1) % 2 ^ 32)
        ∧ (8 + 1 < 2 ^ 32 → (8 + 1) % 2 ^ 32 = 8 + 1)
        ∧ rbs'.Good ∧ rbs'.bits = [true, false, true, false, true])
    ∧ (∃ rbs', read_label 5 2 [7, 8, 0, 0] 2 8 (ReadBitStream.open [0xF5])
          = .ok (rbs', bits_value [true, false, true, false, true] % 2 ^ 32,
              max 8 (bits_value [true, false, true, false, true] % 2 ^ 32))
        ∧ (5 ≤ 32 → bits_value [true, false, true, false, true] % 2 ^ 32
            = bits_value [true, false, true, false, true])
        ∧ rbs'.Good ∧ rbs'.bits = [])
    ∧ (read_label 5 2 [7, 8, 0, 0] 2 8 (ReadBitStream.open [0xD5])).map (fun r => r.2)
        = .ok (9, 9)
    ∧ (read_label 5 2 [7, 8, 0, 0] 2 8 (ReadBitStream.open [0xF5])).map (fun r => r.2)
        = .ok (21, 21) :=
  ⟨good_open _ (by decide), good_open _ (by decide), good_open _ (by decide),
    (read_label_prefixes 5 2 [7, 8, 0, 0] 2 8 (ReadBitStream.open [0x15])
      [false, false, true, false, true, false, true] (good_open _ (by decide))).1
      7 (by decide) (by decide) rfl,
    (read_label_prefixes 5 2 [7, 8, 0, 0] 2 8 (ReadBitStream.open [0xD5])
      [true, false, true, false, true] (good_open _ (by decide))).2.1
      (by decide),
    (read_label_prefixes 5 2 [7, 8, 0, 0] 2 8 (ReadBitStream.open [0xF5])
      [] (good_open _ (by decide))).2.2 [true, false, true, false, true] rfl
      (by decide),
    rfl, rfl⟩

/-- Counterexample to C17 as stated.  On the prefix `110` with `max_label` at
`2^32 - 1` the decoder gives the label 0 and sets `max_label` to 0, not to
`max_label + 1`.  On the prefix `111` with labels of 33 bits and the field
`1` followed by 32 zeros, the value `2^32`, the decoder gives the label 0 and
keeps `max_label = 8`.  On the prefix `111` with labels of 72 bits and a field
of value 1, the decoder reads the first 64 bits of the field only: it gives the
label 0 and leaves the last 8 bits of the field in the stream. -/
theorem read_label_prefixes_counterexample :
    (read_label 5 2 [7, 8, 0, 0] 2 (2 ^ 32 - 1) (ReadBitStream.open [0xD5])).map
        (fun r => r.2) = .ok (0, 0)
    ∧ (ReadBitStream.open [0xF0, 0, 0, 0, 0]).bits.take 36
        = [true, true, true] ++ bits_of 33 (2 ^ 32)
    ∧ (read_label 33 2 [7, 8, 0, 0] 2 8 (ReadBitStream.open [0xF0, 0, 0, 0, 0])).map
        (fun r => r.2) = .ok (0, 8)
    ∧ (ReadBitStream.open [0xE0, 0, 0, 0, 0, 0, 0, 0, 0, 0x20]).bits.take 75
        = [true, true, true] ++ bits_of 72 1
    ∧ (read_label 72 2 [7, 8, 0, 0] 2 8
        (ReadBitStream.open [0xE0, 0, 0, 0, 0, 0, 0, 0, 0, 0x20])).map
        (fun r => (r.1.bits.take 8, r.2)) = .ok (bits_of 8 1, 0, 8) := by
  refine ⟨rfl, by decide, rfl, by decide, ?_⟩
  rfl

theorem find_first (p : Nat → Bool) : ∀ (l : List Nat) (n v : Nat), l[n]? = some v →
    p v = true → (∀ k, k < n → ∀ x, l[k]? = some x → p x = false) → l.find? p = some v := by
  intro l
  induction l with
  | nil => intro n v h; simp at h
  | cons a rest ih =>
    intro n v hv hp hbefore
    cases n with
    | zero =>
      simp only [List.getElem?_cons_zero, Option.some.injEq] at hv
      subst hv
      simp [List.find?_cons, hp]
    | succ n =>
      have ha : p a = false := hbefore 0 (by omega) a (by simp)
      simp only [List.getElem?_cons_succ] at hv
      rw [List.find?_cons, ha]
      exact ih n v hv hp (fun k hk x hx => hbefore (k + 1) (by omega) x (by simpa using hx))

/-- The scan of "Up-one-right" from the cell after `ptr - width`: it returns
the first cell of the buffer, in row-major order, that differs from the cell
at `ptr - width`, and it is undefined when no later cell of the buffer
differs. -/
theorem up_one_right_scan (m : List Nat) (ptr width up : Nat) (hw : width ≤ ptr)
    (hup : m[ptr - width]? = some up) :
    (∀ j v, ptr - width < j → m[j]? = some v → v ≠ up →
        (∀ k, ptr - width < k → k < j → m[k]? = some up) → up_one_right m ptr width = .ok v)
    ∧ ((∀ k, ptr - width < k → k < m.length → m[k]? = some up) →
        up_one_right m ptr width = .error .undefined_behaviour) := by
  have hval : up_value m ptr width = .ok up := by
    unfold up_value
    simp only [hw, if_true, hup]
  constructor
  · intro j v hj hv hne hbefore
    unfold up_one_right
    simp only [hval, bind, Except.bind]
    have hfind : (m.drop (ptr - width + 1)).find? (fun x => x != up) = some v := by
      apply find_first _ _ (j - (ptr - width + 1)) v
      · rw [List.getElem?_drop]
        have : ptr - width + 1 + (j - (ptr - width + 1)) = j := by omega
        rw [this]
        exact hv
      · simpa using hne
      · intro k hk x hx
        rw [List.getElem?_drop] at hx
        have := hbefore (ptr - width + 1 + k) (by omega) (by omega)
        rw [this] at hx
        simp only [Option.some.injEq] at hx
        subst hx
        simp
    rw [hfind]
  · intro hall
    unfold up_one_right
    simp only [hval, bind, Except.bind]
    have hfind : (m.drop (ptr - width + 1)).find? (fun x => x != up) = none := by
      rw [List.find?_eq_none]
      intro x hx
      obtain ⟨k, hk⟩ := List.getElem?_of_mem hx
      rw [List.getElem?_drop] at hk
      have hlt := getElem?_lt_of_some hk
      rw [hall _ (by omega) hlt] at hk
      simp only [Option.some.injEq] at hk
      subst hk
      simp
    rw [hfind]

/-- C18 (amended). For a run with prefix `10` that starts at index `ptr` below
the first row (`width ≤ ptr`), with `up` the label at index `ptr - width`, the
cell above: the decoder returns the label of the first cell after index
`ptr - width`, in row-major order over the whole buffer, that differs from
`up`, leaves `max_label` unchanged and the stream after the two bits of the
prefix; the result is fixed by the cells up to that one.  When no cell of the
buffer after index `ptr - width` differs from `up`, the scan leaves the buffer
and the behaviour is undefined. -/
theorem read_label_up_one_right (num_bits width : Nat) (m : List Nat) (ptr max_label : Nat)
    (rbs : ReadBitStream) (tail : List Bool) (up : Nat) (hg : rbs.Good)
    (hb : rbs.bits = true :: false :: tail) (hw : width ≤ ptr)
    (hup : m[ptr - width]? = some up) :
    (∀ j v, ptr - width < j → m[j]? = some v → v ≠ up →
        (∀ k, ptr - width < k → k < j → m[k]? = some up) →
        ∃ rbs', read_label num_bits width m ptr max_label rbs = .ok (rbs', v, max_label)
          ∧ rbs'.Good ∧ rbs'.bits = tail)
    ∧ ((∀ k, ptr - width < k → k < m.length → m[k]? = some up) →
        read_label num_bits width m ptr max_label rbs = .error .undefined_behaviour) := by
  obtain ⟨s1, hr1, hg1, hb1, -⟩ := read_bit rbs true _ hg hb
  obtain ⟨s2, hr2, hg2, hb2, -⟩ := read_bit s1 false _ hg1 hb1
  obtain ⟨hfound, hnone⟩ := up_one_right_scan m ptr width up hw hup
  constructor
  · intro j v hj hv hne hbefore
    refine ⟨s2, ?_, hg2, hb2⟩
    unfold read_label
    simp only [hr1, hr2, bind, Except.bind, Bool.toNat_true, Bool.toNat_false, one_ne_zero,
      if_false, if_true, hfound j v hj hv hne hbefore]
  · intro hall
    unfold read_label
    simp only [hr1, hr2, bind, Except.bind, Bool.toNat_true, Bool.toNat_false, one_ne_zero,
      if_false, if_true, hnone hall]

/-- Witness of C18 (amended): width 3, the buffer `[5, 5, 6, 0, 0, 0]`, a run
that starts at index 3 with the prefix `10` (byte `0x80`): the label is 6, the
cell at index 2. -/
theorem read_label_up_one_right_witness :
    (ReadBitStream.open [0x80]).Good
    ∧ (ReadBitStream.open [0x80]).bits
        = true :: false :: [false, false, false, false, false, false]
    ∧ 3 ≤ 3 ∧ ([5, 5, 6, 0, 0, 0] : List Nat)[3 - 3]? = some 5
    ∧ ∃ rbs', read_label 8 3 [5, 5, 6, 0, 0, 0] 3 6 (ReadBitStream.open [0x80])
          = .ok (rbs', 6, 6)
        ∧ rbs'.Good ∧ rbs'.bits = [false, false, false, false, false, false] :=
  ⟨good_open _ (by decide), by decide, by decide, by decide,
    (read_label_up_one_right 8 3 [5, 5, 6, 0, 0, 0] 3 6 (ReadBitStream.open [0x80])
      [false, false, false, false, false, false] 5 (good_open _ (by decide)) (by decide)
      (by decide) (by decide)).1 2 6 (by decide) (by decide) (by decide)
      (fun k h1 h2 => by
        have : k = 1 := by omega
        subst this
        rfl)⟩

/-- Counterexample to C18 as stated.  (a) Width 2, the buffer `[1, 1, 0, 0]`
(row 0 written, row 1 not yet), a run with prefix `10` that starts at index 2,
that is, at (row 1, column 0): no cell of row 0 right of column 0 differs from
the label 1 above, and the decoder returns 0, the label of the cell at index
2, in row 1.  (b) Width 2, the buffer `[0, 0, 0, 0]`: no cell differs and the
scan leaves the buffer. -/
theorem read_label_up_one_right_counterexample :
    (up_one_right [1, 1, 0, 0] 2 2 = .ok 0
      ∧ ([1, 1, 0, 0] : List Nat)[0]? = some 1 ∧ ([1, 1, 0, 0] : List Nat)[1]? = some 1
      ∧ ([1, 1, 0, 0] : List Nat)[2]? = some 0 ∧ 2 / 2 = 1
      ∧ (read_label 8 2 [1, 1, 0, 0] 2 1 (ReadBitStream.open [0x80])).map (fun r => r.2)
          = .ok (0, 1))
    ∧ (up_one_right [0, 0, 0, 0] 2 2 = .error .undefined_behaviour
      ∧ read_label 8 2 [0, 0, 0, 0] 2 0 (ReadBitStream.open [0x80])
          = .error .undefined_behaviour) :=
  ⟨⟨rfl, rfl, rfl, rfl, rfl, rfl⟩, ⟨rfl, rfl⟩⟩

/-- C19 (amended). After the label, on the flag bit 1 the run length is the
value of the following 8 bits, a number from 0 to 255, and on the flag bit 0 it
is the value of the following 2 bits plus one, a number from 1 to 4; the
stream is left right after the field.  Every length from 0 to 255 is the value
of a field of 8 bits, and every length from 1 to 4 is one more than the value
of a field of 2 bits. -/
theorem read_length_forms (rbs : ReadBitStream) (tail : List Bool) (hg : rbs.Good) :
    (∀ field : List Bool, field.length = 8 → rbs.bits = true :: (field ++ tail) →
      ∃ rbs', read_length rbs = .ok (rbs', bits_value field) ∧ rbs'.Good ∧ rbs'.bits = tail
        ∧ bits_value field ≤ 255)
    ∧ (∀ field : List Bool, field.length = 2 → rbs.bits = false :: (field ++ tail) →
      ∃ rbs', read_length rbs = .ok (rbs', bits_value field + 1) ∧ rbs'.Good ∧ rbs'.bits = tail
        ∧ 1 ≤ bits_value field + 1 ∧ bits_value field + 1 ≤ 4)
    ∧ (∀ len, len ≤ 255 → (bits_of 8 len).length = 8 ∧ bits_value (bits_of 8 len) = len)
    ∧ (∀ len, 1 ≤ len → len ≤ 4 →
        (bits_of 2 (len - 1)).length = 2 ∧ bits_value (bits_of 2 (len - 1)) + 1 = len) := by
  refine ⟨fun field hfl hb => ?_, fun field hfl hb => ?_, fun len hl => ?_, fun len h1 h4 => ?_⟩
  · obtain ⟨s1, hr1, hg1, hb1, -⟩ := read_bit rbs true _ hg hb
    obtain ⟨s2, hr2, hg2, hb2, -⟩ := read_spec s1 8 hg1 (by omega)
      (by rw [hb1, List.length_append]; omega)
    rw [hb1, List.take_left' hfl] at hr2
    rw [hb1, List.drop_left' hfl] at hb2
    have hlt : bits_value field < 256 := by
      have h1 := bits_value_lt field
      rw [hfl] at h1
      exact h1
    refine ⟨s2, ?_, hg2, hb2, by omega⟩
    unfold read_length
    simp only [hr1, hr2, bind, Except.bind, Bool.toNat_true, if_true, Nat.mod_eq_of_lt hlt]
  · obtain ⟨s1, hr1, hg1, hb1, -⟩ := read_bit rbs false _ hg hb
    obtain ⟨s2, hr2, hg2, hb2, -⟩ := read_spec s1 2 hg1 (by omega)
      (by rw [hb1, List.length_append]; omega)
    rw [hb1, List.take_left' hfl] at hr2
    rw [hb1, List.drop_left' hfl] at hb2
    have hlt : bits_value field < 4 := by
      have h1 := bits_value_lt field
      rw [hfl] at h1
      exact h1
    refine ⟨s2, ?_, hg2, hb2, by omega, by omega⟩
    unfold read_length
    simp only [hr1, hr2, bind, Except.bind, Bool.toNat_false, zero_ne_one, if_false,
      Nat.mod_eq_of_lt (show bits_value field < 256 by omega)]
  · refine ⟨bits_of_length 8 len, ?_⟩
    rw [bits_value_bits_of]
    exact Nat.mod_eq_of_lt (by norm_num; omega)
  · refine ⟨bits_of_length 2 (len - 1), ?_⟩
    rw [bits_value_bits_of, Nat.mod_eq_of_lt (by norm_num; omega)]
    omega

/-- Witness of C19 (amended): the stream on the bytes `0xFF, 0x80` (flag 1 and
the field `11111111`) gives the length 255, and the stream on the byte `0x60`
(flag 0 and the field `11`) gives the length 4. -/
theorem read_length_forms_witness :
    (ReadBitStream.open [0xFF, 0x80]).Good ∧ (ReadBitStream.open [0x60]).Good
    ∧ (∃ rbs', read_length (ReadBitStream.open [0xFF, 0x80])
          = .ok (rbs', bits_value [true, true, true, true, true, true, true, true])
        ∧ rbs'.Good ∧ rbs'.bits = [false, false, false, false, false, false, false]
        ∧ bits_value [true, true, true, true, true, true, true, true] ≤ 255)
    ∧ (∃ rbs', read_length (ReadBitStream.open [0x60]) = .ok (rbs', bits_value [true, true] + 1)
        ∧ rbs'.Good ∧ rbs'.bits = [false, false, false, false, false]
        ∧ 1 ≤ bits_value [true, true] + 1 ∧ bits_value [true, true] + 1 ≤ 4)
    ∧ bits_value [true, true, true, true, true, true, true, true] = 255
    ∧ bits_value [true, true] + 1 = 4 :=
  ⟨good_open _ (by decide), good_open _ (by decide),
    (read_length_forms (ReadBitStream.open [0xFF, 0x80])
      [false, false, false, false, false, false, false] (good_open _ (by decide))).1
      [true, true, true, true, true, true, true, true] rfl (by decide),
    (read_length_forms (ReadBitStream.open [0x60]) [false, false, false, false, false]
      (good_open _ (by decide))).2.1 [true, true] rfl (by decide),
    by decide, by decide⟩

/-- Counterexample to C19 as stated.  On the stream of the bytes `0x80, 0x00`
(flag 1 and the field `00000000`) the decoded run length is 0; and no field of
8 bits has the value 256, the largest being 255. -/
theorem read_length_forms_counterexample :
    (ReadBitStream.open [0x80, 0x00]).bits
        = true :: ([false, false, false, false, false, false, false, false]
            ++ [false, false, false, false, false, false, false])
    ∧ (read_length (ReadBitStream.open [0x80, 0x00])).map (fun r => r.2) = .ok 0
    ∧ (∀ b0 b1 b2 b3 b4 b5 b6 b7 : Bool, bits_value [b0, b1, b2, b3, b4, b5, b6, b7] ≠ 256)
    ∧ (read_length (ReadBitStream.open [0xFF, 0x80])).map (fun r => r.2) = .ok 255 :=
  ⟨by decide, rfl, by decide, rfl⟩

theorem read_runs_eq_trace (num_bits width total_elem : Nat) :
    ∀ (fuel : Nat) (rbs : ReadBitStream) (m : List Nat) (n max_label : Nat),
    read_runs num_bits width total_elem fuel rbs m n max_label
      = (read_runs_trace num_bits width total_elem fuel rbs m n max_label).map (fun r => r.1) := by
  intro fuel
  induction fuel with
  | zero => intro rbs m n max_label; rfl
  | succ fuel ih =>
    intro rbs m n max_label
    unfold read_runs read_runs_trace
    by_cases hn : n < total_elem
    · simp only [hn, if_true]
      cases h1 : read_label num_bits width m n max_label rbs with
      | error e => rfl
      | ok v1 =>
        obtain ⟨rbs1, label, max1⟩ := v1
        simp only [bind, Except.bind]
        cases h2 : read_length rbs1 with
        | error e => rfl
        | ok v2 =>
          obtain ⟨rbs2, len⟩ := v2
          simp only
          cases h3 : fill_run len m n label with
          | error e => rfl
          | ok m1 =>
            simp only
            rw [ih rbs2 m1 (n + len) max1]
            cases read_runs_trace num_bits width total_elem fuel rbs2 m1 (n + len) max1 with
            | error e => rfl
            | ok v => rfl
    · simp only [hn, if_false]
      rfl

theorem fill_run_overflow : ∀ (len : Nat) (m : List Nat) (ptr label : Nat),
    ptr ≤ m.length → m.length < ptr + len →
    fill_run len m ptr label = .error .undefined_behaviour := by
  intro len
  induction len with
  | zero => intro m ptr label h1 h2; omega
  | succ len ih =>
    intro m ptr label h1 h2
    unfold fill_run
    by_cases hp : ptr < m.length
    · simp only [hp, if_true]
      exact ih _ _ _ (by rw [List.length_set]; omega) (by rw [List.length_set]; omega)
    · simp only [hp, if_false]

theorem fill_run_cases (len : Nat) (m : List Nat) (ptr label : Nat) (hp : ptr ≤ m.length) :
    fill_run len m ptr label
      = if ptr + len ≤ m.length
        then .ok (m.take ptr ++ List.replicate len label ++ m.drop (ptr + len))
        else .error .undefined_behaviour := by
  by_cases h : ptr + len ≤ m.length
  · rw [if_pos h]
    exact fill_run_spec len m ptr label h
  · rw [if_neg h]
    exact fill_run_overflow len m ptr label hp (by omega)

theorem read_runs_trace_tiles (num_bits width : Nat) :
    ∀ (fuel : Nat) (rbs : ReadBitStream) (m : List Nat) (n max_label : Nat)
      (m' : List Nat) (count : Nat) (runs : List (Nat × Nat)),
    n ≤ m.length →
    read_runs_trace num_bits width m.length fuel rbs m n max_label = .ok (m', count, runs) →
    count = m.length ∧ n + (runs.map Prod.snd).sum = m.length
      ∧ m' = m.take n ++ expand_runs runs := by
  intro fuel
  induction fuel with
  | zero =>
    intro rbs m n max_label m' count runs _ h
    cases h
  | succ fuel ih =>
    intro rbs m n max_label m' count runs hn h
    unfold read_runs_trace at h
    by_cases hlt : n < m.length
    · simp only [hlt, if_true] at h
      cases h1 : read_label num_bits width m n max_label rbs with
      | error e => rw [h1] at h; cases h
      | ok v1 =>
        obtain ⟨rbs1, label, max1⟩ := v1
        rw [h1] at h
        simp only [bind, Except.bind] at h
        cases h2 : read_length rbs1 with
        | error e => rw [h2] at h; cases h
        | ok v2 =>
          obtain ⟨rbs2, len⟩ := v2
          rw [h2] at h
          simp only at h
          rw [fill_run_cases len m n label hn] at h
          by_cases hfit : n + len ≤ m.length
          · rw [if_pos hfit] at h
            simp only at h
            set m1 := m.take n ++ List.replicate len label ++ m.drop (n + len) with hm1
            have hlen1 : m1.length = m.length := by
              simp only [hm1, List.length_append, List.length_take, List.length_replicate,
                List.length_drop]
              omega
            cases h3 : read_runs_trace num_bits width m.length fuel rbs2 m1 (n + len) max1 with
            | error e => rw [h3] at h; cases h
            | ok v3 =>
              obtain ⟨m2, c2, runs2⟩ := v3
              rw [h3] at h
              simp only [Except.ok.injEq, Prod.mk.injEq] at h
              obtain ⟨rfl, rfl, rfl⟩ := h
              rw [← hlen1] at h3
              obtain ⟨hc, hs, hm⟩ := ih rbs2 m1 (n + len) max1 _ _ _ (by omega) h3
              refine ⟨by omega, ?_, ?_⟩
              · simp only [List.map_cons, List.sum_cons]
                omega
              · rw [hm, expand_runs]
                have : m1.take (n + len) = m.take n ++ List.replicate len label := by
                  rw [hm1, List.take_append_eq_append_take]
                  have hl : (m.take n ++ List.replicate len label).length = n + len := by
                    simp only [List.length_append, List.length_take, List.length_replicate]
                    omega
                  rw [hl, Nat.sub_self, List.take_zero, List.append_nil, List.take_of_length_le]
                  omega
                rw [this, List.append_assoc]
          · rw [if_neg hfit] at h
            cases h
    · simp only [hlt, if_false, Except.ok.injEq, Prod.mk.injEq] at h
      rw [← h.1, ← h.2.1, ← h.2.2]
      have hnl : n = m.length := by omega
      refine ⟨hnl, by simp [hnl], ?_⟩
      rw [hnl]
      simp [expand_runs]

/-- C20 (amended). With the buffer of the size of the raster and `n` cells
read so far: (a) a run of `len` cells from index `ptr` writes its label into
exactly the cells `ptr, ..., ptr + len - 1` when they all lie in the buffer,
and writes beyond the buffer (undefined) when they do not; (b) one iteration of
the loop on a decoded label and length writes that run from index `n`, where
the previous run ended, and goes on from index `n + len`, and the loop stops
once `n` is not below the number of cells; (c) whenever the loop returns, the
lengths of the decoded runs add up exactly to the cells from `n` to the end,
the final count is the number of cells of the raster, and the buffer holds the
runs one after the other and has kept its size. -/
theorem read_runs_tiles (num_bits width fuel : Nat) (rbs : ReadBitStream) (m : List Nat)
    (n max_label : Nat) (hn : n ≤ m.length) :
    (∀ (len ptr label : Nat), ptr ≤ m.length →
      fill_run len m ptr label
        = if ptr + len ≤ m.length
          then .ok (m.take ptr ++ List.replicate len label ++ m.drop (ptr + len))
          else .error .undefined_behaviour)
    ∧ (∀ rbs1 rbs2 label max1 len, n < m.length →
        read_label num_bits width m n max_label rbs = .ok (rbs1, label, max1) →
        read_length rbs1 = .ok (rbs2, len) →
        read_runs num_bits width m.length (fuel + 1) rbs m n max_label
          = if n + len ≤ m.length
            then read_runs num_bits width m.length fuel rbs2
              (m.take n ++ List.replicate len label ++ m.drop (n + len)) (n + len) max1
            else .error .undefined_behaviour)
    ∧ (n = m.length → read_runs num_bits width m.length (fuel + 1) rbs m n max_label = .ok m)
    ∧ read_runs num_bits width m.length fuel rbs m n max_label
        = (read_runs_trace num_bits width m.length fuel rbs m n max_label).map (fun r => r.1)
    ∧ (∀ m' count runs,
        read_runs_trace num_bits width m.length fuel rbs m n max_label = .ok (m', count, runs) →
        count = m.length ∧ n + (runs.map Prod.snd).sum = m.length
          ∧ m' = m.take n ++ expand_runs runs ∧ m'.length = m.length) := by
  refine ⟨fun len ptr label hp => fill_run_cases len m ptr label hp, ?_, ?_,
    read_runs_eq_trace num_bits width m.length fuel rbs m n max_label, ?_⟩
  · intro rbs1 rbs2 label max1 len hlt h1 h2
    rw [read_runs]
    simp only [hlt, if_true, h1, bind, Except.bind, h2]
    rw [fill_run_cases len m n label hn]
    by_cases hfit : n + len ≤ m.length
    · simp only [hfit, if_true]
    · simp only [hfit, if_false]
  · intro he
    rw [read_runs]
    have : ¬ n < m.length := by omega
    simp only [this, if_false]
  · intro m' count runs h
    obtain ⟨hc, hs, hm⟩ := read_runs_trace_tiles num_bits width fuel rbs m n max_label m' count
      runs hn h
    refine ⟨hc, hs, hm, ?_⟩
    have hl := congrArg List.length hm
    have hex : ∀ rs : List (Nat × Nat), (expand_runs rs).length = (rs.map Prod.snd).sum := by
      intro rs
      induction rs with
      | nil => rfl
      | cons r rest ih =>
        obtain ⟨a, b⟩ := r
        simp only [expand_runs, List.length_append, List.length_replicate, ih, List.map_cons,
          List.sum_cons]
    rw [List.length_append, List.length_take, hex] at hl
    omega

/-- Witness of C20 (amended): a 2x2 raster decoded from the bytes `0xC4, 0x40`
(the records `110 0 01` and `0 0 01`): two runs of two cells with the label 1. -/
theorem read_runs_tiles_witness :
    0 ≤ ([0, 0, 0, 0] : List Nat).length
    ∧ read_runs_trace 8 2 4 3 (ReadBitStream.open [0xC4, 0x40]) [0, 0, 0, 0] 0 0
        = .ok ([1, 1, 1, 1], 4, [(1, 2), (1, 2)])
    ∧ read_runs 8 2 4 3 (ReadBitStream.open [0xC4, 0x40]) [0, 0, 0, 0] 0 0 = .ok [1, 1, 1, 1]
    ∧ (4 = ([0, 0, 0, 0] : List Nat).length
        ∧ 0 + (([(1, 2), (1, 2)] : List (Nat × Nat)).map Prod.snd).sum
            = ([0, 0, 0, 0] : List Nat).length
        ∧ ([1, 1, 1, 1] : List Nat)
            = ([0, 0, 0, 0] : List Nat).take 0 ++ expand_runs [(1, 2), (1, 2)]
        ∧ ([1, 1, 1, 1] : List Nat).length = ([0, 0, 0, 0] : List Nat).length) :=
  ⟨by decide, rfl, rfl,
    (read_runs_tiles 8 2 3 (ReadBitStream.open [0xC4, 0x40]) [0, 0, 0, 0] 0 0
      (by decide)).2.2.2.2 [1, 1, 1, 1] 4 [(1, 2), (1, 2)] rfl⟩

/-- Counterexample to C20 as stated: the compact file of a 1x1 raster whose
only record has the run length 2.  The decoder writes the cell at index 0 and
then the cell at index 1, beyond the buffer of one cell; no step bound makes
`_read` return. -/
theorem read_runs_tiles_counterexample :
    read_label 8 1 [0] 0 0 (ReadBitStream.open [0xC4])
        = .ok (⟨[0xC4], 1, 4, 5, false⟩, 1, 1)
    ∧ read_length ⟨[0xC4], 1, 4, 5, false⟩ = .ok (⟨[0xC4], 1, 0, 2, false⟩, 2)
    ∧ fill_run 2 [0] 0 1 = .error .undefined_behaviour
    ∧ (∀ fuel, read_runs 8 1 1 (fuel + 1) (ReadBitStream.open [0xC4]) [0] 0 0
        = .error .undefined_behaviour)
    ∧ (∀ fuel, _read (fuel + 1) file1x1_long_run = .error .undefined_behaviour)
    ∧ _read 0 file1x1_long_run = .error .out_of_fuel :=
  ⟨rfl, rfl, rfl, fun _ => rfl, fun _ => rfl, rfl⟩

theorem lower_bound_insert_eq {α : Type} (lt : α → α → Bool) (x : α) (l : List α) :
    lower_bound_insert lt x l = List.orderedInsert (fun a b => ¬ lt b a = true) x l := by
  induction l with
  | nil => rfl
  | cons y rest ih =>
    unfold lower_bound_insert
    rw [List.orderedInsert]
    by_cases h : lt y x = true
    · simp only [h, if_true, not_true_eq_false, if_false, ih]
    · simp only [h, if_false, not_false_eq_true, if_true]
      simp

theorem lower_bound_insert_length {α : Type} (lt : α → α → Bool) (x : α) (l : List α) :
    (lower_bound_insert lt x l).length = l.length + 1 := by
  rw [lower_bound_insert_eq, List.orderedInsert_length]

theorem lower_bound_insert_perm {α : Type} (lt : α → α → Bool) (x : α) (l : List α) :
    (lower_bound_insert lt x l).Perm (x :: l) := by
  rw [lower_bound_insert_eq]
  exact List.perm_orderedInsert _ _ _

theorem of_list_nodes {α : Type} (lt : α → α → Bool) (xs : List α) :
    (BST.of_list lt xs).nodes
      = List.insertionSort (fun a b => ¬ lt b a = true) xs.reverse := by
  have h : ∀ (ys : List α) (t : BST α),
      (ys.foldl (BST.put lt) t).nodes
        = ys.foldl (fun l x => List.orderedInsert (fun a b => ¬ lt b a = true) x l) t.nodes := by
    intro ys
    induction ys with
    | nil => intro t; rfl
    | cons y rest ih =>
      intro t
      rw [List.foldl_cons, List.foldl_cons, ih]
      simp only [BST.put, lower_bound_insert_eq]
  unfold BST.of_list
  rw [h xs BST.init]
  simp only [BST.init]
  induction xs using List.reverseRecOn with
  | nil => rfl
  | append_singleton rest x ih =>
    rw [List.foldl_append, List.reverse_append]
    simp only [List.foldl_cons, List.foldl_nil, List.reverse_singleton, List.singleton_append,
      List.insertionSort, ih]
    rfl

theorem of_list_perm {α : Type} (lt : α → α → Bool) (xs : List α) :
    (BST.of_list lt xs).nodes.Perm xs := by
  rw [of_list_nodes]
  exact (List.perm_insertionSort _ _).trans (List.reverse_perm xs)

theorem successor_spec {α : Type} [DecidableEq α] (x : α) :
    ∀ (pre post : List α), x ∉ pre →
    successor x (pre ++ x :: post)
      = .ok (match post with
        | [] => .null
        | y :: _ => .node y) := by
  intro pre
  induction pre with
  | nil =>
    intro post _
    simp only [List.nil_append, successor, if_true]
    cases post <;> rfl
  | cons z rest ih =>
    intro post hx
    simp only [List.mem_cons, not_or] at hx
    have hne : ¬ z = x := fun e => hx.1 e.symm
    simp only [List.cons_append, successor, hne, if_false]
    exact ih post hx.2

/-- On a tree whose nodes are pairwise different, the loop started at a node
visits that node and the nodes after it, in order, and stops. -/
theorem iterate_from_spec {α : Type} [DecidableEq α] (t : BST α) (hnd : t.nodes.Nodup) :
    ∀ (post pre : List α) (x : α) (fuel : Nat), t.nodes = pre ++ x :: post →
    post.length + 2 ≤ fuel →
    t.iterate_from fuel (.node x) = .ok ((x :: post).map container_pointer.node) := by
  intro post
  induction post with
  | nil =>
    intro pre x fuel hs hf
    obtain ⟨k, rfl⟩ : ∃ k, fuel = k + 2 := ⟨fuel - 2, by simp at hf; omega⟩
    have hx : x ∉ pre := by
      rw [hs] at hnd
      have := (List.nodup_append.1 hnd).2.2
      intro hm
      exact this hm (List.mem_cons_self _ _)
    unfold BST.iterate_from
    simp only [BST.next, hs, successor_spec x pre [] hx, bind, Except.bind]
    unfold BST.iterate_from
    rfl
  | cons y rest ih =>
    intro pre x fuel hs hf
    obtain ⟨k, rfl⟩ : ∃ k, fuel = k + 1 := ⟨fuel - 1, by simp at hf; omega⟩
    have hx : x ∉ pre := by
      rw [hs] at hnd
      have := (List.nodup_append.1 hnd).2.2
      intro hm
      exact this hm (List.mem_cons_self _ _)
    have hs' : t.nodes = (pre ++ [x]) ++ y :: rest := by
      rw [hs, List.append_assoc]
      rfl
    unfold BST.iterate_from
    simp only [BST.next, hs, successor_spec x pre (y :: rest) hx, bind, Except.bind]
    rw [ih (pre ++ [x]) y k hs' (by simp at hf ⊢; omega)]
    rfl

/-- On a non-empty tree whose nodes are pairwise different the iteration visits
the nodes of the tree, each once, in the order of the tree. -/
theorem iterate_nodes {α : Type} [DecidableEq α] (t : BST α) (hnd : t.nodes.Nodup)
    (hne : t.nodes ≠ []) (fuel : Nat) (hf : t.nodes.length + 1 ≤ fuel) :
    t.iterate fuel = .ok (t.nodes.map container_pointer.node) := by
  unfold BST.iterate BST.get_first
  cases hs : t.nodes with
  | nil => exact absurd hs hne
  | cons x post =>
    simp only
    rw [iterate_from_spec t hnd post [] x fuel (by rw [hs]; rfl) (by rw [hs] at hf; simpa using hf)]

theorem lower_bound_insert_pairwise {α : Type} (lt : α → α → Bool)
    (htrans : ∀ a b c, lt a b = true → lt b c = true → lt a c = true) (x : α) :
    ∀ (l : List α), l.Pairwise (fun a b => lt a b = true) →
    (∀ y ∈ l, lt x y = true ∨ lt y x = true) →
    (lower_bound_insert lt x l).Pairwise (fun a b => lt a b = true) := by
  intro l
  induction l with
  | nil => intro _ _; simp [lower_bound_insert]
  | cons y rest ih =>
    intro hp hc
    rw [List.pairwise_cons] at hp
    unfold lower_bound_insert
    by_cases hyx : lt y x = true
    · rw [if_pos hyx]
      rw [List.pairwise_cons]
      refine ⟨fun z hz => ?_, ih hp.2 (fun z hz => hc z (List.mem_cons_of_mem _ hz))⟩
      rcases List.mem_cons.1 ((lower_bound_insert_perm lt x rest).subset hz) with rfl | hz'
      · exact hyx
      · exact hp.1 z hz'
    · rw [if_neg hyx]
      have hxy : lt x y = true := by
        rcases hc y (List.mem_cons_self _ _) with h | h
        · exact h
        · exact absurd h hyx
      rw [List.pairwise_cons]
      refine ⟨fun z hz => ?_, List.pairwise_cons.2 hp⟩
      rcases List.mem_cons.1 hz with rfl | hz'
      · exact hxy
      · exact htrans _ _ _ hxy (hp.1 z hz')

theorem of_list_snoc {α : Type} (lt : α → α → Bool) (xs : List α) (x : α) :
    (BST.of_list lt (xs ++ [x])).nodes = lower_bound_insert lt x (BST.of_list lt xs).nodes := by
  unfold BST.of_list
  rw [List.foldl_append]
  rfl

theorem of_list_pairwise {α : Type} (lt : α → α → Bool)
    (htrans : ∀ a b c, lt a b = true → lt b c = true → lt a c = true)
    (xs : List α) (hnd : xs.Nodup)
    (htotal : ∀ a ∈ xs, ∀ b ∈ xs, a ≠ b → lt a b = true ∨ lt b a = true) :
    (BST.of_list lt xs).nodes.Pairwise (fun a b => lt a b = true) := by
  induction xs using List.reverseRecOn with
  | nil => simp [BST.of_list, BST.init]
  | append_singleton rest x ih =>
    rw [of_list_snoc]
    have hnd' := List.nodup_append.1 hnd
    have hx : x ∉ rest := fun h => hnd'.2.2 h (List.mem_singleton_self x)
    apply lower_bound_insert_pairwise lt htrans x _
      (ih hnd'.1 (fun a ha b hb => htotal a (List.mem_append_left _ ha) b
        (List.mem_append_left _ hb)))
    intro y hy
    have hy' : y ∈ rest := (of_list_perm lt rest).subset hy
    exact htotal x (List.mem_append_right _ (List.mem_singleton_self x)) y
      (List.mem_append_left _ hy') (fun e => hx (e ▸ hy'))

/-- C15 (amended). For a comparison that is transitive and asymmetric, and a
non-empty list of pairwise different elements no two of which compare equal
(one of them is before the other): after `put` of the elements into an empty
tree, iterating from `get_first()` with `next()` until it returns null returns,
and visits every element exactly once, in ascending order of the comparison;
and the visited sequence is the same for every order in which the same
elements are inserted. -/
theorem bst_iterate_ascending {α : Type} [DecidableEq α] (lt : α → α → Bool)
    (htrans : ∀ a b c, lt a b = true → lt b c = true → lt a c = true)
    (hasymm : ∀ a b, lt a b = true → ¬ lt b a = true)
    (xs : List α) (hne : xs ≠ []) (hnd : xs.Nodup)
    (htotal : ∀ a ∈ xs, ∀ b ∈ xs, a ≠ b → lt a b = true ∨ lt b a = true)
    (fuel : Nat) (hf : xs.length + 1 ≤ fuel) :
    ∃ out : List α, (BST.of_list lt xs).iterate fuel = .ok (out.map container_pointer.node)
      ∧ out.Perm xs ∧ out.Nodup ∧ out.Pairwise (fun a b => lt a b = true)
      ∧ ∀ ys : List α, ys.Perm xs →
          (BST.of_list lt ys).iterate fuel = .ok (out.map container_pointer.node) := by
  have key : ∀ ys : List α, ys.Perm xs →
      (BST.of_list lt ys).iterate fuel
          = .ok ((BST.of_list lt ys).nodes.map container_pointer.node)
        ∧ (BST.of_list lt ys).nodes.Pairwise (fun a b => lt a b = true) := by
    intro ys hp
    have hndy : ys.Nodup := hp.nodup_iff.2 hnd
    have hpy := of_list_perm lt ys
    refine ⟨iterate_nodes _ (hpy.nodup_iff.2 hndy) ?_ fuel ?_, ?_⟩
    · intro h
      have := hpy.length_eq
      rw [h] at this
      have h2 := hp.length_eq
      have : xs.length = 0 := by simp at this; omega
      exact hne (List.length_eq_zero.1 this)
    · rw [hpy.length_eq, hp.length_eq]
      exact hf
    · exact of_list_pairwise lt htrans ys hndy
        (fun a ha b hb => htotal a (hp.subset ha) b (hp.subset hb))
  obtain ⟨hit, hpw⟩ := key xs (List.Perm.refl xs)
  refine ⟨(BST.of_list lt xs).nodes, hit, of_list_perm lt xs,
    (of_list_perm lt xs).nodup_iff.2 hnd, hpw, fun ys hp => ?_⟩
  obtain ⟨hity, hpwy⟩ := key ys hp
  rw [hity]
  haveI : IsAntisymm α (fun a b => lt a b = true) :=
    ⟨fun a b h1 h2 => absurd h2 (hasymm a b h1)⟩
  have : (BST.of_list lt ys).nodes = (BST.of_list lt xs).nodes :=
    List.eq_of_perm_of_sorted
      (((of_list_perm lt ys).trans hp).trans (of_list_perm lt xs).symm) hpwy hpw
  rw [this]

/-- Witness of C15 (amended): the numbers 3, 1, 2 put into an empty tree. -/
theorem bst_iterate_ascending_witness :
    ([3, 1, 2] : List Nat) ≠ [] ∧ ([3, 1, 2] : List Nat).Nodup ∧ [3, 1, 2].length + 1 ≤ 4
    ∧ (BST.of_list compare_nat [3, 1, 2]).iterate 4
        = .ok [container_pointer.node 1, container_pointer.node 2, container_pointer.node 3]
    ∧ (BST.of_list compare_nat [2, 3, 1]).iterate 4
        = .ok [container_pointer.node 1, container_pointer.node 2, container_pointer.node 3]
    ∧ ∃ out : List Nat, (BST.of_list compare_nat [3, 1, 2]).iterate 4
          = .ok (out.map container_pointer.node)
        ∧ out.Perm [3, 1, 2] ∧ out.Nodup
        ∧ out.Pairwise (fun a b => compare_nat a b = true)
        ∧ ∀ ys : List Nat, ys.Perm [3, 1, 2] →
            (BST.of_list compare_nat ys).iterate 4 = .ok (out.map container_pointer.node) :=
  ⟨by decide, by decide, by decide, rfl, rfl,
    bst_iterate_ascending compare_nat
      (fun a b c h1 h2 => by
        simp only [compare_nat, decide_eq_true_eq] at h1 h2 ⊢
        omega)
      (fun a b h1 => by
        simp only [compare_nat, decide_eq_true_eq] at h1 ⊢
        omega)
      [3, 1, 2] (by decide) (by decide)
      (fun a _ b _ hab => by
        simp only [compare_nat, decide_eq_true_eq]
        omega)
      4 (by decide)⟩

/-- Counterexample to C15 as stated.  (a) Two nodes with the same key: put in
the order `(1, 0)`, `(1, 1)` they are visited as `(1, 1)`, `(1, 0)`, and put in
the opposite order they are visited as `(1, 0)`, `(1, 1)`: the visited
sequence depends on the order of insertion.  (b) On the empty tree
`get_first()` returns the address of the header, not null, so the loop does
not end before its first visit, and `next` is then called on the header. -/
theorem bst_iterate_ascending_counterexample :
    ((BST.of_list compare_key [(1, 0), (1, 1)]).iterate 3
        = .ok [container_pointer.node (1, 1), container_pointer.node (1, 0)]
      ∧ (BST.of_list compare_key [(1, 1), (1, 0)]).iterate 3
        = .ok [container_pointer.node (1, 0), container_pointer.node (1, 1)]
      ∧ compare_key (1, 0) (1, 1) = false ∧ compare_key (1, 1) (1, 0) = false)
    ∧ ((BST.init : BST Nat).is_empty = true
      ∧ (BST.init : BST Nat).get_first = container_pointer.header
      ∧ (BST.init : BST Nat).get_first ≠ container_pointer.null
      ∧ (∀ fuel, (BST.init : BST Nat).iterate (fuel + 1) = .error .undefined_behaviour)) :=
  ⟨⟨rfl, rfl, rfl, rfl⟩, ⟨rfl, rfl, by decide, fun _ => rfl⟩⟩

theorem ReadBitStream.Sync.good {s : ReadBitStream} (h : s.Sync) : s.Good := by
  obtain ⟨hf, hp, hbl, hbytes, -, hb⟩ := h
  refine ⟨by omega, ?_, hbytes, hf⟩
  rcases hb with ⟨h0, hb0⟩ | ⟨-, -, b, -, hb⟩
  · rw [h0, hb0]; norm_num
  · rw [hb]
    exact Nat.mod_lt _ (Nat.two_pow_pos _)

theorem sync_open (file : List Nat) (hbytes : ∀ b ∈ file, b < 256)
    (hsize : file.length * 8 < 2 ^ 64) : (ReadBitStream.open file).Sync :=
  ⟨rfl, Nat.zero_le _, Nat.zero_le _, hbytes, hsize, Or.inl ⟨rfl, rfl⟩⟩

theorem flatten_bits_length (l : List Nat) :
    ((l.map (bits_of 8)).flatten).length = 8 * l.length := by
  induction l with
  | nil => rfl
  | cons b rest ih =>
    simp only [List.map_cons, List.flatten_cons, List.length_append, bits_of_length, ih,
      List.length_cons]
    omega

theorem bits_length (s : ReadBitStream) :
    s.bits.length = s._bits_left + 8 * (s.file.length - s.pos) := by
  unfold ReadBitStream.bits
  rw [List.length_append, bits_of_length, flatten_bits_length, List.length_drop]

/-- The value of `tellg` in a synchronised state, and its relation to the bits
that are left. -/
theorem tellg_sync {s : ReadBitStream} (h : s.Sync) :
    s.tellg = .ok (8 * s.pos - s._bits_left)
      ∧ (8 * s.pos - s._bits_left) + s.bits.length = 8 * s.file.length
      ∧ s._bits_left ≤ 8 * s.pos := by
  obtain ⟨hf, hp, hbl, hbytes, hsize, hb⟩ := h
  have hle : s._bits_left ≤ 8 * s.pos := by
    rcases hb with ⟨h0, -⟩ | ⟨-, hpos, -⟩ <;> omega
  refine ⟨?_, ?_, hle⟩
  · unfold ReadBitStream.tellg
    simp only [hf, Bool.false_eq_true, if_false]
    congr 1
    have : s.pos * 8 + 2 ^ 64 - s._bits_left = (8 * s.pos - s._bits_left) + 2 ^ 64 := by omega
    rw [this, Nat.add_mod_right]
    apply Nat.mod_eq_of_lt
    omega
  · rw [bits_length]
    omega

/-- State in which the loop of `read` ends, as far as the get position and the
byte in `_buffer` are concerned. -/
theorem read_loop_sync : ∀ (fuel : Nat) (s : ReadBitStream) (still acc : Nat)
    (s1 : ReadBitStream) (still1 acc1 : Nat),
    s.fail = false → s.pos ≤ s.file.length → (∀ b ∈ s.file, b < 256) →
    still ≤ s.bits.length → s._bits_left ≤ 8 →
    ReadBitStream.read_loop fuel s still acc = .ok (s1, still1, acc1) →
    s1.fail = false ∧ s1.pos ≤ s1.file.length ∧ s1.file = s.file
      ∧ ((s1 = s ∧ still1 = still ∧ still ≤ s._bits_left)
        ∨ (s1._bits_left = 8 ∧ 0 < s1.pos ∧ s1.file[s1.pos - 1]? = some s1._buffer
            ∧ s1._buffer < 256)) := by
  intro fuel
  induction fuel with
  | zero =>
    intro s still acc s1 still1 acc1 _ _ _ _ _ h
    simp only [ReadBitStream.read_loop] at h
    cases h
  | succ fuel ih =>
    intro s still acc s1 still1 acc1 hf hp hbytes hlen hbl h
    unfold ReadBitStream.read_loop at h
    by_cases hgt : still > s._bits_left
    · simp only [hgt, if_true] at h
      by_cases hsh : still - s._bits_left < 64 ∨ s._buffer = 0
      · simp only [hsh, if_true] at h
        rw [bits_length] at hlen
        have hpl : s.pos < s.file.length := by omega
        have hb : s.file[s.pos]? = some (s.file[s.pos]) := List.getElem?_eq_getElem hpl
        generalize s.file[s.pos] = b at hb
        have hblt : b < 256 := hbytes b (List.getElem?_mem hb)
        have hfetch : ({ s.fetch with _bits_left := 8 } : ReadBitStream)
            = ⟨s.file, s.pos + 1, b, 8, false⟩ := by
          unfold ReadBitStream.fetch
          simp only [hf, Bool.false_eq_true, if_false, hb]
        rw [hfetch] at h
        obtain ⟨h1, h2, h3, h4⟩ := ih ⟨s.file, s.pos + 1, b, 8, false⟩ _ _ s1 still1 acc1 rfl
          (by simp only; omega) hbytes
          (by rw [bits_length]; simp only; omega) (by simp only; omega) h
        refine ⟨h1, h2, h3, Or.inr ?_⟩
        rcases h4 with ⟨e, -, -⟩ | h4
        · subst e
          exact ⟨rfl, by simp only; omega, by simpa using hb, hblt⟩
        · exact h4
      · simp only [hsh, if_false] at h
        cases h
    · simp only [hgt, if_false, Except.ok.injEq, Prod.mk.injEq] at h
      obtain ⟨rfl, rfl, rfl⟩ := h
      exact ⟨hf, hp, rfl, Or.inl ⟨rfl, rfl, by omega⟩⟩

theorem and_mask_mod (x k : Nat) (hk : k ≤ 8) : x &&& (255 >>> (8 - k)) = x % 2 ^ k := by
  rw [mask_shift k hk, Nat.and_pow_two_sub_one_eq_mod]

/-- `read(n)` in a synchronised state, for bits that the file has: it returns
the value of the next `n` bits, most significant first, a number below `2^n`,
leaves a synchronised state after these bits, and `tellg` has advanced by
`n`. -/
theorem read_sync (s : ReadBitStream) (n : Nat) (hs : s.Sync) (hn : n ≤ 64)
    (hlen : n ≤ s.bits.length) :
    ∃ s', s.read n = .ok (s', bits_value (s.bits.take n)) ∧ s'.Sync
      ∧ s'.bits = s.bits.drop n ∧ s'.file = s.file
      ∧ bits_value (s.bits.take n) < 2 ^ n
      ∧ s'.tellg = .ok (8 * s.pos - s._bits_left + n)
      ∧ s.tellg = .ok (8 * s.pos - s._bits_left) := by
  obtain ⟨s', hr, hg', hb', hf'⟩ := read_spec_gen s n hs.good hn hlen
  have hval : bits_value (s.bits.take n) < 2 ^ n := by
    have h1 := bits_value_lt (s.bits.take n)
    rw [List.length_take, Nat.min_eq_left hlen] at h1
    exact h1
  have hlt64 : 0 + bits_value (s.bits.take n) < 2 ^ 64 := by
    have : 2 ^ n ≤ 2 ^ 64 := Nat.pow_le_pow_right (by omega) hn
    omega
  have hsync' : s'.Sync := by
    have hgood := hs.good
    obtain ⟨hfl, hp, hbl, hbytes, hsize, hb⟩ := hs
    by_cases h0 : n = 0
    · subst h0
      unfold ReadBitStream.read at hr
      simp only [Nat.not_lt_zero, gt_iff_lt, if_false, ne_eq, not_true_eq_false,
        Except.ok.injEq, Prod.mk.injEq] at hr
      simp at hr
      rw [← hr.1]
      exact ⟨hfl, hp, hbl, hbytes, hsize, hb⟩
    · unfold ReadBitStream.read at hr
      have h64 : ¬ n > 64 := by omega
      simp only [h64, if_false, ne_eq, h0, not_false_eq_true, if_true] at hr
      obtain ⟨s1, still1, acc1, hl, hg1, h11, h12, -, -, -⟩ :=
        read_loop_spec 10 s n 0 hgood (by omega) hn hlen (by omega) hlt64
      rw [hl] at hr
      simp only [bind, Except.bind, Except.ok.injEq, Prod.mk.injEq] at hr
      obtain ⟨hs', -⟩ := hr
      obtain ⟨hf1, hp1, hfile1, hcase⟩ := read_loop_sync 10 s n 0 s1 still1 acc1 hfl hp hbytes
        hlen (by omega) hl
      have hbl1 : s1._bits_left ≤ 8 := hg1.1
      rw [and_mask_mod _ _ (by omega)] at hs'
      rw [← hs']
      refine ⟨hf1, hp1, by simp only; omega, by simp only; rw [hfile1]; exact hbytes,
        by simp only; rw [hfile1]; exact hsize, ?_⟩
      simp only
      by_cases hz : s1._bits_left - still1 = 0
      · left
        rw [hz]
        exact ⟨rfl, by simp [Nat.mod_one]⟩
      · right
        rcases hcase with ⟨e, -, -⟩ | ⟨h8, hpos, hbyte, -⟩
        · subst e
          rcases hb with ⟨e0, -⟩ | ⟨hpos, hpp, b, hbb, hbuf⟩
          · omega
          · refine ⟨by omega, hpp, b, hbb, ?_⟩
            rw [hbuf]
            exact Nat.mod_mod_of_dvd _ (Nat.pow_dvd_pow 2 (by omega))
        · exact ⟨by omega, hpos, s1._buffer, hbyte, rfl⟩
  have ht := tellg_sync hs
  have ht' := tellg_sync hsync'
  refine ⟨s', hr, hsync', hb', hf', hval, ?_, ht.1⟩
  rw [ht'.1]
  congr 1
  have h1 := ht.2.1
  have h2 := ht'.2.1
  have h3 : s'.bits.length = s.bits.length - n := by rw [hb', List.length_drop]
  rw [hf'] at h2
  omega

/-- A synchronised state is fixed by its file and its bit position. -/
theorem sync_unique {a b : ReadBitStream} (ha : a.Sync) (hb : b.Sync) (hfile : a.file = b.file)
    (ht : 8 * a.pos - a._bits_left = 8 * b.pos - b._bits_left) : a = b := by
  obtain ⟨haf, hap, habl, -, -, hab⟩ := ha
  obtain ⟨hbf, hbp, hbbl, -, -, hbb⟩ := hb
  have hpos : a.pos = b.pos ∧ a._bits_left = b._bits_left := by
    rcases hab with ⟨h0, -⟩ | ⟨h1, h2, -⟩ <;> rcases hbb with ⟨h0', -⟩ | ⟨h1', h2', -⟩ <;> omega
  have hbuf : a._buffer = b._buffer := by
    rcases hab with ⟨h0, e0⟩ | ⟨h1, h2, x, hx, ex⟩
    · rcases hbb with ⟨h0', e0'⟩ | ⟨h1', -, -⟩
      · rw [e0, e0']
      · omega
    · rcases hbb with ⟨h0', -⟩ | ⟨h1', h2', y, hy, ey⟩
      · omega
      · rw [hfile, hpos.1] at hx
        rw [hx] at hy
        simp only [Option.some.injEq] at hy
        rw [ex, ey, hy, hpos.2]
  cases a
  cases b
  simp only at hfile hpos hbuf haf hbf
  simp only [ReadBitStream.mk.injEq]
  exact ⟨hfile, hpos.1, hbuf, hpos.2, by rw [haf, hbf]⟩

/-- `seekg(t)` to a bit position inside the file, on a stream that has not
failed: the result is the synchronised state at position `t`. -/
theorem seekg_sync (s0 : ReadBitStream) (t : Nat) (hf : s0.fail = false)
    (hbytes : ∀ b ∈ s0.file, b < 256) (hsize : s0.file.length * 8 < 2 ^ 64)
    (ht : t ≤ 8 * s0.file.length) :
    ∃ s', s0.seekg t = .ok s' ∧ s'.Sync ∧ s'.file = s0.file
      ∧ 8 * s'.pos - s'._bits_left = t := by
  unfold ReadBitStream.seekg
  simp only [hf, Bool.false_eq_true, if_false, Nat.shiftRight_eq_div_pow]
  rw [show (2 : Nat) ^ 3 = 8 from rfl]
  have hs1 : (⟨s0.file, t / 8, 0, 0, false⟩ : ReadBitStream).Sync :=
    ⟨rfl, by simp only; omega, Nat.zero_le _, hbytes, hsize, Or.inl ⟨rfl, rfl⟩⟩
  by_cases h8 : t % 8 = 0
  · simp only [h8, ne_eq, not_true_eq_false, if_false]
    refine ⟨_, rfl, hs1, rfl, ?_⟩
    show 8 * (t / 8) - 0 = t
    omega
  · simp only [ne_eq, h8, not_false_eq_true, if_true]
    obtain ⟨s', hr, hsync, -, hfile, -, htell, -⟩ :=
      read_sync ⟨s0.file, t / 8, 0, 0, false⟩ (t % 8) hs1 (by omega)
        (by rw [bits_length]; simp only; omega)
    rw [hr]
    refine ⟨s', rfl, hsync, hfile, ?_⟩
    have := (tellg_sync hsync).1
    rw [htell] at this
    simp only [Except.ok.injEq] at this
    rw [← this]
    show 8 * (t / 8) - 0 + t % 8 = t
    omega

/-- `seekg` back to the position of a synchronised state restores that
state. -/
theorem seekg_back (s0 s : ReadBitStream) (hs : s.Sync) (hf : s0.fail = false)
    (hfile : s0.file = s.file) : s0.seekg (8 * s.pos - s._bits_left) = .ok s := by
  have hs' := hs
  obtain ⟨-, hp, hbl, hbytes, hsize, -⟩ := hs'
  obtain ⟨s', hr, hsync, hfile', ht⟩ := seekg_sync s0 (8 * s.pos - s._bits_left) hf
    (by rw [hfile]; exact hbytes) (by rw [hfile]; exact hsize) (by rw [hfile]; omega)
  rw [hr, sync_unique hsync hs (hfile'.trans hfile) ht]

/-- What `remaining_size` returns in a synchronised state: the bits of the
bytes that were not fetched yet, without the bits left in `_buffer`; the state
is restored. -/
theorem remaining_size_sync (s : ReadBitStream) (hs : s.Sync) :
    s.remaining_size = .ok (s, 8 * (s.file.length - s.pos))
      ∧ s.bits.length = 8 * (s.file.length - s.pos) + s._bits_left := by
  have ht := tellg_sync hs
  have hs' := hs
  obtain ⟨hf, hp, hbl, hbytes, hsize, -⟩ := hs'
  refine ⟨?_, by rw [bits_length]; omega⟩
  unfold ReadBitStream.remaining_size
  rw [ht.1]
  simp only [bind, Except.bind]
  have hend : s.seek_end = { s with pos := s.file.length } := by
    unfold ReadBitStream.seek_end
    simp only [hf, Bool.false_eq_true, if_false]
  have hlen : s._bits_left ≤ 8 * s.file.length := by
    have := ht.2.2
    omega
  have htend : s.seek_end.tellg = .ok (8 * s.file.length - s._bits_left) := by
    rw [hend]
    unfold ReadBitStream.tellg
    simp only [hf, Bool.false_eq_true, if_false]
    congr 1
    have : s.file.length * 8 + 2 ^ 64 - s._bits_left
        = (8 * s.file.length - s._bits_left) + 2 ^ 64 := by omega
    rw [this, Nat.add_mod_right]
    apply Nat.mod_eq_of_lt
    omega
  rw [htend]
  simp only
  rw [seekg_back s.seek_end s hs (by rw [hend]; exact hf) (by rw [hend])]
  simp only [Except.ok.injEq, Prod.mk.injEq, true_and]
  have : 8 * s.file.length - s._bits_left + 2 ^ 64 - (8 * s.pos - s._bits_left)
      = 8 * (s.file.length - s.pos) + 2 ^ 64 := by
    have := ht.2.2
    omega
  rw [this, Nat.add_mod_right]
  apply Nat.mod_eq_of_lt
  omega

theorem file_bits_drop : ∀ (k : Nat) (file : List Nat),
    (file_bits file).drop (8 * k) = file_bits (file.drop k) := by
  intro k
  induction k with
  | zero => intro file; rfl
  | succ k ih =>
    intro file
    cases file with
    | nil => simp [file_bits]
    | cons b rest =>
      have e : 8 * (k + 1) = 8 + 8 * k := by omega
      have hb : (file_bits (b :: rest)) = bits_of 8 b ++ file_bits rest := by
        simp [file_bits]
      rw [e, ← List.drop_drop, hb, List.drop_left' (bits_of_length _ _), ih rest]
      rfl

/-- In a synchronised state the bits that the stream has still to deliver are
the bits of the file from the position that `tellg` reports. -/
theorem sync_bits {s : ReadBitStream} (hs : s.Sync) :
    s.bits = (file_bits s.file).drop (8 * s.pos - s._bits_left) := by
  obtain ⟨hf, hp, hbl, hbytes, hsize, hb⟩ := hs
  unfold ReadBitStream.bits
  rcases hb with ⟨h0, hb0⟩ | ⟨hpos, hpp, b, hbb, hbuf⟩
  · rw [h0, hb0, Nat.sub_zero, file_bits_drop]
    rfl
  · have hsplit : s.file.drop (s.pos - 1) = b :: s.file.drop s.pos := by
      have hlt : s.pos - 1 < s.file.length := by omega
      have := List.drop_eq_getElem_cons hlt
      rw [this]
      have hb' : s.file[s.pos - 1] = b := by
        have := List.getElem?_eq_getElem hlt
        rw [hbb] at this
        exact (Option.some.inj this).symm
      rw [hb']
      congr 2
      omega
    have e : 8 * s.pos - s._bits_left = 8 * (s.pos - 1) + (8 - s._bits_left) := by omega
    rw [e, ← List.drop_drop, file_bits_drop, hsplit]
    have hb8 : file_bits (b :: s.file.drop s.pos) = bits_of 8 b ++ file_bits (s.file.drop s.pos) := by
      simp [file_bits]
    rw [hb8, List.drop_append_of_le_length (by rw [bits_of_length]; omega), hbuf, bits_of_mod]
    congr 1
    have key := bits_of_drop (8 - s._bits_left) s._bits_left b
    rw [show 8 - s._bits_left + s._bits_left = 8 by omega] at key
    exact key.symm

/-- C21 (amended): for every `n` up to 64 and every synchronised state of the
stream, at the bit position `t = 8 * pos - _bits_left`, byte-aligned or not,
from which the file holds at least `n` more bits: `tellg()` reports `t`,
`read(n)` returns the next `n` bits of the file, the bits `t` to `t + n - 1`,
taken most significant first, as a number below `2^n`, and afterwards
`tellg()` reports `t + n`. -/
theorem read_next_bits (s : ReadBitStream) (n : Nat) (hs : s.Sync) (hn : n ≤ 64)
    (hfit : 8 * s.pos - s._bits_left + n ≤ 8 * s.file.length) :
    ∃ s', s.tellg = .ok (8 * s.pos - s._bits_left)
      ∧ s.read n = .ok (s', bits_value
          (((file_bits s.file).drop (8 * s.pos - s._bits_left)).take n))
      ∧ bits_value (((file_bits s.file).drop (8 * s.pos - s._bits_left)).take n) < 2 ^ n
      ∧ s'.tellg = .ok (8 * s.pos - s._bits_left + n) ∧ s'.Sync ∧ s'.file = s.file := by
  obtain ⟨ht, hsum, -⟩ := tellg_sync hs
  have hlen : n ≤ s.bits.length := by omega
  obtain ⟨s', hr, hsync, hb, hfile, hv, ht', -⟩ := read_sync s n hs hn hlen
  rw [sync_bits hs] at hr hv
  exact ⟨s', ht, hr, hv, ht', hsync, hfile⟩

/-- Witness of C21 (amended): `read(64)` at the byte-aligned position 8 of a
file of nine bytes returns the bytes 2 to 9, and `tellg()` goes from 8 to 72. -/
theorem read_next_bits_witness :
    (⟨[1, 2, 3, 4, 5, 6, 7, 8, 9], 1, 0, 0, false⟩ : ReadBitStream).Sync
    ∧ (ReadBitStream.open [1, 2, 3, 4, 5, 6, 7, 8, 9]).read 8
        = .ok (⟨[1, 2, 3, 4, 5, 6, 7, 8, 9], 1, 0, 0, false⟩, 1)
    ∧ (⟨[1, 2, 3, 4, 5, 6, 7, 8, 9], 1, 0, 0, false⟩ : ReadBitStream).read 64
        = .ok (⟨[1, 2, 3, 4, 5, 6, 7, 8, 9], 9, 0, 0, false⟩, 0x0203040506070809)
    ∧ ∃ s', (⟨[1, 2, 3, 4, 5, 6, 7, 8, 9], 1, 0, 0, false⟩ : ReadBitStream).tellg
        = .ok (8 * 1 - 0)
      ∧ (⟨[1, 2, 3, 4, 5, 6, 7, 8, 9], 1, 0, 0, false⟩ : ReadBitStream).read 64
          = .ok (s', bits_value
              (((file_bits [1, 2, 3, 4, 5, 6, 7, 8, 9]).drop (8 * 1 - 0)).take 64))
      ∧ bits_value (((file_bits [1, 2, 3, 4, 5, 6, 7, 8, 9]).drop (8 * 1 - 0)).take 64)
          < 2 ^ 64
      ∧ s'.tellg = .ok (8 * 1 - 0 + 64) ∧ s'.Sync
      ∧ s'.file = [1, 2, 3, 4, 5, 6, 7, 8, 9] :=
  have hsync : (⟨[1, 2, 3, 4, 5, 6, 7, 8, 9], 1, 0, 0, false⟩ : ReadBitStream).Sync :=
    ⟨rfl, by decide, by decide, by decide, by decide, Or.inl ⟨rfl, rfl⟩⟩
  ⟨hsync, rfl, rfl,
    read_next_bits ⟨[1, 2, 3, 4, 5, 6, 7, 8, 9], 1, 0, 0, false⟩ 64 hsync (by decide)
      (by decide)⟩

/-- Counterexample to C21 as stated: at position 0 of a file of one byte,
`0xA5`, the file holds 8 bits and `read(16)` finds no second byte: it returns
`0xA5A5`, the byte left in `_buffer` taken twice, the stream is in the fail
state, and `tellg()`, which was 0, does not report 16 but runs `throw;` outside
a handler.  `read(8)` at the same position returns the byte and `tellg()`
reports 8. -/
theorem read_past_end_counterexample :
    (ReadBitStream.open [0xA5]).Sync
    ∧ (ReadBitStream.open [0xA5]).tellg = .ok 0
    ∧ (file_bits [0xA5]).length = 8
    ∧ (ReadBitStream.open [0xA5]).read 16 = .ok (⟨[0xA5], 1, 0, 0, true⟩, 0xA5A5)
    ∧ (⟨[0xA5], 1, 0, 0, true⟩ : ReadBitStream).tellg = .error .terminate
    ∧ (ReadBitStream.open [0xA5]).read 8 = .ok (⟨[0xA5], 1, 0, 0, false⟩, 0xA5)
    ∧ (⟨[0xA5], 1, 0, 0, false⟩ : ReadBitStream).tellg = .ok 8 :=
  ⟨⟨rfl, by decide, by decide, by decide, by decide, Or.inl ⟨rfl, rfl⟩⟩, rfl, rfl, rfl, rfl,
    rfl, rfl⟩

/-- C22 (amended): in every synchronised state of the stream, at the bit
position `t = 8 * pos - _bits_left`, for every `n` such that the file holds
the bits that `read(n)` takes from `t` on (`n` bits, 64 for a request above
64), `read_ahead(n)` returns the value that `read(n)` returns from the same
state, the next bits of the file, and leaves the stream in the state it was
in: `tellg()` is `t` before and after, and every following `read(m)` returns
what it would have returned without the call. -/
theorem read_ahead_restores (s : ReadBitStream) (n : Nat) (hs : s.Sync)
    (hfit : 8 * s.pos - s._bits_left + min n 64 ≤ 8 * s.file.length) :
    ∃ s1 s2 v, s.read n = .ok (s1, v) ∧ s.read_ahead n = .ok (s2, v)
      ∧ v = bits_value
          (((file_bits s.file).drop (8 * s.pos - s._bits_left)).take (min n 64))
      ∧ s2 = s ∧ s.tellg = .ok (8 * s.pos - s._bits_left) ∧ s2.tellg = s.tellg
      ∧ ∀ m, s2.read m = s.read m := by
  obtain ⟨ht, hsum, -⟩ := tellg_sync hs
  have hlen : min n 64 ≤ s.bits.length := by omega
  obtain ⟨s1, hr, hsync1, -, hfile1, -, -, -⟩ :=
    read_sync s (min n 64) hs (Nat.min_le_right _ _) hlen
  have hrn : s.read n = s.read (min n 64) := by
    by_cases h : 64 < n
    · rw [read_clamp s n h, Nat.min_eq_right (by omega)]
    · rw [Nat.min_eq_left (by omega)]
  rw [← hrn, sync_bits hs] at hr
  have hback : s1.seekg (8 * s.pos - s._bits_left) = .ok s :=
    seekg_back s1 s hs hsync1.1 hfile1
  have hra : s.read_ahead n
      = .ok (s, bits_value (((file_bits s.file).drop (8 * s.pos - s._bits_left)).take
          (min n 64))) := by
    unfold ReadBitStream.read_ahead
    simp only [ht, hr, hback, bind, Except.bind]
  exact ⟨s1, s, _, hr, hra, rfl, rfl, ht, rfl, fun m => rfl⟩

/-- Witness of C22 (amended): the stream on the bytes 1 to 9 after the first
byte was read, a byte-aligned position, and a look ahead of 64 bits; and the
stream on the bytes `0xA5, 0x0F` after three bits were read, and a look ahead
of 9 bits. -/
theorem read_ahead_restores_witness :
    (⟨[1, 2, 3, 4, 5, 6, 7, 8, 9], 1, 0, 0, false⟩ : ReadBitStream).Sync
    ∧ (⟨[1, 2, 3, 4, 5, 6, 7, 8, 9], 1, 0, 0, false⟩ : ReadBitStream).read_ahead 64
        = .ok (⟨[1, 2, 3, 4, 5, 6, 7, 8, 9], 1, 0, 0, false⟩, 0x0203040506070809)
    ∧ (ReadBitStream.open [0xA5, 0x0F]).read 3 = .ok (⟨[0xA5, 0x0F], 1, 5, 5, false⟩, 5)
    ∧ (⟨[0xA5, 0x0F], 1, 5, 5, false⟩ : ReadBitStream).read_ahead 9
        = .ok (⟨[0xA5, 0x0F], 1, 5, 5, false⟩, 0x50)
    ∧ ∃ s1 s2 v,
        (⟨[1, 2, 3, 4, 5, 6, 7, 8, 9], 1, 0, 0, false⟩ : ReadBitStream).read 64 = .ok (s1, v)
      ∧ (⟨[1, 2, 3, 4, 5, 6, 7, 8, 9], 1, 0, 0, false⟩ : ReadBitStream).read_ahead 64
          = .ok (s2, v)
      ∧ v = bits_value
          (((file_bits [1, 2, 3, 4, 5, 6, 7, 8, 9]).drop (8 * 1 - 0)).take (min 64 64))
      ∧ s2 = ⟨[1, 2, 3, 4, 5, 6, 7, 8, 9], 1, 0, 0, false⟩
      ∧ (⟨[1, 2, 3, 4, 5, 6, 7, 8, 9], 1, 0, 0, false⟩ : ReadBitStream).tellg
          = .ok (8 * 1 - 0)
      ∧ s2.tellg = (⟨[1, 2, 3, 4, 5, 6, 7, 8, 9], 1, 0, 0, false⟩ : ReadBitStream).tellg
      ∧ ∀ m, s2.read m
          = (⟨[1, 2, 3, 4, 5, 6, 7, 8, 9], 1, 0, 0, false⟩ : ReadBitStream).read m :=
  have hsync : (⟨[1, 2, 3, 4, 5, 6, 7, 8, 9], 1, 0, 0, false⟩ : ReadBitStream).Sync :=
    ⟨rfl, by decide, by decide, by decide, by decide, Or.inl ⟨rfl, rfl⟩⟩
  ⟨hsync, rfl, rfl, rfl,
    read_ahead_restores ⟨[1, 2, 3, 4, 5, 6, 7, 8, 9], 1, 0, 0, false⟩ 64 hsync (by decide)⟩

/-- Counterexample to C22 as stated: at position 0 of a file of one byte,
`0xA5`, `read_ahead(16)` looks past the end of the file.  The `read` inside it
leaves the stream in the fail state, the `seekg` back does nothing on a failed
stream, and the pointer is not restored: `tellg()`, which was 0, runs `throw;`
outside a handler, and a following `read(8)` returns 0 where it would have
returned `0xA5` without the call. -/
theorem read_ahead_past_end_counterexample :
    (ReadBitStream.open [0xA5]).Sync
    ∧ (ReadBitStream.open [0xA5]).tellg = .ok 0
    ∧ (file_bits [0xA5]).length = 8
    ∧ (ReadBitStream.open [0xA5]).read_ahead 16 = .ok (⟨[0xA5], 1, 0, 0, true⟩, 0xA5A5)
    ∧ (⟨[0xA5], 1, 0, 0, true⟩ : ReadBitStream).tellg = .error .terminate
    ∧ ((⟨[0xA5], 1, 0, 0, true⟩ : ReadBitStream).read 8).map (fun r => r.2) = .ok 0
    ∧ ((ReadBitStream.open [0xA5]).read 8).map (fun r => r.2) = .ok 0xA5 :=
  ⟨⟨rfl, by decide, by decide, by decide, by decide, Or.inl ⟨rfl, rfl⟩⟩, rfl, rfl, rfl, rfl,
    rfl, rfl⟩

/-- C23, the code at the failing input.  On the stream of the two bytes
`0xA5, 0x0F` after three bits were read, `tellg()` is 3 and 13 bits are left,
but `remaining_size()` returns 8: `end_pos` is taken with `tellg()`, which
subtracts the five bits left in `_buffer` although the get position was moved
to the end of the file.  The state of the stream is restored.  Right after
`open`, at a byte-aligned position, the result is 16. -/
theorem remaining_size_ignores_buffer :
    (ReadBitStream.open [0xA5, 0x0F]).read 3 = .ok (⟨[0xA5, 0x0F], 1, 5, 5, false⟩, 5)
    ∧ (⟨[0xA5, 0x0F], 1, 5, 5, false⟩ : ReadBitStream).tellg = .ok 3
    ∧ (⟨[0xA5, 0x0F], 1, 5, 5, false⟩ : ReadBitStream).bits.length = 13
    ∧ 8 * ([0xA5, 0x0F] : List Nat).length - 3 = 13
    ∧ (⟨[0xA5, 0x0F], 1, 5, 5, false⟩ : ReadBitStream).seek_end.tellg = .ok 11
    ∧ (⟨[0xA5, 0x0F], 1, 5, 5, false⟩ : ReadBitStream).remaining_size
        = .ok (⟨[0xA5, 0x0F], 1, 5, 5, false⟩, 8)
    ∧ ((⟨[0xA5, 0x0F], 1, 5, 5, false⟩ : ReadBitStream).read 13).map (fun r => r.2)
        = .ok 0x50F
    ∧ (ReadBitStream.open [0xA5, 0x0F]).remaining_size
        = .ok (ReadBitStream.open [0xA5, 0x0F], 16) :=
  ⟨rfl, rfl, rfl, rfl, rfl, rfl, rfl, rfl⟩

theorem foldl_min_nonneg (rest : List Int) : ∀ x : Int,
    (0 ≤ rest.foldl min x ↔ 0 ≤ x ∧ ∀ y ∈ rest, 0 ≤ y) := by
  induction rest with
  | nil => intro x; simp
  | cons z tl ih =>
    intro x
    rw [List.foldl_cons, ih]
    simp only [List.mem_cons, forall_eq_or_imp, le_min_iff]
    tauto

theorem minCoeff_nonneg (a : List Int) : 0 ≤ minCoeff a ↔ ∀ y ∈ a, 0 ≤ y := by
  cases a with
  | nil => simp [minCoeff]
  | cons x rest =>
    simp only [minCoeff, foldl_min_nonneg, List.mem_cons, forall_eq_or_imp]

/-- The test of `_find_inside_neighbor` holds exactly when every coordinate of
the position lies between the lower and the upper point, inclusive. -/
theorem inside_signal_iff (lower upper v : List Int) (hl : lower.length = v.length)
    (hu : upper.length = v.length) :
    inside_signal lower upper v = true ↔
      ∀ (i : Nat) (l u x : Int), lower[i]? = some l → upper[i]? = some u → v[i]? = some x →
        l ≤ x ∧ x ≤ u := by
  unfold inside_signal
  simp only [ge_iff_le, decide_eq_true_eq, minCoeff_nonneg]
  constructor
  · rintro ⟨h1, h2⟩ i l u x hli hui hci
    have ha : (coord_sub v lower)[i]? = some (x - l) := by
      unfold coord_sub
      rw [List.getElem?_zipWith, hci, hli]
    have hb : (coord_sub upper v)[i]? = some (u - x) := by
      unfold coord_sub
      rw [List.getElem?_zipWith, hci, hui]
    have := h1 _ (List.getElem?_mem ha)
    have := h2 _ (List.getElem?_mem hb)
    omega
  · intro h
    constructor
    · intro y hy
      obtain ⟨i, hi⟩ := List.getElem?_of_mem hy
      unfold coord_sub at hi
      rw [List.getElem?_zipWith] at hi
      cases hci : v[i]? with
      | none => rw [hci] at hi; simp at hi
      | some x =>
        cases hli : lower[i]? with
        | none => rw [hci, hli] at hi; simp at hi
        | some l =>
          have hiu : i < upper.length := by
            have := (List.getElem?_eq_some_iff.1 hci).1
            omega
          have hui : upper[i]? = some (upper[i]) := List.getElem?_eq_getElem hiu
          rw [hci, hli] at hi
          simp only [Option.map_some', Option.some.injEq] at hi
          have := h i l _ x hli hui hci
          omega
    · intro y hy
      obtain ⟨i, hi⟩ := List.getElem?_of_mem hy
      unfold coord_sub at hi
      rw [List.getElem?_zipWith] at hi
      cases hui : upper[i]? with
      | none => rw [hui] at hi; simp at hi
      | some u =>
        cases hci : v[i]? with
        | none => rw [hui, hci] at hi; simp at hi
        | some x =>
          have hil : i < lower.length := by
            have := (List.getElem?_eq_some_iff.1 hci).1
            omega
          have hli : lower[i]? = some (lower[i]) := List.getElem?_eq_getElem hil
          rw [hui, hci] at hi
          simp only [Option.map_some', Option.some.injEq] at hi
          have := h i _ u x hli hui hci
          omega

/-- Where `_find_inside_neighbor` stops, started at entry `i` of the table. -/
theorem find_inside_neighbor_spec (neighbors : List (List Int)) (lower upper pos : List Int) :
    ∀ (fuel i : Nat) (nc : List Int), i ≤ neighbors.length → neighbors.length - i + 1 ≤ fuel →
    ∃ j nc', _find_inside_neighbor neighbors lower upper fuel ⟨pos, nc, neighbors.length, i⟩
        = .ok ⟨pos, nc', neighbors.length, j⟩
      ∧ i ≤ j ∧ j ≤ neighbors.length
      ∧ (∀ k off, i ≤ k → k < j → neighbors[k]? = some off →
          inside_signal lower upper (coord_add pos off) = false)
      ∧ (j < neighbors.length → ∃ off, neighbors[j]? = some off ∧ nc' = coord_add pos off
          ∧ inside_signal lower upper (coord_add pos off) = true) := by
  intro fuel
  induction fuel with
  | zero => intro i nc _ hf; omega
  | succ fuel ih =>
    intro i nc hi hf
    unfold _find_inside_neighbor
    by_cases hend : i ≥ neighbors.length
    · simp only [hend, if_true]
      exact ⟨i, nc, rfl, le_refl _, hi, fun k off h1 h2 => by omega, fun h => by omega⟩
    · simp only [hend, if_false]
      have hlt : i < neighbors.length := by omega
      have hget : neighbors[i]? = some (neighbors[i]) := List.getElem?_eq_getElem hlt
      generalize neighbors[i] = off at hget
      rw [hget]
      simp only
      by_cases hin : minCoeff (coord_sub (coord_add pos off) lower) ≥ 0
          ∧ minCoeff (coord_sub upper (coord_add pos off)) ≥ 0
      · rw [if_pos hin]
        refine ⟨i, coord_add pos off, rfl, le_refl _, by omega, fun k o h1 h2 => by omega,
          fun _ => ⟨off, hget, rfl, ?_⟩⟩
        unfold inside_signal
        exact decide_eq_true hin
      · rw [if_neg hin]
        obtain ⟨j, nc', hj, h1, h2, h3, h4⟩ := ih (i + 1) (coord_add pos off) (by omega) (by omega)
        refine ⟨j, nc', hj, by omega, h2, fun k o hk1 hk2 hko => ?_, h4⟩
        by_cases hki : k = i
        · subst hki
          rw [hget] at hko
          simp only [Option.some.injEq] at hko
          subst hko
          unfold inside_signal
          exact decide_eq_false hin
        · exact h3 k o (by omega) hk2 hko

theorem inside_from_skip (neighbors : List (List Int)) (lower upper pos : List Int) :
    ∀ (d i : Nat), i + d ≤ neighbors.length →
    (∀ k off, i ≤ k → k < i + d → neighbors[k]? = some off →
      inside_signal lower upper (coord_add pos off) = false) →
    inside_from neighbors lower upper pos i = inside_from neighbors lower upper pos (i + d) := by
  intro d
  induction d with
  | zero => intro i _ _; rfl
  | succ d ih =>
    intro i hi hno
    have hlt : i < neighbors.length := by omega
    have hd : neighbors.drop i = neighbors[i] :: neighbors.drop (i + 1) :=
      List.drop_eq_getElem_cons hlt
    have h0 := hno i neighbors[i] (le_refl _) (by omega) (List.getElem?_eq_getElem hlt)
    have hstep : inside_from neighbors lower upper pos i
        = inside_from neighbors lower upper pos (i + 1) := by
      unfold inside_from
      rw [hd, List.map_cons, List.filter_cons, h0]
      simp
    rw [hstep, ih (i + 1) (by omega) (fun k off h1 h2 => hno k off (by omega) (by omega))]
    congr 1
    omega

theorem adjacency_loop_spec (neighbors : List (List Int)) (lower upper pos : List Int)
    (fuel : Nat) (hfuel : neighbors.length + 1 ≤ fuel) (nce : List Int) :
    ∀ (n i : Nat) (nc : List Int), i ≤ neighbors.length → neighbors.length - i + 1 ≤ n →
    (i < neighbors.length → ∃ off, neighbors[i]? = some off ∧ nc = coord_add pos off
      ∧ inside_signal lower upper (coord_add pos off) = true) →
    adjacency_loop neighbors lower upper fuel ⟨pos, nce, neighbors.length, neighbors.length⟩ n
        ⟨pos, nc, neighbors.length, i⟩
      = .ok (inside_from neighbors lower upper pos i) := by
  intro n
  induction n with
  | zero => intro i nc _ hn; omega
  | succ n ih =>
    intro i nc hi hn hcur
    unfold adjacency_loop
    by_cases hend : i = neighbors.length
    · subst hend
      simp [general_adjacency_iterator_type.ne, inside_from]
    · have hlt : i < neighbors.length := by omega
      have hne : general_adjacency_iterator_type.ne ⟨pos, nc, neighbors.length, i⟩
          ⟨pos, nce, neighbors.length, neighbors.length⟩ = true := by
        unfold general_adjacency_iterator_type.ne
        have h1 : ¬ (i ≥ neighbors.length) := by omega
        simp [h1]
      rw [hne]
      simp only [if_true]
      obtain ⟨off, hoff, hnc, hin⟩ := hcur hlt
      unfold general_adjacency_iterator_type.increment
      have h1 : ¬ (i ≥ neighbors.length) := by omega
      simp only [h1, if_false]
      obtain ⟨j, nc', hj, hj1, hj2, hj3, hj4⟩ :=
        find_inside_neighbor_spec neighbors lower upper pos fuel (i + 1) nc (by omega) (by omega)
      rw [hj]
      simp only [bind, Except.bind]
      rw [ih j nc' hj2 (by omega) hj4]
      simp only
      have hd : neighbors.drop i = off :: neighbors.drop (i + 1) := by
        rw [List.drop_eq_getElem_cons hlt]
        congr 1
        have := List.getElem?_eq_getElem hlt
        rw [hoff] at this
        simpa using this.symm
      have e1 : inside_from neighbors lower upper pos i
          = nc :: inside_from neighbors lower upper pos (i + 1) := by
        unfold inside_from
        rw [hd, List.map_cons, List.filter_cons, hin, hnc]
        simp
      have e2 := inside_from_skip neighbors lower upper pos (j - (i + 1)) (i + 1) (by omega)
        (fun k o h1 h2 => hj3 k o h1 (by omega))
      rw [e1, e2]
      congr 3
      omega

/-- Result of the adjacency iterator from begin to end. -/
theorem adjacency_positions_eq (neighbors : List (List Int)) (lower upper pos : List Int)
    (fuel : Nat) (hfuel : neighbors.length + 1 ≤ fuel) :
    adjacency_positions neighbors lower upper pos fuel
      = .ok ((neighbors.map (coord_add pos)).filter (inside_signal lower upper)) := by
  unfold adjacency_positions general_adjacency_iterator_type.construct
  simp only [Bool.false_eq_true, if_false, if_true]
  obtain ⟨j, nc', hj, -, hj2, hj3, hj4⟩ :=
    find_inside_neighbor_spec neighbors lower upper pos fuel 0 [] (Nat.zero_le _) (by omega)
  rw [hj]
  simp only [bind, Except.bind]
  rw [adjacency_loop_spec neighbors lower upper pos fuel hfuel [] fuel j nc' hj2 (by omega) hj4]
  have := inside_from_skip neighbors lower upper pos j 0 (by omega)
    (fun k o h1 h2 => hj3 k o h1 (by omega))
  rw [Nat.zero_add] at this
  rw [← this]
  rfl

/-- The adjacency of the 2-D grid used by the forest, `grid_adjacency`, is the
adjacency iterator run on the grid with lower point `(0, 0)` and upper point
`(size_x - 1, size_y - 1)`, each position taken as a displacement. -/
theorem grid_adjacency_eq_iterator (size_x size_y : Nat) (neighborhood : List (Int × Int))
    (pos fuel : Nat) (hfuel : neighborhood.length + 1 ≤ fuel) :
    (adjacency_positions (neighborhood.map (fun d => [d.1, d.2])) [0, 0]
        [(size_x : Int) - 1, (size_y : Int) - 1]
        [((pos % size_x : Nat) : Int), ((pos / size_x : Nat) : Int)] fuel).map
        (fun out => out.map (displacement2d size_x))
      = .ok (grid_adjacency size_x size_y neighborhood pos) := by
  rw [adjacency_positions_eq _ _ _ _ _ (by simpa using hfuel)]
  simp only [Except.map, Except.ok.injEq]
  unfold grid_adjacency
  induction neighborhood with
  | nil => rfl
  | cons d rest ih =>
    have ih' := ih (by simp at hfuel ⊢; omega)
    simp only [List.map_cons, List.filter_cons, List.filterMap_cons]
    have hin : inside_signal [0, 0] [(size_x : Int) - 1, (size_y : Int) - 1]
        (coord_add [((pos % size_x : Nat) : Int), ((pos / size_x : Nat) : Int)] [d.1, d.2])
        = decide (0 ≤ ((pos % size_x : Nat) : Int) + d.1 ∧ 0 ≤ ((pos / size_x : Nat) : Int) + d.2
          ∧ 0 ≤ (size_x : Int) - 1 - (((pos % size_x : Nat) : Int) + d.1)
          ∧ 0 ≤ (size_y : Int) - 1 - (((pos / size_x : Nat) : Int) + d.2)) := by
      unfold inside_signal
      simp only [coord_add, coord_sub, List.zipWith_cons_cons, List.zipWith_nil_right, minCoeff,
        List.foldl_cons, List.foldl_nil, ge_iff_le, le_min_iff, sub_zero]
      congr 1
      apply propext
      constructor
      · rintro ⟨⟨a, b⟩, c, e⟩
        exact ⟨a, b, c, e⟩
      · rintro ⟨a, b, c, e⟩
        exact ⟨⟨a, b⟩, c, e⟩
    rw [hin]
    by_cases hc : 0 ≤ ((pos % size_x : Nat) : Int) + d.1 ∧ 0 ≤ ((pos / size_x : Nat) : Int) + d.2
        ∧ 0 ≤ (size_x : Int) - 1 - (((pos % size_x : Nat) : Int) + d.1)
        ∧ 0 ≤ (size_y : Int) - 1 - (((pos / size_x : Nat) : Int) + d.2)
    · simp only [hc, decide_True, and_self, if_true, List.map_cons]
      rw [ih']
      rfl
    · simp only [hc, decide_False, if_false, Bool.false_eq_true]
      exact ih'

/-- C24. For every offset table, position `pos` and signal with lower and
upper points of the dimension of `pos`, the adjacency iterator iterated from
begin to end returns, for every step bound above the size of the table: it
yields exactly the positions `pos + offset`, in table order, that pass the
test of `_find_inside_neighbor`; a position `pos + offset` passes the test
exactly when each of its coordinates lies between the coordinates of the lower
and the upper point, inclusive; and there are at most as many visits as the
table has entries. -/
theorem adjacency_iterator_in_bounds (neighbors : List (List Int)) (lower upper pos : List Int)
    (fuel : Nat) (hfuel : neighbors.length + 1 ≤ fuel) (hl : lower.length = pos.length)
    (hu : upper.length = pos.length) (hoff : ∀ off ∈ neighbors, off.length = pos.length) :
    ∃ out, adjacency_positions neighbors lower upper pos fuel = .ok out
      ∧ out = (neighbors.map (coord_add pos)).filter (inside_signal lower upper)
      ∧ out.Sublist (neighbors.map (coord_add pos))
      ∧ (∀ off ∈ neighbors, coord_add pos off ∈ out ↔
          ∀ (i : Nat) (l u x : Int), lower[i]? = some l → upper[i]? = some u →
            (coord_add pos off)[i]? = some x → l ≤ x ∧ x ≤ u)
      ∧ (∀ v ∈ out, ∀ (i : Nat) (l u x : Int), lower[i]? = some l → upper[i]? = some u →
            v[i]? = some x → l ≤ x ∧ x ≤ u)
      ∧ out.length ≤ neighbors.length := by
  have hlen : ∀ off ∈ neighbors, (coord_add pos off).length = pos.length := by
    intro off ho
    unfold coord_add
    rw [List.length_zipWith, hoff off ho, Nat.min_self]
  refine ⟨_, adjacency_positions_eq neighbors lower upper pos fuel hfuel, rfl,
    List.filter_sublist _, ?_, ?_, ?_⟩
  · intro off ho
    rw [List.mem_filter, ← inside_signal_iff lower upper _ (by rw [hlen off ho, hl])
      (by rw [hlen off ho, hu])]
    constructor
    · exact fun h => h.2
    · exact fun h => ⟨List.mem_map_of_mem _ ho, h⟩
  · intro v hv
    rw [List.mem_filter, List.mem_map] at hv
    obtain ⟨⟨off, ho, rfl⟩, hin⟩ := hv
    exact (inside_signal_iff lower upper _ (by rw [hlen off ho, hl])
      (by rw [hlen off ho, hu])).1 hin
  · have h : ((neighbors.map (coord_add pos)).filter (inside_signal lower upper)).Sublist
        (neighbors.map (coord_add pos)) := List.filter_sublist _
    have := h.length_le
    simpa using this

/-- Witness of C24: the full 4-connectivity at the position `(0, 1)` of a 4x4
grid; the left neighbor is outside. -/
theorem adjacency_iterator_in_bounds_witness :
    ([[-1, 0], [1, 0], [0, -1], [0, 1]] : List (List Int)).length + 1 ≤ 5
    ∧ adjacency_positions [[-1, 0], [1, 0], [0, -1], [0, 1]] [0, 0] [3, 3] [0, 1] 5
        = .ok [[1, 1], [0, 0], [0, 2]]
    ∧ ∃ out, adjacency_positions [[-1, 0], [1, 0], [0, -1], [0, 1]] [0, 0] [3, 3] [0, 1] 5
          = .ok out
      ∧ out = (([[-1, 0], [1, 0], [0, -1], [0, 1]] : List (List Int)).map
          (coord_add [0, 1])).filter (inside_signal [0, 0] [3, 3])
      ∧ out.Sublist (([[-1, 0], [1, 0], [0, -1], [0, 1]] : List (List Int)).map
          (coord_add [0, 1]))
      ∧ (∀ off ∈ ([[-1, 0], [1, 0], [0, -1], [0, 1]] : List (List Int)),
          coord_add [0, 1] off ∈ out ↔
          ∀ (i : Nat) (l u x : Int), ([0, 0] : List Int)[i]? = some l →
            ([3, 3] : List Int)[i]? = some u →
            (coord_add [0, 1] off)[i]? = some x → l ≤ x ∧ x ≤ u)
      ∧ (∀ v ∈ out, ∀ (i : Nat) (l u x : Int), ([0, 0] : List Int)[i]? = some l →
            ([3, 3] : List Int)[i]? = some u → v[i]? = some x → l ≤ x ∧ x ≤ u)
      ∧ out.length ≤ ([[-1, 0], [1, 0], [0, -1], [0, 1]] : List (List Int)).length :=
  ⟨by decide, rfl,
    adjacency_iterator_in_bounds [[-1, 0], [1, 0], [0, -1], [0, 1]] [0, 0] [3, 3] [0, 1] 5
      (by decide) rfl rfl (by decide)⟩

/-- The three-leaf tree built on the 3x1 raster is a binary subtree of the
forest below its root, the region at address 4. -/
theorem scenario_tree_subtree :
    BinarySubtree scenario_tree 4 ⟨4, [], none, [3, 2], [1]⟩
      (.node 3 (.leaf 0) (.leaf 1)) (.leaf 2) :=
  { alive := rfl
    children := rfl
    distinct := by decide
    parent_left := ⟨⟨3, [], some 4, [0, 1], []⟩, rfl, rfl⟩
    parent_right := ⟨⟨2, [2], some 4, [], []⟩, rfl, rfl⟩
    left := ⟨⟨3, [], some 4, [0, 1], []⟩, rfl, rfl, rfl, by decide,
      ⟨⟨0, [0], some 3, [], []⟩, rfl, rfl⟩, ⟨⟨1, [1], some 3, [], []⟩, rfl, rfl⟩,
      ⟨⟨0, [0], some 3, [], []⟩, rfl, rfl, by decide⟩,
      ⟨⟨1, [1], some 3, [], []⟩, rfl, rfl, by decide⟩⟩
    right := ⟨⟨2, [2], some 4, [], []⟩, rfl, rfl, by decide⟩
    arena_left := by
      intro d hd
      simp only [BTree.nodes, List.mem_cons, List.mem_append, List.mem_singleton,
        List.not_mem_nil, or_false] at hd
      rcases hd with e | e | e
      · subst e; exact ⟨⟨3, [], some 4, [0, 1], []⟩, rfl, rfl⟩
      · subst e; exact ⟨⟨0, [0], some 3, [], []⟩, rfl, rfl⟩
      · subst e; exact ⟨⟨1, [1], some 3, [], []⟩, rfl, rfl⟩
    arena_right := by
      intro d hd
      simp only [BTree.nodes, List.mem_singleton] at hd
      subst hd
      exact ⟨⟨2, [2], some 4, [], []⟩, rfl, rfl⟩
    in_raster := by decide }

/-- C26. If `r` is an internal region with an empty coordinate list whose
subtree is a finite binary tree of the forest, `prune(r)` returns (given
enough fuel for the loops of the embedding), and afterwards the coordinate
list of `r` is the concatenation of the coordinate lists of the leaves below
`r`, those of the subtree of child 0 before those of the subtree of child 1,
each list taken once; the leaves raster keeps its sizes, holds the label of
`r` at exactly the pixels of this list, and is unchanged at every other
pixel. -/
theorem prune_rebuilds_coordinates (fuel : Nat) (f : HierarchicalRegionPartition)
    (region : Nat) (reg : HierarchicalRegion) (l r : BTree)
    (hs : BinarySubtree f region reg l r) (hempty : reg.coordinates = [])
    (hfuel : l.size + r.size + (l.coords f.heap ++ r.coords f.heap).length + 2 ≤ fuel) :
    ∃ f', prune fuel f region = .ok f'
      ∧ f'.heap[region]? = some (some { reg with
            coordinates := ((l.leaf_addrs ++ r.leaf_addrs).map (coords_of f.heap)).flatten,
            children := [] })
      ∧ f'._leaves_partition.sizes = f._leaves_partition.sizes
      ∧ f'._leaves_partition.data.length = f._leaves_partition.data.length
      ∧ ∀ c : Nat, f'._leaves_partition.data[c]?
          = if c ∈ ((l.leaf_addrs ++ r.leaf_addrs).map (coords_of f.heap)).flatten
            then some reg.label else f._leaves_partition.data[c]? := by
  obtain ⟨f', cs, hp, hreg, -, hexact, -⟩ := prune_effect fuel f region reg l r hs hfuel
  obtain ⟨hcs, hw⟩ := hexact (by rw [hempty]; rfl)
  have hflat : ((l.leaf_addrs ++ r.leaf_addrs).map (coords_of f.heap)).flatten
      = l.coords f.heap ++ r.coords f.heap := by
    simp [BTree.coords]
  obtain ⟨hsz, hlen, hdata⟩ := write_all_inv cs f._leaves_partition f'._leaves_partition
    reg.label hw
  refine ⟨f', hp, ?_, hsz, hlen, fun c => ?_⟩
  · rw [hreg, hempty, List.nil_append, hcs, hflat]
  · rw [hdata c, hflat, ← hcs]
    by_cases hc : c ∈ cs
    · have : c < f._leaves_partition.data.length := hs.in_raster c (hcs ▸ hc)
      simp only [hc, this, and_self, if_true]
    · simp only [hc, false_and, if_false]

/-- Witness of C26: pruning the root of the three-leaf tree built on the 3x1
raster, whose coordinate list is empty. -/
theorem prune_rebuilds_coordinates_witness :
    BinarySubtree scenario_tree 4 ⟨4, [], none, [3, 2], [1]⟩
        (.node 3 (.leaf 0) (.leaf 1)) (.leaf 2)
    ∧ ∃ f', prune 20 scenario_tree 4 = .ok f'
      ∧ f'.heap[4]? = some (some { (⟨4, [], none, [3, 2], [1]⟩ : HierarchicalRegion) with
            coordinates := (((BTree.node 3 (.leaf 0) (.leaf 1)).leaf_addrs
              ++ (BTree.leaf 2).leaf_addrs).map (coords_of scenario_tree.heap)).flatten,
            children := [] })
      ∧ f'._leaves_partition.sizes = scenario_tree._leaves_partition.sizes
      ∧ f'._leaves_partition.data.length = scenario_tree._leaves_partition.data.length
      ∧ ∀ c : Nat, f'._leaves_partition.data[c]?
          = if c ∈ (((BTree.node 3 (.leaf 0) (.leaf 1)).leaf_addrs
              ++ (BTree.leaf 2).leaf_addrs).map (coords_of scenario_tree.heap)).flatten
            then some (⟨4, [], none, [3, 2], [1]⟩ : HierarchicalRegion).label
            else scenario_tree._leaves_partition.data[c]? :=
  ⟨scenario_tree_subtree,
    prune_rebuilds_coordinates 20 scenario_tree 4 ⟨4, [], none, [3, 2], [1]⟩
      (.node 3 (.leaf 0) (.leaf 1)) (.leaf 2) scenario_tree_subtree rfl (by decide)⟩

/-- C27. For a live region `r` of the forest: if `r` has no children,
`prune(r)` returns the forest unchanged; if the subtree of `r` is a finite
binary tree of the forest and `r` is stored in the arena slot of its label,
`prune(r)` returns (given enough fuel for the loops of the embedding; a
region deleted twice would be undefined behaviour, not a result), the arena
keeps its size, every node below `r` is deleted and the slot of its label is
empty, the slot of `r` still holds `r`, and every slot that is not the slot of
a node below `r` is as it was. -/
theorem prune_empties_descendant_slots (fuel : Nat) (f : HierarchicalRegionPartition)
    (region : Nat) (reg : HierarchicalRegion) (halive : f.heap[region]? = some (some reg)) :
    (reg.children = [] → prune fuel f region = .ok f)
    ∧ ∀ l r : BTree, BinarySubtree f region reg l r →
        f._regions[reg.label]? = some (some region) →
        l.size + r.size + (l.coords f.heap ++ r.coords f.heap).length + 2 ≤ fuel →
        ∃ f', prune fuel f region = .ok f'
          ∧ f'._regions.length = f._regions.length
          ∧ (∀ d ∈ l.nodes ++ r.nodes,
              f'.heap[d]? = some none ∧ f'._regions[label_of f.heap d]? = some none)
          ∧ f'._regions[reg.label]? = some (some region)
          ∧ ∀ i : Nat, (∀ d ∈ l.nodes ++ r.nodes, label_of f.heap d ≠ i) →
              f'._regions[i]? = f._regions[i]? := by
  refine ⟨fun hch => ?_, fun l r hs hslot hfuel => ?_⟩
  · unfold prune
    simp only [deref_eq_ok.mpr halive, bind, Except.bind, hch, List.length_nil, gt_iff_lt,
      Nat.lt_irrefl, if_false]
  · obtain ⟨f', cs, hp, -, -, -, -, hdel, -, hslots, hlen, -⟩ :=
      prune_effect fuel f region reg l r hs hfuel
    have hown : ∀ d ∈ l.nodes ++ r.nodes, label_of f.heap d ≠ reg.label := by
      intro d hd e
      have hD : ∃ rd, f.heap[d]? = some (some rd) ∧ f._regions[rd.label]? = some (some d) := by
        rcases List.mem_append.mp hd with h | h
        · exact hs.arena_left d h
        · exact hs.arena_right d h
      obtain ⟨rd, hrd, hsd⟩ := hD
      rw [label_of_eq hrd] at e
      rw [e, hslot] at hsd
      simp only [Option.some.injEq] at hsd
      have hnd := hs.distinct
      rw [List.nodup_cons] at hnd
      exact hnd.1 (hsd ▸ hd)
    exact ⟨f', hp, hlen, hdel, (hslots _ hown).trans hslot, hslots⟩

/-- Witness of C27: pruning the root of the three-leaf tree built on the 3x1
raster, and pruning its leaf at address 2. -/
theorem prune_empties_descendant_slots_witness :
    scenario_tree.heap[2]? = some (some ⟨2, [2], some 4, [], []⟩)
    ∧ prune 20 scenario_tree 2 = .ok scenario_tree
    ∧ scenario_tree.heap[4]? = some (some ⟨4, [], none, [3, 2], [1]⟩)
    ∧ BinarySubtree scenario_tree 4 ⟨4, [], none, [3, 2], [1]⟩
        (.node 3 (.leaf 0) (.leaf 1)) (.leaf 2)
    ∧ ∃ f', prune 20 scenario_tree 4 = .ok f'
      ∧ f'._regions.length = scenario_tree._regions.length
      ∧ (∀ d ∈ (BTree.node 3 (.leaf 0) (.leaf 1)).nodes ++ (BTree.leaf 2).nodes,
          f'.heap[d]? = some none
            ∧ f'._regions[label_of scenario_tree.heap d]? = some none)
      ∧ f'._regions[(⟨4, [], none, [3, 2], [1]⟩ : HierarchicalRegion).label]? = some (some 4)
      ∧ ∀ i : Nat, (∀ d ∈ (BTree.node 3 (.leaf 0) (.leaf 1)).nodes ++ (BTree.leaf 2).nodes,
            label_of scenario_tree.heap d ≠ i) →
          f'._regions[i]? = scenario_tree._regions[i]? :=
  ⟨rfl,
    (prune_empties_descendant_slots 20 scenario_tree 2 ⟨2, [2], some 4, [], []⟩ rfl).1 rfl,
    rfl, scenario_tree_subtree,
    (prune_empties_descendant_slots 20 scenario_tree 4 ⟨4, [], none, [3, 2], [1]⟩ rfl).2
      (.node 3 (.leaf 0) (.leaf 1)) (.leaf 2) scenario_tree_subtree rfl (by decide)⟩

theorem positions_of_cons (x : Nat) (rest : List Nat) (a : Nat) :
    positions_of (x :: rest) a
      = (if x = a then [0] else []) ++ (positions_of rest a).map (fun k => k + 1) := by
  unfold positions_of
  rw [List.length_cons, List.range_succ_eq_map, List.filter_cons, List.filter_map]
  have hf : (fun c => decide ((x :: rest)[c]? = some a)) ∘ Nat.succ
      = fun c => decide (rest[c]? = some a) := by
    funext c
    simp
  rw [hf]
  by_cases hx : x = a
  · simp [hx]
  · simp [hx]

/-- The coordinate scan appends to the coordinate list of each region the
positions of its label, in raster order. -/
theorem add_coordinates_exact (regs : List (Option Nat))
    (hid : ∀ (l a : Nat), regs[l]? = some (some a) → a = l) :
    ∀ (data : List Nat) (pos : Nat) (h h' : Heap),
    add_coordinates regs pos data h = .ok h' →
    ∀ a, coords_of h' a = coords_of h a ++ (positions_of data a).map (fun k => pos + k) := by
  intro data
  induction data with
  | nil =>
    intro pos h h' he a
    simp only [add_coordinates] at he
    cases he
    simp [positions_of]
  | cons label rest ih =>
    intro pos h h' he a
    unfold add_coordinates at he
    cases hs : slot_pointer regs label with
    | error e => rw [hs] at he; cases he
    | ok b =>
      rw [hs] at he
      simp only [bind, Except.bind] at he
      split at he
      · cases he
      · rename_i h1 hm
        have hb : b = label := hid _ _ (slot_pointer_eq_ok.mp hs)
        subst hb
        rw [ih _ _ _ he a]
        obtain ⟨r, hr, rfl⟩ := modify_ok_inv hm
        have hco : coords_of (h.set b (some { r with coordinates := r.coordinates ++ [pos] })) a
            = if a = b then coords_of h b ++ [pos] else coords_of h a := by
          unfold coords_of
          rw [getElem?_set_alive hr]
          by_cases hx : a = b
          · subst hx; simp [hr]
          · simp [hx]
        rw [hco, positions_of_cons, List.map_append, List.map_map]
        have hmap : ((fun k => pos + k) ∘ fun k => k + 1) = fun k => pos + 1 + k := by
          funext k
          simp only [Function.comp]
          omega
        rw [hmap]
        by_cases hx : a = b
        · subst hx
          simp
        · have hx' : ¬ b = a := fun e => hx e.symm
          simp [hx, hx']

/-- Coordinates after `init` on a freshly constructed forest: the coordinate
list of region `a` is the list of the positions, in raster order, at which the
relabelled raster holds `a`. -/
theorem init_fresh_coords_exact (adj : Nat → List Nat) (u : Bool) (m : Nat) (p : Partition)
    (f : HierarchicalRegionPartition)
    (hi : init adj (HierarchicalRegionPartition.fresh u m) p = .ok f) :
    ∀ a, coords_of f.heap a = positions_of (relabel [] 0 p.data).2.2 a := by
  unfold init at hi
  simp only [HierarchicalRegionPartition.fresh, _clear_regions, List.foldl, bind, Except.bind,
    pure, Except.pure] at hi
  set L := (relabel [] 0 p.data).2.1 with hL
  set D := (relabel [] 0 p.data).2.2 with hD
  split at hi
  · cases hi
  · rename_i v hcl
    obtain ⟨h1, regs⟩ := v
    simp only at hi
    split at hi
    · cases hi
    · rename_i h2 hac
      split at hi
      · cases hi
      · rename_i h3 han
        simp only [Except.ok.injEq] at hi
        subst hi
        have hb : 0 + L ≤ (List.replicate
            ((2 * ((L + (2 ^ 64 - 1)) % 2 ^ 64) + 1) % 2 ^ 64) (none : Option Nat)).length := by
          rcases create_leaves_ok_bound _ _ _ _ _ hcl with hb | hb
          · exact hb
          · rw [hb]; exact Nat.zero_le _
        obtain ⟨regs', hcl', hlen, hget⟩ := create_leaves_spec L 0 [] _ hb
        rw [hcl] at hcl'
        simp only [Except.ok.injEq, Prod.mk.injEq] at hcl'
        obtain ⟨hh1, hregs⟩ := hcl'
        subst hregs
        have hid : ∀ (l a : Nat), regs[l]? = some (some a) → a = l := by
          intro l a hla
          rw [hget l] at hla
          simp only [Nat.zero_le, true_and, Nat.zero_add, List.length_nil, Nat.sub_zero] at hla
          by_cases hl : l < L
          · simp only [hl, if_true, Option.some.injEq] at hla
            exact hla.symm
          · simp only [hl, if_false, List.getElem?_replicate] at hla
            split at hla <;> simp at hla
        have hc1 : ∀ a, coords_of h1 a = [] := by
          intro a
          unfold coords_of
          rw [hh1]
          simp only [List.nil_append, List.getElem?_map]
          cases hr : (List.range' 0 L)[a]? with
          | none => simp
          | some k => simp [HierarchicalRegion.leaf]
        intro a
        show coords_of h3 a = _
        rw [add_neighbors_coords adj regs D D 0 h2 h3 han a,
          add_coordinates_exact regs hid D 0 h1 h2 hac a, hc1 a]
        simp

theorem positions_of_nodup (data : List Nat) (a : Nat) : (positions_of data a).Nodup :=
  (List.nodup_range _).filter _

theorem mem_positions_of {data : List Nat} {a c : Nat} :
    c ∈ positions_of data a ↔ data[c]? = some a := by
  unfold positions_of
  simp only [List.mem_filter, List.mem_range, decide_eq_true_eq, and_iff_right_iff_imp]
  exact getElem?_lt_of_some

/-- C28. For every raster with `L ≥ 1` distinct labels (and fewer than `2^63`
pixels), `init` on a freshly constructed forest returns a forest in which, for
every label `a < L`, the arena slot `a` holds a leaf region of label `a` whose
coordinate list is exactly the list, in raster order, of the pixels at which
the relabelled leaves raster holds `a`; this list is not empty and holds no
pixel twice; and every pixel of the grid is in the list of exactly one
label. -/
theorem init_coordinates_raster_order (adj : Nat → List Nat) (u : Bool) (m : Nat)
    (p : Partition)
    (hadj : ∀ i, i < p.data.length → ∀ j ∈ adj i, j < p.data.length)
    (hL : 1 ≤ p.data.dedup.length) (hsize : p.data.length < 2 ^ 63) :
    ∃ f, init adj (HierarchicalRegionPartition.fresh u m) p = .ok f
      ∧ f._leaves_partition.data.length = p.data.length
      ∧ (∀ a, a < p.data.dedup.length → ∃ x r, f._regions[a]? = some (some x)
          ∧ f.heap[x]? = some (some r) ∧ r.label = a ∧ r.children = []
          ∧ r.coordinates = (List.range p.data.length).filter
              (fun c => decide (f._leaves_partition.data[c]? = some a))
          ∧ r.coordinates ≠ [] ∧ r.coordinates.Nodup)
      ∧ ∀ c, c < p.data.length → ∃ a, a < p.data.dedup.length
          ∧ c ∈ coords_of f.heap a ∧ (coords_of f.heap a).count c = 1
          ∧ ∀ b, c ∈ coords_of f.heap b → b = a := by
  obtain ⟨f, hf, hsk, hregs, hlp, -⟩ := init_fresh_spec adj u m p hadj hL hsize
  have hco := init_fresh_coords_exact adj u m p f hf
  have hlen : (relabel [] 0 p.data).2.2.length = p.data.length := relabel_length _ _ _
  have hcur : (relabel [] 0 p.data).2.1 = p.data.dedup.length := relabel_fresh_count p.data
  have hpos : ∀ a, positions_of (relabel [] 0 p.data).2.2 a
      = (List.range p.data.length).filter
          (fun c => decide (f._leaves_partition.data[c]? = some a)) := by
    intro a
    unfold positions_of
    rw [hlen, hlp]
  refine ⟨f, hf, by rw [hlp]; exact hlen, ?_, ?_⟩
  · intro a ha
    have hs : (heap_skeleton f.heap)[a]? = some (some (a, none, [])) := by
      rw [hsk]; simp [List.getElem?_map, List.getElem?_range', ha]
    obtain ⟨r, hr, hsr⟩ := heap_skeleton_alive hs
    simp only [skeleton, Prod.mk.injEq] at hsr
    have hrc : r.coordinates = positions_of (relabel [] 0 p.data).2.2 a := by
      rw [← hco a]
      unfold coords_of
      rw [hr]
    refine ⟨a, r, ?_, hr, hsr.1, hsr.2.2, by rw [hrc, hpos a], ?_, ?_⟩
    · rw [hregs, List.getElem?_append]
      simp [ha, List.getElem?_map, List.getElem?_range ha]
    · have hmem : a ∈ (relabel [] 0 p.data).2.2 :=
        relabel_surj p.data [] 0 a (Nat.zero_le _) (by rw [hcur]; exact ha)
      obtain ⟨c, hc⟩ := List.getElem?_of_mem hmem
      intro e
      have : c ∈ r.coordinates := by rw [hrc]; exact mem_positions_of.mpr hc
      rw [e] at this
      exact List.not_mem_nil _ this
    · rw [hrc]
      exact positions_of_nodup _ _
  · intro c hc
    have hclt : c < (relabel [] 0 p.data).2.2.length := by rw [hlen]; exact hc
    have hget : (relabel [] 0 p.data).2.2[c]? = some ((relabel [] 0 p.data).2.2[c]) :=
      List.getElem?_eq_getElem hclt
    refine ⟨(relabel [] 0 p.data).2.2[c], ?_, ?_, ?_, ?_⟩
    · rw [← hcur]
      exact relabel_dense_lt p.data c _ hget
    · rw [hco]
      exact mem_positions_of.mpr hget
    · rw [hco]
      exact List.count_eq_one_of_mem (positions_of_nodup _ _) (mem_positions_of.mpr hget)
    · intro b hb
      rw [hco] at hb
      have := mem_positions_of.mp hb
      rw [hget] at this
      simp only [Option.some.injEq] at this
      exact this.symm

/-- Witness of C28: the 4x4 two-label raster, scanned with the forward
4-connectivity. -/
theorem init_coordinates_raster_order_witness :
    (∀ i, i < raster4x4.data.length →
        ∀ j ∈ grid_adjacency 4 4 forward_connectivity4 i, j < raster4x4.data.length)
    ∧ 1 ≤ raster4x4.data.dedup.length ∧ raster4x4.data.length < 2 ^ 63
    ∧ ∃ f, init (grid_adjacency 4 4 forward_connectivity4)
          (HierarchicalRegionPartition.fresh true 0) raster4x4 = .ok f
      ∧ f._leaves_partition.data.length = raster4x4.data.length
      ∧ (∀ a, a < raster4x4.data.dedup.length → ∃ x r, f._regions[a]? = some (some x)
          ∧ f.heap[x]? = some (some r) ∧ r.label = a ∧ r.children = []
          ∧ r.coordinates = (List.range raster4x4.data.length).filter
              (fun c => decide (f._leaves_partition.data[c]? = some a))
          ∧ r.coordinates ≠ [] ∧ r.coordinates.Nodup)
      ∧ ∀ c, c < raster4x4.data.length → ∃ a, a < raster4x4.data.dedup.length
          ∧ c ∈ coords_of f.heap a ∧ (coords_of f.heap a).count c = 1
          ∧ ∀ b, c ∈ coords_of f.heap b → b = a :=
  ⟨by decide, by decide, by decide,
   init_coordinates_raster_order (grid_adjacency 4 4 forward_connectivity4) true 0 raster4x4
     (by decide) (by decide) (by decide)⟩

theorem mem_take_iff_indexOf : ∀ (W : List Nat) (k y : Nat),
    y ∈ W.take k ↔ W.indexOf y < k ∧ y ∈ W := by
  intro W
  induction W with
  | nil => intro k y; simp
  | cons w W ih =>
    intro k y
    cases k with
    | zero => simp
    | succ k =>
      rw [List.take_succ_cons, List.mem_cons, List.mem_cons, ih k y, List.indexOf_cons]
      by_cases hy : w = y
      · subst hy; simp
      · have hy' : ¬ y = w := fun e => hy e.symm
        have hb : (w == y) = false := by simpa using hy
        simp [hy', hb]

/-- The rank of a label counts the distinct labels before its first
occurrence. -/
theorem first_seen_rank_eq (W : List Nat) (x : Nat) :
    first_seen_rank W x = (W.take (W.indexOf x)).toFinset.card := by
  unfold first_seen_rank
  have hnd : (W.dedup.filter (fun y => decide (W.indexOf y < W.indexOf x))).Nodup :=
    (List.nodup_dedup W).filter _
  rw [← List.toFinset_card_of_nodup hnd]
  congr 1
  ext y
  simp only [List.mem_toFinset, List.mem_filter, List.mem_dedup, decide_eq_true_eq,
    mem_take_iff_indexOf]
  tauto

theorem first_seen_rank_prefix (pre rest : List Nat) (x : Nat) (hx : x ∉ pre) :
    first_seen_rank (pre ++ x :: rest) x = pre.toFinset.card := by
  rw [first_seen_rank_eq]
  have hidx : (pre ++ x :: rest).indexOf x = pre.length := by
    rw [List.indexOf_append_of_not_mem hx]
    simp
  rw [hidx, List.take_left' rfl]

/-- Different labels of a raster have different ranks. -/
theorem first_seen_rank_inj (W : List Nat) (x y : Nat) (hx : x ∈ W) (hy : y ∈ W)
    (h : first_seen_rank W x = first_seen_rank W y) : x = y := by
  have key : ∀ a b, a ∈ W → b ∈ W → W.indexOf a < W.indexOf b →
      first_seen_rank W a < first_seen_rank W b := by
    intro a b ha hb hab
    rw [first_seen_rank_eq, first_seen_rank_eq]
    apply Finset.card_lt_card
    rw [Finset.ssubset_iff_of_subset]
    · refine ⟨a, ?_, ?_⟩
      · rw [List.mem_toFinset, mem_take_iff_indexOf]
        exact ⟨hab, ha⟩
      · rw [List.mem_toFinset, mem_take_iff_indexOf]
        intro hh
        exact Nat.lt_irrefl _ hh.1
    · intro z hz
      rw [List.mem_toFinset, mem_take_iff_indexOf] at hz ⊢
      exact ⟨lt_trans hz.1 hab, hz.2⟩
  rcases Nat.lt_trichotomy (W.indexOf x) (W.indexOf y) with hlt | heq | hgt
  · have := key x y hx hy hlt
    omega
  · have h1 := List.getElem_indexOf (List.indexOf_lt_length.mpr hx)
    have h2 := List.getElem_indexOf (List.indexOf_lt_length.mpr hy)
    rw [← h1, ← h2]
    congr 1
  · have := key y x hy hx hgt
    omega

/-- The relabeling loop, started after the labels `pre` have been scanned:
every pixel receives the rank of its label, and the map then holds the rank of
every label scanned. -/
theorem relabel_rank (W : List Nat) : ∀ (data pre : List Nat) (corr : List (Nat × Nat)) (n : Nat),
    W = pre ++ data → n = pre.toFinset.card →
    (∀ x, corr.lookup x = if x ∈ pre then some (first_seen_rank W x) else none) →
    (relabel corr n data).2.2 = data.map (first_seen_rank W)
      ∧ ∀ x, (relabel corr n data).1.lookup x
          = if x ∈ W then some (first_seen_rank W x) else none := by
  intro data
  induction data with
  | nil =>
    intro pre corr n hW hn hcorr
    rw [List.append_nil] at hW
    subst hW
    exact ⟨rfl, hcorr⟩
  | cons x rest ih =>
    intro pre corr n hW hn hcorr
    have hW' : W = (pre ++ [x]) ++ rest := by rw [hW]; simp
    unfold relabel
    cases hl : corr.lookup x with
    | none =>
      have hx : x ∉ pre := by
        intro hx
        rw [hcorr x] at hl
        simp [hx] at hl
      have hrank : first_seen_rank W x = n := by
        rw [hW, hn]
        exact first_seen_rank_prefix pre rest x hx
      have hn' : n + 1 = (pre ++ [x]).toFinset.card := by
        rw [List.toFinset_append, hn]
        simp only [List.toFinset_cons, List.toFinset_nil, insert_emptyc_eq]
        rw [Finset.card_union_of_disjoint (by simpa using hx)]
        simp
      have hcorr' : ∀ y, ((x, n) :: corr).lookup y
          = if y ∈ pre ++ [x] then some (first_seen_rank W y) else none := by
        intro y
        rw [List.lookup_cons]
        by_cases hy : y = x
        · subst hy
          simp [hrank]
        · have hb : (y == x) = false := by simpa using hy
          rw [hb, hcorr y]
          simp [hy]
      obtain ⟨h1, h2⟩ := ih (pre ++ [x]) ((x, n) :: corr) (n + 1) hW' hn' hcorr'
      simp only [List.map_cons]
      exact ⟨by rw [h1, hrank], h2⟩
    | some v =>
      have hx : x ∈ pre := by
        by_contra hx
        rw [hcorr x] at hl
        simp [hx] at hl
      have hv : v = first_seen_rank W x := by
        rw [hcorr x] at hl
        simp only [hx, if_true, Option.some.injEq] at hl
        exact hl.symm
      have hn' : n = (pre ++ [x]).toFinset.card := by
        rw [List.toFinset_append, hn]
        congr 1
        ext y
        simp only [List.toFinset_cons, List.toFinset_nil, insert_emptyc_eq, Finset.mem_union,
          List.mem_toFinset, Finset.mem_singleton]
        constructor
        · exact Or.inl
        · rintro (h | h)
          · exact h
          · rw [h]; exact hx
      have hcorr' : ∀ y, corr.lookup y
          = if y ∈ pre ++ [x] then some (first_seen_rank W y) else none := by
        intro y
        rw [hcorr y]
        by_cases hy : y = x
        · subst hy; simp [hx]
        · simp [hy]
      obtain ⟨h1, h2⟩ := ih (pre ++ [x]) corr n hW' hn' hcorr'
      simp only [List.map_cons]
      exact ⟨by rw [h1, hv], h2⟩

/-- C29. For every raster with `L ≥ 1` distinct labels (and fewer than `2^63`
pixels), `init` on a freshly constructed forest returns a forest whose leaves
raster holds, at every pixel, the number of distinct input labels whose first
occurrence in raster order comes before the first occurrence of the input
label of that pixel; two pixels have the same new label exactly when they had
the same input label; and `correspondence(old)` returns, for every input
label `old`, that number, the new label of the pixels of `old`, and leaves the
forest as it is. -/
theorem init_first_seen_relabel (adj : Nat → List Nat) (u : Bool) (m : Nat) (p : Partition)
    (hadj : ∀ i, i < p.data.length → ∀ j ∈ adj i, j < p.data.length)
    (hL : 1 ≤ p.data.dedup.length) (hsize : p.data.length < 2 ^ 63) :
    ∃ f, init adj (HierarchicalRegionPartition.fresh u m) p = .ok f
      ∧ f._leaves_partition.sizes = p.sizes
      ∧ f._leaves_partition.data = p.data.map (first_seen_rank p.data)
      ∧ (∀ c d : Nat, c < p.data.length → d < p.data.length →
          (f._leaves_partition.data[c]? = f._leaves_partition.data[d]? ↔ p.data[c]? = p.data[d]?))
      ∧ ∀ old ∈ p.data, correspondence f old = (first_seen_rank p.data old, f) := by
  obtain ⟨f, hf, -, -, hlp, -⟩ := init_fresh_spec adj u m p hadj hL hsize
  obtain ⟨hdata, hcorr⟩ := relabel_rank p.data p.data [] [] 0 rfl rfl (fun x => by simp)
  have hfc : f._correspondences = (relabel [] 0 p.data).1 := by
    unfold init at hf
    simp only [HierarchicalRegionPartition.fresh, _clear_regions, List.foldl, bind, Except.bind,
      pure, Except.pure] at hf
    split at hf
    · cases hf
    · rename_i v hcl
      obtain ⟨h1, regs⟩ := v
      simp only at hf
      split at hf
      · cases hf
      · split at hf
        · cases hf
        · simp only [Except.ok.injEq] at hf
          subst hf
          rfl
  refine ⟨f, hf, by rw [hlp], by rw [hlp]; exact hdata, ?_, ?_⟩
  · intro c d hc hd
    rw [hlp]
    simp only
    rw [hdata, List.getElem?_map, List.getElem?_map, List.getElem?_eq_getElem hc,
      List.getElem?_eq_getElem hd]
    simp only [Option.map_some', Option.some.injEq]
    constructor
    · exact first_seen_rank_inj p.data _ _ (List.getElem_mem hc) (List.getElem_mem hd)
    · intro e; rw [e]
  · intro old hold
    unfold correspondence
    rw [hfc, hcorr old]
    simp [hold]

/-- Witness of C29: the 4x4 two-label raster, scanned with the forward
4-connectivity. -/
theorem init_first_seen_relabel_witness :
    (∀ i, i < raster4x4.data.length →
        ∀ j ∈ grid_adjacency 4 4 forward_connectivity4 i, j < raster4x4.data.length)
    ∧ 1 ≤ raster4x4.data.dedup.length ∧ raster4x4.data.length < 2 ^ 63
    ∧ ∃ f, init (grid_adjacency 4 4 forward_connectivity4)
          (HierarchicalRegionPartition.fresh true 0) raster4x4 = .ok f
      ∧ f._leaves_partition.sizes = raster4x4.sizes
      ∧ f._leaves_partition.data = raster4x4.data.map (first_seen_rank raster4x4.data)
      ∧ (∀ c d : Nat, c < raster4x4.data.length → d < raster4x4.data.length →
          (f._leaves_partition.data[c]? = f._leaves_partition.data[d]?
            ↔ raster4x4.data[c]? = raster4x4.data[d]?))
      ∧ ∀ old ∈ raster4x4.data, correspondence f old = (first_seen_rank raster4x4.data old, f) :=
  ⟨by decide, by decide, by decide,
   init_first_seen_relabel (grid_adjacency 4 4 forward_connectivity4) true 0 raster4x4
     (by decide) (by decide) (by decide)⟩

/-- C30 fails on the code: `init` does not clear `_correspondences`, and
restarts its label counter at 0.  On a freshly constructed forest, `init` on
the 2x1 raster `[8, 7]` gives the leaf labels `[0, 1]`, an arena of 3 slots
and the correspondences `8 → 0`, `7 → 1`.  On the forest that an earlier
`init` built on the 2x1 raster `[7, 9]`, the label 7 keeps its old
correspondence 0 and the new label 8 receives 0 as well: the leaf labels are
`[0, 0]`, the arena has 1 slot and both input labels correspond to 0.  On the
same forest, `init` on the 3x1 raster `[7, 8, 9]` indexes the arena out of
its range. -/
theorem init_keeps_old_correspondences :
    init_outcome (init (grid_adjacency 2 1 connectivity4)
        (HierarchicalRegionPartition.fresh true 0) raster2x1_second)
      = .ok ([0, 1], 3, 0, 1)
    ∧ (forest_of (grid_adjacency 2 1 connectivity4) raster2x1)._correspondences
        = [(9, 1), (7, 0)]
    ∧ init_outcome (init (grid_adjacency 2 1 connectivity4)
        (forest_of (grid_adjacency 2 1 connectivity4) raster2x1) raster2x1_second)
      = .ok ([0, 0], 1, 0, 0)
    ∧ init (grid_adjacency 3 1 connectivity4)
        (forest_of (grid_adjacency 2 1 connectivity4) raster2x1) raster3x1
      = .error .undefined_behaviour :=
  ⟨rfl, rfl, rfl, rfl⟩

theorem value_diff_zero : ∀ (v1 v2 : List Int), v1.length = v2.length →
    (isZero (coord_sub v1 v2) = true ↔ v1 = v2) := by
  intro v1
  induction v1 with
  | nil =>
    intro v2 h
    cases v2 with
    | nil => simp [isZero, coord_sub]
    | cons _ _ => simp at h
  | cons x xs ih =>
    intro v2 h
    cases v2 with
    | nil => simp at h
    | cons y ys =>
      simp only [List.length_cons, Nat.succ.injEq, Nat.add_right_cancel_iff] at h
      have := ih ys h
      simp only [isZero, coord_sub, List.zipWith_cons_cons, List.all_cons, Bool.and_eq_true,
        decide_eq_true_eq, List.cons.injEq] at this ⊢
      rw [this]
      constructor
      · rintro ⟨h1, h2⟩; exact ⟨by omega, h2⟩
      · rintro ⟨h1, h2⟩; exact ⟨by omega, h2⟩

theorem pending_set_le (v : Nat) : ∀ (data : List Nat) (t : Nat),
    pending v (data.set t v) ≤ pending v data := by
  intro data
  induction data with
  | nil => intro t; simp [pending]
  | cons x rest ih =>
    intro t
    cases t with
    | zero =>
      simp only [List.set_cons_zero, pending, List.countP_cons, ne_eq, not_true_eq_false,
        decide_False, Bool.false_eq_true, if_false, Nat.add_zero]
      omega
    | succ t =>
      have := ih t
      simp only [pending] at this
      simp only [List.set_cons_succ, pending, List.countP_cons]
      omega

theorem pending_set_lt (v : Nat) : ∀ (data : List Nat) (q x : Nat),
    data[q]? = some x → x ≠ v → pending v (data.set q v) + 1 = pending v data := by
  intro data
  induction data with
  | nil => intro q x h; simp at h
  | cons y rest ih =>
    intro q x h hx
    cases q with
    | zero =>
      simp only [List.getElem?_cons_zero, Option.some.injEq] at h
      subst h
      simp [pending, List.countP_cons, hx]
    | succ q =>
      simp only [List.getElem?_cons_succ] at h
      have := ih q x h hx
      simp only [pending] at this
      simp only [List.set_cons_succ, pending, List.countP_cons]
      omega

theorem pending_le_length (v : Nat) (data : List Nat) : pending v data ≤ data.length :=
  List.countP_le_length _

theorem getElem?_set_val {data : List Nat} {q j v : Nat} (hq : q < data.length) :
    (data.set q v)[j]? = if j = q then some v else data[j]? := by
  rw [List.getElem?_set]
  by_cases h : q = j
  · subst h; simp [hq]
  · have h' : ¬ j = q := fun e => h e.symm
    simp [h, h']

/-- The loop over the neighbors of `t` returns; it labels exactly the
neighbors with label zero and the image value of `t`, and pushes them. -/
theorem flatzone_visit_spec (img : List (List Int)) (N channels t curr_value : Nat)
    (himg : img.length = N) (hch : ∀ v ∈ img, v.length = channels) (ht : t < N)
    (hcv : curr_value ≠ 0) :
    ∀ (qs data to_scan : List Nat), (∀ q ∈ qs, q < N) → data.length = N →
    ∃ data' pushed, flatzone_visit img t curr_value qs data to_scan
        = .ok (data', to_scan ++ pushed)
      ∧ data'.length = N
      ∧ (∀ j : Nat, (data'[j]? = some curr_value ∧ data[j]? = some 0 ∧ j ∈ qs
            ∧ img[t]? = img[j]? ∧ j ∈ pushed) ∨ (data'[j]? = data[j]? ∧ j ∉ pushed))
      ∧ (∀ q ∈ qs, img[t]? = img[q]? → data[q]? = some 0 → data'[q]? = some curr_value)
      ∧ pending curr_value data' + pushed.length = pending curr_value data := by
  intro qs
  induction qs with
  | nil =>
    intro data to_scan _ hlen
    refine ⟨data, [], by simp [flatzone_visit], hlen, fun j => Or.inr ⟨rfl, by simp⟩, ?_, by simp⟩
    intro q hq
    simp at hq
  | cons q rest ih =>
    intro data to_scan hqs hlen
    have hq : q < N := hqs q (List.mem_cons_self _ _)
    have hrest : ∀ x ∈ rest, x < N := fun x hx => hqs x (List.mem_cons_of_mem _ hx)
    have hqd : q < data.length := by rw [hlen]; exact hq
    have hget : data[q]? = some data[q] := List.getElem?_eq_getElem hqd
    have htl : t < img.length := by rw [himg]; exact ht
    have hql : q < img.length := by rw [himg]; exact hq
    have hv1 : img[t]? = some img[t] := List.getElem?_eq_getElem htl
    have hv2 : img[q]? = some img[q] := List.getElem?_eq_getElem hql
    have hsame : img[t].length = img[q].length := by
      rw [hch _ (List.getElem_mem htl), hch _ (List.getElem_mem hql)]
    -- the neighbor is skipped
    have skip : (data[q] ≠ 0 ∨ ¬ img[t]? = img[q]?) →
        flatzone_visit img t curr_value (q :: rest) data to_scan
          = flatzone_visit img t curr_value rest data to_scan →
        ∃ data' pushed, flatzone_visit img t curr_value (q :: rest) data to_scan
            = .ok (data', to_scan ++ pushed)
          ∧ data'.length = N
          ∧ (∀ j : Nat, (data'[j]? = some curr_value ∧ data[j]? = some 0 ∧ j ∈ q :: rest
                ∧ img[t]? = img[j]? ∧ j ∈ pushed) ∨ (data'[j]? = data[j]? ∧ j ∉ pushed))
          ∧ (∀ x ∈ q :: rest, img[t]? = img[x]? → data[x]? = some 0 →
                data'[x]? = some curr_value)
          ∧ pending curr_value data' + pushed.length = pending curr_value data := by
      intro hno heq
      obtain ⟨data', pushed, hv, hl, hc1, hc2, hcnt⟩ := ih data to_scan hrest hlen
      refine ⟨data', pushed, by rw [heq]; exact hv, hl, fun j => ?_, ?_, hcnt⟩
      · rcases hc1 j with ⟨a1, a2, a3, a4, a5⟩ | h
        · exact Or.inl ⟨a1, a2, List.mem_cons_of_mem _ a3, a4, a5⟩
        · exact Or.inr h
      · intro x hx himx hzx
        rcases List.mem_cons.mp hx with e | hx'
        · subst e
          rcases hno with hno | hno
          · rw [hget] at hzx
            simp only [Option.some.injEq] at hzx
            exact absurd hzx hno
          · exact absurd himx hno
        · exact hc2 x hx' himx hzx
    by_cases hz : data[q] = 0
    · by_cases heqv : img[t] = img[q]
      · -- the neighbor is labelled and pushed
        have hstep : flatzone_visit img t curr_value (q :: rest) data to_scan
            = flatzone_visit img t curr_value rest (data.set q curr_value) (to_scan ++ [q]) := by
          rw [flatzone_visit]
          simp only [hget, hz, if_true, hv1, hv2, (value_diff_zero _ _ hsame).mpr heqv]
        obtain ⟨data', pushed, hv, hl, hc1, hc2, hcnt⟩ :=
          ih (data.set q curr_value) (to_scan ++ [q]) hrest (by rw [List.length_set]; exact hlen)
        have hset : ∀ j : Nat, (data.set q curr_value)[j]?
            = if j = q then some curr_value else data[j]? := fun j => getElem?_set_val hqd
        have himq : img[t]? = img[q]? := by rw [hv1, hv2, heqv]
        have hq' : data'[q]? = some curr_value := by
          rcases hc1 q with ⟨a1, -⟩ | ⟨a1, -⟩
          · exact a1
          · rw [a1, hset q]; simp
        refine ⟨data', q :: pushed, ?_, hl, fun j => ?_, ?_, ?_⟩
        · rw [hstep, hv]; simp
        · rcases hc1 j with ⟨a1, a2, a3, a4, a5⟩ | ⟨a1, a2⟩
          · left
            rw [hset j] at a2
            by_cases hj : j = q
            · simp only [hj, if_true, Option.some.injEq] at a2
              exact absurd a2 hcv
            · simp only [hj, if_false] at a2
              exact ⟨a1, a2, List.mem_cons_of_mem _ a3, a4, List.mem_cons_of_mem _ a5⟩
          · by_cases hj : j = q
            · subst hj
              left
              exact ⟨hq', by rw [hget, hz], List.mem_cons_self _ _, himq,
                List.mem_cons_self _ _⟩
            · right
              rw [hset j] at a1
              simp only [hj, if_false] at a1
              refine ⟨a1, ?_⟩
              simp only [List.mem_cons, not_or]
              exact ⟨hj, a2⟩
        · intro x hx himx hzx
          by_cases hxq : x = q
          · rw [hxq]; exact hq'
          · rcases List.mem_cons.mp hx with e | hx'
            · exact absurd e hxq
            · apply hc2 x hx' himx
              rw [hset x]
              simp only [hxq, if_false]
              exact hzx
        · have := pending_set_lt curr_value data q data[q] hget (by rw [hz]; exact Ne.symm hcv)
          simp only [List.length_cons]
          omega
      · apply skip
        · right
          rw [hv1, hv2]
          intro e
          simp only [Option.some.injEq] at e
          exact heqv e
        · rw [flatzone_visit]
          have hnz : isZero (coord_sub img[t] img[q]) = false := by
            cases hb : isZero (coord_sub img[t] img[q]) with
            | false => rfl
            | true => exact absurd ((value_diff_zero _ _ hsame).mp hb) heqv
          simp only [hget, hz, if_true, hv1, hv2, hnz, Bool.false_eq_true, if_false]
    · apply skip (Or.inl hz)
      rw [flatzone_visit]
      simp only [hget, hz, if_false]

/-- The fill loop returns, and has then given the label `curr` to the pixels
joined to the seed and left the other labels as they were. -/
theorem flatzone_fill_spec (adj : Nat → List Nat) (img : List (List Int))
    (N channels s curr : Nat) (Z0 : List Nat)
    (himg : img.length = N) (hch : ∀ v ∈ img, v.length = channels)
    (hadj : ∀ a, a < N → ∀ b ∈ adj a, b < N) (hcv : curr ≠ 0)
    (H1 : ∀ j, flat_joined adj img N s j → Z0[j]? = some 0) :
    ∀ (fuel : Nat) (data queue : List Nat), FillInv adj img N s curr Z0 data queue →
    pending curr data + queue.length + 1 ≤ fuel →
    ∃ data', flatzone_fill adj img curr fuel data queue = .ok data' ∧ data'.length = N
      ∧ ∀ j : Nat, (flat_joined adj img N s j → data'[j]? = some curr)
          ∧ (¬ flat_joined adj img N s j → data'[j]? = Z0[j]?) := by
  intro fuel
  induction fuel with
  | zero => intro data queue _ hf; omega
  | succ fuel ih =>
    intro data queue hinv hf
    cases queue with
    | nil =>
      refine ⟨data, by simp [flatzone_fill], hinv.len, fun j => ⟨?_, ?_⟩⟩
      · intro hj
        have hseed : data[s]? = some curr := by
          rcases hinv.seed with h | h
          · exact h
          · simp at h
        induction hj with
        | refl => exact hseed
        | tail _ hstep ihj => exact hinv.closed _ ihj (List.not_mem_nil _) _ hstep
      · intro hj
        rcases hinv.labelled j with ⟨-, h⟩ | h
        · exact absurd h hj
        · exact h
    | cons t tl =>
      obtain ⟨ht, hjt⟩ := hinv.queue_joined t (List.mem_cons_self _ _)
      have htd : t < data.length := by rw [hinv.len]; exact ht
      obtain ⟨data2, pushed, hv, hl2, hc1, hc2, hcnt⟩ :=
        flatzone_visit_spec img N channels t curr himg hch ht hcv (adj t)
          (data.set t curr) (t :: tl) (hadj t ht) (by rw [List.length_set]; exact hinv.len)
      have hset : ∀ j : Nat, (data.set t curr)[j]? = if j = t then some curr else data[j]? :=
        fun j => getElem?_set_val htd
      have hmono : ∀ x : Nat, (data.set t curr)[x]? = some curr → data2[x]? = some curr := by
        intro x hx
        rcases hc1 x with ⟨a1, -⟩ | ⟨a1, -⟩
        · exact a1
        · rw [a1]; exact hx
      have hmono0 : ∀ x : Nat, data[x]? = some curr → data2[x]? = some curr := by
        intro x hx
        apply hmono
        rw [hset x]
        by_cases hxt : x = t
        · simp [hxt]
        · simp only [hxt, if_false]; exact hx
      have hpushed : ∀ x ∈ pushed, x < N ∧ flat_joined adj img N s x
          ∧ data2[x]? = some curr := by
        intro x hx
        rcases hc1 x with ⟨a1, -, a3, a4, -⟩ | ⟨-, a2⟩
        · have hxN : x < N := hadj t ht x a3
          exact ⟨hxN, Relation.ReflTransGen.tail hjt ⟨ht, hxN, a3, a4⟩, a1⟩
        · exact absurd hx a2
      have hinv' : FillInv adj img N s curr Z0 data2 (tl ++ pushed) := by
        refine ⟨hl2, fun j => ?_, fun q hq => ?_, fun a ha hnq b hab => ?_, Or.inl ?_⟩
        · rcases hc1 j with ⟨a1, -, a3, a4, -⟩ | ⟨a1, -⟩
          · have hjN : j < N := hadj t ht j a3
            exact Or.inl ⟨a1, Relation.ReflTransGen.tail hjt ⟨ht, hjN, a3, a4⟩⟩
          · rw [a1, hset j]
            by_cases hj : j = t
            · subst hj
              simp only [if_true]
              exact Or.inl ⟨trivial, hjt⟩
            · simp only [hj, if_false]
              exact hinv.labelled j
        · rcases List.mem_append.mp hq with h | h
          · exact hinv.queue_joined q (List.mem_cons_of_mem _ h)
          · exact ⟨(hpushed q h).1, (hpushed q h).2.1⟩
        · by_cases hat : a = t
          · subst hat
            obtain ⟨-, hbN, hba, himab⟩ := hab
            have hbd : b < data.length := by rw [hinv.len]; exact hbN
            by_cases hb0 : (data.set a curr)[b]? = some 0
            · exact hc2 b hba himab hb0
            · apply hmono
              rw [hset b] at hb0 ⊢
              by_cases hba' : b = a
              · simp [hba']
              · simp only [hba', if_false] at hb0 ⊢
                rcases hinv.labelled b with ⟨h, -⟩ | h
                · exact h
                · rw [h, H1 b (Relation.ReflTransGen.tail hjt ⟨ht, hbN, hba, himab⟩)] at hb0
                  exact absurd rfl hb0
          · have hnp : a ∉ pushed := fun h => hnq (List.mem_append_right _ h)
            have hntl : a ∉ tl := fun h => hnq (List.mem_append_left _ h)
            have ha0 : data[a]? = some curr := by
              rcases hc1 a with ⟨-, -, -, -, a5⟩ | ⟨a1, -⟩
              · exact absurd a5 hnp
              · rw [a1, hset a] at ha
                simp only [hat, if_false] at ha
                exact ha
            apply hmono0
            apply hinv.closed a ha0 _ b hab
            simp only [List.mem_cons, not_or]
            exact ⟨hat, hntl⟩
        · rcases hinv.seed with h | h
          · exact hmono0 s h
          · simp only [List.head?_cons, Option.some.injEq] at h
            apply hmono
            rw [hset s]
            simp [h]
      have hple := pending_set_le curr data t
      obtain ⟨data', hfill, hl', hres⟩ := ih data2 (tl ++ pushed) hinv' (by
        simp only [List.length_cons, List.length_append] at hf ⊢
        omega)
      refine ⟨data', ?_, hl', hres⟩
      rw [flatzone_fill]
      simp only [htd, if_true, hv, bind, Except.bind, List.cons_append, List.tail_cons]
      exact hfill

theorem flat_joined_symm (adj : Nat → List Nat) (img : List (List Int)) (N : Nat)
    (hadj : ∀ a, a < N → ∀ b ∈ adj a, b < N ∧ a ∈ adj b) {a b : Nat}
    (h : flat_joined adj img N a b) : flat_joined adj img N b a := by
  have hs : Symmetric (flat_adjacent adj img N) := by
    intro x y ⟨hx, hy, hxy, him⟩
    exact ⟨hy, hx, (hadj x hx y hxy).2, him.symm⟩
  exact Relation.ReflTransGen.symmetric hs h

theorem flat_joined_lt (adj : Nat → List Nat) (img : List (List Int)) (N : Nat) {a b : Nat}
    (ha : a < N) (h : flat_joined adj img N a b) : b < N := by
  induction h with
  | refl => exact ha
  | tail _ hstep _ => exact hstep.2.1

/-- The raster scan returns and keeps its invariant. -/
theorem flatzone_scan_spec (adj : Nat → List Nat) (img : List (List Int)) (N channels : Nat)
    (himg : img.length = N) (hch : ∀ v ∈ img, v.length = channels)
    (hadj : ∀ a, a < N → ∀ b ∈ adj a, b < N ∧ a ∈ adj b) (fuel : Nat) (hfuel : N + 2 ≤ fuel) :
    ∀ (n p curr : Nat) (data : List Nat), p + n = N → ScanInv adj img N p curr data →
    ∃ curr' data', flatzone_scan adj img fuel (List.range' p n) curr data = .ok (curr', data')
      ∧ ScanInv adj img N N curr' data' := by
  intro n
  induction n with
  | zero =>
    intro p curr data hp hinv
    have : p = N := by omega
    subst this
    exact ⟨curr, data, rfl, hinv⟩
  | succ n ih =>
    intro p curr data hp hinv
    have hpN : p < N := by omega
    have hpd : p < data.length := by rw [hinv.len]; exact hpN
    have hget : data[p]? = some data[p] := List.getElem?_eq_getElem hpd
    rw [List.range'_succ]
    by_cases hz : data[p] = 0
    · -- a new zone starts at `p`
      have hcv : curr ≠ 0 := by have := hinv.pos; omega
      have H1 : ∀ j, flat_joined adj img N p j → data[j]? = some 0 := by
        intro j hj
        have hjN : j < N := flat_joined_lt adj img N hpN hj
        have hjd : j < data.length := by rw [hinv.len]; exact hjN
        have hgj : data[j]? = some data[j] := List.getElem?_eq_getElem hjd
        by_contra hne
        have hx : data[j] ≠ 0 := by
          intro e
          rw [hgj, e] at hne
          exact hne rfl
        have := (hinv.zones j p data[j] hx hgj).mpr (flat_joined_symm adj img N hadj hj)
        rw [hget, hz] at this
        simp only [Option.some.injEq] at this
        exact hx this.symm
      have hfinv : FillInv adj img N p curr data data [p] := by
        refine ⟨hinv.len, fun j => Or.inr rfl, fun q hq => ?_, fun a ha => ?_, Or.inr rfl⟩
        · simp only [List.mem_singleton] at hq
          subst hq
          exact ⟨hpN, Relation.ReflTransGen.refl⟩
        · have := hinv.below a curr ha
          omega
      obtain ⟨data', hfill, hl', hres⟩ := flatzone_fill_spec adj img N channels p curr data himg
        hch (fun a ha b hb => (hadj a ha b hb).1) hcv H1 fuel data [p] hfinv (by
          have := pending_le_length curr data
          rw [hinv.len] at this
          simp only [List.length_singleton]
          omega)
      have hin : ∀ j, flat_joined adj img N p j → data'[j]? = some curr := fun j => (hres j).1
      have hout : ∀ j, ¬ flat_joined adj img N p j → data'[j]? = data[j]? := fun j => (hres j).2
      have hkeep : ∀ (i k : Nat), k ≠ 0 → data[i]? = some k → data'[i]? = some k := by
        intro i k hk hi
        rw [hout i]
        · exact hi
        · intro hj
          rw [H1 i hj] at hi
          simp only [Option.some.injEq] at hi
          exact hk hi.symm
      have hge : ∀ j, flat_joined adj img N p j → p ≤ j := by
        intro j hj
        by_contra hlt
        exact hinv.done j (by omega) (H1 j hj)
      have hinv' : ScanInv adj img N (p + 1) (curr + 1) data' := by
        refine ⟨hl', by omega, fun j x hx => ?_, fun i hi => ?_, fun i j x hx hi => ?_,
          fun j x k hj hk1 hk2 => ?_, fun k hk1 hk2 => ?_⟩
        · by_cases hj : flat_joined adj img N p j
          · rw [hin j hj] at hx
            simp only [Option.some.injEq] at hx
            omega
          · rw [hout j hj] at hx
            have := hinv.below j x hx
            omega
        · by_cases hj : flat_joined adj img N p i
          · rw [hin i hj]
            simp only [ne_eq, Option.some.injEq]
            exact hcv
          · rw [hout i hj]
            have hip : i < p := by
              rcases Nat.lt_or_ge i p with h | h
              · exact h
              · have : i = p := by omega
                subst this
                exact absurd Relation.ReflTransGen.refl hj
            exact hinv.done i hip
        · by_cases hpi : flat_joined adj img N p i
          · rw [hin i hpi] at hi
            simp only [Option.some.injEq] at hi
            subst hi
            constructor
            · intro hj
              by_contra hnj
              have hpj : ¬ flat_joined adj img N p j := fun h =>
                hnj (Relation.ReflTransGen.trans (flat_joined_symm adj img N hadj hpi) h)
              rw [hout j hpj] at hj
              have := hinv.below j curr hj
              omega
            · intro hij
              exact hin j (Relation.ReflTransGen.trans hpi hij)
          · rw [hout i hpi] at hi
            by_cases hpj : flat_joined adj img N p j
            · constructor
              · intro hj
                rw [hin j hpj] at hj
                simp only [Option.some.injEq] at hj
                have := hinv.below i x hi
                omega
              · intro hij
                exact absurd (Relation.ReflTransGen.trans hpj
                  (flat_joined_symm adj img N hadj hij)) hpi
            · rw [hout j hpj]
              exact hinv.zones i j x hx hi
        · have hk0 : k ≠ 0 := by omega
          by_cases hpj : flat_joined adj img N p j
          · rw [hin j hpj] at hj
            simp only [Option.some.injEq] at hj
            subst hj
            obtain ⟨i, hi, hik⟩ := hinv.used k hk1 hk2
            have := hge j hpj
            exact ⟨i, by omega, hkeep i k hk0 hik⟩
          · rw [hout j hpj] at hj
            obtain ⟨i, hi, hik⟩ := hinv.order j x k hj hk1 hk2
            exact ⟨i, hi, hkeep i k hk0 hik⟩
        · have hk0 : k ≠ 0 := by omega
          by_cases hkc : k = curr
          · subst hkc
            exact ⟨p, by omega, hin p Relation.ReflTransGen.refl⟩
          · obtain ⟨i, hi, hik⟩ := hinv.used k hk1 (by omega)
            exact ⟨i, by omega, hkeep i k hk0 hik⟩
      obtain ⟨curr', data'', hscan, hfin⟩ := ih (p + 1) (curr + 1) data' (by omega) hinv'
      refine ⟨curr', data'', ?_, hfin⟩
      rw [flatzone_scan]
      simp only [hget, hz, if_true, hfill, bind, Except.bind]
      exact hscan
    · have hinv' : ScanInv adj img N (p + 1) curr data := by
        refine ⟨hinv.len, hinv.pos, hinv.below, fun i hi => ?_, hinv.zones, hinv.order,
          fun k hk1 hk2 => ?_⟩
        · rcases Nat.lt_or_ge i p with h | h
          · exact hinv.done i h
          · have : i = p := by omega
            subst this
            rw [hget]
            simp only [ne_eq, Option.some.injEq]
            exact hz
        · obtain ⟨i, hi, hik⟩ := hinv.used k hk1 hk2
          exact ⟨i, by omega, hik⟩
      obtain ⟨curr', data'', hscan, hfin⟩ := ih (p + 1) curr data (by omega) hinv'
      refine ⟨curr', data'', ?_, hfin⟩
      rw [flatzone_scan]
      simp only [hget, hz, if_false]
      exact hscan

/-- C25. On a partition whose labels are all zero and an image of the same
number of pixels whose values have all the same number of integer
coefficients, under a connectivity that yields in-grid positions and is
symmetric, `set_flatzone_labels` returns (for every bound of the fill loop
above the number of pixels plus one), the sizes are kept, every pixel has a
label in `1..K`, where `K` is the value `_max_label` is set to, every value of
`1..K` is the label of a pixel, two pixels have the same label exactly when
they are joined by a path of adjacent pixels of the same image value, and
every label smaller than the label of a pixel is the label of an earlier
pixel of the raster, so that the zones are numbered in the raster order of
their first pixels. -/
theorem set_flatzone_labels_zones (adj : Nat → List Nat) (fuel : Nat) (p : Partition)
    (img : List (List Int)) (channels : Nat)
    (himg : img.length = p.data.length) (hch : ∀ v ∈ img, v.length = channels)
    (hzero : ∀ x ∈ p.data, x = 0)
    (hadj : ∀ a, a < p.data.length → ∀ b ∈ adj a, b < p.data.length ∧ a ∈ adj b)
    (hfuel : p.data.length + 2 ≤ fuel) :
    ∃ q K, set_flatzone_labels adj fuel p img = .ok (q, K)
      ∧ q.sizes = p.sizes ∧ q.data.length = p.data.length
      ∧ (∀ i : Nat, i < p.data.length → ∃ x, q.data[i]? = some x ∧ 1 ≤ x ∧ x ≤ K)
      ∧ (∀ k : Nat, 1 ≤ k → k ≤ K → ∃ i : Nat, q.data[i]? = some k)
      ∧ (∀ i j : Nat, i < p.data.length → j < p.data.length →
          (q.data[i]? = q.data[j]? ↔ flat_joined adj img p.data.length i j))
      ∧ ∀ (j x k : Nat), q.data[j]? = some x → 1 ≤ k → k < x →
          ∃ i : Nat, i < j ∧ q.data[i]? = some k := by
  have hall : ∀ (j x : Nat), p.data[j]? = some x → x = 0 :=
    fun j x h => hzero x (List.getElem?_mem h)
  have hinv0 : ScanInv adj img p.data.length 0 1 p.data := by
    refine ⟨rfl, le_refl _, fun j x h => ?_, fun i hi => ?_, fun i j x hx hi => ?_,
      fun j x k hj hk1 hk2 => ?_, fun k hk1 hk2 => ?_⟩
    · rw [hall j x h]; exact Nat.one_pos
    · omega
    · exact absurd (hall i x hi) hx
    · have := hall j x hj
      omega
    · omega
  obtain ⟨curr, data, hscan, hinv⟩ := flatzone_scan_spec adj img p.data.length channels himg hch
    hadj fuel hfuel p.data.length 0 1 p.data (by omega) hinv0
  have hlab : ∀ i : Nat, i < p.data.length →
      ∃ x, data[i]? = some x ∧ x ≠ 0 ∧ x < curr := by
    intro i hi
    have hid : i < data.length := by rw [hinv.len]; exact hi
    have hg : data[i]? = some data[i] := List.getElem?_eq_getElem hid
    refine ⟨data[i], hg, ?_, hinv.below i _ hg⟩
    intro e
    apply hinv.done i hi
    rw [hg, e]
  refine ⟨{ p with data := data }, curr - 1, ?_, rfl, hinv.len, ?_, ?_, ?_, hinv.order⟩
  · unfold set_flatzone_labels
    rw [List.range_eq_range', hscan]
    rfl
  · intro i hi
    obtain ⟨x, hx, hx0, hxc⟩ := hlab i hi
    exact ⟨x, hx, by omega, by omega⟩
  · intro k hk1 hk2
    have := hinv.pos
    obtain ⟨i, -, hik⟩ := hinv.used k hk1 (by omega)
    exact ⟨i, hik⟩
  · intro i j hi hj
    obtain ⟨x, hx, hx0, -⟩ := hlab i hi
    show data[i]? = data[j]? ↔ _
    rw [← hinv.zones i j x hx0 hx, hx]
    exact eq_comm

/-- Witness of C25: the 3x2 image under the 4-connectivity has the three flat
zones of the labels `1, 1, 2 / 3, 1, 2`. -/
theorem set_flatzone_labels_zones_witness :
    image3x2.length = blank3x2.data.length
    ∧ (∀ v ∈ image3x2, v.length = 1)
    ∧ (∀ x ∈ blank3x2.data, x = 0)
    ∧ (∀ a, a < blank3x2.data.length →
        ∀ b ∈ grid_adjacency 3 2 connectivity4 a,
          b < blank3x2.data.length
            ∧ a ∈ grid_adjacency 3 2 connectivity4 b)
    ∧ set_flatzone_labels (grid_adjacency 3 2 connectivity4) 8 blank3x2
        image3x2 = .ok (⟨[3, 2], [1, 1, 2, 3, 1, 2]⟩, 3)
    ∧ ∃ q K, set_flatzone_labels (grid_adjacency 3 2 connectivity4) 8
          blank3x2 image3x2 = .ok (q, K)
      ∧ q.sizes = blank3x2.sizes
      ∧ q.data.length = blank3x2.data.length
      ∧ (∀ i : Nat, i < blank3x2.data.length →
          ∃ x, q.data[i]? = some x ∧ 1 ≤ x ∧ x ≤ K)
      ∧ (∀ k : Nat, 1 ≤ k → k ≤ K → ∃ i : Nat, q.data[i]? = some k)
      ∧ (∀ i j : Nat, i < blank3x2.data.length →
          j < blank3x2.data.length →
          (q.data[i]? = q.data[j]? ↔ flat_joined (grid_adjacency 3 2 connectivity4) image3x2
            blank3x2.data.length i j))
      ∧ ∀ (j x k : Nat), q.data[j]? = some x → 1 ≤ k → k < x →
          ∃ i : Nat, i < j ∧ q.data[i]? = some k :=
  ⟨by decide, by decide, by decide, by decide, rfl,
   set_flatzone_labels_zones (grid_adjacency 3 2 connectivity4) 8 blank3x2
     image3x2 1 (by decide) (by decide) (by decide) (by decide) (by decide)⟩

/-- C35 fails on the code.  `merge_regions` increments `_num_mergings`, but
`prune` does not lower it when it deletes internal regions, and
`load_from_files` first sets it to the count of the file and then replays the
merges, each of which increments it again.  On the 3x1 raster `[7, 8, 9]`:
after the two merges of `scenario_tree` the count is 2 and there are 2
internal regions; after `prune` of the root the count is still 2 and there is
no internal region, and `save_to_files` writes the count 2 followed by words
that were never set; after `load_from_files` of the files of the one-merge
forest the count is 2 and there is 1 internal region, and `save_to_files`
again writes words that were never set. -/
theorem merge_count_not_internal_count :
    merge_count_and_internals scenario_tree = .ok (2, 2)
    ∧ save_to_files scenario_tree
        = .ok (⟨2, [3, 1], [0, 1, 2]⟩, ⟨2, [0, 1, 3, 3, 2, 4]⟩)
    ∧ (prune 20 scenario_tree 4).bind merge_count_and_internals = .ok (2, 0)
    ∧ (prune 20 scenario_tree 4).bind save_to_files = .error .undefined_behaviour
    ∧ save_to_files scenario_one_merge = .ok (⟨2, [3, 1], [0, 1, 2]⟩, ⟨1, [0, 1, 3]⟩)
    ∧ (load_from_files 20 (grid_adjacency 3 1 connectivity4)
        (HierarchicalRegionPartition.fresh false 0) ⟨2, [3, 1], [0, 1, 2]⟩
        ⟨1, [0, 1, 3]⟩).bind merge_count_and_internals = .ok (2, 1)
    ∧ (load_from_files 20 (grid_adjacency 3 1 connectivity4)
        (HierarchicalRegionPartition.fresh false 0) ⟨2, [3, 1], [0, 1, 2]⟩
        ⟨1, [0, 1, 3]⟩).bind save_to_files = .error .undefined_behaviour :=
  ⟨rfl, rfl, rfl, rfl, rfl, rfl, rfl⟩

/-- C39 fails on the code: the colour identifier is formed with the base 255,
not 256, so that different colours with channel values in `0..255` can have
the same identifier.  The colours `(0, 0, 255)` and `(0, 1, 0)` both have the
identifier 255: on the 2x1 image of these two pixels `to_partition` gives both
pixels the label 0 and sets `max_label` to 0.  (With `(0, 0, 254)` for the
first pixel the labels are 0 and 1 and `max_label` is 1.) -/
theorem to_partition_merges_colours :
    to_partition [2, 1] [[0, 0, 255], [0, 1, 0]] = .ok (⟨[2, 1], [0, 0]⟩, 0)
    ∧ ([0, 0, 255] : List Nat) ≠ [0, 1, 0]
    ∧ to_partition [2, 1] [[0, 0, 254], [0, 1, 0]] = .ok (⟨[2, 1], [0, 1]⟩, 1) :=
  ⟨rfl, by decide, rfl⟩

/-- C40 fails on the code: the counters `tp` and `ip` of `hopcroft_karp` start
at 1, not at 0.  For one result contour point and one ground-truth contour
point within the radius, with the same label pair, the function returns
`(2, 1)`: `tp + ip = 3` exceeds the one result contour point, and the
precisions reported are 2 and 1.  When the two points are not within the
radius it returns `(1, 1)`, the precisions 1 and 1, whose sum is 2.  For two
empty lists `bfs` writes `dist[0]` in an empty vector. -/
theorem hopcroft_karp_counts_from_one :
    hopcroft_karp 10 [(1, 2)] [(1, 2)] (fun _ _ => true) = .ok (2, 1)
    ∧ precisions (2, 1) 1 = (2, 1)
    ∧ hopcroft_karp 10 [(1, 2)] [(1, 2)] (fun _ _ => false) = .ok (1, 1)
    ∧ precisions (1, 1) 1 = (1, 1)
    ∧ hopcroft_karp 10 [] [] (fun _ _ => true) = .error .undefined_behaviour := by
  refine ⟨rfl, ?_, rfl, ?_, rfl⟩
  · simp [precisions]
  · simp [precisions]

/-- C33 (amended): for every compact file whose header declares two
dimensions, `_read` decodes the runs from the stream that `seekg(112 + 64 * 2)`
leaves: `tellg` is then `112 + 64 * 2 = 240`, the byte right before this
offset is the `num_bits` byte, and the bits to come are the bits of the body.
The offset is the fixed one of a header of two sizes. -/
theorem read_body_offset (fuel num_bits compress datatype size_x size_y : Nat)
    (body : List Nat) (hx : size_x < 2 ^ 64) (hy : size_y < 2 ^ 64) (hnb : num_bits < 256) :
    ∃ rbs, (ReadBitStream.open
        (prl_header num_bits compress datatype size_x size_y ++ body)).seekg (112 + 64 * 2)
        = .ok rbs
      ∧ rbs.tellg = .ok (112 + 64 * 2)
      ∧ rbs.bits = (body.map (bits_of 8)).flatten
      ∧ (prl_header num_bits compress datatype size_x size_y ++ body)[(112 + 64 * 2) / 8 - 1]?
          = some num_bits
      ∧ _read fuel (prl_header num_bits compress datatype size_x size_y ++ body)
          = (read_runs num_bits size_x ((size_x * size_y) % 2 ^ 64) fuel rbs
              (List.replicate (size_x * size_y) 0) 0 0).map (fun m => ⟨[size_x, size_y], m⟩) := by
  refine ⟨⟨prl_header num_bits compress datatype size_x size_y ++ body, 30, 0, 0, false⟩,
    ?_, ?_, ?_, ?_, read_header fuel num_bits compress datatype size_x size_y body hx hy hnb⟩
  · unfold ReadBitStream.seekg ReadBitStream.open
    rfl
  · unfold ReadBitStream.tellg
    simp only [Bool.false_eq_true, if_false]
    norm_num
  · unfold ReadBitStream.bits
    simp only
    rw [List.drop_left' (prl_header_length _ _ _ _ _)]
    rfl
  · rw [show (112 + 64 * 2) / 8 - 1 = 29 from rfl, prl_header_num_bits,
      Nat.mod_eq_of_lt hnb]

/-- Witness of C33 (amended): a 1x1 raster with `num_bits = 2` and the body
byte `0xE8`. -/
theorem read_body_offset_witness :
    (1 : Nat) < 2 ^ 64 ∧ (2 : Nat) < 256
    ∧ ∃ rbs, (ReadBitStream.open (prl_header 2 0 0 1 1 ++ [0xE8])).seekg (112 + 64 * 2)
        = .ok rbs
      ∧ rbs.tellg = .ok (112 + 64 * 2)
      ∧ rbs.bits = (([0xE8] : List Nat).map (bits_of 8)).flatten
      ∧ (prl_header 2 0 0 1 1 ++ [0xE8])[(112 + 64 * 2) / 8 - 1]? = some 2
      ∧ _read 5 (prl_header 2 0 0 1 1 ++ [0xE8])
          = (read_runs 2 1 ((1 * 1) % 2 ^ 64) 5 rbs
              (List.replicate (1 * 1) 0) 0 0).map (fun m => ⟨[1, 1], m⟩) :=
  ⟨by decide, by decide, read_body_offset 5 2 0 0 1 1 [0xE8] (by decide) (by decide) (by decide)⟩

/-- Counterexample to C33 as stated: on a file whose header declares three
dimensions, the claim puts the body at the bit offset `112 + 64 * 3 = 304`
(byte 38), right after the `num_bits` byte, from where the run of the label 1
is decoded; `_read` decodes from the bit offset 240 (byte 30, inside the third
size) and returns the label 3. -/
theorem read_body_offset_counterexample :
    file_three_dims[37]? = some 2
    ∧ ((ReadBitStream.open file_three_dims).seekg (112 + 64 * 3)).bind
        (fun rbs => read_runs 2 1 1 5 rbs [0] 0 0) = .ok [1]
    ∧ _read 5 file_three_dims = .ok ⟨[1, 1], [3]⟩
    ∧ ((ReadBitStream.open file_three_dims).seekg (112 + 64 * 2)).bind
        (fun rbs => read_runs 2 1 1 5 rbs [0] 0 0) = .ok [3] :=
  ⟨rfl, rfl, rfl, rfl⟩

theorem merging_words_length (h : Heap) : ∀ (v : List HierarchicalRegion) (a : List Nat),
    merging_words h v = .ok a → a.length = 3 * v.length := by
  intro v
  induction v with
  | nil =>
    intro a ha
    simp only [merging_words, Except.ok.injEq] at ha
    subst ha
    rfl
  | cons r rest ih =>
    intro a ha
    unfold merging_words at ha
    split at ha
    · rename_i c0 c1 _ _
      cases h0 : deref h c0 with
      | error e => rw [h0] at ha; cases ha
      | ok r0 =>
        cases h1 : deref h c1 with
        | error e => rw [h0, h1] at ha; cases ha
        | ok r1 =>
          cases h2 : merging_words h rest with
          | error e => rw [h0, h1, h2] at ha; cases ha
          | ok tl =>
            rw [h0, h1, h2] at ha
            simp only [bind, Except.bind, Except.ok.injEq] at ha
            subst ha
            have := ih tl h2
            simp only [List.length_cons]
            omega
    · cases ha

/-- The non-leaves view of a built forest, and the words that the loop of
`save_to_files` writes for it. -/
theorem built_view {R : Partition} {f : HierarchicalRegionPartition}
    {S : List (Nat × Nat × Nat)} {ts : List BTree} (hinv : BuiltInv R f S ts) :
    ∃ v, conditional_view non_leaves f.heap f._regions = .ok v
      ∧ merging_words f.heap v = .ok (merging_array S) := by
  have hshape := arena_shape f._regions f.heap.length hinv.reg_id hinv.reg_get
  have hrange : List.range f.heap.length
      = List.range' 0 (relabel [] 0 R.data).2.1
        ++ List.range' ((relabel [] 0 R.data).2.1 + 0) S.length := by
    rw [List.range_eq_range', hinv.len, Nat.add_zero]
    have := List.range'_append_1 0 (relabel [] 0 R.data).2.1 S.length
    rw [Nat.zero_add] at this
    rw [this, Nat.add_comm]
  have hleafv := conditional_view_leaf_slots f.heap (relabel [] 0 R.data).2.1 (by
      intro a ha
      obtain ⟨r, hr, -⟩ := hinv.cell a (by rw [hinv.len]; omega)
      exact ⟨r, hr, hinv.leafcell a r ha hr⟩)
    (relabel [] 0 R.data).2.1 0 (by omega)
  obtain ⟨v, hv, hw⟩ := conditional_view_internal_slots f.heap (relabel [] 0 R.data).2.1 S
    (by rw [← hinv.len]; exact hinv.cell)
    (by
      intro i a b c h
      have := hinv.hist i a b c h
      rw [hinv.len] at this
      exact this)
    S.length 0 (by omega)
  refine ⟨v, ?_, by simpa using hw⟩
  rw [hshape, hrange, List.map_append]
  have h1 := conditional_view_append non_leaves f.heap _ _ _ _ hleafv hv
  have h2 := conditional_view_append non_leaves f.heap _ _ _ _ h1
    (conditional_view_replicate_none non_leaves f.heap (f._regions.length - f.heap.length))
  simpa using h2

/-- In the merge sequence of a built forest the `j`-th parent is the region
`L + j`, and its two sons are regions that existed before it. -/
theorem built_children_before {adj : Nat → List Nat} {R : Partition}
    {f : HierarchicalRegionPartition} {S : List (Nat × Nat × Nat)} (hb : Built adj R f S) :
    ∀ (j a b c : Nat), S[j]? = some (a, b, c) →
      c = (relabel [] 0 R.data).2.1 + j ∧ a < (relabel [] 0 R.data).2.1 + j
        ∧ b < (relabel [] 0 R.data).2.1 + j := by
  induction hb with
  | init m f hi =>
    intro j a b c h
    simp at h
  | merge fuel f f' S a0 b0 P ra rb hb0 hab ha hpa hb hpb hm ih =>
    intro j a b c h
    obtain ⟨ts, hinv⟩ := built_inv hb0
    by_cases hj : j < S.length
    · rw [List.getElem?_append_left hj] at h
      exact ih j a b c h
    · rw [List.getElem?_append_right (by omega)] at h
      have hj0 : j - S.length = 0 := by
        by_contra hne
        rw [List.getElem?_eq_none (by simp; omega)] at h
        cases h
      rw [hj0] at h
      simp only [List.getElem?_cons_zero, Option.some.injEq, Prod.mk.injEq] at h
      obtain ⟨rfl, rfl, rfl⟩ := h
      have hjS : j = S.length := by omega
      subst hjS
      obtain ⟨a', hsa, -⟩ := region_by_label_inv ha
      obtain ⟨b', hsb, -⟩ := region_by_label_inv hb
      have h1 := (hinv.reg_id _ _ hsa).2
      have h2 := (hinv.reg_id _ _ hsb).2
      rw [hinv.len] at h1 h2
      exact ⟨rfl, h1, h2⟩

/-- C32 (amended): for every forest built by `init` from a well-formed raster
followed by merges each of which joins, by label, two different parent-less
regions into the next free slot of the arena, `save_to_files` returns, the
count of the mergings file is the number of internal regions of the arena and
the number of triples that follow, the triples are those of the internal
regions (child 0 label, child 1 label, own label), one per region in the order
of the non-leaves view, which is the order of the merges, and the triple of an
internal region comes before every triple in which it is a child. -/
theorem save_mergings_in_merge_order (adj : Nat → List Nat) (R : Partition)
    (f : HierarchicalRegionPartition) (S : List (Nat × Nat × Nat))
    (hb : Built adj R f S) (hwf : R.data.length = R.sizes.prod) :
    ∃ pf mf v, save_to_files f = .ok (pf, mf)
      ∧ conditional_view non_leaves f.heap f._regions = .ok v
      ∧ mf.num_mergings = v.length
      ∧ mf.a.length = 3 * mf.num_mergings
      ∧ merging_words f.heap v = .ok mf.a
      ∧ mf.a = merging_array S
      ∧ ∀ (i j a b c a' b' c' : Nat), S[i]? = some (a, b, c) → S[j]? = some (a', b', c') →
          (c = a' ∨ c = b') → i < j := by
  obtain ⟨ts, hinv⟩ := built_inv hb
  obtain ⟨v, hv, hw⟩ := built_view hinv
  have hlen := merging_words_length f.heap v _ hw
  rw [merging_array_length] at hlen
  refine ⟨_, _, v, built_save hinv hwf, hv, by simp only; omega, ?_, hw, rfl, ?_⟩
  · simp only
    rw [merging_array_length]
  · intro i j a b c a' b' c' hi hj hc
    obtain ⟨h1, -, -⟩ := built_children_before hb i a b c hi
    obtain ⟨-, h2, h3⟩ := built_children_before hb j a' b' c' hj
    rcases hc with e | e
    · omega
    · omega

/-- The forest `scenario_tree` is built on the 3x1 raster by the by-label
merges of the regions 0 and 1 into slot 3 and of the regions 3 and 2 into
slot 4. -/
theorem built_scenario_tree :
    Built (grid_adjacency 3 1 connectivity4) raster3x1 scenario_tree [(0, 1, 3), (3, 2, 4)] :=
  Built.merge 20 scenario_one_merge scenario_tree [(0, 1, 3)] 3 2 4
    ⟨3, [], none, [0, 1], [2]⟩ ⟨2, [2], none, [], [1]⟩ built_one_merge (by decide)
    rfl rfl rfl rfl rfl

/-- Witness of C32 (amended): the two-merge forest on the 3x1 raster. -/
theorem save_mergings_in_merge_order_witness :
    Built (grid_adjacency 3 1 connectivity4) raster3x1 scenario_tree [(0, 1, 3), (3, 2, 4)]
    ∧ raster3x1.data.length = raster3x1.sizes.prod
    ∧ ∃ pf mf v, save_to_files scenario_tree = .ok (pf, mf)
      ∧ conditional_view non_leaves scenario_tree.heap scenario_tree._regions = .ok v
      ∧ mf.num_mergings = v.length
      ∧ mf.a.length = 3 * mf.num_mergings
      ∧ merging_words scenario_tree.heap v = .ok mf.a
      ∧ mf.a = merging_array [(0, 1, 3), (3, 2, 4)]
      ∧ ∀ (i j a b c a' b' c' : Nat), [(0, 1, 3), (3, 2, 4)][i]? = some (a, b, c) →
          [(0, 1, 3), (3, 2, 4)][j]? = some (a', b', c') → (c = a' ∨ c = b') → i < j :=
  ⟨built_scenario_tree, by decide,
    save_mergings_in_merge_order (grid_adjacency 3 1 connectivity4) raster3x1 scenario_tree
      [(0, 1, 3), (3, 2, 4)] built_scenario_tree (by decide)⟩

/-- Counterexample to C32 as stated: the forest that `init` on the 3x1 raster
`[7, 8, 9]` and the merges of the regions 0 and 1 into slot 4 and of the
regions 4 and 2 into slot 3 build.  `save_to_files` writes the triples in slot
order, `(4, 2, 3)` before `(0, 1, 4)`: the triple of region 4 comes after the
triple in which region 4 is a child. -/
theorem save_mergings_counterexample :
    ((merge_regions_by_label 20 scenario3x1 0 1 4).bind
        (fun r => merge_regions_by_label 20 r.1 4 2 3)).map (fun r => r.1)
      = .ok scenario_out_of_order
    ∧ save_to_files scenario_out_of_order
        = .ok (⟨2, [3, 1], [0, 1, 2]⟩, ⟨2, [4, 2, 3, 0, 1, 4]⟩) :=
  ⟨rfl, rfl⟩

/-- C38. For every `size_x` x `size_y` raster `R` (sizes and number of cells
being 64-bit values; the sizes need not even be positive) and every `num_bits ≤ 32`, if
every label of `R` is below `2^num_bits` there is a body, a list of bytes,
such that from the bits of the body the decoding loop fills the zero-filled
buffer with exactly the labels of `R`, and `_read` on a 2-D header followed by
the body returns exactly `R` (for every bound of the loop above the number of
cells). -/
theorem decoder_reaches_every_raster (num_bits compress datatype fuel : Nat) (R : Partition)
    (size_x size_y : Nat) (hs : R.sizes = [size_x, size_y])
    (hlen : R.data.length = size_x * size_y)
    (hx : size_x < 2 ^ 64) (hy : size_y < 2 ^ 64) (hcells : size_x * size_y < 2 ^ 64)
    (hnb : num_bits ≤ 32) (hfit : ∀ x ∈ R.data, x < 2 ^ num_bits)
    (hfuel : R.data.length + 1 ≤ fuel) :
    ∃ body : List Nat, (∀ b ∈ body, b < 256)
      ∧ (∃ rbs, (ReadBitStream.open
            (prl_header num_bits compress datatype size_x size_y ++ body)).seekg (112 + 64 * 2)
            = .ok rbs
          ∧ read_runs num_bits size_x (size_x * size_y) fuel rbs
              (List.replicate (size_x * size_y) 0) 0 0 = .ok R.data)
      ∧ _read fuel (prl_header num_bits compress datatype size_x size_y ++ body) = .ok R := by
  have hprops := split_runs_props 1 R.data
  have hgood : (⟨prl_header num_bits compress datatype size_x size_y
      ++ pack_bits (encode_runs num_bits size_x R.data (split_runs 1 R.data) 0 0),
      30, 0, 0, false⟩ : ReadBitStream).Good := by
    refine ⟨by simp, by simp, ?_, rfl⟩
    intro b hb
    simp only [List.mem_append] at hb
    rcases hb with hb | hb
    · exact prl_header_lt _ _ _ _ _ b hb
    · exact pack_bytes_lt _ _ b hb
  have hbits : (⟨prl_header num_bits compress datatype size_x size_y
      ++ pack_bits (encode_runs num_bits size_x R.data (split_runs 1 R.data) 0 0),
      30, 0, 0, false⟩ : ReadBitStream).bits
      = encode_runs num_bits size_x R.data (split_runs 1 R.data) 0 0
        ++ List.replicate
          (((encode_runs num_bits size_x R.data (split_runs 1 R.data) 0 0).length + 7)
            / 8 * 8
            - (encode_runs num_bits size_x R.data (split_runs 1 R.data) 0 0).length)
          false := by
    unfold ReadBitStream.bits
    simp only
    rw [List.drop_left' (prl_header_length _ _ _ _ _), pack_bits_bits]
    rfl
  have h32 : ∀ x ∈ R.data, x < 2 ^ 32 := fun x hx =>
    lt_of_lt_of_le (hfit x hx) (Nat.pow_le_pow_right (by omega) hnb)
  have hspec := read_runs_spec num_bits size_x R.data (split_runs 1 R.data) 0 0 fuel
    _ _ hgood hbits (Nat.zero_le _) (by rw [split_runs_expand]; rfl)
    (fun r hr => ⟨(hprops r hr).1, (hprops r hr).2.2, hfit _ (hprops r hr).2.1,
      h32 _ (hprops r hr).2.1⟩)
    (by
      have := runs_length_le (split_runs 1 R.data) (fun r hr => (hprops r hr).1)
      rw [split_runs_expand] at this
      omega)
  simp only [List.take_zero, List.nil_append, Nat.sub_zero] at hspec
  rw [hlen] at hspec
  refine ⟨pack_bits (encode_runs num_bits size_x R.data (split_runs 1 R.data) 0 0),
    pack_bytes_lt _ _, ⟨_, ?_, hspec⟩, ?_⟩
  · unfold ReadBitStream.seekg ReadBitStream.open
    rfl
  · rw [read_header fuel num_bits compress datatype size_x size_y _ hx hy (by omega),
      Nat.mod_eq_of_lt hcells, hspec]
    simp only [Except.map]
    congr 1
    cases R
    simp only at hs
    rw [hs]

/-- Witness of C38: a 2x2 raster with labels of 3 bits. -/
theorem decoder_reaches_every_raster_witness :
    raster2x2.sizes = [2, 2] ∧ raster2x2.data.length = 2 * 2 ∧ (∀ x ∈ raster2x2.data, x < 2 ^ 3)
    ∧ ∃ body : List Nat, (∀ b ∈ body, b < 256)
      ∧ (∃ rbs, (ReadBitStream.open (prl_header 3 0 0 2 2 ++ body)).seekg (112 + 64 * 2)
            = .ok rbs
          ∧ read_runs 3 2 (2 * 2) 5 rbs (List.replicate (2 * 2) 0) 0 0 = .ok raster2x2.data)
      ∧ _read 5 (prl_header 3 0 0 2 2 ++ body) = .ok raster2x2 :=
  ⟨rfl, rfl, by decide,
    decoder_reaches_every_raster 3 0 0 5 raster2x2 2 2 rfl rfl (by decide) (by decide)
      (by decide) (by decide) (by decide) (by decide)⟩

/-- C31 (amended): for every raster with at least one label, `init` on a fresh
forest returns, and in the result every entry of every neighbor set is a leaf
region of the arena other than the region itself, so that no region carries a
border-neighbor link, whether or not one of its pixels has a neighbor position
outside the grid: the neighbor scan only visits the positions that the
adjacency iterator yields, which lie inside the grid.  In the 4x4 two-region
scenario each region has the other region as its only neighbor entry, and no
border link. -/
theorem init_no_border_links (adj : Nat → List Nat) (u : Bool) (m : Nat) (p : Partition)
    (hadj : ∀ i, i < p.data.length → ∀ j ∈ adj i, j < p.data.length)
    (hL : 1 ≤ p.data.dedup.length) (hsize : p.data.length < 2 ^ 63) :
    (∃ f, init adj (HierarchicalRegionPartition.fresh u m) p = .ok f
      ∧ (∀ a x, x ∈ nbrs_of f.heap a → x ≠ a ∧ f._regions[x]? = some (some x)
          ∧ ∃ r, f.heap[x]? = some (some r) ∧ r.label = x ∧ r.children = [])
      ∧ ∀ a, border_links f.heap a = [])
    ∧ init (grid_adjacency 4 4 connectivity4) (HierarchicalRegionPartition.fresh true 0)
          raster4x4 = .ok scenario4x4
    ∧ nbrs_of scenario4x4.heap 0 = [1] ∧ nbrs_of scenario4x4.heap 1 = [0]
    ∧ border_links scenario4x4.heap 0 = [] ∧ border_links scenario4x4.heap 1 = [] := by
  refine ⟨?_, rfl, rfl, rfl, rfl, rfl⟩
  obtain ⟨f, hi, -⟩ := init_fresh_spec adj u m p hadj hL hsize
  obtain ⟨-, -, -, -, -, hget, hn⟩ := init_fresh_inv adj u m p f hi
  have key : ∀ a x, x ∈ nbrs_of f.heap a → x ≠ a ∧ f._regions[x]? = some (some x)
      ∧ ∃ r, f.heap[x]? = some (some r) ∧ r.label = x ∧ r.children = [] := by
    intro a x hx
    obtain ⟨k, -, q, -, hqx, hne⟩ := (hn a x).1 hx
    have hxL := relabel_dense_lt p.data q x hqx
    obtain ⟨r, hr, hl, -, hc⟩ := init_fresh_alive adj u m p f hi x hxL
    exact ⟨hne, hget x hxL, r, hr, hl, hc⟩
  refine ⟨f, hi, key, fun a => ?_⟩
  unfold border_links
  rw [List.filter_eq_nil_iff]
  intro x hx
  obtain ⟨-, -, r, hr, -⟩ := key a x hx
  rw [hr]
  simp

/-- Witness of C31 (amended): the 3x1 raster under the full 4-connectivity. -/
theorem init_no_border_links_witness :
    (∀ i, i < raster3x1.data.length →
        ∀ j ∈ grid_adjacency 3 1 connectivity4 i, j < raster3x1.data.length)
    ∧ 1 ≤ raster3x1.data.dedup.length ∧ raster3x1.data.length < 2 ^ 63
    ∧ ((∃ f, init (grid_adjacency 3 1 connectivity4) (HierarchicalRegionPartition.fresh true 0)
          raster3x1 = .ok f
        ∧ (∀ a x, x ∈ nbrs_of f.heap a → x ≠ a ∧ f._regions[x]? = some (some x)
            ∧ ∃ r, f.heap[x]? = some (some r) ∧ r.label = x ∧ r.children = [])
        ∧ ∀ a, border_links f.heap a = [])
      ∧ init (grid_adjacency 4 4 connectivity4) (HierarchicalRegionPartition.fresh true 0)
            raster4x4 = .ok scenario4x4
      ∧ nbrs_of scenario4x4.heap 0 = [1] ∧ nbrs_of scenario4x4.heap 1 = [0]
      ∧ border_links scenario4x4.heap 0 = [] ∧ border_links scenario4x4.heap 1 = []) :=
  ⟨by decide, by decide, by decide,
    init_no_border_links (grid_adjacency 3 1 connectivity4) true 0 raster3x1
      (by decide) (by decide) (by decide)⟩

/-- Counterexample to C31 as stated: in the 4x4 two-region scenario pixel 0,
the corner `(0, 0)`, belongs to region 0 and pixel 3, the corner `(3, 0)`, to
region 1; the neighbor positions `(-1, 0)` of the one and `(4, 0)` of the other
under the 4-connectivity lie outside the grid (the adjacency iterator yields
two of the four positions at each corner); yet the only neighbor entry of
either region is the other region, a leaf of the heap, and neither carries a
border link. -/
theorem init_border_links_counterexample :
    init (grid_adjacency 4 4 connectivity4) (HierarchicalRegionPartition.fresh true 0)
        raster4x4 = .ok scenario4x4
    ∧ 0 ∈ coords_of scenario4x4.heap 0 ∧ 3 ∈ coords_of scenario4x4.heap 1
    ∧ inside_signal [0, 0] [3, 3] (coord_add [0, 0] [-1, 0]) = false
    ∧ inside_signal [0, 0] [3, 3] (coord_add [3, 0] [1, 0]) = false
    ∧ grid_adjacency 4 4 connectivity4 0 = [1, 4]
    ∧ grid_adjacency 4 4 connectivity4 3 = [2, 7]
    ∧ nbrs_of scenario4x4.heap 0 = [1] ∧ nbrs_of scenario4x4.heap 1 = [0]
    ∧ (scenario4x4.heap[1]?).map (Option.map (fun r => r.label)) = some (some 1)
    ∧ (scenario4x4.heap[0]?).map (Option.map (fun r => r.label)) = some (some 0)
    ∧ border_links scenario4x4.heap 0 = [] ∧ border_links scenario4x4.heap 1 = [] :=
  ⟨rfl, by decide, by decide, by decide, by decide, by decide, by decide, rfl, rfl, rfl, rfl,
    rfl, rfl⟩

/-- The label casuistics return what the predictor that the prefix selects
gives. -/
theorem read_label_cases {num_bits width : Nat} {m : List Nat} {ptr max_label : Nat}
    {rbs rbs' : ReadBitStream} {label max' : Nat}
    (h : read_label num_bits width m ptr max_label rbs = .ok (rbs', label, max')) :
    (label_predictor rbs = .ok 0 ∧ up_value m ptr width = .ok label ∧ max' = max_label)
    ∨ (label_predictor rbs = .ok 1 ∧ up_one_right m ptr width = .ok label ∧ max' = max_label)
    ∨ (label_predictor rbs = .ok 2 ∧ label = (max_label + 1) % 2 ^ 32 ∧ max' = label)
    ∨ (label_predictor rbs = .ok 3
        ∧ max' = if label > max_label then label else max_label) := by
  unfold read_label at h
  unfold label_predictor
  cases h1 : rbs.read 1 with
  | error e => rw [h1] at h; cases h
  | ok v1 =>
    obtain ⟨s1, b1⟩ := v1
    rw [h1] at h
    simp only [bind, Except.bind] at h ⊢
    by_cases hb1 : b1 = 0
    · simp only [hb1, if_true] at h ⊢
      left
      cases hu : up_value m ptr width with
      | error e => rw [hu] at h; cases h
      | ok v =>
        rw [hu] at h
        simp only [Except.ok.injEq, Prod.mk.injEq] at h
        obtain ⟨-, rfl, rfl⟩ := h
        refine ⟨?_, ?_, ?_⟩ <;> first | rfl | trivial
    · simp only [hb1, if_false] at h ⊢
      right
      cases h2 : s1.read 1 with
      | error e => rw [h2] at h; cases h
      | ok v2 =>
        obtain ⟨s2, b2⟩ := v2
        rw [h2] at h
        simp only at h ⊢
        by_cases hb2 : b2 = 0
        · simp only [hb2, if_true] at h ⊢
          left
          cases hu : up_one_right m ptr width with
          | error e => rw [hu] at h; cases h
          | ok v =>
            rw [hu] at h
            simp only [Except.ok.injEq, Prod.mk.injEq] at h
            obtain ⟨-, rfl, rfl⟩ := h
            refine ⟨?_, ?_, ?_⟩ <;> first | rfl | trivial
        · simp only [hb2, if_false] at h ⊢
          right
          cases h3 : s2.read 1 with
          | error e => rw [h3] at h; cases h
          | ok v3 =>
            obtain ⟨s3, b3⟩ := v3
            rw [h3] at h
            simp only at h ⊢
            by_cases hb3 : b3 = 0
            · simp only [hb3, if_true] at h ⊢
              left
              simp only [Except.ok.injEq, Prod.mk.injEq] at h
              obtain ⟨-, rfl, rfl⟩ := h
              refine ⟨?_, ?_, ?_⟩ <;> first | rfl | trivial
            · simp only [hb3, if_false] at h ⊢
              right
              cases h4 : s3.read num_bits with
              | error e => rw [h4] at h; cases h
              | ok v4 =>
                obtain ⟨s4, b4⟩ := v4
                rw [h4] at h
                simp only [Except.ok.injEq, Prod.mk.injEq] at h
                obtain ⟨-, rfl, rfl⟩ := h
                refine ⟨?_, ?_⟩ <;> first | rfl | trivial

/-- C37 (amended): during a decoding in which every "Up-one-right" run takes
its label from a cell already decoded, and no "Max+1" run starts when
`max_label` is `2^32 - 1` (the 32-bit counter would wrap to 0), at the head of
the loop after every run every label written so far is at most `max_label`;
hence a "Max+1" run gets the label `max_label + 1`, which differs from every
label decoded before it.  (The "Up" predictor reads the cell `width` cells
back, which is decoded for a width of at least 1.) -/
theorem decoded_labels_below_max (num_bits width total_elem : Nat) (hw : 1 ≤ width) :
    ∀ (fuel : Nat) (rbs : ReadBitStream) (m : List Nat) (n max_label : Nat)
      (states : List DecoderState),
    n ≤ m.length → (∀ i : Nat, i < n → ∀ v, m[i]? = some v → v ≤ max_label) →
    read_runs_states num_bits width total_elem fuel rbs m n max_label = .ok states →
    (∀ s ∈ states, s.num_read_elem < total_elem → label_predictor s.rbs = .ok 1 →
      ∀ v, up_one_right s.m s.num_read_elem width = .ok v →
        ∃ i : Nat, i < s.num_read_elem ∧ s.m[i]? = some v) →
    (∀ s ∈ states, s.num_read_elem < total_elem → label_predictor s.rbs = .ok 2 →
      s.max_label + 1 < 2 ^ 32) →
    ∀ s ∈ states,
      (∀ i : Nat, i < s.num_read_elem → ∀ v, s.m[i]? = some v → v ≤ s.max_label)
      ∧ (s.num_read_elem < total_elem → label_predictor s.rbs = .ok 2 →
          (∃ rbs', read_label num_bits width s.m s.num_read_elem s.max_label s.rbs
              = .ok (rbs', s.max_label + 1, s.max_label + 1))
          ∧ ∀ i : Nat, i < s.num_read_elem → s.m[i]? ≠ some (s.max_label + 1)) := by
  intro fuel
  induction fuel with
  | zero =>
    intro rbs m n max_label states _ _ h
    cases h
  | succ fuel ih =>
    intro rbs m n max_label states hn hinv h hdec hwrap
    unfold read_runs_states at h
    have hfresh : ∀ i : Nat, i < n → m[i]? ≠ some (max_label + 1) := by
      intro i hi e
      have := hinv i hi _ e
      omega
    by_cases hlt : n < total_elem
    · simp only [hlt, if_true] at h
      cases h1 : read_label num_bits width m n max_label rbs with
      | error e => rw [h1] at h; cases h
      | ok v1 =>
        obtain ⟨rbs1, label, max1⟩ := v1
        rw [h1] at h
        simp only [bind, Except.bind] at h
        cases h2 : read_length rbs1 with
        | error e => rw [h2] at h; cases h
        | ok v2 =>
          obtain ⟨rbs2, len⟩ := v2
          rw [h2] at h
          simp only at h
          rw [fill_run_cases len m n label hn] at h
          by_cases hfit : n + len ≤ m.length
          swap
          · rw [if_neg hfit] at h; cases h
          rw [if_pos hfit] at h
          simp only at h
          cases h3 : read_runs_states num_bits width total_elem fuel rbs2
              (m.take n ++ List.replicate len label ++ m.drop (n + len)) (n + len) max1 with
          | error e => rw [h3] at h; cases h
          | ok rest =>
            rw [h3] at h
            simp only [Except.ok.injEq] at h
            subst h
            have hs0 : (⟨rbs, m, n, max_label⟩ : DecoderState)
                ∈ (⟨rbs, m, n, max_label⟩ : DecoderState) :: rest := List.mem_cons_self _ _
            -- the label of the run and the new `max_label`
            have hbound : label ≤ max1 ∧ max_label ≤ max1
                ∧ (label_predictor rbs = .ok 2 → label = max_label + 1 ∧ max1 = max_label + 1) := by
              rcases read_label_cases h1 with ⟨hp, hu, hm⟩ | ⟨hp, hu, hm⟩ | ⟨hp, hl, hm⟩
                | ⟨hp, hm⟩
              · subst hm
                refine ⟨?_, le_refl _, fun h2 => ?_⟩
                · unfold up_value at hu
                  by_cases hwn : width ≤ n
                  · simp only [hwn, if_true] at hu
                    cases hg : m[n - width]? with
                    | none => rw [hg] at hu; cases hu
                    | some v =>
                      rw [hg] at hu
                      simp only [Except.ok.injEq] at hu
                      subst hu
                      exact hinv (n - width) (by omega) _ hg
                  · simp only [hwn, if_false] at hu
                    cases hu
                · rw [hp] at h2; cases h2
              · subst hm
                refine ⟨?_, le_refl _, fun h2 => ?_⟩
                · obtain ⟨i, hi, hv⟩ := hdec _ hs0 hlt hp label hu
                  exact hinv i hi _ hv
                · rw [hp] at h2; cases h2
              · have hwr := hwrap _ hs0 hlt hp
                simp only at hwr
                rw [Nat.mod_eq_of_lt hwr] at hl
                subst hl
                subst hm
                exact ⟨le_refl _, by omega, fun _ => ⟨rfl, rfl⟩⟩
              · refine ⟨?_, ?_, fun h2 => ?_⟩
                · rw [hm]; split <;> omega
                · rw [hm]; split <;> omega
                · rw [hp] at h2; cases h2
            obtain ⟨hb1, hb2, hb3⟩ := hbound
            have hinv' : ∀ i : Nat, i < n + len → ∀ v,
                (m.take n ++ List.replicate len label ++ m.drop (n + len))[i]? = some v →
                v ≤ max1 := by
              intro i hi v hv
              have hlen1 : (m.take n).length = n := by
                rw [List.length_take]; omega
              by_cases hin : i < n
              · rw [List.append_assoc, List.getElem?_append_left (by omega),
                  List.getElem?_take_of_lt hin] at hv
                exact le_trans (hinv i hin v hv) hb2
              · rw [List.append_assoc, List.getElem?_append_right (by omega), hlen1,
                  List.getElem?_append_left (by rw [List.length_replicate]; omega),
                  List.getElem?_replicate] at hv
                split at hv
                · simp only [Option.some.injEq] at hv
                  omega
                · cases hv
            have hrest := ih rbs2 _ (n + len) max1 rest
              (by simp only [List.length_append, List.length_take, List.length_replicate,
                    List.length_drop]; omega)
              hinv' h3 (fun s hs => hdec s (List.mem_cons_of_mem _ hs))
              (fun s hs => hwrap s (List.mem_cons_of_mem _ hs))
            intro s hs
            rcases List.mem_cons.mp hs with e | hs'
            · subst e
              refine ⟨hinv, fun _ hp => ⟨⟨rbs1, ?_⟩, hfresh⟩⟩
              obtain ⟨e1, e2⟩ := hb3 hp
              simp only
              rw [h1, e1, e2]
            · exact hrest s hs'
    · simp only [hlt, if_false, Except.ok.injEq] at h
      subst h
      intro s hs
      simp only [List.mem_singleton] at hs
      subst hs
      exact ⟨hinv, fun h' => absurd h' hlt⟩

/-- Witness of C37 (amended): the body `0xE8, 0xC2, 0x00` decoded into a 2x2
raster with labels of 2 bits.  The four runs use the four predictors in turn:
the label 1 given in full, a "Max+1" run that gives the new label 2, an
"Up-one-right" run that takes the label 2 from cell 1, and an "Up" run; the
raster decoded is `[1, 2, 2, 2]`.  At the "Max+1" run `max_label` is 1, the
one cell written holds 1, and the run gets the label 2. -/
theorem decoded_labels_below_max_witness :
    (1 : Nat) ≤ 2 ∧ 0 ≤ ([0, 0, 0, 0] : List Nat).length
    ∧ read_runs_states 2 2 4 6 (ReadBitStream.open [0xE8, 0xC2, 0x00]) [0, 0, 0, 0] 0 0
        = .ok four_predictor_states
    ∧ four_predictor_states.map (fun s => label_predictor s.rbs)
        = [.ok 3, .ok 2, .ok 1, .ok 0, .ok 0]
    ∧ up_one_right [1, 2, 0, 0] 2 2 = .ok 2
    ∧ (read_label 2 2 [1, 0, 0, 0] 1 1 ⟨[0xE8, 0xC2, 0x00], 1, 0, 0, false⟩).map
        (fun r => r.2) = .ok (2, 2)
    ∧ ∀ s ∈ four_predictor_states,
      (∀ i : Nat, i < s.num_read_elem → ∀ v, s.m[i]? = some v → v ≤ s.max_label)
      ∧ (s.num_read_elem < 4 → label_predictor s.rbs = .ok 2 →
          (∃ rbs', read_label 2 2 s.m s.num_read_elem s.max_label s.rbs
              = .ok (rbs', s.max_label + 1, s.max_label + 1))
          ∧ ∀ i : Nat, i < s.num_read_elem → s.m[i]? ≠ some (s.max_label + 1)) :=
  ⟨by decide, Nat.zero_le _, rfl, rfl, rfl, rfl,
    decoded_labels_below_max 2 2 4 (by decide) 6 (ReadBitStream.open [0xE8, 0xC2, 0x00])
      [0, 0, 0, 0] 0 0 four_predictor_states
      (Nat.zero_le _) (fun i hi => absurd hi (Nat.not_lt_zero i)) rfl
      (by
        intro s hs hlt hp v hv
        simp only [four_predictor_states, List.mem_cons, List.mem_singleton,
          List.not_mem_nil, or_false] at hs
        rcases hs with rfl | rfl | rfl | rfl | rfl
        · have h3 : label_predictor ⟨[0xE8, 0xC2, 0x00], 0, 0, 0, false⟩ = .ok 3 := rfl
          rw [h3] at hp
          cases hp
        · have h3 : label_predictor ⟨[0xE8, 0xC2, 0x00], 1, 0, 0, false⟩ = .ok 2 := rfl
          rw [h3] at hp
          cases hp
        · have h3 : up_one_right [1, 2, 0, 0] 2 2 = .ok 2 := rfl
          rw [h3] at hv
          cases hv
          exact ⟨1, by decide, rfl⟩
        · have h3 : label_predictor ⟨[0xE8, 0xC2, 0x00], 3, 0, 5, false⟩ = .ok 0 := rfl
          rw [h3] at hp
          cases hp
        · exact absurd hlt (by decide))
      (by
        intro s hs hlt hp
        simp only [four_predictor_states, List.mem_cons, List.mem_singleton,
          List.not_mem_nil, or_false] at hs
        rcases hs with rfl | rfl | rfl | rfl | rfl
        · have h3 : label_predictor ⟨[0xE8, 0xC2, 0x00], 0, 0, 0, false⟩ = .ok 3 := rfl
          rw [h3] at hp
          cases hp
        · decide
        · have h3 : label_predictor ⟨[0xE8, 0xC2, 0x00], 2, 2, 2, false⟩ = .ok 1 := rfl
          rw [h3] at hp
          cases hp
        · have h3 : label_predictor ⟨[0xE8, 0xC2, 0x00], 3, 0, 5, false⟩ = .ok 0 := rfl
          rw [h3] at hp
          cases hp
        · exact absurd hlt (by decide))⟩

/-- Counterexample to C37 as stated: a body of three runs of one cell for a
3x1 raster with labels of 32 bits.  No run uses the "Up" or the
"Up-one-right" predictor: the first two give the labels 0 and `2^32 - 1` in
full, and the third is a "Max+1" run.  The 32-bit sum `max_label + 1` wraps to
0: after the third run `max_label` is 0, below the label `2^32 - 1` of the
second cell, and the label 0 that the "Max+1" run produced is the label of
the first cell. -/
theorem decoded_labels_wrap_counterexample :
    (read_runs_states 32 3 3 5 (ReadBitStream.open (pack_bits wrap_body_bits))
        [0, 0, 0] 0 0).map
      (fun l => (l.map (fun s => (s.m, s.num_read_elem, s.max_label)),
        (l.take 3).map (fun s => label_predictor s.rbs)))
    = .ok ([([0, 0, 0], 0, 0), ([0, 0, 0], 1, 0), ([0, 4294967295, 0], 2, 4294967295),
            ([0, 4294967295, 0], 3, 0)],
          [.ok 3, .ok 3, .ok 2]) :=
  rfl

theorem heap_labels_get (h : Heap) (a : Nat) :
    (heap_labels h)[a]? = (h[a]?).map (fun c => some (c.map (fun r => r.label))) := by
  unfold heap_labels
  rw [List.getElem?_map]

theorem heap_labels_alive {h h' : Heap} (e : heap_labels h' = heap_labels h) {a : Nat}
    {r : HierarchicalRegion} (hr : h[a]? = some (some r)) :
    ∃ r', h'[a]? = some (some r') ∧ r'.label = r.label := by
  have := heap_labels_get h' a
  rw [e, heap_labels_get h a, hr] at this
  cases h1 : h'[a]? with
  | none => rw [h1] at this; cases this
  | some c =>
    rw [h1] at this
    cases c with
    | none => simp at this
    | some r' =>
      simp only [Option.map_some', Option.some.injEq] at this
      exact ⟨r', rfl, this.symm⟩

theorem heap_labels_of_skeleton {h h' : Heap} (e : heap_skeleton h' = heap_skeleton h) :
    heap_labels h' = heap_labels h := by
  have key : ∀ g : Heap, heap_labels g
      = (heap_skeleton g).map (fun c => some (c.map (fun s => s.1))) := by
    intro g
    unfold heap_labels heap_skeleton
    rw [List.map_map]
    apply List.map_congr_left
    intro c _
    cases c <;> rfl
  rw [key, key, e]

theorem heap_labels_set {h : Heap} {a : Nat} {r r' : HierarchicalRegion}
    (hr : h[a]? = some (some r)) (hl : r'.label = r.label) :
    heap_labels (h.set a (some r')) = heap_labels h := by
  apply List.ext_getElem?
  intro j
  rw [heap_labels_get, heap_labels_get, getElem?_set_alive hr]
  by_cases hj : j = a
  · subst hj
    simp [hr, hl]
  · simp [hj]

theorem arena_labelled_congr {regs : List (Option Nat)} {h h' : Heap}
    (e : heap_labels h' = heap_labels h) (ha : ArenaLabelled regs h) : ArenaLabelled regs h' := by
  intro i a hs
  obtain ⟨r, hr, hl⟩ := ha i a hs
  obtain ⟨r', hr', hl'⟩ := heap_labels_alive e hr
  exact ⟨r', hr', hl'.trans hl⟩

theorem labels_kept_of_labels {h h' : Heap} (e : heap_labels h' = heap_labels h) :
    LabelsKept h h' := by
  intro a r r' hr hr'
  obtain ⟨r'', h1, h2⟩ := heap_labels_alive e hr
  rw [hr'] at h1
  simp only [Option.some.injEq] at h1
  rw [h1]
  exact h2

theorem foldl_clear_cells (step : Heap → Option Nat → Heap)
    (hstep : ∀ h s, step h s = h ∨ ∃ a, step h s = h.set a none) :
    ∀ (regs : List (Option Nat)) (h : Heap),
    (regs.foldl step h).length = h.length
    ∧ ∀ a : Nat, (regs.foldl step h)[a]? = h[a]? ∨ (regs.foldl step h)[a]? = some none := by
  intro regs
  induction regs with
  | nil => intro h; exact ⟨rfl, fun a => Or.inl rfl⟩
  | cons s rest ih =>
    intro h
    rw [List.foldl_cons]
    rcases hstep h s with e | ⟨x, e⟩
    · rw [e]; exact ih h
    · rw [e]
      obtain ⟨h1, h2⟩ := ih (h.set x none)
      refine ⟨by rw [h1, List.length_set], fun a => ?_⟩
      rcases h2 a with e' | e'
      · rw [e', List.getElem?_set]
        by_cases hx : x = a
        · subst hx
          by_cases hlt : x < h.length
          · right; simp [hlt]
          · left
            simp only [hlt, if_false, if_true]
            rw [List.getElem?_eq_none (by omega)]
        · left; simp [hx]
      · exact Or.inr e'

theorem clear_regions_cells (f : HierarchicalRegionPartition) :
    (_clear_regions f).heap.length = f.heap.length
    ∧ ∀ a : Nat, (_clear_regions f).heap[a]? = f.heap[a]?
        ∨ (_clear_regions f).heap[a]? = some none := by
  unfold _clear_regions
  simp only
  apply foldl_clear_cells
  intro h s
  cases s with
  | none => exact Or.inl rfl
  | some a => exact Or.inr ⟨a, rfl⟩

/-- After `init`, on whatever forest, every non-empty slot of the arena holds a
region with the label of the slot, and the regions that `init` did not delete
have kept their labels. -/
theorem init_arena_labelled (adj : Nat → List Nat) (f0 f : HierarchicalRegionPartition)
    (p : Partition) (hi : init adj f0 p = .ok f) :
    ArenaLabelled f._regions f.heap ∧ LabelsKept f0.heap f.heap := by
  unfold init at hi
  simp only [bind, Except.bind, pure, Except.pure] at hi
  obtain ⟨hclen, hcget⟩ := clear_regions_cells f0
  set H0 := (_clear_regions f0).heap with hH0
  set L := (relabel f0._correspondences 0 p.data).2.1 with hL
  split at hi
  · cases hi
  · rename_i v hcl
    obtain ⟨h1, regs⟩ := v
    simp only at hi
    split at hi
    · cases hi
    · rename_i h2 hac
      split at hi
      · cases hi
      · rename_i h3 han
        simp only [Except.ok.injEq] at hi
        subst hi
        have hb : 0 + L ≤ (List.replicate
            ((2 * ((L + (2 ^ 64 - 1)) % 2 ^ 64) + 1) % 2 ^ 64) (none : Option Nat)).length := by
          rcases create_leaves_ok_bound _ _ _ _ _ hcl with hb | hb
          · exact hb
          · rw [hb]; exact Nat.zero_le _
        obtain ⟨regs', hcl', hlen, hget⟩ := create_leaves_spec L 0 H0 _ hb
        rw [hcl] at hcl'
        simp only [Except.ok.injEq, Prod.mk.injEq] at hcl'
        obtain ⟨hh1, hregs⟩ := hcl'
        subst hregs
        have hsk : heap_skeleton h3 = heap_skeleton h1 := by
          rw [add_neighbors_skeleton adj regs _ _ _ _ _ han,
            add_coordinates_skeleton regs _ _ _ _ hac]
        have hlab := heap_labels_of_skeleton hsk
        refine ⟨?_, ?_⟩
        · show ArenaLabelled regs h3
          apply arena_labelled_congr hlab
          intro i a hs
          rw [hget i] at hs
          by_cases hiL : 0 ≤ i ∧ i < 0 + L
          · simp only [hiL, and_self, if_true, Option.some.injEq, Nat.sub_zero] at hs
            subst hs
            refine ⟨HierarchicalRegion.leaf i, ?_, rfl⟩
            rw [hh1, List.getElem?_append_right (Nat.le_add_right _ _)]
            simp only [Nat.add_sub_cancel_left, List.getElem?_map]
            rw [List.getElem?_range' _ _ (by omega)]
            simp
          · simp only [hiL, if_false, List.getElem?_replicate] at hs
            split at hs <;> simp at hs
        · show LabelsKept f0.heap h3
          intro a r r' hr hr'
          have halt : a < H0.length := by rw [hclen]; exact getElem?_lt_of_some hr
          have h1a : h1[a]? = H0[a]? := by
            rw [hh1, List.getElem?_append_left halt]
          obtain ⟨r1, hr1, hl1⟩ := heap_labels_alive hlab.symm hr'
          rw [h1a] at hr1
          rcases hcget a with e | e
          · rw [e, hr] at hr1
            simp only [Option.some.injEq] at hr1
            rw [← hl1, hr1]
          · rw [e] at hr1
            simp at hr1

/-- A merge keeps the arena labelled, whatever the label of the parent, and
the regions keep their labels. -/
theorem merge_arena_labelled {fuel : Nat} {f f' : HierarchicalRegionPartition}
    {region1 region2 label P : Nat}
    (hm : merge_regions fuel f region1 region2 label = .ok (f', P))
    (hinv : ArenaLabelled f._regions f.heap) :
    ArenaLabelled f'._regions f'.heap ∧ LabelsKept f.heap f'.heap := by
  obtain ⟨r1, r2, h1, h2, hlbl, hP, hregs, -, -, -, -, -, -, hlen, hcell⟩ :=
    merge_regions_inv hm
  have hold : ∀ (a : Nat) (r : HierarchicalRegion), f.heap[a]? = some (some r) →
      ∃ r', f'.heap[a]? = some (some r') ∧ r'.label = r.label := by
    intro a r hr
    have hlt : a < f.heap.length := getElem?_lt_of_some hr
    rw [hcell a]
    unfold merged_cell
    simp only [Nat.ne_of_lt hlt, if_false]
    by_cases hx : a = region1 ∨ a = region2
    · simp only [hx, if_true, hr, Option.map_some']
      exact ⟨_, rfl, rfl⟩
    · simp only [hx, if_false]
      exact ⟨r, hr, rfl⟩
  refine ⟨?_, ?_⟩
  · intro i a hs
    rw [hregs, List.getElem?_set] at hs
    by_cases hi : label = i
    · subst hi
      simp only [hlbl, if_true, Option.some.injEq] at hs
      subst hs
      rw [hcell P]
      unfold merged_cell
      simp only [hP, if_true, h1, h2]
      exact ⟨_, rfl, rfl⟩
    · simp only [hi, if_false] at hs
      obtain ⟨r, hr, hl⟩ := hinv i a hs
      obtain ⟨r', hr', hl'⟩ := hold a r hr
      exact ⟨r', hr', hl'.trans hl⟩
  · intro a r r' hr hr'
    obtain ⟨r'', h1', h2'⟩ := hold a r hr
    rw [hr'] at h1'
    simp only [Option.some.injEq] at h1'
    rw [h1']
    exact h2'

theorem prune_fill_labels (region label fuel : Nat) :
    ∀ (n : Nat) (it : RegionIteratorBase) (h : Heap) (lp : Partition) (h' : Heap)
      (lp' : Partition),
    prune_fill region label fuel n it h lp = .ok (h', lp') → heap_labels h' = heap_labels h := by
  intro n
  induction n with
  | zero => intro it h lp h' lp' he; cases he
  | succ n ih =>
    intro it h lp h' lp' he
    unfold prune_fill at he
    by_cases hend : it._end = true
    · simp only [hend, if_true, Except.ok.injEq, Prod.mk.injEq] at he
      rw [he.1]
    · simp only [hend, Bool.false_eq_true, if_false] at he
      cases hg : it.get h with
      | error e => rw [hg] at he; cases he
      | ok c =>
        rw [hg] at he
        simp only [bind, Except.bind] at he
        cases hm : modify h region (fun r => { r with coordinates := r.coordinates ++ [c] }) with
        | error e => rw [hm] at he; cases he
        | ok h1 =>
          rw [hm] at he
          simp only at he
          cases hw : lp.write c label with
          | error e => rw [hw] at he; cases he
          | ok lp1 =>
            rw [hw] at he
            simp only at he
            cases hinc : it.increment h1 fuel with
            | error e => rw [hinc] at he; cases he
            | ok it1 =>
              rw [hinc] at he
              simp only at he
              rw [ih it1 h1 lp1 h' lp' he]
              obtain ⟨r, hr, rfl⟩ := modify_ok_inv hm
              exact heap_labels_set hr rfl

theorem prune_erase_labelled : ∀ (ls : List Nat) (h : Heap) (regs : List (Option Nat))
    (h' : Heap) (regs' : List (Option Nat)),
    prune_erase ls h regs = .ok (h', regs') → ArenaLabelled regs h →
    ArenaLabelled regs' h'
      ∧ ∀ (a : Nat) (r : HierarchicalRegion), h'[a]? = some (some r) → h[a]? = some (some r) := by
  intro ls
  induction ls with
  | nil =>
    intro h regs h' regs' he hinv
    simp only [prune_erase, Except.ok.injEq, Prod.mk.injEq] at he
    obtain ⟨rfl, rfl⟩ := he
    exact ⟨hinv, fun a r hr => hr⟩
  | cons l rest ih =>
    intro h regs h' regs' he hinv
    unfold prune_erase at he
    have hslots : ∀ (i a : Nat), (regs.set l none)[i]? = some (some a) →
        i ≠ l ∧ regs[i]? = some (some a) := by
      intro i a hs
      by_cases hi : l = i
      · subst hi
        exfalso
        by_cases hlt : l < regs.length
        · simp [List.getElem?_set, hlt] at hs
        · simp [List.getElem?_set, hlt] at hs
      · rw [List.getElem?_set] at hs
        simp only [hi, if_false] at hs
        exact ⟨fun e => hi e.symm, hs⟩
    cases hl : regs[l]? with
    | none => rw [hl] at he; cases he
    | some slot =>
      rw [hl] at he
      cases slot with
      | none =>
        simp only at he
        exact ih h (regs.set l none) h' regs' he
          (fun i a hs => hinv i a (hslots i a hs).2)
      | some x =>
        simp only at he
        obtain ⟨rx, hrx, hlx⟩ := hinv l x hl
        rw [hrx] at he
        simp only at he
        have hxlt : x < h.length := getElem?_lt_of_some hrx
        have hinv1 : ArenaLabelled (regs.set l none) (h.set x none) := by
          intro i a hs
          obtain ⟨hil, hs'⟩ := hslots i a hs
          obtain ⟨r, hr, hlr⟩ := hinv i a hs'
          have hax : a ≠ x := by
            intro e
            subst e
            rw [hrx] at hr
            simp only [Option.some.injEq] at hr
            subst hr
            exact hil (hlr.symm.trans hlx)
          refine ⟨r, ?_, hlr⟩
          have hxa : ¬ x = a := fun e => hax e.symm
          rw [List.getElem?_set]
          simp only [hxa, if_false]
          exact hr
        obtain ⟨h1, h2⟩ := ih (h.set x none) (regs.set l none) h' regs' he hinv1
        refine ⟨h1, fun a r hr => ?_⟩
        have := h2 a r hr
        rw [List.getElem?_set] at this
        by_cases hxa : x = a
        · subst hxa
          simp [hxlt] at this
        · simp only [hxa, if_false] at this
          exact this

theorem prune_tail_labelled {f : HierarchicalRegionPartition} {h1 h2 h3 : Heap}
    {regs : List (Option Nat)} {to_look : List Nat} {region : Nat}
    (hl1 : heap_labels h1 = heap_labels f.heap)
    (hm : modify h1 region (fun x => { x with children := [] }) = .ok h2)
    (he : prune_erase to_look h2 f._regions = .ok (h3, regs))
    (hinv : ArenaLabelled f._regions f.heap) :
    ArenaLabelled regs h3 ∧ LabelsKept f.heap h3 := by
  have hl2 : heap_labels h2 = heap_labels f.heap := by
    obtain ⟨rr, hrr, rfl⟩ := modify_ok_inv hm
    rw [← hl1]
    exact heap_labels_set hrr rfl
  obtain ⟨ha, hsub⟩ := prune_erase_labelled to_look h2 f._regions h3 regs he
    (arena_labelled_congr hl2 hinv)
  exact ⟨ha, fun a r r' hr hr' => labels_kept_of_labels hl2 a r r' hr (hsub a r' hr')⟩

/-- A prune keeps the arena labelled, and the regions that it does not delete
keep their labels. -/
theorem prune_arena_labelled {fuel : Nat} {f f' : HierarchicalRegionPartition} {region : Nat}
    (hp : prune fuel f region = .ok f') (hinv : ArenaLabelled f._regions f.heap) :
    ArenaLabelled f'._regions f'.heap ∧ LabelsKept f.heap f'.heap := by
  unfold prune at hp
  cases hd : deref f.heap region with
  | error e => rw [hd] at hp; cases hp
  | ok r =>
    rw [hd] at hp
    simp only [bind, Except.bind] at hp
    by_cases hc : r.children.length > 0
    swap
    · simp only [hc, if_false, Except.ok.injEq] at hp
      subst hp
      exact ⟨hinv, fun a r r' hr hr' => by rw [hr] at hr'; cases hr'; rfl⟩
    simp only [hc, if_true] at hp
    by_cases h0 : r.coordinates.length = 0
    · simp only [h0, if_true] at hp
      cases hmk : RegionIteratorBase.make f.heap fuel region false with
      | error e => rw [hmk] at hp; cases hp
      | ok it =>
        rw [hmk] at hp
        simp only at hp
        cases hpf : prune_fill region r.label fuel fuel it f.heap f._leaves_partition with
        | error e => rw [hpf] at hp; cases hp
        | ok v =>
          obtain ⟨h1, lp⟩ := v
          rw [hpf] at hp
          simp only at hp
          have hl1 := prune_fill_labels region r.label fuel fuel it f.heap f._leaves_partition
            h1 lp hpf
          cases hd1 : deref h1 region with
          | error e => rw [hd1] at hp; cases hp
          | ok r1 =>
            rw [hd1] at hp
            simp only at hp
            cases hcl : children_labels h1 r1 with
            | error e => rw [hcl] at hp; cases hp
            | ok to_look =>
              rw [hcl] at hp
              simp only at hp
              cases hm : modify h1 region (fun x => { x with children := [] }) with
              | error e => rw [hm] at hp; cases hp
              | ok h2 =>
                rw [hm] at hp
                simp only at hp
                cases hs : prune_scan h2 f._regions fuel to_look 0 with
                | error e => rw [hs] at hp; cases hp
                | ok to_look' =>
                  rw [hs] at hp
                  simp only at hp
                  cases he : prune_erase to_look' h2 f._regions with
                  | error e => rw [he] at hp; cases hp
                  | ok w =>
                    obtain ⟨h3, regs⟩ := w
                    rw [he] at hp
                    simp only [Except.ok.injEq] at hp
                    subst hp
                    exact prune_tail_labelled hl1 hm he hinv
    · simp only [h0, if_false] at hp
      rw [hd] at hp
      simp only at hp
      cases hcl : children_labels f.heap r with
      | error e => rw [hcl] at hp; cases hp
      | ok to_look =>
        rw [hcl] at hp
        simp only at hp
        cases hm : modify f.heap region (fun x => { x with children := [] }) with
        | error e => rw [hm] at hp; cases hp
        | ok h2 =>
          rw [hm] at hp
          simp only at hp
          cases hs : prune_scan h2 f._regions fuel to_look 0 with
          | error e => rw [hs] at hp; cases hp
          | ok to_look' =>
            rw [hs] at hp
            simp only at hp
            cases he : prune_erase to_look' h2 f._regions with
            | error e => rw [he] at hp; cases hp
            | ok w =>
              obtain ⟨h3, regs⟩ := w
              rw [he] at hp
              simp only [Except.ok.injEq] at hp
              subst hp
              exact prune_tail_labelled rfl hm he hinv

/-- In every state reached by `init`, `merge_regions` and `prune`, every
non-empty slot of the arena holds a region with the label of the slot. -/
theorem reachable_arena_labelled {adj : Nat → List Nat} {f : HierarchicalRegionPartition}
    (hr : Reachable adj f) : ArenaLabelled f._regions f.heap := by
  induction hr with
  | init f0 f p hi => exact (init_arena_labelled adj f0 f p hi).1
  | merge fuel f f' region1 region2 label P _ hm ih => exact (merge_arena_labelled hm ih).1
  | prune fuel f f' region _ hp ih => exact (prune_arena_labelled hp ih).1

/-- A lookup by label that returns, in a forest whose arena is labelled,
returns a region with the label asked for. -/
theorem region_by_label_label {f : HierarchicalRegionPartition}
    (hinv : ArenaLabelled f._regions f.heap) {l : Nat} {r : HierarchicalRegion}
    (h : _region_by_label f l = .ok r) : r.label = l := by
  unfold _region_by_label at h
  by_cases hl : l ≥ f._regions.length
  · simp only [hl, if_true] at h
    cases h
  · simp only [hl, if_false, bind, Except.bind] at h
    cases hs : slot_pointer f._regions l with
    | error e => rw [hs] at h; cases h
    | ok a =>
      rw [hs] at h
      simp only at h
      obtain ⟨r', hr', hl'⟩ := hinv l a (slot_pointer_eq_ok.mp hs)
      rw [deref_eq_ok.mp h] at hr'
      cases hr'
      exact hl'

/-- C34 fails on the code in one of its parts.  In every state reached by
`init`, `merge_regions` and `prune`, every non-empty arena slot `i` holds a
region whose label is `i`, a lookup by label that returns gives a region with
that label, and a merge or a prune changes the label of no region.  But two
live regions can share a label: `merge_regions(0, 1, 0)` on the forest of the
3x1 raster `[7, 8, 9]` returns, and afterwards the leaf at address 0 (label 0,
now a child of the new region) and the new region at address 3 both carry the
label 0; slot 0 of the arena points to the new region only. -/
theorem merge_reuses_live_label :
    (∀ (adj : Nat → List Nat) (f : HierarchicalRegionPartition), Reachable adj f →
      ArenaLabelled f._regions f.heap
      ∧ (∀ (l : Nat) (r : HierarchicalRegion), _region_by_label f l = .ok r → r.label = l)
      ∧ (∀ (fuel : Nat) (f' : HierarchicalRegionPartition) (region1 region2 label P : Nat),
          merge_regions fuel f region1 region2 label = .ok (f', P) →
          LabelsKept f.heap f'.heap)
      ∧ (∀ (fuel : Nat) (f' : HierarchicalRegionPartition) (region : Nat),
          prune fuel f region = .ok f' → LabelsKept f.heap f'.heap))
    ∧ Reachable (grid_adjacency 3 1 connectivity4) scenario3x1
    ∧ scenario3x1._regions = [some 0, some 1, some 2, none, none]
    ∧ scenario3x1.heap.map (fun c => c.map (fun r => (r.label, r.parent, r.children)))
        = [some (0, none, []), some (1, none, []), some (2, none, [])]
    ∧ (merge_regions_by_label 20 scenario3x1 0 1 0).map
        (fun v => (v.1._regions, v.2,
          v.1.heap.map (fun c => c.map (fun r => (r.label, r.parent, r.children)))))
        = .ok ([some 3, some 1, some 2, none, none], 3,
            [some (0, some 3, []), some (1, some 3, []), some (2, none, []),
             some (0, none, [0, 1])]) := by
  refine ⟨?_, ?_, rfl, rfl, rfl⟩
  · intro adj f hr
    have hinv := reachable_arena_labelled hr
    exact ⟨hinv, fun l r h => region_by_label_label hinv h,
      fun fuel f' region1 region2 label P hm => (merge_arena_labelled hm hinv).2,
      fun fuel f' region hp => (prune_arena_labelled hp hinv).2⟩
  · exact Reachable.init (HierarchicalRegionPartition.fresh true 0) scenario3x1 raster3x1 rfl

theorem children_of_eq {h : Heap} {a : Nat} {r : HierarchicalRegion}
    (hr : h[a]? = some (some r)) : children_of h a = r.children := by
  unfold children_of
  rw [hr]

theorem parent_of_eq {h : Heap} {a : Nat} {r : HierarchicalRegion}
    (hr : h[a]? = some (some r)) : parent_of h a = r.parent := by
  unfold parent_of
  rw [hr]

theorem holds_eq {cond : HierarchicalRegion → Bool} {h : Heap} {a : Nat} {r : HierarchicalRegion}
    (hr : h[a]? = some (some r)) : holds cond h a = cond r := by
  unfold holds
  rw [hr]

theorem mem_arena_addrs {regs : List (Option Nat)} {a : Nat} :
    a ∈ arena_addrs regs ↔ some a ∈ regs := by
  unfold arena_addrs
  rw [List.mem_filterMap]
  constructor
  · rintro ⟨s, hs, e⟩
    simp only [id] at e
    rw [← e]
    exact hs
  · intro hs
    exact ⟨some a, hs, rfl⟩

theorem mem_regs_iff {regs : List (Option Nat)} {a : Nat} :
    some a ∈ regs ↔ ∃ i : Nat, regs[i]? = some (some a) :=
  List.mem_iff_getElem?

/-- In a labelled arena no address is in two slots. -/
theorem arena_labelled_inj {regs : List (Option Nat)} {h : Heap} (hl : ArenaLabelled regs h)
    {i j a : Nat} (hi : regs[i]? = some (some a)) (hj : regs[j]? = some (some a)) : i = j := by
  obtain ⟨r, hr, e⟩ := hl i a hi
  obtain ⟨r', hr', e'⟩ := hl j a hj
  rw [hr] at hr'
  cases hr'
  rw [← e, ← e']

theorem arena_labelled_slot {regs : List (Option Nat)} {h : Heap} (hl : ArenaLabelled regs h)
    {a : Nat} (ha : some a ∈ regs) :
    ∃ r, h[a]? = some (some r) ∧ regs[r.label]? = some (some a) := by
  obtain ⟨i, hi⟩ := mem_regs_iff.mp ha
  obtain ⟨r, hr, e⟩ := hl i a hi
  exact ⟨r, hr, by rw [e]; exact hi⟩

theorem arena_addrs_nodup : ∀ (regs : List (Option Nat)),
    (∀ (i j a : Nat), regs[i]? = some (some a) → regs[j]? = some (some a) → i = j) →
    (arena_addrs regs).Nodup := by
  intro regs
  induction regs with
  | nil => intro _; exact List.nodup_nil
  | cons s rest ih =>
    intro hinj
    have hrest : ∀ (i j a : Nat), rest[i]? = some (some a) → rest[j]? = some (some a) →
        i = j := by
      intro i j a hi hj
      have := hinj (i + 1) (j + 1) a (by simpa using hi) (by simpa using hj)
      omega
    cases s with
    | none =>
      have e : arena_addrs (none :: rest) = arena_addrs rest := by
        simp [arena_addrs]
      rw [e]
      exact ih hrest
    | some a =>
      have e : arena_addrs (some a :: rest) = a :: arena_addrs rest := by
        simp [arena_addrs]
      rw [e, List.nodup_cons]
      refine ⟨?_, ih hrest⟩
      intro hmem
      obtain ⟨j, hj⟩ := mem_regs_iff.mp (mem_arena_addrs.mp hmem)
      have := hinj 0 (j + 1) a (by simp) (by simpa using hj)
      omega

/-- A conditional view over an arena whose regions are all in the heap returns
as many regions as there are addresses in the arena at which the condition
holds. -/
theorem conditional_view_length (cond : HierarchicalRegion → Bool) (h : Heap) :
    ∀ (regs : List (Option Nat)),
    (∀ a : Nat, some a ∈ regs → ∃ r, h[a]? = some (some r)) →
    ∃ v, conditional_view cond h regs = .ok v
      ∧ v.length = (arena_addrs regs).countP (holds cond h) := by
  intro regs
  induction regs with
  | nil => intro _; exact ⟨[], rfl, rfl⟩
  | cons s rest ih =>
    intro hal
    obtain ⟨v, hv, hlen⟩ := ih (fun a ha => hal a (List.mem_cons_of_mem _ ha))
    cases s with
    | none =>
      refine ⟨v, ?_, ?_⟩
      · unfold conditional_view
        exact hv
      · rw [hlen]
        simp [arena_addrs]
    | some a =>
      obtain ⟨r, hr⟩ := hal a (List.mem_cons_self _ _)
      refine ⟨if cond r then r :: v else v, ?_, ?_⟩
      · unfold conditional_view
        rw [deref_eq_ok.mpr hr, hv]
        rfl
      · have e : arena_addrs (some a :: rest) = a :: arena_addrs rest := by
          simp [arena_addrs]
        rw [e, List.countP_cons, holds_eq hr]
        by_cases hc : cond r = true
        · simp only [hc, if_true, List.length_cons, hlen]
        · simp only [hc, Bool.false_eq_true, if_false, hlen, Nat.add_zero]

theorem flatMap_length_two (kids : Nat → List Nat) : ∀ (A : List Nat),
    (∀ a ∈ A, (kids a).length = 0 ∨ (kids a).length = 2) →
    (A.flatMap kids).length = 2 * A.countP (fun a => decide ((kids a).length > 0)) := by
  intro A
  induction A with
  | nil => intro _; rfl
  | cons a rest ih =>
    intro hk
    rw [List.flatMap_cons, List.length_append, ih (fun x hx => hk x (List.mem_cons_of_mem _ hx)),
      List.countP_cons]
    rcases hk a (List.mem_cons_self _ _) with e | e
    · simp [e]
    · simp [e]
      omega

/-- Counting in a finite set of nodes in which a node has no child or two
different children of the set with it as parent, and the parent of a node is a
node of the set with it as child: the childless nodes are as many as the nodes
with children plus the parent-less nodes. -/
theorem forest_count (A : List Nat) (hnd : A.Nodup) (kids : Nat → List Nat)
    (par : Nat → Option Nat)
    (hk : ∀ a ∈ A, kids a = [] ∨ ∃ c1 c2, kids a = [c1, c2] ∧ c1 ≠ c2
      ∧ c1 ∈ A ∧ par c1 = some a ∧ c2 ∈ A ∧ par c2 = some a)
    (hp : ∀ a ∈ A, ∀ p, par a = some p → p ∈ A ∧ a ∈ kids p) :
    A.countP (fun a => (kids a).length == 0)
      = A.countP (fun a => decide ((kids a).length > 0))
        + A.countP (fun a => (par a).isNone) := by
  have hkid : ∀ a ∈ A, ∀ x ∈ kids a, x ∈ A ∧ par x = some a := by
    intro a ha x hx
    rcases hk a ha with e | ⟨c1, c2, e, -, h1, p1, h2, p2⟩
    · rw [e] at hx; cases hx
    · rw [e] at hx
      simp only [List.mem_cons, List.mem_singleton, List.not_mem_nil, or_false] at hx
      rcases hx with rfl | rfl
      · exact ⟨h1, p1⟩
      · exact ⟨h2, p2⟩
  have hlen2 : ∀ a ∈ A, (kids a).length = 0 ∨ (kids a).length = 2 := by
    intro a ha
    rcases hk a ha with e | ⟨c1, c2, e, -⟩
    · left; rw [e]; rfl
    · right; rw [e]; rfl
  have hnd1 : (A.flatMap kids).Nodup := by
    rw [List.nodup_flatMap]
    refine ⟨?_, ?_⟩
    · intro a ha
      rcases hk a ha with e | ⟨c1, c2, e, hne, -⟩
      · rw [e]; exact List.nodup_nil
      · rw [e]
        simp [hne]
    · apply hnd.pairwise_of_forall_ne
      intro a ha b hb hab
      intro x hxa hxb
      have h1 := (hkid a ha x hxa).2
      have h2 := (hkid b hb x hxb).2
      rw [h1] at h2
      exact hab (Option.some.inj h2)
  have hnd2 : (A.filter (fun a => (par a).isSome)).Nodup := hnd.filter _
  have hperm : (A.flatMap kids).Perm (A.filter (fun a => (par a).isSome)) := by
    rw [List.perm_ext_iff_of_nodup hnd1 hnd2]
    intro x
    rw [List.mem_flatMap, List.mem_filter]
    constructor
    · rintro ⟨a, ha, hx⟩
      obtain ⟨h1, h2⟩ := hkid a ha x hx
      exact ⟨h1, by rw [h2]; rfl⟩
    · rintro ⟨hx, hs⟩
      obtain ⟨p, hp'⟩ := Option.isSome_iff_exists.mp hs
      obtain ⟨h1, h2⟩ := hp x hx p hp'
      exact ⟨p, h1, h2⟩
  have e1 := hperm.length_eq
  rw [flatMap_length_two kids A hlen2, ← List.countP_eq_length_filter] at e1
  have e2 : A.length = A.countP (fun a => (kids a).length == 0)
      + A.countP (fun a => decide ((kids a).length > 0)) := by
    rw [List.length_eq_countP_add_countP (fun a => (kids a).length == 0) A]
    congr 1
    apply List.countP_congr
    intro a _
    simp only [beq_iff_eq, decide_eq_true_eq, gt_iff_lt]
    omega
  have e3 : A.length = A.countP (fun a => (par a).isNone)
      + A.countP (fun a => (par a).isSome) := by
    rw [List.length_eq_countP_add_countP (fun a => (par a).isNone) A]
    congr 1
    apply List.countP_congr
    intro a _
    cases par a <;> simp
  omega

/-- In a forest of the local shape, every region of the arena has no children
or two, the three views return, and the leaves are as many as the internal
regions plus the roots. -/
theorem forest_counts {regs : List (Option Nat)} {h : Heap} (hinv : ForestInv regs h) :
    (∀ (i a : Nat), regs[i]? = some (some a) →
      ∃ r, h[a]? = some (some r) ∧ (r.children.length = 0 ∨ r.children.length = 2))
    ∧ ∃ ls ns rs, conditional_view leaves h regs = .ok ls
      ∧ conditional_view non_leaves h regs = .ok ns
      ∧ conditional_view roots h regs = .ok rs
      ∧ ls.length = ns.length + rs.length := by
  have halive : ∀ a : Nat, some a ∈ regs → ∃ r, h[a]? = some (some r) := by
    intro a ha
    obtain ⟨r, hr, -⟩ := arena_labelled_slot hinv.labelled ha
    exact ⟨r, hr⟩
  refine ⟨?_, ?_⟩
  · intro i a hi
    have ha : some a ∈ regs := mem_regs_iff.mpr ⟨i, hi⟩
    obtain ⟨r, hr⟩ := halive a ha
    refine ⟨r, hr, ?_⟩
    rw [← children_of_eq hr]
    rcases hinv.children a ha with e | ⟨c1, c2, e, -⟩
    · left; rw [e]; rfl
    · right; rw [e]; rfl
  · obtain ⟨ls, hls, hl⟩ := conditional_view_length leaves h regs halive
    obtain ⟨ns, hns, hn⟩ := conditional_view_length non_leaves h regs halive
    obtain ⟨rs, hrs, hr⟩ := conditional_view_length roots h regs halive
    refine ⟨ls, ns, rs, hls, hns, hrs, ?_⟩
    have hnd := arena_addrs_nodup regs (fun i j a hi hj => arena_labelled_inj hinv.labelled hi hj)
    have hc := forest_count (arena_addrs regs) hnd (children_of h) (parent_of h)
      (by
        intro a ha
        rcases hinv.children a (mem_arena_addrs.mp ha) with e | ⟨c1, c2, e, hne, h1, p1, h2, p2⟩
        · exact Or.inl e
        · exact Or.inr ⟨c1, c2, e, hne, mem_arena_addrs.mpr h1, p1, mem_arena_addrs.mpr h2, p2⟩)
      (by
        intro a ha p hp
        obtain ⟨h1, h2⟩ := hinv.parent a p (mem_arena_addrs.mp ha) hp
        exact ⟨mem_arena_addrs.mpr h1, h2⟩)
    have k1 : (arena_addrs regs).countP (holds leaves h)
        = (arena_addrs regs).countP (fun a => (children_of h a).length == 0) := by
      apply List.countP_congr
      intro a ha
      obtain ⟨r, hr⟩ := halive a (mem_arena_addrs.mp ha)
      rw [holds_eq hr, children_of_eq hr]
      rfl
    have k2 : (arena_addrs regs).countP (holds non_leaves h)
        = (arena_addrs regs).countP (fun a => decide ((children_of h a).length > 0)) := by
      apply List.countP_congr
      intro a ha
      obtain ⟨r, hr⟩ := halive a (mem_arena_addrs.mp ha)
      rw [holds_eq hr, children_of_eq hr]
      rfl
    have k3 : (arena_addrs regs).countP (holds roots h)
        = (arena_addrs regs).countP (fun a => (parent_of h a).isNone) := by
      apply List.countP_congr
      intro a ha
      obtain ⟨r, hr⟩ := halive a (mem_arena_addrs.mp ha)
      rw [holds_eq hr, parent_of_eq hr]
      rfl
    rw [hl, hn, hr, k1, k2, k3]
    exact hc

theorem skeleton_cell_eq {h h' : Heap} (e : heap_skeleton h' = heap_skeleton h) (a : Nat) :
    (h'[a]?).map (Option.map skeleton) = (h[a]?).map (Option.map skeleton) := by
  have := congrArg (fun l => l[a]?) e
  simp only [heap_skeleton, List.getElem?_map] at this
  exact this

theorem children_of_skeleton {h h' : Heap} (e : heap_skeleton h' = heap_skeleton h) (a : Nat) :
    children_of h' a = children_of h a := by
  have hc := skeleton_cell_eq e a
  unfold children_of
  cases h1 : h'[a]? with
  | none =>
    cases h2 : h[a]? with
    | none => rfl
    | some c2 => rw [h1, h2] at hc; cases hc
  | some c1 =>
    cases h2 : h[a]? with
    | none => rw [h1, h2] at hc; cases hc
    | some c2 =>
      rw [h1, h2] at hc
      cases c1 with
      | none =>
        cases c2 with
        | none => rfl
        | some r2 => simp at hc
      | some r1 =>
        cases c2 with
        | none => simp at hc
        | some r2 =>
          simp only [Option.map_some', Option.some.injEq, skeleton, Prod.mk.injEq] at hc
          exact hc.2.2

theorem parent_of_skeleton {h h' : Heap} (e : heap_skeleton h' = heap_skeleton h) (a : Nat) :
    parent_of h' a = parent_of h a := by
  have hc := skeleton_cell_eq e a
  unfold parent_of
  cases h1 : h'[a]? with
  | none =>
    cases h2 : h[a]? with
    | none => rfl
    | some c2 => rw [h1, h2] at hc; cases hc
  | some c1 =>
    cases h2 : h[a]? with
    | none => rw [h1, h2] at hc; cases hc
    | some c2 =>
      rw [h1, h2] at hc
      cases c1 with
      | none =>
        cases c2 with
        | none => rfl
        | some r2 => simp at hc
      | some r1 =>
        cases c2 with
        | none => simp at hc
        | some r2 =>
          simp only [Option.map_some', Option.some.injEq, skeleton, Prod.mk.injEq] at hc
          exact hc.2.1

/-- The local shape depends on the labels, parents and children only. -/
theorem forest_inv_congr {regs : List (Option Nat)} {h h' : Heap}
    (e : heap_skeleton h' = heap_skeleton h) (hinv : ForestInv regs h) : ForestInv regs h' := by
  refine ⟨arena_labelled_congr (heap_labels_of_skeleton e) hinv.labelled, ?_, ?_⟩
  · intro a ha
    rw [children_of_skeleton e a]
    rcases hinv.children a ha with e0 | ⟨c1, c2, e0, hne, h1, p1, h2, p2⟩
    · exact Or.inl e0
    · exact Or.inr ⟨c1, c2, e0, hne, h1, by rw [parent_of_skeleton e c1]; exact p1, h2,
        by rw [parent_of_skeleton e c2]; exact p2⟩
  · intro a p ha hp
    rw [parent_of_skeleton e a] at hp
    rw [children_of_skeleton e p]
    exact hinv.parent a p ha hp

/-- After `init`, on whatever forest, every region of the arena is a leaf
without parent. -/
theorem init_arena_leaves (adj : Nat → List Nat) (f0 f : HierarchicalRegionPartition)
    (p : Partition) (hi : init adj f0 p = .ok f) :
    ∀ (i a : Nat), f._regions[i]? = some (some a) →
      children_of f.heap a = [] ∧ parent_of f.heap a = none := by
  unfold init at hi
  simp only [bind, Except.bind, pure, Except.pure] at hi
  set H0 := (_clear_regions f0).heap with hH0
  set L := (relabel f0._correspondences 0 p.data).2.1 with hL
  split at hi
  · cases hi
  · rename_i v hcl
    obtain ⟨h1, regs⟩ := v
    simp only at hi
    split at hi
    · cases hi
    · rename_i h2 hac
      split at hi
      · cases hi
      · rename_i h3 han
        simp only [Except.ok.injEq] at hi
        subst hi
        have hb : 0 + L ≤ (List.replicate
            ((2 * ((L + (2 ^ 64 - 1)) % 2 ^ 64) + 1) % 2 ^ 64) (none : Option Nat)).length := by
          rcases create_leaves_ok_bound _ _ _ _ _ hcl with hb | hb
          · exact hb
          · rw [hb]; exact Nat.zero_le _
        obtain ⟨regs', hcl', hlen, hget⟩ := create_leaves_spec L 0 H0 _ hb
        rw [hcl] at hcl'
        simp only [Except.ok.injEq, Prod.mk.injEq] at hcl'
        obtain ⟨hh1, hregs⟩ := hcl'
        subst hregs
        have hsk : heap_skeleton h3 = heap_skeleton h1 := by
          rw [add_neighbors_skeleton adj regs _ _ _ _ _ han,
            add_coordinates_skeleton regs _ _ _ _ hac]
        intro i a hs
        show children_of h3 a = [] ∧ parent_of h3 a = none
        rw [children_of_skeleton hsk a, parent_of_skeleton hsk a]
        rw [hget i] at hs
        by_cases hiL : 0 ≤ i ∧ i < 0 + L
        · simp only [hiL, and_self, if_true, Option.some.injEq, Nat.sub_zero] at hs
          subst hs
          have hcell : h1[H0.length + i]? = some (some (HierarchicalRegion.leaf i)) := by
            rw [hh1, List.getElem?_append_right (Nat.le_add_right _ _)]
            simp only [Nat.add_sub_cancel_left, List.getElem?_map]
            rw [List.getElem?_range' _ _ (by omega)]
            simp
          rw [children_of_eq hcell, parent_of_eq hcell]
          exact ⟨rfl, rfl⟩
        · simp only [hiL, if_false, List.getElem?_replicate] at hs
          split at hs <;> simp at hs

/-- After `init`, on whatever forest, the forest has the local shape: its
regions are leaves without parents. -/
theorem init_forest_inv (adj : Nat → List Nat) (f0 f : HierarchicalRegionPartition)
    (p : Partition) (hi : init adj f0 p = .ok f) : ForestInv f._regions f.heap := by
  have hl := init_arena_leaves adj f0 f p hi
  refine ⟨(init_arena_labelled adj f0 f p hi).1, ?_, ?_⟩
  · intro a ha
    obtain ⟨i, hi'⟩ := mem_regs_iff.mp ha
    exact Or.inl (hl i a hi').1
  · intro a q ha hq
    obtain ⟨i, hi'⟩ := mem_regs_iff.mp ha
    rw [(hl i a hi').2] at hq
    cases hq

/-- A merge of two distinct parent-less regions of the arena into an empty slot
keeps the local shape. -/
theorem merge_forest_inv {fuel : Nat} {f f' : HierarchicalRegionPartition}
    {region1 region2 label P : Nat}
    (hinv : ForestInv f._regions f.heap)
    (hr1 : some region1 ∈ f._regions) (hr2 : some region2 ∈ f._regions)
    (hne : region1 ≠ region2)
    (hp1 : parent_of f.heap region1 = none) (hp2 : parent_of f.heap region2 = none)
    (hslot : f._regions[label]? = some none)
    (hm : merge_regions fuel f region1 region2 label = .ok (f', P)) :
    ForestInv f'._regions f'.heap := by
  have hlab := (merge_arena_labelled hm hinv.labelled).1
  obtain ⟨r1, r2, h1, h2, hlbl, hP, hregs, -, -, -, -, -, -, hlen, hcell⟩ :=
    merge_regions_inv hm
  have hlt1 : region1 < f.heap.length := getElem?_lt_of_some h1
  have hlt2 : region2 < f.heap.length := getElem?_lt_of_some h2
  -- the cells of the new heap
  have hcP : f'.heap[P]? = some (some { HierarchicalRegion.internal label region1 region2 with
      neighbors := merge_neighbors_second region1 r2.neighbors
        (merge_neighbors_first region2 r1.neighbors []) }) := by
    rw [hcell P]
    unfold merged_cell
    simp only [hP, if_true, h1, h2]
  have hc1 : f'.heap[region1]? = some (some { r1 with parent := some P, neighbors := [] }) := by
    rw [hcell region1]
    unfold merged_cell
    simp only [Nat.ne_of_lt hlt1, if_false, true_or, if_true, h1, Option.map_some', hP]
  have hc2 : f'.heap[region2]? = some (some { r2 with parent := some P, neighbors := [] }) := by
    rw [hcell region2]
    unfold merged_cell
    simp only [Nat.ne_of_lt hlt2, if_false, or_true, if_true, h2, Option.map_some', hP]
  have hco : ∀ x : Nat, x ≠ P → x ≠ region1 → x ≠ region2 → f'.heap[x]? = f.heap[x]? := by
    intro x hx hx1 hx2
    rw [hcell x]
    unfold merged_cell
    rw [hP] at hx
    simp only [hx, if_false, hx1, hx2, or_self]
  have hkids : ∀ x : Nat, x ≠ P → children_of f'.heap x = children_of f.heap x := by
    intro x hx
    by_cases e1 : x = region1
    · subst e1; rw [children_of_eq hc1, children_of_eq h1]
    · by_cases e2 : x = region2
      · subst e2; rw [children_of_eq hc2, children_of_eq h2]
      · unfold children_of; rw [hco x hx e1 e2]
  have hpar : ∀ x : Nat, x ≠ P → x ≠ region1 → x ≠ region2 →
      parent_of f'.heap x = parent_of f.heap x := by
    intro x hx e1 e2
    unfold parent_of; rw [hco x hx e1 e2]
  -- the regions of the new arena
  have hmem : ∀ a : Nat, some a ∈ f'._regions ↔ a = P ∨ some a ∈ f._regions := by
    intro a
    rw [mem_regs_iff, mem_regs_iff, hregs]
    constructor
    · rintro ⟨i, hi⟩
      rw [List.getElem?_set] at hi
      by_cases e : label = i
      · simp only [e, if_true] at hi
        split at hi
        · left; simp only [Option.some.injEq] at hi; exact hi.symm
        · cases hi
      · simp only [e, if_false] at hi
        exact Or.inr ⟨i, hi⟩
    · rintro (e | ⟨i, hi⟩)
      · refine ⟨label, ?_⟩
        rw [List.getElem?_set]
        simp [hlbl, e]
      · refine ⟨i, ?_⟩
        have hne' : label ≠ i := by
          intro e
          rw [e] at hslot
          rw [hslot] at hi
          cases hi
        rw [List.getElem?_set]
        simp only [hne', if_false]
        exact hi
  have hold_lt : ∀ a : Nat, some a ∈ f._regions → a ≠ P := by
    intro a ha
    obtain ⟨r, hr, -⟩ := arena_labelled_slot hinv.labelled ha
    have := getElem?_lt_of_some hr
    omega
  have hP1 : region1 ≠ P := by omega
  have hP2 : region2 ≠ P := by omega
  refine ⟨hlab, ?_, ?_⟩
  · intro a ha
    rcases (hmem a).mp ha with e | ha'
    · subst e
      right
      refine ⟨region1, region2, ?_, hne, (hmem _).mpr (Or.inr hr1), ?_,
        (hmem _).mpr (Or.inr hr2), ?_⟩
      · rw [children_of_eq hcP]; rfl
      · rw [parent_of_eq hc1]
      · rw [parent_of_eq hc2]
    · have haP := hold_lt a ha'
      rw [hkids a haP]
      rcases hinv.children a ha' with e0 | ⟨c1, c2, e0, hne', m1, p1, m2, p2⟩
      · exact Or.inl e0
      · have hc1ne : c1 ≠ region1 ∧ c1 ≠ region2 := by
          constructor
          · intro e; rw [e, hp1] at p1; cases p1
          · intro e; rw [e, hp2] at p1; cases p1
        have hc2ne : c2 ≠ region1 ∧ c2 ≠ region2 := by
          constructor
          · intro e; rw [e, hp1] at p2; cases p2
          · intro e; rw [e, hp2] at p2; cases p2
        refine Or.inr ⟨c1, c2, e0, hne', (hmem _).mpr (Or.inr m1), ?_,
          (hmem _).mpr (Or.inr m2), ?_⟩
        · rw [hpar c1 (hold_lt c1 m1) hc1ne.1 hc1ne.2]; exact p1
        · rw [hpar c2 (hold_lt c2 m2) hc2ne.1 hc2ne.2]; exact p2
  · intro a q ha hq
    rcases (hmem a).mp ha with e | ha'
    · subst e
      rw [parent_of_eq hcP] at hq
      cases hq
    · have haP := hold_lt a ha'
      by_cases e1 : a = region1
      · subst e1
        rw [parent_of_eq hc1] at hq
        simp only [Option.some.injEq] at hq
        subst hq
        refine ⟨(hmem _).mpr (Or.inl rfl), ?_⟩
        rw [children_of_eq hcP]
        simp [HierarchicalRegion.internal]
      · by_cases e2 : a = region2
        · subst e2
          rw [parent_of_eq hc2] at hq
          simp only [Option.some.injEq] at hq
          subst hq
          refine ⟨(hmem _).mpr (Or.inl rfl), ?_⟩
          rw [children_of_eq hcP]
          simp [HierarchicalRegion.internal]
        · rw [hpar a haP e1 e2] at hq
          obtain ⟨m, hc⟩ := hinv.parent a q ha' hq
          refine ⟨(hmem _).mpr (Or.inr m), ?_⟩
          rw [hkids q (hold_lt q m)]
          exact hc

theorem label_of_skeleton {h h' : Heap} (e : heap_skeleton h' = heap_skeleton h) (a : Nat) :
    label_of h' a = label_of h a := by
  have hc := skeleton_cell_eq e a
  unfold label_of
  cases h1 : h'[a]? with
  | none =>
    cases h2 : h[a]? with
    | none => rfl
    | some c2 => rw [h1, h2] at hc; cases hc
  | some c1 =>
    cases h2 : h[a]? with
    | none => rw [h1, h2] at hc; cases hc
    | some c2 =>
      rw [h1, h2] at hc
      cases c1 with
      | none =>
        cases c2 with
        | none => rfl
        | some r2 => simp at hc
      | some r1 =>
        cases c2 with
        | none => simp at hc
        | some r2 =>
          simp only [Option.map_some', Option.some.injEq, skeleton, Prod.mk.injEq] at hc
          exact hc.1

theorem prune_fill_skeleton (region label fuel : Nat) :
    ∀ (n : Nat) (it : RegionIteratorBase) (h : Heap) (lp : Partition) (h' : Heap)
      (lp' : Partition),
    prune_fill region label fuel n it h lp = .ok (h', lp') →
    heap_skeleton h' = heap_skeleton h := by
  intro n
  induction n with
  | zero => intro it h lp h' lp' he; cases he
  | succ n ih =>
    intro it h lp h' lp' he
    unfold prune_fill at he
    by_cases hend : it._end = true
    · simp only [hend, if_true, Except.ok.injEq, Prod.mk.injEq] at he
      rw [he.1]
    · simp only [hend, Bool.false_eq_true, if_false] at he
      cases hg : it.get h with
      | error e => rw [hg] at he; cases he
      | ok c =>
        rw [hg] at he
        simp only [bind, Except.bind] at he
        cases hm : modify h region (fun r => { r with coordinates := r.coordinates ++ [c] }) with
        | error e => rw [hm] at he; cases he
        | ok h1 =>
          rw [hm] at he
          simp only at he
          cases hw : lp.write c label with
          | error e => rw [hw] at he; cases he
          | ok lp1 =>
            rw [hw] at he
            simp only at he
            cases hinc : it.increment h1 fuel with
            | error e => rw [hinc] at he; cases he
            | ok it1 =>
              rw [hinc] at he
              simp only at he
              rw [ih it1 h1 lp1 h' lp' he]
              obtain ⟨r, hr, rfl⟩ := modify_ok_inv hm
              exact heap_skeleton_set hr rfl

theorem mapM_labels (h : Heap) : ∀ (cs : List Nat),
    (∀ c ∈ cs, ∃ rc, h[c]? = some (some rc)) →
    cs.mapM (fun c => do let cr ← deref h c; (Except.ok cr.label : Result Nat))
      = .ok (cs.map (label_of h)) := by
  intro cs
  induction cs with
  | nil => intro _; rfl
  | cons c rest ih =>
    intro hal
    obtain ⟨rc, hrc⟩ := hal c (List.mem_cons_self _ _)
    rw [List.mapM_cons, ih (fun x hx => hal x (List.mem_cons_of_mem _ hx)),
      deref_eq_ok.mpr hrc, List.map_cons, label_of_eq hrc]
    rfl

/-- The labels of the children of a region whose children are all in the
heap. -/
theorem children_labels_alive {h : Heap} {r : HierarchicalRegion}
    (hal : ∀ c ∈ r.children, ∃ rc, h[c]? = some (some rc)) :
    children_labels h r = .ok (r.children.map (label_of h)) := by
  unfold children_labels
  exact mapM_labels h r.children hal

/-- What the breadth-first loop of `prune` returns.  Every label of the queue
it returns is the label of a region of the arena whose parent is `region` or a
region whose label is in the queue, and the queue has the labels of the
children of every region whose label is in it. -/
theorem prune_scan_inv (h : Heap) (regs : List (Option Nat)) (region : Nat)
    (hal : ∀ a : Nat, some a ∈ regs → ∃ r, h[a]? = some (some r))
    (hch : ∀ a : Nat, some a ∈ regs → ∀ c ∈ children_of h a,
      regs[label_of h c]? = some (some c) ∧ parent_of h c = some a) :
    ∀ (fuel : Nat) (L : List Nat) (tail : Nat) (out : List Nat),
    prune_scan h regs fuel L tail = .ok out → tail ≤ L.length →
    (∀ l ∈ L, ∃ a p, regs[l]? = some (some a) ∧ parent_of h a = some p
      ∧ (p = region ∨ ∃ l' ∈ L, regs[l']? = some (some p))) →
    (∀ (j l a : Nat), j < tail → L[j]? = some l → regs[l]? = some (some a) →
      ∀ c ∈ children_of h a, label_of h c ∈ L) →
    (∀ l ∈ out, ∃ a p, regs[l]? = some (some a) ∧ parent_of h a = some p
      ∧ (p = region ∨ ∃ l' ∈ out, regs[l']? = some (some p)))
    ∧ (∀ (l a : Nat), l ∈ out → regs[l]? = some (some a) →
      ∀ c ∈ children_of h a, label_of h c ∈ out)
    ∧ ∀ l ∈ L, l ∈ out := by
  intro fuel
  induction fuel with
  | zero => intro L tail out hs; cases hs
  | succ n ih =>
    intro L tail out hs htl hsound hclosed
    unfold prune_scan at hs
    by_cases hlen : L.length = tail
    · simp only [hlen, if_true, Except.ok.injEq] at hs
      subst hs
      refine ⟨hsound, ?_, fun l hl => hl⟩
      intro l a hl ha c hc
      obtain ⟨j, hj⟩ := List.mem_iff_getElem?.mp hl
      have hjlt : j < tail := by rw [← hlen]; exact getElem?_lt_of_some hj
      exact hclosed j l a hjlt hj ha c hc
    · simp only [hlen, if_false] at hs
      cases hcur : L[tail]? with
      | none => rw [hcur] at hs; cases hs
      | some curr =>
        rw [hcur] at hs
        simp only [bind, Except.bind] at hs
        cases hsp : slot_pointer regs curr with
        | error e => rw [hsp] at hs; cases hs
        | ok a =>
          rw [hsp] at hs
          simp only at hs
          cases hd : deref h a with
          | error e => rw [hd] at hs; cases hs
          | ok r =>
            rw [hd] at hs
            simp only at hs
            have hra := slot_pointer_eq_ok.mp hsp
            have hr := deref_eq_ok.mp hd
            have hamem : some a ∈ regs := mem_regs_iff.mpr ⟨curr, hra⟩
            have hkids : children_of h a = r.children := children_of_eq hr
            have hcl : children_labels h r = .ok (r.children.map (label_of h)) := by
              apply children_labels_alive
              intro c hc
              rw [← hkids] at hc
              exact hal c (mem_regs_iff.mpr ⟨_, (hch a hamem c hc).1⟩)
            rw [hcl] at hs
            simp only at hs
            have hcurmem : curr ∈ L := List.mem_iff_getElem?.mpr ⟨tail, hcur⟩
            have htlt : tail < L.length := getElem?_lt_of_some hcur
            obtain ⟨h1, h2, h3⟩ := ih (L ++ r.children.map (label_of h)) (tail + 1) out hs
              (by rw [List.length_append]; omega)
              (by
                intro l hl
                rcases List.mem_append.mp hl with hl | hl
                · obtain ⟨a', p, e1, e2, e3⟩ := hsound l hl
                  refine ⟨a', p, e1, e2, ?_⟩
                  rcases e3 with e3 | ⟨l', hl', e3⟩
                  · exact Or.inl e3
                  · exact Or.inr ⟨l', List.mem_append_left _ hl', e3⟩
                · obtain ⟨c, hc, rfl⟩ := List.mem_map.mp hl
                  rw [← hkids] at hc
                  obtain ⟨e1, e2⟩ := hch a hamem c hc
                  exact ⟨c, a, e1, e2, Or.inr ⟨curr, List.mem_append_left _ hcurmem, hra⟩⟩)
              (by
                intro j l a' hj hjl ha' c hc
                by_cases hjt : j < tail
                · rw [List.getElem?_append_left (by omega)] at hjl
                  exact List.mem_append_left _ (hclosed j l a' hjt hjl ha' c hc)
                · have hje : j = tail := by omega
                  subst hje
                  rw [List.getElem?_append_left htlt, hcur] at hjl
                  simp only [Option.some.injEq] at hjl
                  subst hjl
                  rw [hra] at ha'
                  simp only [Option.some.injEq] at ha'
                  subst ha'
                  apply List.mem_append_right
                  rw [hkids] at hc
                  exact List.mem_map.mpr ⟨c, hc, rfl⟩)
            exact ⟨h1, h2, fun l hl => h3 l (List.mem_append_left _ hl)⟩

/-- What the erase loop of `prune` returns: the slots of the labels of the
queue are emptied and the other slots kept, and a cell of the heap to which no
slot of a label of the queue pointed is kept. -/
theorem prune_erase_inv : ∀ (ls : List Nat) (h : Heap) (regs : List (Option Nat))
    (h' : Heap) (regs' : List (Option Nat)),
    prune_erase ls h regs = .ok (h', regs') →
    (∀ (i a : Nat), regs'[i]? = some (some a) ↔ regs[i]? = some (some a) ∧ i ∉ ls)
    ∧ (∀ x : Nat, (∀ l ∈ ls, regs[l]? ≠ some (some x)) → h'[x]? = h[x]?) := by
  intro ls
  induction ls with
  | nil =>
    intro h regs h' regs' he
    unfold prune_erase at he
    simp only [Except.ok.injEq, Prod.mk.injEq] at he
    obtain ⟨rfl, rfl⟩ := he
    exact ⟨fun i a => by simp, fun x _ => rfl⟩
  | cons l rest ih =>
    intro h regs h' regs' he
    unfold prune_erase at he
    have hset : ∀ (i a : Nat), (regs.set l none)[i]? = some (some a)
        ↔ regs[i]? = some (some a) ∧ i ≠ l := by
      intro i a
      rw [List.getElem?_set]
      by_cases e : l = i
      · subst e
        constructor
        · intro hc
          exfalso
          by_cases hlt : l < regs.length
          · simp [hlt] at hc
          · simp [hlt] at hc
        · rintro ⟨-, hc⟩
          exact absurd rfl hc
      · simp only [e, if_false]
        exact ⟨fun hc => ⟨hc, fun e' => e e'.symm⟩, fun hc => hc.1⟩
    cases hl : regs[l]? with
    | none => rw [hl] at he; cases he
    | some s =>
      rw [hl] at he
      cases s with
      | none =>
        simp only at he
        obtain ⟨k1, k2⟩ := ih h (regs.set l none) h' regs' he
        refine ⟨?_, ?_⟩
        · intro i a
          rw [k1 i a, hset i a, List.mem_cons]
          constructor
          · rintro ⟨⟨e1, e2⟩, e3⟩
            exact ⟨e1, fun hc => hc.elim e2 e3⟩
          · rintro ⟨e1, e2⟩
            exact ⟨⟨e1, fun hc => e2 (Or.inl hc)⟩, fun hc => e2 (Or.inr hc)⟩
        · intro x hx
          apply k2 x
          intro l' hl' hc
          exact hx l' (List.mem_cons_of_mem _ hl') ((hset l' x).mp hc).1
      | some a =>
        simp only at he
        cases ha : h[a]? with
        | none => rw [ha] at he; cases he
        | some cell =>
          rw [ha] at he
          cases cell with
          | none => cases he
          | some r =>
            simp only at he
            obtain ⟨k1, k2⟩ := ih (h.set a none) (regs.set l none) h' regs' he
            refine ⟨?_, ?_⟩
            · intro i b
              rw [k1 i b, hset i b, List.mem_cons]
              constructor
              · rintro ⟨⟨e1, e2⟩, e3⟩
                exact ⟨e1, fun hc => hc.elim e2 e3⟩
              · rintro ⟨e1, e2⟩
                exact ⟨⟨e1, fun hc => e2 (Or.inl hc)⟩, fun hc => e2 (Or.inr hc)⟩
            · intro x hx
              have hxa : a ≠ x := by
                intro e
                subst e
                exact hx l (List.mem_cons_self _ _) hl
              rw [k2 x (by
                intro l' hl' hc
                exact hx l' (List.mem_cons_of_mem _ hl') ((hset l' x).mp hc).1)]
              rw [List.getElem?_set]
              simp only [hxa, if_false]

/-- The part of `prune` after the coordinate reconstruction keeps the local
shape: the children of `region` are cleared, the regions below it are erased
from the arena, and nothing else changes. -/
theorem prune_tail_forest {regs regs' : List (Option Nat)} {h0 h1 h2 h3 : Heap}
    {region fuel : Nat} {r1 : HierarchicalRegion} {to_look out : List Nat}
    (hinv : ForestInv regs h0) (hreg : some region ∈ regs)
    (hsk : heap_skeleton h1 = heap_skeleton h0)
    (hd1 : deref h1 region = .ok r1)
    (hcl : children_labels h1 r1 = .ok to_look)
    (hm : modify h1 region (fun x => { x with children := [] }) = .ok h2)
    (hs : prune_scan h2 regs fuel to_look 0 = .ok out)
    (he : prune_erase out h2 regs = .ok (h3, regs'))
    (hlab : ArenaLabelled regs' h3) :
    ForestInv regs' h3 := by
  have I1 : ForestInv regs h1 := forest_inv_congr hsk hinv
  have hr1 := deref_eq_ok.mp hd1
  obtain ⟨r1', hr1', hh2⟩ := modify_ok_inv hm
  rw [hr1] at hr1'
  simp only [Option.some.injEq] at hr1'
  subst hr1'
  have h2self : h2[region]? = some (some { r1 with children := [] }) := by
    rw [hh2, getElem?_set_alive hr1]
    simp
  have h2other : ∀ x : Nat, x ≠ region → h2[x]? = h1[x]? := by
    intro x hx
    rw [hh2, getElem?_set_alive hr1]
    simp only [hx, if_false]
  have hpar2 : ∀ x : Nat, parent_of h2 x = parent_of h1 x := by
    intro x
    by_cases e : x = region
    · subst e; rw [parent_of_eq h2self, parent_of_eq hr1]
    · unfold parent_of; rw [h2other x e]
  have hlab2 : ∀ x : Nat, label_of h2 x = label_of h1 x := by
    intro x
    by_cases e : x = region
    · subst e; rw [label_of_eq h2self, label_of_eq hr1]
    · unfold label_of; rw [h2other x e]
  have hkid2 : ∀ x : Nat, x ≠ region → children_of h2 x = children_of h1 x := by
    intro x e
    unfold children_of; rw [h2other x e]
  have hkid2r : children_of h2 region = [] := children_of_eq h2self
  have hal1 : ∀ a : Nat, some a ∈ regs → ∃ r, h1[a]? = some (some r) := by
    intro a ha
    obtain ⟨r, hr, -⟩ := arena_labelled_slot I1.labelled ha
    exact ⟨r, hr⟩
  have hal2 : ∀ a : Nat, some a ∈ regs → ∃ r, h2[a]? = some (some r) := by
    intro a ha
    by_cases e : a = region
    · subst e; exact ⟨_, h2self⟩
    · rw [h2other a e]; exact hal1 a ha
  have hslot1 : ∀ c : Nat, some c ∈ regs → regs[label_of h1 c]? = some (some c) := by
    intro c hc
    obtain ⟨r, hr, e⟩ := arena_labelled_slot I1.labelled hc
    rw [label_of_eq hr]
    exact e
  have hkid1 : ∀ a : Nat, some a ∈ regs → ∀ c ∈ children_of h1 a,
      some c ∈ regs ∧ parent_of h1 c = some a := by
    intro a ha c hc
    rcases I1.children a ha with e | ⟨c1, c2, e, -, m1, p1, m2, p2⟩
    · rw [e] at hc; cases hc
    · rw [e] at hc
      simp only [List.mem_cons, List.mem_singleton, List.not_mem_nil, or_false] at hc
      rcases hc with rfl | rfl
      · exact ⟨m1, p1⟩
      · exact ⟨m2, p2⟩
  have hch2 : ∀ a : Nat, some a ∈ regs → ∀ c ∈ children_of h2 a,
      regs[label_of h2 c]? = some (some c) ∧ parent_of h2 c = some a := by
    intro a ha c hc
    by_cases e : a = region
    · subst e; rw [hkid2r] at hc; cases hc
    · rw [hkid2 a e] at hc
      obtain ⟨m, p⟩ := hkid1 a ha c hc
      rw [hlab2, hpar2]
      exact ⟨hslot1 c m, p⟩
  have hkr : children_of h1 region = r1.children := children_of_eq hr1
  have htl : to_look = r1.children.map (label_of h1) := by
    have := children_labels_alive (h := h1) (r := r1) (by
      intro c hc
      rw [← hkr] at hc
      exact hal1 c (hkid1 region hreg c hc).1)
    rw [hcl] at this
    exact Except.ok.inj this
  obtain ⟨S1, S2, S3⟩ := prune_scan_inv h2 regs region hal2 hch2 fuel to_look 0 out hs
    (Nat.zero_le _)
    (by
      intro l hl
      rw [htl] at hl
      obtain ⟨c, hc, rfl⟩ := List.mem_map.mp hl
      rw [← hkr] at hc
      obtain ⟨m, p⟩ := hkid1 region hreg c hc
      exact ⟨c, region, hslot1 c m, by rw [hpar2]; exact p, Or.inl rfl⟩)
    (by intro j l a hj; omega)
  obtain ⟨K1, K2⟩ := prune_erase_inv out h2 regs h3 regs' he
  have hinj : ∀ {i j a : Nat}, regs[i]? = some (some a) → regs[j]? = some (some a) → i = j :=
    fun hi hj => arena_labelled_inj I1.labelled hi hj
  -- the regions of the new arena are the regions that were not erased
  have F1 : ∀ a : Nat, some a ∈ regs' ↔
      some a ∈ regs ∧ ¬ ∃ l ∈ out, regs[l]? = some (some a) := by
    intro a
    constructor
    · intro ha
      obtain ⟨i, hi⟩ := mem_regs_iff.mp ha
      obtain ⟨e1, e2⟩ := (K1 i a).mp hi
      refine ⟨mem_regs_iff.mpr ⟨i, e1⟩, ?_⟩
      rintro ⟨l, hl, hc⟩
      have := hinj hc e1
      subst this
      exact e2 hl
    · rintro ⟨ha, hne⟩
      obtain ⟨i, hi⟩ := mem_regs_iff.mp ha
      exact mem_regs_iff.mpr ⟨i, (K1 i a).mpr ⟨hi, fun hl => hne ⟨i, hl, hi⟩⟩⟩
  have F2 : ∀ a : Nat, (¬ ∃ l ∈ out, regs[l]? = some (some a)) → h3[a]? = h2[a]? :=
    fun a hne => K2 a (fun l hl hc => hne ⟨l, hl, hc⟩)
  have F3 : ∀ c : Nat, (∃ l ∈ out, regs[l]? = some (some c)) →
      ∃ p, parent_of h1 c = some p ∧ (p = region ∨ ∃ l ∈ out, regs[l]? = some (some p)) := by
    rintro c ⟨l, hl, hc⟩
    obtain ⟨a, p, e1, e2, e3⟩ := S1 l hl
    rw [hc] at e1
    simp only [Option.some.injEq] at e1
    subst e1
    rw [hpar2] at e2
    exact ⟨p, e2, e3⟩
  have F4 : ∀ p c : Nat, p ≠ region → (∃ l ∈ out, regs[l]? = some (some p)) →
      c ∈ children_of h1 p → ∃ l ∈ out, regs[l]? = some (some c) := by
    rintro p c hpr ⟨l, hl, hp⟩ hc
    have hpm : some p ∈ regs := mem_regs_iff.mpr ⟨l, hp⟩
    rw [← hkid2 p hpr] at hc
    exact ⟨label_of h2 c, S2 l p hl hp c hc, (hch2 p hpm c hc).1⟩
  have F5 : ∀ c : Nat, c ∈ children_of h1 region → ∃ l ∈ out, regs[l]? = some (some c) := by
    intro c hc
    refine ⟨label_of h1 c, S3 _ ?_, hslot1 c (hkid1 region hreg c hc).1⟩
    rw [htl]
    rw [hkr] at hc
    exact List.mem_map.mpr ⟨c, hc, rfl⟩
  have hpar3 : ∀ a : Nat, (¬ ∃ l ∈ out, regs[l]? = some (some a)) →
      parent_of h3 a = parent_of h1 a := by
    intro a hne
    rw [← hpar2]
    unfold parent_of
    rw [F2 a hne]
  have hkid3 : ∀ a : Nat, (¬ ∃ l ∈ out, regs[l]? = some (some a)) →
      children_of h3 a = children_of h2 a := by
    intro a hne
    unfold children_of
    rw [F2 a hne]
  refine ⟨hlab, ?_, ?_⟩
  · intro a ha
    obtain ⟨ham, hae⟩ := (F1 a).mp ha
    rw [hkid3 a hae]
    by_cases e : a = region
    · subst e
      exact Or.inl hkid2r
    · rw [hkid2 a e]
      rcases I1.children a ham with e0 | ⟨c1, c2, e0, hne, m1, p1, m2, p2⟩
      · exact Or.inl e0
      · have hkeep : ∀ c : Nat, parent_of h1 c = some a →
            ¬ ∃ l ∈ out, regs[l]? = some (some c) := by
          intro c pc hce
          obtain ⟨p, e1, e2⟩ := F3 c hce
          rw [pc] at e1
          simp only [Option.some.injEq] at e1
          subst e1
          rcases e2 with e2 | e2
          · exact e e2
          · exact hae e2
        refine Or.inr ⟨c1, c2, e0, hne, (F1 c1).mpr ⟨m1, hkeep c1 p1⟩, ?_,
          (F1 c2).mpr ⟨m2, hkeep c2 p2⟩, ?_⟩
        · rw [hpar3 c1 (hkeep c1 p1)]; exact p1
        · rw [hpar3 c2 (hkeep c2 p2)]; exact p2
  · intro a p ha hp
    obtain ⟨ham, hae⟩ := (F1 a).mp ha
    rw [hpar3 a hae] at hp
    obtain ⟨hpm, hc⟩ := I1.parent a p ham hp
    have hpr : p ≠ region := by
      intro e
      subst e
      exact hae (F5 a hc)
    have hpe : ¬ ∃ l ∈ out, regs[l]? = some (some p) := fun hpe => hae (F4 p a hpr hpe hc)
    refine ⟨(F1 p).mpr ⟨hpm, hpe⟩, ?_⟩
    rw [hkid3 p hpe, hkid2 p hpr]
    exact hc

/-- A prune of a region of the arena keeps the local shape. -/
theorem prune_forest_inv {fuel : Nat} {f f' : HierarchicalRegionPartition} {region : Nat}
    (hinv : ForestInv f._regions f.heap) (hreg : some region ∈ f._regions)
    (hp : prune fuel f region = .ok f') : ForestInv f'._regions f'.heap := by
  have hlab := (prune_arena_labelled hp hinv.labelled).1
  unfold prune at hp
  cases hd : deref f.heap region with
  | error e => rw [hd] at hp; cases hp
  | ok r =>
    rw [hd] at hp
    simp only [bind, Except.bind] at hp
    by_cases hc : r.children.length > 0
    swap
    · simp only [hc, if_false, Except.ok.injEq] at hp
      subst hp
      exact hinv
    simp only [hc, if_true] at hp
    by_cases h0 : r.coordinates.length = 0
    · simp only [h0, if_true] at hp
      cases hmk : RegionIteratorBase.make f.heap fuel region false with
      | error e => rw [hmk] at hp; cases hp
      | ok it =>
        rw [hmk] at hp
        simp only at hp
        cases hpf : prune_fill region r.label fuel fuel it f.heap f._leaves_partition with
        | error e => rw [hpf] at hp; cases hp
        | ok v =>
          obtain ⟨h1, lp⟩ := v
          rw [hpf] at hp
          simp only at hp
          have hsk := prune_fill_skeleton region r.label fuel fuel it f.heap f._leaves_partition
            h1 lp hpf
          cases hd1 : deref h1 region with
          | error e => rw [hd1] at hp; cases hp
          | ok r1 =>
            rw [hd1] at hp
            simp only at hp
            cases hcl : children_labels h1 r1 with
            | error e => rw [hcl] at hp; cases hp
            | ok to_look =>
              rw [hcl] at hp
              simp only at hp
              cases hm : modify h1 region (fun x => { x with children := [] }) with
              | error e => rw [hm] at hp; cases hp
              | ok h2 =>
                rw [hm] at hp
                simp only at hp
                cases hs : prune_scan h2 f._regions fuel to_look 0 with
                | error e => rw [hs] at hp; cases hp
                | ok to_look' =>
                  rw [hs] at hp
                  simp only at hp
                  cases he : prune_erase to_look' h2 f._regions with
                  | error e => rw [he] at hp; cases hp
                  | ok w =>
                    obtain ⟨h3, regs⟩ := w
                    rw [he] at hp
                    simp only [Except.ok.injEq] at hp
                    subst hp
                    exact prune_tail_forest hinv hreg hsk hd1 hcl hm hs he hlab
    · simp only [h0, if_false] at hp
      rw [hd] at hp
      simp only at hp
      cases hcl : children_labels f.heap r with
      | error e => rw [hcl] at hp; cases hp
      | ok to_look =>
        rw [hcl] at hp
        simp only at hp
        cases hm : modify f.heap region (fun x => { x with children := [] }) with
        | error e => rw [hm] at hp; cases hp
        | ok h2 =>
          rw [hm] at hp
          simp only at hp
          cases hs : prune_scan h2 f._regions fuel to_look 0 with
          | error e => rw [hs] at hp; cases hp
          | ok to_look' =>
            rw [hs] at hp
            simp only at hp
            cases he : prune_erase to_look' h2 f._regions with
            | error e => rw [he] at hp; cases hp
            | ok w =>
              obtain ⟨h3, regs⟩ := w
              rw [he] at hp
              simp only [Except.ok.injEq] at hp
              subst hp
              exact prune_tail_forest hinv hreg rfl hd hcl hm hs he hlab

/-- Every reached state has the local shape. -/
theorem reached_forest_inv {adj : Nat → List Nat} {f : HierarchicalRegionPartition}
    (hr : Reached adj f) : ForestInv f._regions f.heap := by
  induction hr with
  | init f0 f p hi => exact init_forest_inv adj f0 f p hi
  | merge fuel f f' region1 region2 label P _ h1 h2 hne p1 p2 hs hm ih =>
    exact merge_forest_inv ih h1 h2 hne p1 p2 hs hm
  | prune fuel f f' region _ hreg hp ih => exact prune_forest_inv ih hreg hp

theorem reached_scenario_pruned_inner :
    Reached (grid_adjacency 3 1 connectivity4) scenario_pruned_inner := by
  have r0 : Reached (grid_adjacency 3 1 connectivity4) scenario3x1 :=
    Reached.init (HierarchicalRegionPartition.fresh true 0) scenario3x1 raster3x1 rfl
  have e0 : scenario3x1._regions = [some 0, some 1, some 2, none, none] := rfl
  have r1 : Reached (grid_adjacency 3 1 connectivity4) (merged 20 scenario3x1 0 1 3) :=
    Reached.merge 20 scenario3x1 _ 0 1 3 3 r0 (by rw [e0]; decide) (by rw [e0]; decide)
      (by decide) rfl rfl rfl rfl
  have e1 : (merged 20 scenario3x1 0 1 3)._regions
      = [some 0, some 1, some 2, some 3, none] := rfl
  have r2 : Reached (grid_adjacency 3 1 connectivity4) scenario_tree :=
    Reached.merge 20 (merged 20 scenario3x1 0 1 3) _ 3 2 4 4 r1 (by rw [e1]; decide)
      (by rw [e1]; decide) (by decide) rfl rfl rfl rfl
  have e2 : scenario_tree._regions = [some 0, some 1, some 2, some 3, some 4] := rfl
  exact Reached.prune 20 scenario_tree _ 3 r2 (by rw [e2]; decide) rfl

/-- C36: in every state reached from `init` by merges of two distinct
parent-less regions of the arena into an empty slot of the arena and by prunes
of regions of the arena, every region of the arena has no children or two
children, the `leaves`, `non_leaves` and `roots` views return, and the leaves
are as many as the internal regions plus the roots. -/
theorem reached_leaves_internal_roots {adj : Nat → List Nat} {f : HierarchicalRegionPartition}
    (hr : Reached adj f) :
    (∀ (i a : Nat), f._regions[i]? = some (some a) →
      ∃ r, f.heap[a]? = some (some r) ∧ (r.children.length = 0 ∨ r.children.length = 2))
    ∧ ∃ ls ns rs, conditional_view leaves f.heap f._regions = .ok ls
      ∧ conditional_view non_leaves f.heap f._regions = .ok ns
      ∧ conditional_view roots f.heap f._regions = .ok rs
      ∧ ls.length = ns.length + rs.length :=
  forest_counts (reached_forest_inv hr)

/-- Witness of C36: the 3x1 raster `[7, 8, 9]` after the merges `(0, 1) -> 3`
and `(3, 2) -> 4` and the prune of region 3: the arena holds the regions 2, 3
and 4, the leaves are 2 and 3, and region 4 is the one internal region and
the one root. -/
theorem reached_leaves_internal_roots_witness :
    Reached (grid_adjacency 3 1 connectivity4) scenario_pruned_inner
    ∧ scenario_pruned_inner._regions = [none, none, some 2, some 3, some 4]
    ∧ (conditional_view leaves scenario_pruned_inner.heap scenario_pruned_inner._regions).map
        (fun v => v.map (fun r => r.label)) = .ok [2, 3]
    ∧ (conditional_view non_leaves scenario_pruned_inner.heap
        scenario_pruned_inner._regions).map (fun v => v.map (fun r => r.label)) = .ok [4]
    ∧ (conditional_view roots scenario_pruned_inner.heap scenario_pruned_inner._regions).map
        (fun v => v.map (fun r => r.label)) = .ok [4]
    ∧ ((∀ (i a : Nat), scenario_pruned_inner._regions[i]? = some (some a) →
        ∃ r, scenario_pruned_inner.heap[a]? = some (some r)
          ∧ (r.children.length = 0 ∨ r.children.length = 2))
      ∧ ∃ ls ns rs,
        conditional_view leaves scenario_pruned_inner.heap scenario_pruned_inner._regions
          = .ok ls
        ∧ conditional_view non_leaves scenario_pruned_inner.heap
            scenario_pruned_inner._regions = .ok ns
        ∧ conditional_view roots scenario_pruned_inner.heap scenario_pruned_inner._regions
            = .ok rs
        ∧ ls.length = ns.length + rs.length) :=
  ⟨reached_scenario_pruned_inner, rfl, rfl, rfl, rfl,
    reached_leaves_internal_roots reached_scenario_pruned_inner⟩

end imageplus
